import Mathlib

/-!
# Index tables of `v2RDMSolver::BuildBasis` (src/basis.cc)

A shallow embedding of `BuildBasis`: every heap block is a `Tab` (malloc extents plus
contents), every C loop is a `loopM`, and every array access is bounds-checked; an access
outside the extents of its block is undefined behaviour in C and yields `none` here.

Conventions of the embedding
* C `int` values are `Int`; no count in this routine comes near `2^31`, so wrap-around is
  not modelled.
* The per-irrep orbital counts and the totals `nmo`, `nfrzc`, `nfrzv` are members of the
  solver that `BuildBasis` only reads.  They are natural numbers here.
* Orbital energies are finite doubles and `BuildBasis` only compares them with `<`;
  finite doubles are rational numbers and are embedded as `ℚ` (NaN and infinities are
  outside the model).
* A block that the source clears or fills after `malloc` starts from `Tab.alloc`.  The one
  block it does not clear, `full_basis` (line 112), starts from `Tab.malloc` with the
  indeterminate content `Input.heap`, a parameter of the run.
-/

namespace V2RDM

/-! ## Heap blocks -/

/-- Heap block of C `int`s: the allocated extents, outermost first, and the contents
addressed by the list of indices. -/
structure Tab where
  dims : List Nat
  val : List Int → Int

/-- Whether an index list addresses a cell inside the extents. -/
def inBounds : List Int → List Nat → Bool
  | [], [] => true
  | i :: is, d :: ds => decide (0 ≤ i) && (decide (i < (d : Int)) && inBounds is ds)
  | _, _ => false

/-- Block of the given extents with every cell holding `v` (malloc followed by memset or
by an initialisation loop). -/
def Tab.alloc (dims : List Nat) (v : Int) : Tab := ⟨dims, fun _ => v⟩

/-- Block of the given extents as `malloc` returns it, with nothing written to it: the cells
hold the indeterminate `content`. -/
def Tab.malloc (dims : List Nat) (content : List Int → Int) : Tab := ⟨dims, content⟩

/-- Checked read `t[ix]`. -/
def Tab.get (t : Tab) (ix : List Int) : Option Int :=
  if inBounds ix t.dims then some (t.val ix) else none

/-- Checked write `t[ix] = v`. -/
def Tab.set (t : Tab) (ix : List Int) (v : Int) : Option Tab :=
  if inBounds ix t.dims then some ⟨t.dims, Function.update t.val ix v⟩ else none

/-- Unchecked write, used only for the constant indices of the product table. -/
def Tab.put (t : Tab) (ix : List Int) (v : Int) : Tab :=
  ⟨t.dims, Function.update t.val ix v⟩

/-- The C loop `for (int i = lo; i < lo + n; i++) body(i)` threaded through a state;
`none` as soon as one iteration is undefined. -/
def loopM {σ : Type} (lo : Nat) : Nat → (Nat → σ → Option σ) → σ → Option σ
  | 0, _, s => some s
  | n + 1, f, s => (loopM lo n f s).bind (f (lo + n))

/-! ## Product table (basis.cc 66-96) -/

/-- The 28 lines `table[a*8+b] = table[b*8+a] = v;` as triples `(a, b, v)`. -/
def tableWrites : List (Int × Int × Int) :=
  [ (0,1,1), (0,2,2), (0,3,3), (0,4,4), (0,5,5), (0,6,6), (0,7,7),
    (1,2,3), (1,3,2), (1,4,5), (1,5,4), (1,6,7), (1,7,6),
    (2,3,1), (2,4,6), (2,5,7), (2,6,4), (2,7,5),
    (3,4,7), (3,5,6), (3,6,5), (3,7,4),
    (4,5,1), (4,6,2), (4,7,3),
    (5,6,3), (5,7,2),
    (6,7,1) ]

/-- The product table: 64 zeroed ints, then the 28 double assignments. -/
def table : Tab :=
  tableWrites.foldl
    (fun t w => (t.put [w.2.1 * 8 + w.1] w.2.2).put [w.1 * 8 + w.2.1] w.2.2)
    (Tab.alloc [64] 0)

/-- Modelled from the spec: `SymmetryPair(i, j)`, a member function that is not part of
basis.cc; the direct product of two irrep labels, read from the product table as
`table[i*8+j]`. -/
def SymmetryPair (i j : Int) : Option Int := table.get [i * 8 + j]

/-! ## Solver members read by `BuildBasis` -/

/-- The members `BuildBasis` reads, and `heap`: what the block that line 112 allocates for
`full_basis` holds when `malloc` returns it. The source does not clear this block, so its
content is a parameter of the run and no member of the solver. -/
structure Input where
  nirrep_ : Nat
  nmopi_ : Nat → Nat
  frzcpi_ : Nat → Nat
  frzvpi_ : Nat → Nat
  amopi_ : Nat → Nat
  nmo : Nat
  nfrzc : Nat
  nfrzv : Nat
  epsilon_a_ : Nat → Nat → ℚ
  constrain_t1 : Bool
  constrain_t2 : Bool
  constrain_d3 : Bool
  heap : List Int → Int

/-- The total `nmo + nfrzc + nfrzv` that sizes the full-space arrays. -/
def Input.ntot (s : Input) : Nat := s.nmo + s.nfrzc + s.nfrzv

/-! ## Orbital labels (basis.cc 98-139) -/

/-- Locals and arrays of the loop "symmetry of ACTIVE orbitals". -/
structure ActiveLabels where
  count : Int
  count_full : Int
  full_basis : Tab
  symmetry : Tab

/-- Body of the `norb` loop: `full_basis[count] = count_full++; symmetry[count++] = h;`. -/
def activeLabelsOrb (h : Nat) (_norb : Nat) (st : ActiveLabels) : Option ActiveLabels := do
  let fb ← st.full_basis.set [st.count] st.count_full
  let sy ← st.symmetry.set [st.count] h
  pure ⟨st.count + 1, st.count_full + 1, fb, sy⟩

/-- Body of the `h` loop of lines 117-124. -/
def activeLabelsIrrep (s : Input) (h : Nat) (st : ActiveLabels) : Option ActiveLabels := do
  let st1 ← loopM (s.frzcpi_ h) (s.nmopi_ h - s.frzvpi_ h - s.frzcpi_ h) (activeLabelsOrb h)
    { st with count_full := st.count_full + s.frzcpi_ h }
  pure { st1 with count_full := st1.count_full + s.frzvpi_ h }

/-- Lines 99-124: `symmetry` and `full_basis`, both of `nmo+nfrzc+nfrzv` ints; `symmetry` is
cleared by the `memset` of line 106, `full_basis` (line 112) is not cleared. -/
def activeLabels (s : Input) : Option ActiveLabels :=
  loopM 0 s.nirrep_ (activeLabelsIrrep s)
    ⟨0, 0, Tab.malloc [s.ntot] s.heap, Tab.alloc [s.ntot] 0⟩

/-- Counter and array of a loop `arr[count++] = h`. -/
structure LabelFill where
  count : Int
  arr : Tab

/-- Body `arr[count++] = h`. -/
def labelsOrb (h : Nat) (_norb : Nat) (st : LabelFill) : Option LabelFill := do
  let a ← st.arr.set [st.count] h
  pure ⟨st.count + 1, a⟩

/-- The loops of lines 127-132 and 134-139: `size` zeroed ints, then for every irrep `h`
and `norb < cnt h` the write `arr[count++] = h`. -/
def fillLabels (nirrep : Nat) (cnt : Nat → Nat) (size : Nat) : Option Tab :=
  (loopM 0 nirrep (fun h st => loopM 0 (cnt h) (labelsOrb h) st)
    ⟨0, Tab.alloc [size] 0⟩).map (fun st => st.arr)

/-- Lines 126-132: `symmetry_full`. -/
def symmetryFull (s : Input) : Option Tab := fillLabels s.nirrep_ s.nmopi_ s.ntot

/-- Lines 133-139: `symmetry_plus_core`, of `nmo+nfrzc` ints. -/
def symmetryPlusCore (s : Input) : Option Tab :=
  fillLabels s.nirrep_ (fun h => s.amopi_ h + s.frzcpi_ h) (s.nmo + s.nfrzc)

/-! ## Energy order (basis.cc 140-225) -/

/-- The double `1.0e99` that starts every scan, as the exact rational it denotes. -/
def min0 : ℚ :=
  999999999999999967336168804116691273849533185806555472917961779471295845921727862608739868455469056

/-- The three ranking loops differ only in the part of each irrep they scan: `me` advances
by `pre h` before the `j` loop, `j` runs over `cnt h` positions from `lo h`, and `me`
advances by `post h` after it. -/
structure Pool where
  pre : Nat → Int
  lo : Nat → Nat
  cnt : Nat → Nat
  post : Nat → Int

/-- Core loop, lines 161-173: `j < frzcpi_[h]`, then `me += nmopi_[h] - frzcpi_[h]`. -/
def corePool (s : Input) : Pool :=
  ⟨fun _ => 0, fun _ => 0, fun h => s.frzcpi_ h, fun h => (s.nmopi_ h : Int) - s.frzcpi_ h⟩

/-- Active loop, lines 184-197: `me += frzcpi_[h]`, `frzcpi_[h] <= j < frzcpi_[h]+amopi_[h]`,
then `me += frzvpi_[h]`. -/
def activePool (s : Input) : Pool :=
  ⟨fun h => s.frzcpi_ h, fun h => s.frzcpi_ h, fun h => s.amopi_ h, fun h => s.frzvpi_ h⟩

/-- Virtual loop, lines 208-220: `me += frzcpi_[h] + amopi_[h]`,
`frzcpi_[h]+amopi_[h] <= j < nmopi_[h]`. -/
def virtualPool (s : Input) : Pool :=
  ⟨fun h => (s.frzcpi_ h : Int) + s.amopi_ h, fun h => s.frzcpi_ h + s.amopi_ h,
   fun h => s.nmopi_ h - (s.frzcpi_ h + s.amopi_ h), fun _ => 0⟩

/-- Locals of one scan. -/
structure Scan where
  me : Int
  min : ℚ
  imin : Int
  isym : Int

/-- Body of the `j` loop: the strict comparison, the `skip` test, and `me++`. -/
def scanOrb (s : Input) (skip : Tab) (h j : Nat) (st : Scan) : Option Scan :=
  if s.epsilon_a_ h j < st.min then do
    let sk ← skip.get [st.me]
    if sk = 0 then pure ⟨st.me + 1, s.epsilon_a_ h j, st.me, h⟩
    else pure { st with me := st.me + 1 }
  else pure { st with me := st.me + 1 }

/-- Body of the `h` loop of a scan. -/
def scanIrrep (s : Input) (P : Pool) (skip : Tab) (h : Nat) (st : Scan) : Option Scan := do
  let st1 ← loopM (P.lo h) (P.cnt h) (scanOrb s skip h) { st with me := st.me + P.pre h }
  pure { st1 with me := st1.me + P.post h }

/-- Locals and arrays of the energy ordering; `min`, `imin`, `isym` are declared once,
before the three ranking loops, and keep their values from one iteration to the next. -/
structure EnergyOrder where
  min : ℚ
  imin : Int
  isym : Int
  skip : Tab
  symmetry_energy_order : Tab
  pitzer_to_energy_order : Tab
  energy_to_pitzer_order : Tab

/-- One iteration of a ranking loop: `me = 0; min = 1.0e99;`, the scan, and the four
writes that follow it. -/
def rankStep (s : Input) (P : Pool) (i : Nat) (st : EnergyOrder) : Option EnergyOrder := do
  let sc ← loopM 0 s.nirrep_ (scanIrrep s P st.skip) ⟨0, min0, st.imin, st.isym⟩
  let skip ← st.skip.set [sc.imin] 1
  let seo ← st.symmetry_energy_order.set [i] (sc.isym + 1)
  let p2e ← st.pitzer_to_energy_order.set [sc.imin] i
  let e2p ← st.energy_to_pitzer_order.set [i] sc.imin
  pure ⟨sc.min, sc.imin, sc.isym, skip, seo, p2e, e2p⟩

/-- Lines 140-225: the core, active and virtual ranking loops in sequence. -/
def energyOrder (s : Input) : Option EnergyOrder := do
  let st0 : EnergyOrder :=
    ⟨min0, -999, -999, Tab.alloc [s.ntot] 0, Tab.alloc [s.ntot] 0,
      Tab.alloc [s.ntot] 0, Tab.alloc [s.ntot] 0⟩
  let st1 ← loopM 0 s.nfrzc (rankStep s (corePool s)) st0
  let st2 ← loopM s.nfrzc s.nmo (rankStep s (activePool s)) st1
  loopM (s.nmo + s.nfrzc) s.nfrzv (rankStep s (virtualPool s)) st2

/-! ## Offsets (basis.cc 227-244) -/

/-- A loop `off[h] = count; count += inc h;` over the irreps. -/
def offsets (nirrep : Nat) (inc : Nat → Int) : Option Tab :=
  (loopM 0 nirrep
    (fun h (st : LabelFill) => do
      let a ← st.arr.set [h] st.count
      pure ⟨st.count + inc h, a⟩)
    ⟨0, Tab.alloc [nirrep] 0⟩).map (fun st => st.arr)

/-- Lines 230-234: `pitzer_offset`. -/
def pitzerOffset (s : Input) : Option Tab :=
  offsets s.nirrep_ (fun h => (s.nmopi_ h : Int) - s.frzcpi_ h - s.frzvpi_ h)

/-- Lines 235-239: `pitzer_offset_full`. -/
def pitzerOffsetFull (s : Input) : Option Tab :=
  offsets s.nirrep_ (fun h => (s.nmopi_ h : Int))

/-- Lines 240-244: `pitzer_offset_plus_core`. -/
def pitzerOffsetPlusCore (s : Input) : Option Tab :=
  offsets s.nirrep_ (fun h => (s.nmopi_ h : Int) - s.frzvpi_ h)

/-! ## Pair lists (basis.cc 252-290) -/

/-- Body of the `j` loop of a pair list: `sym = SymmetryPair(symm[i], symm[j])` and, when
`h == sym`, the `push_back` of the pair `mk i j`. -/
def pairListInner (symm : Tab) (mk : Nat → Nat → Int × Int) (h i j : Nat)
    (mygems : List (Int × Int)) : Option (List (Int × Int)) := do
  let si ← symm.get [i]
  let sj ← symm.get [j]
  let sym ← SymmetryPair si sj
  pure (if (h : Int) = sym then mygems ++ [mk i j] else mygems)

/-- The list `mygems` of block `h`: `i < n` outer, `j < inner i` inner. -/
def pairList (symm : Tab) (n : Nat) (inner : Nat → Nat) (mk : Nat → Nat → Int × Int)
    (h : Nat) : Option (List (Int × Int)) :=
  loopM 0 n (fun i l => loopM 0 (inner i) (pairListInner symm mk h i) l) []

/-- One `h` loop of lines 252-290: block `h` is built and pushed onto the member vector. -/
def pushPairLists (symm : Tab) (nirrep n : Nat) (inner : Nat → Nat)
    (mk : Nat → Nat → Int × Int) (gems : List (List (Int × Int))) :
    Option (List (List (Int × Int))) :=
  loopM 0 nirrep (fun h g => (pairList symm n inner mk h).map (fun l => g ++ [l])) gems

/-- Lines 252-264: `gems`; all `i, j < nmo`, pushed as `make_pair(j,i)`. -/
def pushGems (s : Input) (symmetry : Tab) (gems : List (List (Int × Int))) :
    Option (List (List (Int × Int))) :=
  pushPairLists symmetry s.nirrep_ s.nmo (fun _ => s.nmo) (fun i j => ((j : Int), (i : Int))) gems

/-- Lines 265-277: `gems_fullspace`; `j <= i` over all orbitals, pushed as `make_pair(i,j)`. -/
def pushGemsFullspace (s : Input) (symmetry_full : Tab) (gems : List (List (Int × Int))) :
    Option (List (List (Int × Int))) :=
  pushPairLists symmetry_full s.nirrep_ s.ntot (fun i => i + 1)
    (fun i j => ((i : Int), (j : Int))) gems

/-- Lines 278-290: `gems_plus_corespace`; `j <= i < nmo + nfrzc`. -/
def pushGemsPlusCorespace (s : Input) (symmetry_plus_core : Tab)
    (gems : List (List (Int × Int))) : Option (List (List (Int × Int))) :=
  pushPairLists symmetry_plus_core s.nirrep_ (s.nmo + s.nfrzc) (fun i => i + 1)
    (fun i j => ((i : Int), (j : Int))) gems

/-! ## Active-space mappings (basis.cc 292-388) -/

/-- One numbering: its running counter, its forward table `bas_X_sym` and its inverse
table `ibas_X_sym`. -/
structure Sector where
  count : Int
  bas : Tab
  ibas : Tab

/-- Lines 363-366: `ibas_ab_sym[h][i][j] = n; bas_ab_sym[h][n][0] = i;
bas_ab_sym[h][n][1] = j; count_ab++;`. -/
def writeAB (h n : Nat) (i j : Int) (x : Sector) : Option Sector := do
  let ib ← x.ibas.set [h, i, j] n
  let b ← x.bas.set [h, n, 0] i
  let b ← b.set [h, n, 1] j
  pure ⟨x.count + 1, b, ib⟩

/-- Lines 370-374 (sector 00) and 378-382 (sector aa): the inverse cell and its transpose
take the counter, the forward row takes the pair, the counter advances. -/
def writeSym (h : Nat) (i j : Int) (x : Sector) : Option Sector := do
  let ib ← x.ibas.set [h, i, j] x.count
  let ib ← ib.set [h, j, i] x.count
  let b ← x.bas.set [h, x.count, 0] i
  let b ← b.set [h, x.count, 1] j
  pure ⟨x.count + 1, b, ib⟩

/-- The three active-space numberings and their block counts. -/
structure PairTables where
  ab : Sector
  aa : Sector
  s00 : Sector
  gems_ab : Tab
  gems_aa : Tab
  gems_00 : Tab

/-- Body of the `n` loop of lines 359-383 for `i = gems[h][n].first`,
`j = gems[h][n].second`; the two `continue`s are the two early exits. -/
def mapPair (h n : Nat) (i j : Int) (st : PairTables) : Option PairTables := do
  let ab ← writeAB h n i j st.ab
  if i < j then pure { st with ab := ab } else do
  let s00 ← writeSym h i j st.s00
  if i ≤ j then pure { st with ab := ab, s00 := s00 } else do
  let aa ← writeSym h i j st.aa
  pure { st with ab := ab, s00 := s00, aa := aa }

/-- Body of the `n` loop with the read of `gems[h][n]`. -/
def mapPairAt (g : List (Int × Int)) (h n : Nat) (st : PairTables) : Option PairTables := do
  let p ← g[n]?
  mapPair h n p.1 p.2 st

/-- Counter reset of lines 356-358. -/
def Sector.reset (x : Sector) : Sector := { x with count := 0 }

/-- Lines 355-386 for one block `h`: the counters start at 0, the `n` loop runs over
`gems[h]`, and the three counters are stored. -/
def mapBlock (gems : List (List (Int × Int))) (h : Nat) (st : PairTables) :
    Option PairTables := do
  let g ← gems[h]?
  let st1 ← loopM 0 g.length (mapPairAt g h)
    { st with ab := st.ab.reset, aa := st.aa.reset, s00 := st.s00.reset }
  let gab ← st1.gems_ab.set [h] st1.ab.count
  let gaa ← st1.gems_aa.set [h] st1.aa.count
  let g00 ← st1.gems_00.set [h] st1.s00.count
  pure { st1 with gems_ab := gab, gems_aa := gaa, gems_00 := g00 }

/-- A numbering before any block is filled: every forward and inverse cell holds -999
(lines 321-340 and 448-472). -/
def Sector.alloc (bdims idims : List Nat) : Sector :=
  ⟨0, Tab.alloc bdims (-999), Tab.alloc idims (-999)⟩

/-- Lines 292-388 for the active sectors: the tables are allocated and each block is
filled. -/
def activeMappings (s : Input) (gems : List (List (Int × Int))) : Option PairTables :=
  loopM 0 s.nirrep_ (mapBlock gems)
    { ab := Sector.alloc [s.nirrep_, s.nmo * s.nmo, 2] [s.nirrep_, s.nmo, s.nmo]
      aa := Sector.alloc [s.nirrep_, s.nmo * s.nmo, 2] [s.nirrep_, s.nmo, s.nmo]
      s00 := Sector.alloc [s.nirrep_, s.nmo * s.nmo, 2] [s.nirrep_, s.nmo, s.nmo]
      gems_ab := Tab.alloc [s.nirrep_] 0
      gems_aa := Tab.alloc [s.nirrep_] 0
      gems_00 := Tab.alloc [s.nirrep_] 0 }

/-! ## Full-space traversal (basis.cc 390-413) -/

/-- Tables and counters of the full-space traversal. -/
structure FullTables where
  bas_full_sym : Tab
  ibas_full_sym : Tab
  gems_full : Tab
  gems_plus_core : Tab

/-- Lines 404-408: the two inverse cells, the forward row, and `gems_full[hij]++`. -/
def fullWrite (hij ifull jfull : Int) (st : FullTables) : Option FullTables := do
  let g ← st.gems_full.get [hij]
  let ib ← st.ibas_full_sym.set [hij, ifull, jfull] g
  let ib ← ib.set [hij, jfull, ifull] g
  let b ← st.bas_full_sym.set [hij, g, 0] ifull
  let b ← b.set [hij, g, 1] jfull
  let gf ← st.gems_full.set [hij] (g + 1)
  pure { st with bas_full_sym := b, ibas_full_sym := ib, gems_full := gf }

/-- Line 410: `gems_plus_core[hij]++`. -/
def plusCoreIncr (hij : Int) (st : FullTables) : Option FullTables := do
  let c ← st.gems_plus_core.get [hij]
  let gp ← st.gems_plus_core.set [hij] (c + 1)
  pure { st with gems_plus_core := gp }

/-- Body of the `jeo` loop, lines 399-411. -/
def fullInner (s : Input) (symmetry_full pitzer_offset_full energy_to_pitzer_order : Tab)
    (ieo : Nat) (ifull hi : Int) (jeo : Nat) (st : FullTables) : Option FullTables := do
  let jfull ← energy_to_pitzer_order.get [jeo]
  let hj ← symmetry_full.get [jfull]
  let _ ← pitzer_offset_full.get [hj]
  let hij ← SymmetryPair hi hj
  let st1 ← fullWrite hij ifull jfull st
  if ieo < s.nmo + s.nfrzc ∧ jeo < s.nmo + s.nfrzc then plusCoreIncr hij st1 else pure st1

/-- Body of the `ieo` loop, lines 395-412. -/
def fullOuter (s : Input) (symmetry_full pitzer_offset_full energy_to_pitzer_order : Tab)
    (ieo : Nat) (st : FullTables) : Option FullTables := do
  let ifull ← energy_to_pitzer_order.get [ieo]
  let hi ← symmetry_full.get [ifull]
  let _ ← pitzer_offset_full.get [hi]
  loopM 0 (ieo + 1)
    (fullInner s symmetry_full pitzer_offset_full energy_to_pitzer_order ieo ifull hi) st

/-- Lines 341-353 and 390-413: the full-space cells start at -999, the two counters at 0,
and the traversal runs over the energy ranks. -/
def fullTraversal (s : Input) (symmetry_full pitzer_offset_full energy_to_pitzer_order : Tab) :
    Option FullTables :=
  loopM 0 s.ntot (fullOuter s symmetry_full pitzer_offset_full energy_to_pitzer_order)
    { bas_full_sym := Tab.alloc [s.nirrep_, s.ntot * s.ntot, 2] (-999)
      ibas_full_sym := Tab.alloc [s.nirrep_, s.ntot, s.ntot] (-999)
      gems_full := Tab.alloc [s.nirrep_] 0
      gems_plus_core := Tab.alloc [s.nirrep_] 0 }

/-! ## Triplets (basis.cc 414-516) -/

/-- Body of the `k` loop of lines 421-426. -/
def tripInner (symmetry : Tab) (h i j : Nat) (s1 : Int) (k : Nat)
    (mytrip : List (Int × Int × Int)) : Option (List (Int × Int × Int)) := do
  let sk ← symmetry.get [k]
  let s2 ← SymmetryPair s1 sk
  pure (if (h : Int) = s2 then mytrip ++ [((i : Int), (j : Int), (k : Int))] else mytrip)

/-- Body of the `j` loop of lines 419-428. -/
def tripMiddle (symmetry : Tab) (nmo h i j : Nat) (mytrip : List (Int × Int × Int)) :
    Option (List (Int × Int × Int)) := do
  let si ← symmetry.get [i]
  let sj ← symmetry.get [j]
  let s1 ← SymmetryPair si sj
  loopM 0 nmo (tripInner symmetry h i j s1) mytrip

/-- The list `mytrip` of block `h`. -/
def tripList (symmetry : Tab) (nmo h : Nat) : Option (List (Int × Int × Int)) :=
  loopM 0 nmo (fun i l => loopM 0 nmo (tripMiddle symmetry nmo h i) l) []

/-- Lines 416-431: every block is built and pushed onto `triplets`. -/
def pushTriplets (s : Input) (symmetry : Tab) (triplets : List (List (Int × Int × Int))) :
    Option (List (List (Int × Int × Int))) :=
  loopM 0 s.nirrep_ (fun h t => (tripList symmetry s.nmo h).map (fun l => t ++ [l])) triplets

/-- Lines 483-487: the aba cell, the forward row, the counter. -/
def writeABA (h : Nat) (i j k : Int) (x : Sector) : Option Sector := do
  let ib ← x.ibas.set [h, i, j, k] x.count
  let b ← x.bas.set [h, x.count, 0] i
  let b ← b.set [h, x.count, 1] j
  let b ← b.set [h, x.count, 2] k
  pure ⟨x.count + 1, b, ib⟩

/-- Lines 491-496: the aab cell and the one with the first two indices exchanged. -/
def writeAAB (h : Nat) (i j k : Int) (x : Sector) : Option Sector := do
  let ib ← x.ibas.set [h, i, j, k] x.count
  let ib ← ib.set [h, j, i, k] x.count
  let b ← x.bas.set [h, x.count, 0] i
  let b ← b.set [h, x.count, 1] j
  let b ← b.set [h, x.count, 2] k
  pure ⟨x.count + 1, b, ib⟩

/-- Lines 500-509: the aaa cell under the six orders of its indices. -/
def writeAAA (h : Nat) (i j k : Int) (x : Sector) : Option Sector := do
  let ib ← x.ibas.set [h, i, j, k] x.count
  let ib ← ib.set [h, i, k, j] x.count
  let ib ← ib.set [h, j, i, k] x.count
  let ib ← ib.set [h, j, k, i] x.count
  let ib ← ib.set [h, k, i, j] x.count
  let ib ← ib.set [h, k, j, i] x.count
  let b ← x.bas.set [h, x.count, 0] i
  let b ← b.set [h, x.count, 1] j
  let b ← b.set [h, x.count, 2] k
  pure ⟨x.count + 1, b, ib⟩

/-- The three triplet numberings and their block counts. -/
structure TripTables where
  aaa : Sector
  aab : Sector
  aba : Sector
  trip_aaa : Tab
  trip_aab : Tab
  trip_aba : Tab

/-- Body of the `n` loop of lines 478-511 for `(i, j, k) = triplets[h][n]`. -/
def mapTriple (h : Nat) (i j k : Int) (st : TripTables) : Option TripTables := do
  let aba ← writeABA h i j k st.aba
  if i ≥ j then pure { st with aba := aba } else do
  let aab ← writeAAB h i j k st.aab
  if j ≥ k then pure { st with aba := aba, aab := aab } else do
  let aaa ← writeAAA h i j k st.aaa
  pure { st with aba := aba, aab := aab, aaa := aaa }

/-- Body of the `n` loop with the read of `triplets[h][n]`. -/
def mapTripleAt (t : List (Int × Int × Int)) (h n : Nat) (st : TripTables) :
    Option TripTables := do
  let p ← t[n]?
  mapTriple h p.1 p.2.1 p.2.2 st

/-- Lines 474-514 for one block `h`. -/
def mapTripBlock (triplets : List (List (Int × Int × Int))) (h : Nat) (st : TripTables) :
    Option TripTables := do
  let t ← triplets[h]?
  let st1 ← loopM 0 t.length (mapTripleAt t h)
    { st with aaa := st.aaa.reset, aab := st.aab.reset, aba := st.aba.reset }
  let taaa ← st1.trip_aaa.set [h] st1.aaa.count
  let taab ← st1.trip_aab.set [h] st1.aab.count
  let taba ← st1.trip_aba.set [h] st1.aba.count
  pure { st1 with trip_aaa := taaa, trip_aab := taab, trip_aba := taba }

/-- Lines 432-515: the tables are allocated and each block is filled. -/
def tripletMappings (s : Input) (triplets : List (List (Int × Int × Int))) :
    Option TripTables :=
  loopM 0 s.nirrep_ (mapTripBlock triplets)
    { aaa := Sector.alloc [s.nirrep_, s.nmo * s.nmo * s.nmo, 3] [s.nirrep_, s.nmo, s.nmo, s.nmo]
      aab := Sector.alloc [s.nirrep_, s.nmo * s.nmo * s.nmo, 3] [s.nirrep_, s.nmo, s.nmo, s.nmo]
      aba := Sector.alloc [s.nirrep_, s.nmo * s.nmo * s.nmo, 3] [s.nirrep_, s.nmo, s.nmo, s.nmo]
      trip_aaa := Tab.alloc [s.nirrep_] 0
      trip_aab := Tab.alloc [s.nirrep_] 0
      trip_aba := Tab.alloc [s.nirrep_] 0 }

/-! ## The solver and `BuildBasis` -/

/-- The label arrays of lines 98-139. -/
structure Labels where
  symmetry : Tab
  full_basis : Tab
  symmetry_full : Tab
  symmetry_plus_core : Tab

/-- The offset tables of lines 227-244. -/
structure Offsets where
  pitzer_offset : Tab
  pitzer_offset_full : Tab
  pitzer_offset_plus_core : Tab

/-- The three member vectors of pair lists. -/
structure PairLists where
  gems : List (List (Int × Int))
  gems_fullspace : List (List (Int × Int))
  gems_plus_corespace : List (List (Int × Int))

/-- The solver: the members `BuildBasis` reads, the four member vectors it appends to,
and the tables it allocates and fills. -/
structure Solver where
  inp : Input
  lists : PairLists
  triplets : List (List (Int × Int × Int))
  labels : Labels
  order : EnergyOrder
  offs : Offsets
  pairs : PairTables
  full : FullTables
  trip : TripTables

/-- A block that was never allocated. -/
def Tab.null : Tab := Tab.alloc [] 0

/-- A numbering whose tables were never allocated. -/
def Sector.null : Sector := ⟨0, Tab.null, Tab.null⟩

/-- The solver as its constructor leaves it before `BuildBasis` runs: the four vectors
empty and no table allocated. -/
def Solver.init (s : Input) : Solver :=
  { inp := s, lists := ⟨[], [], []⟩, triplets := []
    labels := ⟨Tab.null, Tab.null, Tab.null, Tab.null⟩
    order := ⟨min0, -999, -999, Tab.null, Tab.null, Tab.null, Tab.null⟩
    offs := ⟨Tab.null, Tab.null, Tab.null⟩
    pairs := ⟨Sector.null, Sector.null, Sector.null, Tab.null, Tab.null, Tab.null⟩
    full := ⟨Tab.null, Tab.null, Tab.null, Tab.null⟩
    trip := ⟨Sector.null, Sector.null, Sector.null, Tab.null, Tab.null, Tab.null⟩ }

/-- Lines 98-139: the four label arrays. -/
def buildLabels (s : Input) : Option Labels := do
  let al ← activeLabels s
  let sf ← symmetryFull s
  let spc ← symmetryPlusCore s
  pure ⟨al.symmetry, al.full_basis, sf, spc⟩

/-- Lines 227-244: the three offset tables. -/
def buildOffsets (s : Input) : Option Offsets := do
  let po ← pitzerOffset s
  let pof ← pitzerOffsetFull s
  let popc ← pitzerOffsetPlusCore s
  pure ⟨po, pof, popc⟩

/-- Lines 252-290: the three pair lists are pushed onto their vectors. -/
def buildLists (s : Input) (lb : Labels) (old : PairLists) : Option PairLists := do
  let g ← pushGems s lb.symmetry old.gems
  let gf ← pushGemsFullspace s lb.symmetry_full old.gems_fullspace
  let gpc ← pushGemsPlusCorespace s lb.symmetry_plus_core old.gems_plus_corespace
  pure ⟨g, gf, gpc⟩

/-- Lines 414-516: the triplet part, run only when one of the three flags is set. -/
def buildTriplets (s : Input) (symmetry : Tab) (triplets : List (List (Int × Int × Int)))
    (old : TripTables) : Option (List (List (Int × Int × Int)) × TripTables) :=
  if s.constrain_t1 || s.constrain_t2 || s.constrain_d3 then do
    let t ← pushTriplets s symmetry triplets
    let tt ← tripletMappings s t
    pure (t, tt)
  else pure (triplets, old)

/-- Lines 292-413: the pair tables, from the labels, the energy order and the lists. -/
def buildPairs (s : Input) (lb : Labels) (eo : EnergyOrder) (off : Offsets) (ls : PairLists) :
    Option (PairTables × FullTables) := do
  let pt ← activeMappings s ls.gems
  let ft ← fullTraversal s lb.symmetry_full off.pitzer_offset_full eo.energy_to_pitzer_order
  pure (pt, ft)

/-- The routine `v2RDMSolver::BuildBasis`. -/
def BuildBasis (v : Solver) : Option Solver := do
  let lb ← buildLabels v.inp
  let eo ← energyOrder v.inp
  let off ← buildOffsets v.inp
  let ls ← buildLists v.inp lb v.lists
  let pf ← buildPairs v.inp lb eo off ls
  let tr ← buildTriplets v.inp lb.symmetry v.triplets v.trip
  pure ⟨v.inp, ls, tr.1, lb, eo, off, pf.1, pf.2, tr.2⟩

/-! ### The tables under their names in the source -/

/-- Member `symmetry`. -/
def Solver.symmetry (v : Solver) : Tab := v.labels.symmetry
/-- Member `symmetry_full`. -/
def Solver.symmetry_full (v : Solver) : Tab := v.labels.symmetry_full
/-- Member `pitzer_to_energy_order`. -/
def Solver.pitzer_to_energy_order (v : Solver) : Tab := v.order.pitzer_to_energy_order
/-- Member `energy_to_pitzer_order`. -/
def Solver.energy_to_pitzer_order (v : Solver) : Tab := v.order.energy_to_pitzer_order
/-- Member `bas_ab_sym`. -/
def Solver.bas_ab_sym (v : Solver) : Tab := v.pairs.ab.bas
/-- Member `ibas_ab_sym`. -/
def Solver.ibas_ab_sym (v : Solver) : Tab := v.pairs.ab.ibas
/-- Member `bas_00_sym`. -/
def Solver.bas_00_sym (v : Solver) : Tab := v.pairs.s00.bas
/-- Member `ibas_00_sym`. -/
def Solver.ibas_00_sym (v : Solver) : Tab := v.pairs.s00.ibas
/-- Member `bas_aa_sym`. -/
def Solver.bas_aa_sym (v : Solver) : Tab := v.pairs.aa.bas
/-- Member `ibas_aa_sym`. -/
def Solver.ibas_aa_sym (v : Solver) : Tab := v.pairs.aa.ibas
/-- Member `gems_ab`. -/
def Solver.gems_ab (v : Solver) : Tab := v.pairs.gems_ab
/-- Member `gems_00`. -/
def Solver.gems_00 (v : Solver) : Tab := v.pairs.gems_00
/-- Member `gems_aa`. -/
def Solver.gems_aa (v : Solver) : Tab := v.pairs.gems_aa
/-- Member `bas_full_sym`. -/
def Solver.bas_full_sym (v : Solver) : Tab := v.full.bas_full_sym
/-- Member `ibas_full_sym`. -/
def Solver.ibas_full_sym (v : Solver) : Tab := v.full.ibas_full_sym
/-- Member `gems_full`. -/
def Solver.gems_full (v : Solver) : Tab := v.full.gems_full
/-- Member `gems_plus_core`. -/
def Solver.gems_plus_core (v : Solver) : Tab := v.full.gems_plus_core
/-- Member `symmetry_plus_core`. -/
def Solver.symmetry_plus_core (v : Solver) : Tab := v.labels.symmetry_plus_core
/-- Member `full_basis`. -/
def Solver.full_basis (v : Solver) : Tab := v.labels.full_basis
/-- Member `symmetry_energy_order`. -/
def Solver.symmetry_energy_order (v : Solver) : Tab := v.order.symmetry_energy_order
/-- Member `pitzer_offset`. -/
def Solver.pitzer_offset (v : Solver) : Tab := v.offs.pitzer_offset
/-- Member `pitzer_offset_full`. -/
def Solver.pitzer_offset_full (v : Solver) : Tab := v.offs.pitzer_offset_full
/-- Member `pitzer_offset_plus_core`. -/
def Solver.pitzer_offset_plus_core (v : Solver) : Tab := v.offs.pitzer_offset_plus_core
/-- Member `bas_aaa_sym`. -/
def Solver.bas_aaa_sym (v : Solver) : Tab := v.trip.aaa.bas
/-- Member `ibas_aaa_sym`. -/
def Solver.ibas_aaa_sym (v : Solver) : Tab := v.trip.aaa.ibas
/-- Member `bas_aab_sym`. -/
def Solver.bas_aab_sym (v : Solver) : Tab := v.trip.aab.bas
/-- Member `ibas_aab_sym`. -/
def Solver.ibas_aab_sym (v : Solver) : Tab := v.trip.aab.ibas
/-- Member `bas_aba_sym`. -/
def Solver.bas_aba_sym (v : Solver) : Tab := v.trip.aba.bas
/-- Member `ibas_aba_sym`. -/
def Solver.ibas_aba_sym (v : Solver) : Tab := v.trip.aba.ibas
/-- Member `trip_aaa`. -/
def Solver.trip_aaa (v : Solver) : Tab := v.trip.trip_aaa
/-- Member `trip_aab`. -/
def Solver.trip_aab (v : Solver) : Tab := v.trip.trip_aab
/-- Member `trip_aba`. -/
def Solver.trip_aba (v : Solver) : Tab := v.trip.trip_aba

/-! ## Auxiliary definitions for the statements and the invariants -/

/-- Product label of the orbitals `i` and `j` of a label array, as the pair loops compute
it: both labels are read and handed to `SymmetryPair`. -/
def pairLabel (symm : Tab) (i j : Nat) : Option Int :=
  (symm.get [i]).bind fun si => (symm.get [j]).bind fun sj => SymmetryPair si sj

/-- The pairs of block `h` in the order of the two loops. -/
def pairSpec (symm : Tab) (n : Nat) (inner : Nat → Nat) (mk : Nat → Nat → Int × Int)
    (h : Nat) : List (Int × Int) :=
  (List.range n).flatMap fun i =>
    ((List.range (inner i)).filter fun j => pairLabel symm i j = some (h : Int)).map (mk i)

/-- What one write into a numbering does: the inverse cells `cells` take the counter,
row `count` of block `h` of the forward table takes `row`, and the counter advances. -/
structure WriteSpec (h : Nat) (cells : List (List Int)) (row : List Int) (x x' : Sector) :
    Prop where
  count : x'.count = x.count + 1
  idims : x'.ibas.dims = x.ibas.dims
  bdims : x'.bas.dims = x.bas.dims
  inb : ∀ c, c ∈ cells → inBounds c x.ibas.dims = true
  rinb : ∀ k : Nat, k < row.length → inBounds [(h : Int), x.count, (k : Int)] x.bas.dims = true
  ival : ∀ ix, x'.ibas.val ix = if ix ∈ cells then x.count else x.ibas.val ix
  bnew : ∀ k : Nat, k < row.length → x'.bas.val [(h : Int), x.count, (k : Int)] = row.getD k 0
  bold : ∀ ix, (∀ k : Nat, ix ≠ [(h : Int), x.count, (k : Int)]) → x'.bas.val ix = x.bas.val ix

/-- State of a numbering of block `h` after the items `L` were written, in this order,
starting from `x0`. -/
structure SecInv {α : Type} (h : Nat) (cells : α → List (List Int)) (row : α → List Int)
    (L : List α) (x0 x : Sector) : Prop where
  count : x.count = L.length
  idims : x.ibas.dims = x0.ibas.dims
  bdims : x.bas.dims = x0.bas.dims
  inb : ∀ a, a ∈ L → ∀ c, c ∈ cells a → inBounds c x0.ibas.dims = true
  rinb : ∀ (m : Nat) a, L[m]? = some a → ∀ k : Nat, k < (row a).length →
    inBounds [(h : Int), (m : Int), (k : Int)] x0.bas.dims = true
  bval : ∀ (m : Nat) a, L[m]? = some a → ∀ k : Nat, k < (row a).length →
    x.bas.val [(h : Int), (m : Int), (k : Int)] = (row a).getD k 0
  bframe : ∀ ix, (∀ m k : Nat, m < L.length → ix ≠ [(h : Int), (m : Int), (k : Int)]) →
    x.bas.val ix = x0.bas.val ix
  iframe : ∀ ix, (∀ a, a ∈ L → ix ∉ cells a) → x.ibas.val ix = x0.ibas.val ix
  ival : ∀ (m : Nat) a, L[m]? = some a → ∀ ix, ix ∈ cells a →
    (∀ (m' : Nat) b, m < m' → L[m']? = some b → ix ∉ cells b) → x.ibas.val ix = m

/-- A finished block `h` of a numbering: forward rows, inverse cells, and the sentinel in
every cell of the block that no item addresses. -/
structure BlockOK {α : Type} (h : Nat) (cells : α → List (List Int)) (row : α → List Int)
    (L : List α) (x : Sector) : Prop where
  inb : ∀ a, a ∈ L → ∀ c, c ∈ cells a → inBounds c x.ibas.dims = true
  rinb : ∀ (m : Nat) a, L[m]? = some a → ∀ k : Nat, k < (row a).length →
    inBounds [(h : Int), (m : Int), (k : Int)] x.bas.dims = true
  bval : ∀ (m : Nat) a, L[m]? = some a → ∀ k : Nat, k < (row a).length →
    x.bas.val [(h : Int), (m : Int), (k : Int)] = (row a).getD k 0
  ifree : ∀ ix, ix.head? = some (h : Int) → (∀ a, a ∈ L → ix ∉ cells a) →
    x.ibas.val ix = -999
  ival : ∀ (m : Nat) a, L[m]? = some a → ∀ ix, ix ∈ cells a →
    (∀ (m' : Nat) b, m < m' → L[m']? = some b → ix ∉ cells b) → x.ibas.val ix = m

/-- All blocks below `H` of a numbering are finished and the others are untouched. -/
structure SectorBlocks {α : Type} (cells : Nat → α → List (List Int)) (row : α → List Int)
    (L : Nat → List α) (H : Nat) (x : Sector) : Prop where
  done : ∀ h, h < H → BlockOK h (cells h) row (L h) x
  rest : ∀ ix, (∀ h, h < H → ix.head? ≠ some (h : Int)) → x.ibas.val ix = -999

/-- Inverse cell of a pair in sector ab. -/
def cellsAB (h : Nat) (p : Int × Int) : List (List Int) := [[(h : Int), p.1, p.2]]

/-- Inverse cells of a pair in the sectors 00 and aa. -/
def cellsSym (h : Nat) (p : Int × Int) : List (List Int) :=
  [[(h : Int), p.1, p.2], [(h : Int), p.2, p.1]]

/-- Forward row of a pair. -/
def rowPair (p : Int × Int) : List Int := [p.1, p.2]

/-- Sector 00 takes the pairs that pass `if ( i < j ) continue;`. -/
def keep00 (p : Int × Int) : Bool := decide (p.2 ≤ p.1)

/-- Sector aa takes the pairs that also pass `if ( i <= j ) continue;`. -/
def keepAA (p : Int × Int) : Bool := decide (p.2 < p.1)

/-- State of the `n` loop of one block after `k` entries of `g`. -/
structure PairInv (h : Nat) (g : List (Int × Int)) (st0 : PairTables) (k : Nat)
    (st : PairTables) : Prop where
  ab : SecInv h (cellsAB h) rowPair (g.take k) st0.ab.reset st.ab
  s00 : SecInv h (cellsSym h) rowPair ((g.take k).filter keep00) st0.s00.reset st.s00
  aa : SecInv h (cellsSym h) rowPair ((g.take k).filter keepAA) st0.aa.reset st.aa
  gab : st.gems_ab = st0.gems_ab
  gaa : st.gems_aa = st0.gems_aa
  g00 : st.gems_00 = st0.gems_00

/-- State of the `h` loop of the active mappings after `H` blocks. -/
structure ActiveInv (s : Input) (G : Nat → List (Int × Int)) (H : Nat) (st : PairTables) :
    Prop where
  ab : SectorBlocks cellsAB rowPair G H st.ab
  s00 : SectorBlocks cellsSym rowPair (fun h => (G h).filter keep00) H st.s00
  aa : SectorBlocks cellsSym rowPair (fun h => (G h).filter keepAA) H st.aa
  gab : ∀ h, h < H → st.gems_ab.val [(h : Int)] = ((G h).length : Int)
  g00 : ∀ h, h < H → st.gems_00.val [(h : Int)] = (((G h).filter keep00).length : Int)
  gaa : ∀ h, h < H → st.gems_aa.val [(h : Int)] = (((G h).filter keepAA).length : Int)
  dab : st.ab.ibas.dims = [s.nirrep_, s.nmo, s.nmo] ∧ st.ab.bas.dims = [s.nirrep_, s.nmo * s.nmo, 2]
  d00 : st.s00.ibas.dims = [s.nirrep_, s.nmo, s.nmo] ∧
    st.s00.bas.dims = [s.nirrep_, s.nmo * s.nmo, 2]
  daa : st.aa.ibas.dims = [s.nirrep_, s.nmo, s.nmo] ∧ st.aa.bas.dims = [s.nirrep_, s.nmo * s.nmo, 2]
  dg : st.gems_ab.dims = [s.nirrep_] ∧ st.gems_00.dims = [s.nirrep_] ∧
    st.gems_aa.dims = [s.nirrep_]

/-- The pair constructor of `gems`: `make_pair(j,i)`. -/
def mkJI (i j : Nat) : Int × Int := ((j : Int), (i : Int))

/-- The pair constructor of the two lower-triangle lists: `make_pair(i,j)`. -/
def mkIJ (i j : Nat) : Int × Int := ((i : Int), (j : Int))

/-- The list `gems[h]` after a first run of `BuildBasis`. -/
def gemsSpec (s : Input) (symmetry : Tab) (h : Nat) : List (Int × Int) :=
  pairSpec symmetry s.nmo (fun _ => s.nmo) mkJI h

/-- What a completed first run of `BuildBasis` on the members `s` consists of. -/
structure Run (s : Input) (v : Solver) : Prop where
  inp : v.inp = s
  lb : buildLabels s = some v.labels
  eo : energyOrder s = some v.order
  off : buildOffsets s = some v.offs
  ls : buildLists s v.labels ⟨[], [], []⟩ = some v.lists
  pt : activeMappings s v.lists.gems = some v.pairs
  ft : fullTraversal s v.labels.symmetry_full v.offs.pitzer_offset_full
    v.order.energy_to_pitzer_order = some v.full
  tr : buildTriplets s v.labels.symmetry [] (Solver.init s).trip = some (v.triplets, v.trip)

/-- Number of orbitals in the irreps below `h` when irrep `g` holds `c g` of them. -/
def offs (c : Nat → Nat) (h : Nat) : Nat := Finset.sum (Finset.range h) c

/-- Number of trips of the `norb` loop of lines 119-122 in irrep `h`. -/
def activeTrips (s : Input) (h : Nat) : Nat := s.nmopi_ h - s.frzvpi_ h - s.frzcpi_ h

/-- State of a loop nest `arr[count++] = h` after the irreps below `H`. -/
structure FillInv (c : Nat → Nat) (dm : List Nat) (H : Nat) (cnt : Int) (arr : Tab) :
    Prop where
  count : cnt = (offs c H : Nat)
  dims : arr.dims = dm
  lab : ∀ g p, g < H → p < c g → arr.val [((offs c g + p : Nat) : Int)] = (g : Int)
  rng : ∀ ix, arr.val ix = 0 ∨ ∃ g, g < H ∧ arr.val ix = (g : Int)
  fit : ∀ g p, g < H → p < c g → inBounds [((offs c g + p : Nat) : Int)] dm = true

/-- The per-irrep counts and the totals agree: `amopi_` is what is left of `nmopi_` after
the frozen orbitals, and `nmo`, `nfrzc`, `nfrzv` are the sums over the irreps. -/
structure Consistent (s : Input) : Prop where
  split : ∀ h, h < s.nirrep_ → s.nmopi_ h = s.frzcpi_ h + s.amopi_ h + s.frzvpi_ h
  nmo : s.nmo = offs s.amopi_ s.nirrep_
  nfrzc : s.nfrzc = offs s.frzcpi_ s.nirrep_
  nfrzv : s.nfrzv = offs s.frzvpi_ s.nirrep_

/-- The label stored for orbital `i` in a label array. -/
def labOf (symm : Tab) (i : Nat) : Nat := (symm.val [(i : Int)]).toNat

/-- The irrep counts of the Abelian point groups: the label sets closed under the product. -/
def PowTwo (n : Nat) : Prop := n = 1 ∨ n = 2 ∨ n = 4 ∨ n = 8

/-- Product label of the orbitals `i`, `j`, `k`, as the triplet loops compute it. -/
def tripLabel (symm : Tab) (i j k : Nat) : Option Int :=
  (pairLabel symm i j).bind fun s1 => (symm.get [(k : Int)]).bind fun sk => SymmetryPair s1 sk

/-- The triple pushed for the loop indices `i`, `j`, `k`. -/
def mkTriple (i j k : Nat) : Int × Int × Int := ((i : Int), (j : Int), (k : Int))

/-- The triples of block `h` in the order of the three loops. -/
def tripSpec (symm : Tab) (n h : Nat) : List (Int × Int × Int) :=
  (List.range n).flatMap fun i => (List.range n).flatMap fun j =>
    ((List.range n).filter fun k => tripLabel symm i j k = some (h : Int)).map (mkTriple i j)

/-- Inverse cell of a triple in sector aba. -/
def cellsABA (h : Nat) (t : Int × Int × Int) : List (List Int) :=
  [[(h : Int), t.1, t.2.1, t.2.2]]

/-- Inverse cells of a triple in sector aab. -/
def cellsAAB (h : Nat) (t : Int × Int × Int) : List (List Int) :=
  [[(h : Int), t.1, t.2.1, t.2.2], [(h : Int), t.2.1, t.1, t.2.2]]

/-- Inverse cells of a triple in sector aaa. -/
def cellsAAA (h : Nat) (t : Int × Int × Int) : List (List Int) :=
  [[(h : Int), t.1, t.2.1, t.2.2], [(h : Int), t.1, t.2.2, t.2.1],
   [(h : Int), t.2.1, t.1, t.2.2], [(h : Int), t.2.1, t.2.2, t.1],
   [(h : Int), t.2.2, t.1, t.2.1], [(h : Int), t.2.2, t.2.1, t.1]]

/-- Forward row of a triple. -/
def rowTrip (t : Int × Int × Int) : List Int := [t.1, t.2.1, t.2.2]

/-- Sector aab takes the triples that pass `if ( i >= j ) continue;`. -/
def keepAAB (t : Int × Int × Int) : Bool := decide (t.1 < t.2.1)

/-- Sector aaa takes the triples that also pass `if ( j >= k ) continue;`. -/
def keepAAA (t : Int × Int × Int) : Bool := decide (t.1 < t.2.1 ∧ t.2.1 < t.2.2)

/-- State of the `n` loop of one triplet block after `k` entries of `g`. -/
structure TripInv (h : Nat) (g : List (Int × Int × Int)) (st0 : TripTables) (k : Nat)
    (st : TripTables) : Prop where
  aba : SecInv h (cellsABA h) rowTrip (g.take k) st0.aba.reset st.aba
  aab : SecInv h (cellsAAB h) rowTrip ((g.take k).filter keepAAB) st0.aab.reset st.aab
  aaa : SecInv h (cellsAAA h) rowTrip ((g.take k).filter keepAAA) st0.aaa.reset st.aaa
  taba : st.trip_aba = st0.trip_aba
  taab : st.trip_aab = st0.trip_aab
  taaa : st.trip_aaa = st0.trip_aaa

/-- State of the `h` loop of the triplet mappings after `H` blocks. -/
structure TripBlocksInv (s : Input) (G : Nat → List (Int × Int × Int)) (H : Nat)
    (st : TripTables) : Prop where
  aba : SectorBlocks cellsABA rowTrip G H st.aba
  aab : SectorBlocks cellsAAB rowTrip (fun h => (G h).filter keepAAB) H st.aab
  aaa : SectorBlocks cellsAAA rowTrip (fun h => (G h).filter keepAAA) H st.aaa
  taba : ∀ h, h < H → st.trip_aba.val [(h : Int)] = ((G h).length : Int)
  taab : ∀ h, h < H → st.trip_aab.val [(h : Int)] = (((G h).filter keepAAB).length : Int)
  taaa : ∀ h, h < H → st.trip_aaa.val [(h : Int)] = (((G h).filter keepAAA).length : Int)
  daba : st.aba.ibas.dims = [s.nirrep_, s.nmo, s.nmo, s.nmo]
  daab : st.aab.ibas.dims = [s.nirrep_, s.nmo, s.nmo, s.nmo]
  daaa : st.aaa.ibas.dims = [s.nirrep_, s.nmo, s.nmo, s.nmo]

/-- Full Pitzer index of position `j` of irrep `h`. -/
def pz (s : Input) (h j : Nat) : Nat := offs s.nmopi_ h + j

/-- Position `j` of irrep `h` is one that the scan of the pool `P` visits. -/
structure InPool (s : Input) (P : Pool) (h j : Nat) : Prop where
  hh : h < s.nirrep_
  lo : P.lo h ≤ j
  hi : j < P.lo h + P.cnt h

/-- The scan of a pool steps `me` through the full Pitzer indices: the part skipped
before the `j` loop, the part scanned and the part skipped after it make up the irrep. -/
structure PoolOK (s : Input) (P : Pool) : Prop where
  pre : ∀ h, h < s.nirrep_ → P.pre h = (P.lo h : Int)
  post : ∀ h, h < s.nirrep_ → ((P.lo h + P.cnt h : Nat) : Int) + P.post h = (s.nmopi_ h : Int)
  le : ∀ h, h < s.nirrep_ → P.lo h + P.cnt h ≤ s.nmopi_ h

/-- Order of the ranking: ascending energy, and ascending full Pitzer index among equal
energies. -/
def lexLt (e1 : ℚ) (m1 : Nat) (e2 : ℚ) (m2 : Nat) : Prop := e1 < e2 ∨ (e1 = e2 ∧ m1 < m2)

/-- Every orbital energy is below the `1.0e99` that starts a scan. -/
def EnergiesBelow (s : Input) : Prop :=
  ∀ h j, h < s.nirrep_ → j < s.nmopi_ h → s.epsilon_a_ h j < min0

/-- State of a scan once every position of the pool below full Pitzer index `M` has been
visited: either nothing was taken, or the position taken is the first one, in the order of
the ranking, among the visited positions that are not skipped. -/
structure ScanInv (s : Input) (P : Pool) (skip : Tab) (imin0 isym0 : Int) (M : Nat)
    (st : Scan) : Prop where
  me : st.me = (M : Int)
  best : (st.min = min0 ∧ st.imin = imin0 ∧ st.isym = isym0 ∧
      ∀ h j, InPool s P h j → pz s h j < M → skip.val [(pz s h j : Int)] = 0 →
        ¬ s.epsilon_a_ h j < min0) ∨
    (∃ h j, InPool s P h j ∧ pz s h j < M ∧ st.imin = (pz s h j : Int) ∧ st.isym = (h : Int) ∧
      st.min = s.epsilon_a_ h j ∧ st.min < min0 ∧ skip.val [(pz s h j : Int)] = 0 ∧
      ∀ h' j', InPool s P h' j' → pz s h' j' < M → skip.val [(pz s h' j' : Int)] = 0 →
        ¬ lexLt (s.epsilon_a_ h' j') (pz s h' j') (s.epsilon_a_ h j) (pz s h j))

/-- The ranking loop that assigns rank `r`: 0 core, 1 active, 2 virtual. -/
def poolIdx (s : Input) (r : Nat) : Nat :=
  if r < s.nfrzc then 0 else if r < s.nfrzc + s.nmo then 1 else 2

/-- The pool scanned for rank `r`. -/
def poolOfRank (s : Input) (r : Nat) : Pool :=
  if r < s.nfrzc then corePool s else if r < s.nfrzc + s.nmo then activePool s
  else virtualPool s

/-- State of the energy ordering once the ranks below `R` are assigned. -/
structure RankInv (s : Input) (R : Nat) (st : EnergyOrder) : Prop where
  dskip : st.skip.dims = [s.ntot]
  dp2e : st.pitzer_to_energy_order.dims = [s.ntot]
  de2p : st.energy_to_pitzer_order.dims = [s.ntot]
  chosen : ∀ r, r < R → ∃ h j, InPool s (poolOfRank s r) h j ∧
    st.energy_to_pitzer_order.val [(r : Int)] = (pz s h j : Int) ∧
    st.pitzer_to_energy_order.val [(pz s h j : Int)] = (r : Int) ∧
    st.skip.val [(pz s h j : Int)] ≠ 0
  fresh : ∀ h j, h < s.nirrep_ → j < s.nmopi_ h → st.skip.val [(pz s h j : Int)] ≠ 0 →
    ∃ r, r < R ∧ st.energy_to_pitzer_order.val [(r : Int)] = (pz s h j : Int)
  sorted : ∀ r r' h j h' j', r < r' → r' < R → poolIdx s r = poolIdx s r' →
    h < s.nirrep_ → j < s.nmopi_ h → h' < s.nirrep_ → j' < s.nmopi_ h' →
    st.energy_to_pitzer_order.val [(r : Int)] = (pz s h j : Int) →
    st.energy_to_pitzer_order.val [(r' : Int)] = (pz s h' j' : Int) →
    lexLt (s.epsilon_a_ h j) (pz s h j) (s.epsilon_a_ h' j') (pz s h' j')
  least : ∀ r h j h' j', r < R → h < s.nirrep_ → j < s.nmopi_ h →
    st.energy_to_pitzer_order.val [(r : Int)] = (pz s h j : Int) →
    InPool s (poolOfRank s r) h' j' → st.skip.val [(pz s h' j' : Int)] = 0 →
    lexLt (s.epsilon_a_ h j) (pz s h j) (s.epsilon_a_ h' j') (pz s h' j')

/-- Sum of the increments `inc g` over the irreps below `h`. -/
def offsInt (inc : Nat → Int) (h : Nat) : Int := Finset.sum (Finset.range h) inc

/-- State of the full-space traversal once the rank pairs `(a, b)`, `b ≤ a`, with `a < ieo`,
or `a = ieo` and `b < jeo`, are written: every row below a block count stores such a pair,
its two inverse cells hold the row, and its product label is the block. -/
structure FullInv (s : Input) (sf e2p : Tab) (ieo jeo : Nat) (st : FullTables) : Prop where
  dib : st.ibas_full_sym.dims = [s.nirrep_, s.ntot, s.ntot]
  db : st.bas_full_sym.dims = [s.nirrep_, s.ntot * s.ntot, 2]
  dg : st.gems_full.dims = [s.nirrep_]
  nonneg : ∀ h : Nat, 0 ≤ st.gems_full.val [(h : Int)]
  rows : ∀ h n : Nat, h < s.nirrep_ → (n : Int) < st.gems_full.val [(h : Int)] →
    ∃ a b, (a < ieo ∨ (a = ieo ∧ b < jeo)) ∧ b ≤ a ∧
      st.bas_full_sym.val [(h : Int), (n : Int), 0] = e2p.val [(a : Int)] ∧
      st.bas_full_sym.val [(h : Int), (n : Int), 1] = e2p.val [(b : Int)] ∧
      st.ibas_full_sym.val [(h : Int), e2p.val [(a : Int)], e2p.val [(b : Int)]] = (n : Int) ∧
      st.ibas_full_sym.val [(h : Int), e2p.val [(b : Int)], e2p.val [(a : Int)]] = (n : Int) ∧
      ∃ hi hj, sf.get [e2p.val [(a : Int)]] = some hi ∧ sf.get [e2p.val [(b : Int)]] = some hj ∧
        SymmetryPair hi hj = some (h : Int)

/-- The first `N` cells of an array hold a permutation of `[0, N)`. -/
def IsPerm (t : Tab) (N : Nat) : Prop :=
  (∀ r, r < N → ∃ p : Nat, p < N ∧ t.val [(r : Int)] = (p : Int)) ∧
  (∀ a b, a < N → b < N → t.val [(a : Int)] = t.val [(b : Int)] → a = b)

/-- Fixture: one irrep with two active orbitals, flag T1 set. -/
def exS : Input where
  nirrep_ := 1
  nmopi_ := fun _ => 2
  frzcpi_ := fun _ => 0
  frzvpi_ := fun _ => 0
  amopi_ := fun _ => 2
  nmo := 2
  nfrzc := 0
  nfrzv := 0
  epsilon_a_ := fun _ j => if j = 0 then 1 else 0
  constrain_t1 := true
  constrain_t2 := false
  constrain_d3 := false
  heap := fun _ => 0

/-- The solver after `BuildBasis` on `exS`. -/
def exS_out : Solver := (BuildBasis (Solver.init exS)).getD (Solver.init exS)

/-- Fixture of the spec: two irreps, three active orbitals in irrep 0 and one in irrep 1,
no frozen orbitals. -/
def exA : Input where
  nirrep_ := 2
  nmopi_ := fun h => if h = 0 then 3 else 1
  frzcpi_ := fun _ => 0
  frzvpi_ := fun _ => 0
  amopi_ := fun h => if h = 0 then 3 else 1
  nmo := 4
  nfrzc := 0
  nfrzv := 0
  epsilon_a_ := fun _ _ => 0
  constrain_t1 := false
  constrain_t2 := false
  constrain_d3 := false
  heap := fun _ => 0

/-- The solver after `BuildBasis` on `exA`. -/
def exA_out : Solver := (BuildBasis (Solver.init exA)).getD (Solver.init exA)

/-- Fixture with the three pools: irrep 0 holds a core, an active and a virtual orbital,
irrep 1 two active orbitals; the active orbitals `(0,1)` and `(1,0)` have the same energy. -/
def exB : Input where
  nirrep_ := 2
  nmopi_ := fun h => if h = 0 then 3 else 2
  frzcpi_ := fun h => if h = 0 then 1 else 0
  frzvpi_ := fun h => if h = 0 then 1 else 0
  amopi_ := fun h => if h = 0 then 1 else 2
  nmo := 3
  nfrzc := 1
  nfrzv := 1
  epsilon_a_ := fun h j => if h = 0 then (if j = 0 then 0 else if j = 1 then 5 else 9)
    else (if j = 0 then 5 else 3)
  constrain_t1 := false
  constrain_t2 := false
  constrain_d3 := false
  heap := fun _ => 0

/-- The solver after `BuildBasis` on `exB`. -/
def exB_out : Solver := (BuildBasis (Solver.init exB)).getD (Solver.init exB)

/-- Fixture with an orbital energy equal to `1.0e99`: one irrep, two active orbitals. -/
def ex5 : Input where
  nirrep_ := 1
  nmopi_ := fun _ => 2
  frzcpi_ := fun _ => 0
  frzvpi_ := fun _ => 0
  amopi_ := fun _ => 2
  nmo := 2
  nfrzc := 0
  nfrzv := 0
  epsilon_a_ := fun _ j => if j = 0 then 0 else min0
  constrain_t1 := false
  constrain_t2 := false
  constrain_d3 := false
  heap := fun _ => 0

/-- The solver after `BuildBasis` on `ex5`. -/
def ex5_out : Solver := (BuildBasis (Solver.init ex5)).getD (Solver.init ex5)

/-- Fixture with three irreps, one active orbital in each; the orbital of irrep 2 has the
energy `1.0e99`. -/
def ex9 : Input where
  nirrep_ := 3
  nmopi_ := fun _ => 1
  frzcpi_ := fun _ => 0
  frzvpi_ := fun _ => 0
  amopi_ := fun _ => 1
  nmo := 3
  nfrzc := 0
  nfrzv := 0
  epsilon_a_ := fun h _ => if h = 2 then min0 else 0
  constrain_t1 := false
  constrain_t2 := false
  constrain_d3 := false
  heap := fun _ => 0

/-- The solver after `BuildBasis` on `ex9`. -/
def ex9_out : Solver := (BuildBasis (Solver.init ex9)).getD (Solver.init ex9)

/-- Extents of the full-space tables and a bound `T` on every block count: what the
full-space traversal needs to stay inside its tables. -/
structure FullFit (s : Input) (T : Nat) (st : FullTables) : Prop where
  dib : st.ibas_full_sym.dims = [s.nirrep_, s.ntot, s.ntot]
  db : st.bas_full_sym.dims = [s.nirrep_, s.ntot * s.ntot, 2]
  dg : st.gems_full.dims = [s.nirrep_]
  dp : st.gems_plus_core.dims = [s.nirrep_]
  cnt : ∀ h : Nat, 0 ≤ st.gems_full.val [(h : Int)] ∧ st.gems_full.val [(h : Int)] ≤ (T : Int)

/-- Extents of the triplet tables. -/
structure TripFit (s : Input) (st : TripTables) : Prop where
  iaba : st.aba.ibas.dims = [s.nirrep_, s.nmo, s.nmo, s.nmo]
  iaab : st.aab.ibas.dims = [s.nirrep_, s.nmo, s.nmo, s.nmo]
  iaaa : st.aaa.ibas.dims = [s.nirrep_, s.nmo, s.nmo, s.nmo]
  baba : st.aba.bas.dims = [s.nirrep_, s.nmo * s.nmo * s.nmo, 3]
  baab : st.aab.bas.dims = [s.nirrep_, s.nmo * s.nmo * s.nmo, 3]
  baaa : st.aaa.bas.dims = [s.nirrep_, s.nmo * s.nmo * s.nmo, 3]
  taba : st.trip_aba.dims = [s.nirrep_]
  taab : st.trip_aab.dims = [s.nirrep_]
  taaa : st.trip_aaa.dims = [s.nirrep_]

/-- Well-formed members: `nirrep` is the order of an Abelian point group, the per-irrep counts
and the totals agree, and every orbital energy is below the `1.0e99` that starts a scan. -/
structure WellFormed (s : Input) : Prop where
  pow : PowTwo s.nirrep_
  counts : Consistent s
  below : EnergiesBelow s

/-- Number of full Pitzer positions the loop "symmetry of ACTIVE orbitals" steps `count_full`
over in irrep `h`: the frozen core, the trips of the `norb` loop, the frozen virtuals. -/
def fullTrips (s : Input) (h : Nat) : Nat := s.frzcpi_ h + activeTrips s h + s.frzvpi_ h

/-- State of the loop "symmetry of ACTIVE orbitals" after the irreps below `H`, as far as
`full_basis` and the two counters go. -/
structure BasisInv (s : Input) (H : Nat) (st : ActiveLabels) : Prop where
  count : st.count = ((offs (activeTrips s) H : Nat) : Int)
  count_full : st.count_full = ((offs (fullTrips s) H : Nat) : Int)
  dims : st.full_basis.dims = [s.ntot]
  val : ∀ g p, g < H → p < activeTrips s g →
    st.full_basis.val [((offs (activeTrips s) g + p : Nat) : Int)] =
      ((offs (fullTrips s) g + s.frzcpi_ g + p : Nat) : Int)
  fit : ∀ g p, g < H → p < activeTrips s g →
    inBounds [((offs (activeTrips s) g + p : Nat) : Int)] [s.ntot] = true

/-- Fixture: one irrep with three active orbitals, flag T1 set. -/
def exT : Input where
  nirrep_ := 1
  nmopi_ := fun _ => 3
  frzcpi_ := fun _ => 0
  frzvpi_ := fun _ => 0
  amopi_ := fun _ => 3
  nmo := 3
  nfrzc := 0
  nfrzv := 0
  epsilon_a_ := fun _ j => (j : ℚ)
  constrain_t1 := true
  constrain_t2 := false
  constrain_d3 := false
  heap := fun _ => 0

/-- The solver after `BuildBasis` on `exT`. -/
def exT_out : Solver := (BuildBasis (Solver.init exT)).getD (Solver.init exT)

/-- Order in which the pair list of a block is built: a pair comes before `(i, j)` when its
second member is smaller, or equal with a smaller first member (the second member is the
index of the outer loop). -/
@[reducible] def scanBefore (q : Nat × Nat) (i j : Nat) : Prop := q.2 < j ∨ (q.2 = j ∧ q.1 < i)

/-- Number of the pairs of block `h` that satisfy `keep` and come before `(i, j)` in the
order of the pair list. -/
def pairRank (symm : Tab) (nmo h : Nat) (keep : Nat → Nat → Bool) (i j : Nat) : Nat :=
  ((Finset.range nmo ×ˢ Finset.range nmo).filter fun q : Nat × Nat =>
    pairLabel symm q.1 q.2 = some (h : Int) ∧ keep q.1 q.2 = true ∧ scanBefore q i j).card

/-- The order `scanBefore` on stored pairs. -/
def storedBefore (p q : Int × Int) : Prop := p.2 < q.2 ∨ (p.2 = q.2 ∧ p.1 < q.1)

/-- The label of the orbital at each energy rank: cell `r` holds
`symmetry_full[energy_to_pitzer_order[r]]`. -/
def rankLabels (sf e2p : Tab) (N : Nat) : Tab := ⟨[N], fun ix => sf.val [e2p.val ix]⟩

/-- The rank pairs of block `h` that the full-space traversal has visited when it stands at
`(ieo, jeo)`, in the order of the visit. -/
def fullSpec (sf e2p : Tab) (N ieo jeo h : Nat) : List (Int × Int) :=
  pairSpec (rankLabels sf e2p N) ieo (fun i => i + 1) mkIJ h ++
    ((List.range jeo).filter fun j =>
      pairLabel (rankLabels sf e2p N) ieo j = some (h : Int)).map (mkIJ ieo)

/-- The test of line 409 on a rank pair: both ranks lie below `M`. -/
def keepCore (M : Nat) (a : Int × Int) : Bool := decide (a.1 < (M : Int) ∧ a.2 < (M : Int))

/-- State of the full-space traversal at `(ieo, jeo)`, row by row: the counter of block `h` is
the number of visited rank pairs of the block, the restricted counter is the number of those
with both ranks below `nmo + nfrzc`, and row `n` stores the orbitals of the `n`-th such pair. -/
structure FullRows (s : Input) (sf e2p : Tab) (ieo jeo : Nat) (st : FullTables) : Prop where
  db : st.bas_full_sym.dims = [s.nirrep_, s.ntot * s.ntot, 2]
  dg : st.gems_full.dims = [s.nirrep_]
  dpc : st.gems_plus_core.dims = [s.nirrep_]
  cnt : ∀ h : Nat, st.gems_full.val [(h : Int)] = ((fullSpec sf e2p s.ntot ieo jeo h).length : Int)
  pc : ∀ h : Nat, st.gems_plus_core.val [(h : Int)] =
    ((((fullSpec sf e2p s.ntot ieo jeo h).filter (keepCore (s.nmo + s.nfrzc))).length : Nat) : Int)
  inb : ∀ h n : Nat, n < (fullSpec sf e2p s.ntot ieo jeo h).length →
    h < s.nirrep_ ∧ n < s.ntot * s.ntot
  rows : ∀ (h n : Nat) (a : Int × Int), (fullSpec sf e2p s.ntot ieo jeo h)[n]? = some a →
    st.bas_full_sym.val [(h : Int), (n : Int), 0] = e2p.val [a.1] ∧
      st.bas_full_sym.val [(h : Int), (n : Int), 1] = e2p.val [a.2]

/-- Order of two rank pairs, the first member being the most significant. -/
def rankBefore (p q : Int × Int) : Prop := p.1 < q.1 ∨ (p.1 = q.1 ∧ p.2 < q.2)

/-- State of the ranking once the ranks below `R` are assigned: the inverse map sends the
orbital of rank `r` to the last rank at which this orbital was chosen. -/
structure RankLast (N R : Nat) (st : EnergyOrder) : Prop where
  dp2e : st.pitzer_to_energy_order.dims = [N]
  last : ∀ r, r < R → ∃ r', r ≤ r' ∧ r' < R ∧
    st.energy_to_pitzer_order.val [(r' : Int)] = st.energy_to_pitzer_order.val [(r : Int)] ∧
    st.pitzer_to_energy_order.val [st.energy_to_pitzer_order.val [(r : Int)]] = (r' : Int)

/-- Full Pitzer index `p` is a frozen-core or active position of its irrep, not one of the
frozen virtuals that end the irrep. -/
def coreOrActive (s : Input) (p : Nat) : Bool :=
  (List.range s.nirrep_).any fun g =>
    decide (offs s.nmopi_ g ≤ p ∧ p < offs s.nmopi_ g + (s.frzcpi_ g + s.amopi_ g))

/-- The full Pitzer indices that are not frozen virtuals. -/
def coreActiveSet (s : Input) : Finset Nat :=
  (Finset.range s.ntot).filter fun p => coreOrActive s p = true

/-- The first `n` rows of block `h` of a forward pair table, read in order; `none` when a read
falls outside the table. -/
def readRows (bas : Tab) (h : Nat) : Nat → Option (List (Int × Int))
  | 0 => some []
  | n + 1 => do
    let l ← readRows bas h n
    let a ← bas.get [(h : Int), (n : Int), 0]
    let b ← bas.get [(h : Int), (n : Int), 1]
    pure (l ++ [(a, b)])

/-- State of the full-space traversal when it is about to run the body of the `jeo` loop for
`(ieo, jeo)`: the outer iterations below `ieo` are complete and so are the inner iterations
below `jeo` of the outer iteration `ieo`. -/
def fullState (s : Input) (symmetry_full pitzer_offset_full energy_to_pitzer_order : Tab)
    (ieo jeo : Nat) : Option FullTables := do
  let st0 ← loopM 0 ieo (fullOuter s symmetry_full pitzer_offset_full energy_to_pitzer_order)
    { bas_full_sym := Tab.alloc [s.nirrep_, s.ntot * s.ntot, 2] (-999)
      ibas_full_sym := Tab.alloc [s.nirrep_, s.ntot, s.ntot] (-999)
      gems_full := Tab.alloc [s.nirrep_] 0
      gems_plus_core := Tab.alloc [s.nirrep_] 0 }
  let ifull ← energy_to_pitzer_order.get [ieo]
  let hi ← symmetry_full.get [ifull]
  let _ ← pitzer_offset_full.get [hi]
  loopM 0 jeo
    (fullInner s symmetry_full pitzer_offset_full energy_to_pitzer_order ieo ifull hi) st0

/-- State of the ranking once the ranks below `R` are assigned, as far as the extents go:
every assigned rank holds an index inside the arrays. -/
structure RankIn (N R : Nat) (st : EnergyOrder) : Prop where
  dskip : st.skip.dims = [N]
  de2p : st.energy_to_pitzer_order.dims = [N]
  rng : ∀ r, r < R → ∃ m : Nat, m < N ∧ st.energy_to_pitzer_order.val [(r : Int)] = (m : Int)

/-- State of the three ranking loops of lines 140-225 after `R` iterations in all: the core
loop runs its first `min R nfrzc` iterations, the active loop the next ones up to `nmo`, the
virtual loop the rest. -/
def rankState (s : Input) (R : Nat) : Option EnergyOrder := do
  let st0 : EnergyOrder :=
    ⟨min0, -999, -999, Tab.alloc [s.ntot] 0, Tab.alloc [s.ntot] 0,
      Tab.alloc [s.ntot] 0, Tab.alloc [s.ntot] 0⟩
  let st1 ← loopM 0 (min R s.nfrzc) (rankStep s (corePool s)) st0
  let st2 ← loopM s.nfrzc (min (R - s.nfrzc) s.nmo) (rankStep s (activePool s)) st1
  loopM (s.nmo + s.nfrzc) (min (R - (s.nmo + s.nfrzc)) s.nfrzv) (rankStep s (virtualPool s)) st2

theorem inBounds_one (i : Int) (d : Nat) : inBounds [i] [d] = true ↔ 0 ≤ i ∧ i < d := by
  simp [inBounds]

theorem inBounds_three (a b c : Int) (x y z : Nat) :
    inBounds [a, b, c] [x, y, z] = true ↔
      (0 ≤ a ∧ a < x) ∧ (0 ≤ b ∧ b < y) ∧ (0 ≤ c ∧ c < z) := by
  simp [inBounds, and_assoc]

theorem inBounds_four (a b c e : Int) (x y z w : Nat) :
    inBounds [a, b, c, e] [x, y, z, w] = true ↔
      (0 ≤ a ∧ a < x) ∧ (0 ≤ b ∧ b < y) ∧ (0 ≤ c ∧ c < z) ∧ (0 ≤ e ∧ e < w) := by
  simp [inBounds, and_assoc]

theorem Tab.set_eq_some {t t' : Tab} {ix : List Int} {v : Int} :
    t.set ix v = some t' ↔
      inBounds ix t.dims = true ∧ t' = ⟨t.dims, Function.update t.val ix v⟩ := by
  unfold Tab.set
  by_cases h : inBounds ix t.dims = true
  · simp only [h, if_true, Option.some.injEq, true_and]
    exact eq_comm
  · simp [h]

theorem Tab.get_eq_some {t : Tab} {ix : List Int} {v : Int} :
    t.get ix = some v ↔ inBounds ix t.dims = true ∧ t.val ix = v := by
  unfold Tab.get
  by_cases h : inBounds ix t.dims = true
  · simp [h]
  · simp [h]

theorem Tab.set_dims {t t' : Tab} {ix : List Int} {v : Int} (h : t.set ix v = some t') :
    t'.dims = t.dims := by
  rw [Tab.set_eq_some] at h
  rw [h.2]

theorem Tab.set_val {t t' : Tab} {ix : List Int} {v : Int} (h : t.set ix v = some t') :
    t'.val = Function.update t.val ix v := by
  rw [Tab.set_eq_some] at h
  rw [h.2]

theorem Tab.set_inb {t t' : Tab} {ix : List Int} {v : Int} (h : t.set ix v = some t') :
    inBounds ix t.dims = true := (Tab.set_eq_some.1 h).1

theorem Tab.set_of_inb {t : Tab} {ix : List Int} (v : Int) (h : inBounds ix t.dims = true) :
    t.set ix v = some ⟨t.dims, Function.update t.val ix v⟩ := by
  simp [Tab.set, h]

theorem Tab.get_of_inb {t : Tab} {ix : List Int} (h : inBounds ix t.dims = true) :
    t.get ix = some (t.val ix) := by
  simp [Tab.get, h]

theorem loopM_succ {σ : Type} (lo n : Nat) (f : Nat → σ → Option σ) (s : σ) :
    loopM lo (n + 1) f s = (loopM lo n f s).bind (f (lo + n)) := rfl

theorem loopM_zero {σ : Type} (lo : Nat) (f : Nat → σ → Option σ) (s : σ) :
    loopM lo 0 f s = some s := rfl

/-- Invariant rule for a loop that ran to completion. -/
theorem loopM_inv {σ : Type} (I : Nat → σ → Prop) {lo n : Nat} {f : Nat → σ → Option σ}
    {s s' : σ} (hrun : loopM lo n f s = some s') (h0 : I 0 s)
    (hstep : ∀ k a b, k < n → I k a → f (lo + k) a = some b → I (k + 1) b) : I n s' := by
  induction n generalizing s' with
  | zero =>
    rw [loopM_zero] at hrun
    cases hrun
    exact h0
  | succ n ih =>
    rw [loopM_succ, Option.bind_eq_some] at hrun
    obtain ⟨a, ha, hb⟩ := hrun
    exact hstep n a s' (Nat.lt_succ_self n)
      (ih ha (fun k x y hk => hstep k x y (Nat.lt_succ_of_lt hk))) hb

/-- Invariant rule that also yields completion: every iteration is defined on the states
the invariant allows. -/
theorem loopM_total {σ : Type} (I : Nat → σ → Prop) {lo n : Nat} {f : Nat → σ → Option σ}
    {s : σ} (h0 : I 0 s)
    (hstep : ∀ k a, k < n → I k a → ∃ b, f (lo + k) a = some b ∧ I (k + 1) b) :
    ∃ s', loopM lo n f s = some s' ∧ I n s' := by
  induction n with
  | zero => exact ⟨s, rfl, h0⟩
  | succ n ih =>
    obtain ⟨a, ha, hI⟩ := ih (fun k x hk => hstep k x (Nat.lt_succ_of_lt hk))
    obtain ⟨b, hb, hI'⟩ := hstep n a (Nat.lt_succ_self n) hI
    exact ⟨b, by rw [loopM_succ, ha]; exact hb, hI'⟩

theorem pairListInner_eq_some {symm : Tab} {mk : Nat → Nat → Int × Int} {h i j : Nat}
    {l l' : List (Int × Int)} (hrun : pairListInner symm mk h i j l = some l') :
    (pairLabel symm i j).isSome = true ∧
      l' = l ++ (if pairLabel symm i j = some (h : Int) then [mk i j] else []) := by
  simp only [pairListInner, bind, Option.bind_eq_some, pure, Option.some.injEq] at hrun
  obtain ⟨si, hsi, sj, hsj, p, hp, rfl⟩ := hrun
  have hl : pairLabel symm i j = some p := by
    simp [pairLabel, hsi, hsj, hp]
  rw [hl]
  refine ⟨rfl, ?_⟩
  by_cases hhp : (h : Int) = p
  · simp [hhp]
  · have : ¬ p = (h : Int) := fun e => hhp e.symm
    simp [hhp, this]

theorem pairList_inner_loop {symm : Tab} {mk : Nat → Nat → Int × Int} {h i m : Nat}
    {l l' : List (Int × Int)} (hrun : loopM 0 m (pairListInner symm mk h i) l = some l') :
    (∀ j, j < m → (pairLabel symm i j).isSome = true) ∧
      l' = l ++ ((List.range m).filter fun j => pairLabel symm i j = some (h : Int)).map (mk i) := by
  refine loopM_inv
    (fun k x => (∀ j, j < k → (pairLabel symm i j).isSome = true) ∧
      x = l ++ ((List.range k).filter fun j => pairLabel symm i j = some (h : Int)).map (mk i))
    hrun ⟨fun j hj => absurd hj (Nat.not_lt_zero j), by simp⟩ ?_
  intro k a b _ hI hstep
  rw [Nat.zero_add] at hstep
  obtain ⟨hd, hb⟩ := pairListInner_eq_some hstep
  refine ⟨fun j hj => ?_, ?_⟩
  · rcases Nat.lt_succ_iff_lt_or_eq.1 hj with h1 | h1
    · exact hI.1 j h1
    · rw [h1]; exact hd
  · rw [hb, hI.2, List.range_succ, List.filter_append, List.map_append, List.append_assoc]
    congr 1
    by_cases hp : pairLabel symm i k = some (h : Int)
    · simp [hp]
    · simp [hp]

theorem pairList_eq_some {symm : Tab} {n : Nat} {inner : Nat → Nat}
    {mk : Nat → Nat → Int × Int} {h : Nat} {l : List (Int × Int)}
    (hrun : pairList symm n inner mk h = some l) :
    (∀ i j, i < n → j < inner i → (pairLabel symm i j).isSome = true) ∧
      l = pairSpec symm n inner mk h := by
  unfold pairList at hrun
  refine loopM_inv
    (fun k x => (∀ i j, i < k → j < inner i → (pairLabel symm i j).isSome = true) ∧
      x = pairSpec symm k inner mk h)
    hrun ⟨fun i j hi => absurd hi (Nat.not_lt_zero i), by simp [pairSpec]⟩ ?_
  intro k a b _ hI hstep
  rw [Nat.zero_add] at hstep
  obtain ⟨hd, hb⟩ := pairList_inner_loop hstep
  refine ⟨fun i j hi hj => ?_, ?_⟩
  · rcases Nat.lt_succ_iff_lt_or_eq.1 hi with h1 | h1
    · exact hI.1 i j h1 hj
    · subst h1; exact hd j hj
  · rw [hb, hI.2]
    simp [pairSpec, List.range_succ]

theorem pushPairLists_eq_some {symm : Tab} {nirrep n : Nat} {inner : Nat → Nat}
    {mk : Nat → Nat → Int × Int} {gems g : List (List (Int × Int))}
    (hrun : pushPairLists symm nirrep n inner mk gems = some g) :
    (∀ h i j, h < nirrep → i < n → j < inner i → (pairLabel symm i j).isSome = true) ∧
      g = gems ++ (List.range nirrep).map (pairSpec symm n inner mk) := by
  unfold pushPairLists at hrun
  refine loopM_inv
    (fun k x => (∀ h i j, h < k → i < n → j < inner i → (pairLabel symm i j).isSome = true) ∧
      x = gems ++ (List.range k).map (pairSpec symm n inner mk))
    hrun ⟨fun h i j hh => absurd hh (Nat.not_lt_zero h), by simp⟩ ?_
  intro k a b _ hI hstep
  rw [Nat.zero_add, Option.map_eq_some'] at hstep
  obtain ⟨l, hl, rfl⟩ := hstep
  obtain ⟨hd, rfl⟩ := pairList_eq_some hl
  refine ⟨fun h i j _ hi hj => hd i j hi hj, ?_⟩
  rw [hI.2, List.range_succ, List.map_append, List.append_assoc]
  rfl

theorem pushPairLists_getElem? {symm : Tab} {nirrep n : Nat} {inner : Nat → Nat}
    {mk : Nat → Nat → Int × Int} {g : List (List (Int × Int))}
    (hrun : pushPairLists symm nirrep n inner mk [] = some g) {h : Nat} (hh : h < nirrep) :
    g[h]? = some (pairSpec symm n inner mk h) := by
  obtain ⟨_, rfl⟩ := pushPairLists_eq_some hrun
  simp [List.getElem?_map, List.getElem?_range hh]

theorem SecInv.nil {α : Type} (h : Nat) (cells : α → List (List Int)) (row : α → List Int)
    (x0 : Sector) (h0 : x0.count = 0) : SecInv h cells row [] x0 x0 where
  count := by simp [h0]
  idims := rfl
  bdims := rfl
  inb := by simp
  rinb := by simp
  bval := by simp
  bframe := fun _ _ => rfl
  iframe := fun _ _ => rfl
  ival := by simp

theorem SecInv.snoc {α : Type} {h : Nat} {cells : α → List (List Int)} {row : α → List Int}
    {L : List α} {x0 x x' : Sector} {a : α} (hI : SecInv h cells row L x0 x)
    (hw : WriteSpec h (cells a) (row a) x x') : SecInv h cells row (L ++ [a]) x0 x' where
  count := by rw [hw.count, hI.count]; simp
  idims := by rw [hw.idims, hI.idims]
  bdims := by rw [hw.bdims, hI.bdims]
  inb := by
    intro b hb c hc
    rcases List.mem_append.1 hb with hb | hb
    · exact hI.inb b hb c hc
    · rw [List.mem_singleton] at hb
      subst hb
      rw [← hI.idims]
      exact hw.inb c hc
  rinb := by
    intro m b hb k hk
    rcases Nat.lt_or_ge m L.length with hm | hm
    · rw [List.getElem?_append_left hm] at hb
      exact hI.rinb m b hb k hk
    · rw [List.getElem?_append_right hm] at hb
      have hm0 : m - L.length = 0 := by
        by_contra hne
        have : 1 ≤ m - L.length := Nat.one_le_iff_ne_zero.2 hne
        rw [List.getElem?_eq_none (by simpa using this)] at hb
        cases hb
      rw [hm0] at hb
      simp only [List.getElem?_cons_zero, Option.some.injEq] at hb
      subst hb
      have hmL : m = L.length := by omega
      rw [← hI.bdims, hmL, ← Int.ofNat_eq_coe, Int.ofNat_eq_coe, ← hI.count]
      exact hw.rinb k hk
  bval := by
    intro m b hb k hk
    rcases Nat.lt_or_ge m L.length with hm | hm
    · rw [List.getElem?_append_left hm] at hb
      rw [hw.bold, hI.bval m b hb k hk]
      intro k' he
      simp only [List.cons.injEq, and_true, true_and] at he
      rw [hI.count] at he
      have := he.1
      omega
    · rw [List.getElem?_append_right hm] at hb
      have hm0 : m - L.length = 0 := by
        by_contra hne
        have : 1 ≤ m - L.length := Nat.one_le_iff_ne_zero.2 hne
        rw [List.getElem?_eq_none (by simpa using this)] at hb
        cases hb
      rw [hm0] at hb
      simp only [List.getElem?_cons_zero, Option.some.injEq] at hb
      subst hb
      have hmL : m = L.length := by omega
      rw [hmL, ← hI.count]
      exact hw.bnew k hk
  bframe := by
    intro ix hix
    rw [hw.bold, hI.bframe]
    · intro m k hm
      exact hix m k (by simp; omega)
    · intro k he
      rw [hI.count] at he
      exact hix L.length k (by simp) he
  iframe := by
    intro ix hix
    rw [hw.ival, if_neg (hix a (by simp)), hI.iframe]
    intro b hb
    exact hix b (List.mem_append_left _ hb)
  ival := by
    intro m b hb ix hc hlater
    rcases Nat.lt_or_ge m L.length with hm | hm
    · rw [List.getElem?_append_left hm] at hb
      have hna : ix ∉ cells a :=
        hlater L.length a hm (by simp)
      rw [hw.ival, if_neg hna]
      refine hI.ival m b hb ix hc (fun m' b' hmm hb' => ?_)
      have hm' : m' < L.length := by
        by_contra hge
        rw [List.getElem?_eq_none (by omega)] at hb'
        cases hb'
      exact hlater m' b' hmm (by rw [List.getElem?_append_left hm']; exact hb')
    · rw [List.getElem?_append_right hm] at hb
      have hm0 : m - L.length = 0 := by
        by_contra hne
        have : 1 ≤ m - L.length := Nat.one_le_iff_ne_zero.2 hne
        rw [List.getElem?_eq_none (by simpa using this)] at hb
        cases hb
      rw [hm0] at hb
      simp only [List.getElem?_cons_zero, Option.some.injEq] at hb
      subst hb
      have hmL : m = L.length := by omega
      rw [hw.ival, if_pos hc, hI.count, hmL]

theorem foldl_update_apply (cs : List (List Int)) (v : Int) (f : List Int → Int) (ix : List Int) :
    (cs.foldl (fun g c => Function.update g c v) f) ix = if ix ∈ cs then v else f ix := by
  induction cs generalizing f with
  | nil => simp
  | cons c cs ih =>
    rw [List.foldl_cons, ih]
    by_cases h1 : ix ∈ cs
    · simp [h1]
    · by_cases h2 : ix = c
      · subst h2
        simp [h1]
      · simp [h1, h2, Function.update_noteq h2]

theorem writeSym_spec {h : Nat} {i j : Int} {x x' : Sector} (hrun : writeSym h i j x = some x') :
    WriteSpec h [[(h : Int), i, j], [(h : Int), j, i]] [i, j] x x' := by
  simp only [writeSym, bind, Option.bind_eq_some, pure, Option.some.injEq] at hrun
  obtain ⟨a1, h1, a2, h2, b1, h3, b2, h4, rfl⟩ := hrun
  have d1 := Tab.set_dims h1
  have d2 := Tab.set_dims h2
  have d3 := Tab.set_dims h3
  have d4 := Tab.set_dims h4
  have v1 := Tab.set_val h1
  have v2 := Tab.set_val h2
  have v3 := Tab.set_val h3
  have v4 := Tab.set_val h4
  refine ⟨rfl, by simp [d1, d2], by simp [d3, d4], ?_, ?_, ?_, ?_, ?_⟩
  · intro c hc
    simp only [List.mem_cons, List.mem_singleton, List.not_mem_nil, or_false] at hc
    rcases hc with rfl | rfl
    · exact Tab.set_inb h1
    · rw [← d1]; exact Tab.set_inb h2
  · intro k hk
    simp only [List.length_cons, List.length_nil] at hk
    have : k = 0 ∨ k = 1 := by omega
    rcases this with rfl | rfl
    · exact Tab.set_inb h3
    · rw [← d3]; exact Tab.set_inb h4
  · intro ix
    show a2.val ix = _
    rw [v2, v1]
    exact foldl_update_apply [[(h : Int), i, j], [(h : Int), j, i]] x.count x.ibas.val ix
  · intro k hk
    simp only [List.length_cons, List.length_nil] at hk
    have : k = 0 ∨ k = 1 := by omega
    show b2.val _ = _
    rw [v4, v3]
    rcases this with rfl | rfl
    · simp [Function.update_apply]
    · simp [Function.update_apply]
  · intro ix hix
    show b2.val ix = _
    have hx0 : ix ≠ [(h : Int), x.count, 0] := by simpa using hix 0
    have hx1 : ix ≠ [(h : Int), x.count, 1] := by simpa using hix 1
    rw [v4, v3, Function.update_noteq hx1, Function.update_noteq hx0]

theorem writeAB_spec {h n : Nat} {i j : Int} {x x' : Sector} (hrun : writeAB h n i j x = some x')
    (hn : x.count = (n : Int)) : WriteSpec h [[(h : Int), i, j]] [i, j] x x' := by
  simp only [writeAB, bind, Option.bind_eq_some, pure, Option.some.injEq] at hrun
  obtain ⟨a1, h1, b1, h3, b2, h4, rfl⟩ := hrun
  rw [← hn] at h1 h3 h4
  have d1 := Tab.set_dims h1
  have d3 := Tab.set_dims h3
  have d4 := Tab.set_dims h4
  have v1 := Tab.set_val h1
  have v3 := Tab.set_val h3
  have v4 := Tab.set_val h4
  refine ⟨rfl, by simp [d1], by simp [d3, d4], ?_, ?_, ?_, ?_, ?_⟩
  · intro c hc
    simp only [List.mem_cons, List.mem_singleton, List.not_mem_nil, or_false] at hc
    subst hc
    exact Tab.set_inb h1
  · intro k hk
    simp only [List.length_cons, List.length_nil] at hk
    have : k = 0 ∨ k = 1 := by omega
    rcases this with rfl | rfl
    · exact Tab.set_inb h3
    · rw [← d3]; exact Tab.set_inb h4
  · intro ix
    show a1.val ix = _
    rw [v1]
    exact foldl_update_apply [[(h : Int), i, j]] x.count x.ibas.val ix
  · intro k hk
    simp only [List.length_cons, List.length_nil] at hk
    have : k = 0 ∨ k = 1 := by omega
    show b2.val _ = _
    rw [v4, v3]
    rcases this with rfl | rfl
    · simp [Function.update_apply]
    · simp [Function.update_apply]
  · intro ix hix
    show b2.val ix = _
    have hx0 : ix ≠ [(h : Int), x.count, 0] := by simpa using hix 0
    have hx1 : ix ≠ [(h : Int), x.count, 1] := by simpa using hix 1
    rw [v4, v3, Function.update_noteq hx1, Function.update_noteq hx0]

theorem writeABA_spec {h : Nat} {i j k : Int} {x x' : Sector}
    (hrun : writeABA h i j k x = some x') :
    WriteSpec h [[(h : Int), i, j, k]] [i, j, k] x x' := by
  simp only [writeABA, bind, Option.bind_eq_some, pure, Option.some.injEq] at hrun
  obtain ⟨a1, h1, b1, h3, b2, h4, b3, h5, rfl⟩ := hrun
  have d1 := Tab.set_dims h1
  have d3 := Tab.set_dims h3
  have d4 := Tab.set_dims h4
  have d5 := Tab.set_dims h5
  have v1 := Tab.set_val h1
  have v3 := Tab.set_val h3
  have v4 := Tab.set_val h4
  have v5 := Tab.set_val h5
  refine ⟨rfl, by simp [d1], by simp [d3, d4, d5], ?_, ?_, ?_, ?_, ?_⟩
  · intro c hc
    simp only [List.mem_cons, List.mem_singleton, List.not_mem_nil, or_false] at hc
    subst hc
    exact Tab.set_inb h1
  · intro m hm
    simp only [List.length_cons, List.length_nil] at hm
    have : m = 0 ∨ m = 1 ∨ m = 2 := by omega
    rcases this with rfl | rfl | rfl
    · exact Tab.set_inb h3
    · rw [← d3]; exact Tab.set_inb h4
    · rw [← d3, ← d4]; exact Tab.set_inb h5
  · intro ix
    show a1.val ix = _
    rw [v1]
    exact foldl_update_apply [[(h : Int), i, j, k]] x.count x.ibas.val ix
  · intro m hm
    simp only [List.length_cons, List.length_nil] at hm
    have : m = 0 ∨ m = 1 ∨ m = 2 := by omega
    show b3.val _ = _
    rw [v5, v4, v3]
    rcases this with rfl | rfl | rfl
    · simp [Function.update_apply]
    · simp [Function.update_apply]
    · simp [Function.update_apply]
  · intro ix hix
    show b3.val ix = _
    have hx0 : ix ≠ [(h : Int), x.count, 0] := by simpa using hix 0
    have hx1 : ix ≠ [(h : Int), x.count, 1] := by simpa using hix 1
    have hx2 : ix ≠ [(h : Int), x.count, 2] := by simpa using hix 2
    rw [v5, v4, v3, Function.update_noteq hx2, Function.update_noteq hx1,
      Function.update_noteq hx0]

theorem writeAAB_spec {h : Nat} {i j k : Int} {x x' : Sector}
    (hrun : writeAAB h i j k x = some x') :
    WriteSpec h [[(h : Int), i, j, k], [(h : Int), j, i, k]] [i, j, k] x x' := by
  simp only [writeAAB, bind, Option.bind_eq_some, pure, Option.some.injEq] at hrun
  obtain ⟨a1, h1, a2, h2, b1, h3, b2, h4, b3, h5, rfl⟩ := hrun
  have d1 := Tab.set_dims h1
  have d2 := Tab.set_dims h2
  have d3 := Tab.set_dims h3
  have d4 := Tab.set_dims h4
  have d5 := Tab.set_dims h5
  have v1 := Tab.set_val h1
  have v2 := Tab.set_val h2
  have v3 := Tab.set_val h3
  have v4 := Tab.set_val h4
  have v5 := Tab.set_val h5
  refine ⟨rfl, by simp [d1, d2], by simp [d3, d4, d5], ?_, ?_, ?_, ?_, ?_⟩
  · intro c hc
    simp only [List.mem_cons, List.mem_singleton, List.not_mem_nil, or_false] at hc
    rcases hc with rfl | rfl
    · exact Tab.set_inb h1
    · rw [← d1]; exact Tab.set_inb h2
  · intro m hm
    simp only [List.length_cons, List.length_nil] at hm
    have : m = 0 ∨ m = 1 ∨ m = 2 := by omega
    rcases this with rfl | rfl | rfl
    · exact Tab.set_inb h3
    · rw [← d3]; exact Tab.set_inb h4
    · rw [← d3, ← d4]; exact Tab.set_inb h5
  · intro ix
    show a2.val ix = _
    rw [v2, v1]
    exact foldl_update_apply [[(h : Int), i, j, k], [(h : Int), j, i, k]] x.count x.ibas.val ix
  · intro m hm
    simp only [List.length_cons, List.length_nil] at hm
    have : m = 0 ∨ m = 1 ∨ m = 2 := by omega
    show b3.val _ = _
    rw [v5, v4, v3]
    rcases this with rfl | rfl | rfl
    · simp [Function.update_apply]
    · simp [Function.update_apply]
    · simp [Function.update_apply]
  · intro ix hix
    show b3.val ix = _
    have hx0 : ix ≠ [(h : Int), x.count, 0] := by simpa using hix 0
    have hx1 : ix ≠ [(h : Int), x.count, 1] := by simpa using hix 1
    have hx2 : ix ≠ [(h : Int), x.count, 2] := by simpa using hix 2
    rw [v5, v4, v3, Function.update_noteq hx2, Function.update_noteq hx1,
      Function.update_noteq hx0]

theorem writeAAA_spec {h : Nat} {i j k : Int} {x x' : Sector}
    (hrun : writeAAA h i j k x = some x') :
    WriteSpec h [[(h : Int), i, j, k], [(h : Int), i, k, j], [(h : Int), j, i, k],
      [(h : Int), j, k, i], [(h : Int), k, i, j], [(h : Int), k, j, i]] [i, j, k] x x' := by
  simp only [writeAAA, bind, Option.bind_eq_some, pure, Option.some.injEq] at hrun
  obtain ⟨a1, h1, a2, h2, a3, g3, a4, g4, a5, g5, a6, g6, b1, h3, b2, h4, b3, h5, rfl⟩ := hrun
  have d1 := Tab.set_dims h1
  have d2 := Tab.set_dims h2
  have e3 := Tab.set_dims g3
  have e4 := Tab.set_dims g4
  have e5 := Tab.set_dims g5
  have e6 := Tab.set_dims g6
  have d3 := Tab.set_dims h3
  have d4 := Tab.set_dims h4
  have d5 := Tab.set_dims h5
  have v1 := Tab.set_val h1
  have v2 := Tab.set_val h2
  have w3 := Tab.set_val g3
  have w4 := Tab.set_val g4
  have w5 := Tab.set_val g5
  have w6 := Tab.set_val g6
  have v3 := Tab.set_val h3
  have v4 := Tab.set_val h4
  have v5 := Tab.set_val h5
  refine ⟨rfl, by simp [d1, d2, e3, e4, e5, e6], by simp [d3, d4, d5], ?_, ?_, ?_, ?_, ?_⟩
  · intro c hc
    simp only [List.mem_cons, List.mem_singleton, List.not_mem_nil, or_false] at hc
    rcases hc with rfl | rfl | rfl | rfl | rfl | rfl
    · exact Tab.set_inb h1
    · rw [← d1]; exact Tab.set_inb h2
    · rw [← d1, ← d2]; exact Tab.set_inb g3
    · rw [← d1, ← d2, ← e3]; exact Tab.set_inb g4
    · rw [← d1, ← d2, ← e3, ← e4]; exact Tab.set_inb g5
    · rw [← d1, ← d2, ← e3, ← e4, ← e5]; exact Tab.set_inb g6
  · intro m hm
    simp only [List.length_cons, List.length_nil] at hm
    have : m = 0 ∨ m = 1 ∨ m = 2 := by omega
    rcases this with rfl | rfl | rfl
    · exact Tab.set_inb h3
    · rw [← d3]; exact Tab.set_inb h4
    · rw [← d3, ← d4]; exact Tab.set_inb h5
  · intro ix
    show a6.val ix = _
    rw [w6, w5, w4, w3, v2, v1]
    exact foldl_update_apply [[(h : Int), i, j, k], [(h : Int), i, k, j], [(h : Int), j, i, k],
      [(h : Int), j, k, i], [(h : Int), k, i, j], [(h : Int), k, j, i]] x.count x.ibas.val ix
  · intro m hm
    simp only [List.length_cons, List.length_nil] at hm
    have : m = 0 ∨ m = 1 ∨ m = 2 := by omega
    show b3.val _ = _
    rw [v5, v4, v3]
    rcases this with rfl | rfl | rfl
    · simp [Function.update_apply]
    · simp [Function.update_apply]
    · simp [Function.update_apply]
  · intro ix hix
    show b3.val ix = _
    have hx0 : ix ≠ [(h : Int), x.count, 0] := by simpa using hix 0
    have hx1 : ix ≠ [(h : Int), x.count, 1] := by simpa using hix 1
    have hx2 : ix ≠ [(h : Int), x.count, 2] := by simpa using hix 2
    rw [v5, v4, v3, Function.update_noteq hx2, Function.update_noteq hx1,
      Function.update_noteq hx0]

theorem SectorBlocks.zero {α : Type} (cells : Nat → α → List (List Int))
    (row : α → List Int) (L : Nat → List α) (bd idm : List Nat) :
    SectorBlocks cells row L 0 (Sector.alloc bd idm) where
  done := fun h hh => absurd hh (Nat.not_lt_zero h)
  rest := fun _ _ => rfl

theorem SectorBlocks.succ {α : Type} {cells : Nat → α → List (List Int)}
    {row : α → List Int} {L : Nat → List α} {H : Nat} {x x' : Sector}
    (hcell : ∀ h a c, c ∈ cells h a → c.head? = some (h : Int))
    (hI : SectorBlocks cells row L H x)
    (hs : SecInv H (cells H) row (L H) x.reset x') :
    SectorBlocks cells row L (H + 1) x' where
  done := by
    intro h hh
    rcases Nat.lt_succ_iff_lt_or_eq.1 hh with h1 | h1
    · have hb := hI.done h h1
      have hne : (h : Int) ≠ (H : Int) := by
        intro e
        have : h = H := by exact_mod_cast e
        omega
      have hfr : ∀ ix, ix.head? = some (h : Int) → x'.ibas.val ix = x.ibas.val ix := by
        intro ix hix
        refine hs.iframe ix (fun a _ hc => ?_)
        have := hcell H a ix hc
        rw [hix] at this
        exact hne (Option.some.inj this)
      refine ⟨?_, ?_, ?_, ?_, ?_⟩
      · intro a ha c hc
        rw [hs.idims]
        exact hb.inb a ha c hc
      · intro m a ha k hk
        rw [hs.bdims]
        exact hb.rinb m a ha k hk
      · intro m a ha k hk
        rw [hs.bframe, ← hb.bval m a ha k hk]
        · rfl
        · intro m' k' _ he
          simp only [List.cons.injEq, and_true, true_and] at he
          exact hne he.1
      · intro ix hix hfree
        rw [hfr ix hix]
        exact hb.ifree ix hix hfree
      · intro m a ha ix hc hl
        rw [hfr ix (hcell h a ix hc)]
        exact hb.ival m a ha ix hc hl
    · subst h1
      refine ⟨?_, ?_, ?_, ?_, ?_⟩
      · intro a ha c hc
        rw [hs.idims]
        exact hs.inb a ha c hc
      · intro m a ha k hk
        rw [hs.bdims]
        exact hs.rinb m a ha k hk
      · exact hs.bval
      · intro ix hix hfree
        rw [hs.iframe ix hfree]
        refine hI.rest ix (fun g hg e => ?_)
        rw [hix] at e
        have : h = g := by exact_mod_cast Option.some.inj e
        omega
      · exact hs.ival
  rest := by
    intro ix hix
    rw [hs.iframe]
    · exact hI.rest ix (fun h hh => hix h (Nat.lt_succ_of_lt hh))
    · intro a _ hc
      exact hix H (Nat.lt_succ_self H) (hcell H a ix hc)

theorem mapPairAt_step {h : Nat} {g : List (Int × Int)} {st0 st st' : PairTables} {k : Nat}
    (hI : PairInv h g st0 k st) (hrun : mapPairAt g h k st = some st') :
    PairInv h g st0 (k + 1) st' := by
  simp only [mapPairAt, bind, Option.bind_eq_some] at hrun
  obtain ⟨p, hp, hrun⟩ := hrun
  have htake : g.take (k + 1) = g.take k ++ [p] := by
    rw [List.take_succ, hp]; rfl
  have hcount : st.ab.count = (k : Int) := by
    rw [hI.ab.count, List.length_take]
    have : k < g.length := by
      by_contra hge
      rw [List.getElem?_eq_none (by omega)] at hp
      cases hp
    rw [Nat.min_eq_left (Nat.le_of_lt this)]
  simp only [mapPair, bind, Option.bind_eq_some, pure] at hrun
  obtain ⟨ab, hab, hrun⟩ := hrun
  have hab' := hI.ab.snoc (a := p) (writeAB_spec hab hcount)
  rw [← htake] at hab'
  by_cases h1 : p.1 < p.2
  · rw [if_pos h1] at hrun
    cases hrun
    have k0 : keep00 p = false := by simp [keep00, h1]
    have ka : keepAA p = false := by simp [keepAA]; omega
    refine ⟨hab', ?_, ?_, hI.gab, hI.gaa, hI.g00⟩
    · rw [htake, List.filter_append]; simpa [k0] using hI.s00
    · rw [htake, List.filter_append]; simpa [ka] using hI.aa
  · rw [if_neg h1] at hrun
    simp only [Option.bind_eq_some] at hrun
    obtain ⟨s00, hs00, hrun⟩ := hrun
    have k0 : keep00 p = true := by simp [keep00]; omega
    have hs00' := hI.s00.snoc (a := p) (writeSym_spec hs00)
    by_cases h2 : p.1 ≤ p.2
    · rw [if_pos h2] at hrun
      cases hrun
      have ka : keepAA p = false := by simp [keepAA]; omega
      refine ⟨hab', ?_, ?_, hI.gab, hI.gaa, hI.g00⟩
      · rw [htake, List.filter_append]; simpa [k0] using hs00'
      · rw [htake, List.filter_append]; simpa [ka] using hI.aa
    · rw [if_neg h2] at hrun
      simp only [Option.bind_eq_some] at hrun
      obtain ⟨aa, haa, hrun⟩ := hrun
      cases hrun
      have ka : keepAA p = true := by simp [keepAA]; omega
      have haa' := hI.aa.snoc (a := p) (writeSym_spec haa)
      refine ⟨hab', ?_, ?_, hI.gab, hI.gaa, hI.g00⟩
      · rw [htake, List.filter_append]; simpa [k0] using hs00'
      · rw [htake, List.filter_append]; simpa [ka] using haa'

theorem mapBlock_spec {gems : List (List (Int × Int))} {h : Nat} {st st' : PairTables}
    (hrun : mapBlock gems h st = some st') :
    ∃ g, gems[h]? = some g ∧
      SecInv h (cellsAB h) rowPair g st.ab.reset st'.ab ∧
      SecInv h (cellsSym h) rowPair (g.filter keep00) st.s00.reset st'.s00 ∧
      SecInv h (cellsSym h) rowPair (g.filter keepAA) st.aa.reset st'.aa ∧
      st.gems_ab.set [(h : Int)] (g.length : Int) = some st'.gems_ab ∧
      st.gems_00.set [(h : Int)] ((g.filter keep00).length : Int) = some st'.gems_00 ∧
      st.gems_aa.set [(h : Int)] ((g.filter keepAA).length : Int) = some st'.gems_aa := by
  simp only [mapBlock, bind, Option.bind_eq_some, pure, Option.some.injEq] at hrun
  obtain ⟨g, hg, st1, hloop, gab, hgab, gaa, hgaa, g00, hg00, rfl⟩ := hrun
  have hI : PairInv h g st g.length st1 := by
    refine loopM_inv (PairInv h g st) hloop ?_ ?_
    · refine ⟨?_, ?_, ?_, rfl, rfl, rfl⟩
      · simpa using SecInv.nil h (cellsAB h) rowPair st.ab.reset rfl
      · simpa using SecInv.nil h (cellsSym h) rowPair st.s00.reset rfl
      · simpa using SecInv.nil h (cellsSym h) rowPair st.aa.reset rfl
    · intro k a b _ hIk hstep
      rw [Nat.zero_add] at hstep
      exact mapPairAt_step hIk hstep
  have hab := hI.ab
  have h00 := hI.s00
  have haa := hI.aa
  rw [List.take_length] at hab h00 haa
  refine ⟨g, hg, hab, h00, haa, ?_, ?_, ?_⟩
  · rw [← hI.gab, ← hab.count]; exact hgab
  · rw [← hI.g00, ← h00.count]; exact hg00
  · rw [← hI.gaa, ← haa.count]; exact hgaa

theorem cellsAB_head (h : Nat) (a : Int × Int) (c : List Int) (hc : c ∈ cellsAB h a) :
    c.head? = some (h : Int) := by
  simp only [cellsAB, List.mem_singleton] at hc
  subst hc; rfl

theorem cellsSym_head (h : Nat) (a : Int × Int) (c : List Int) (hc : c ∈ cellsSym h a) :
    c.head? = some (h : Int) := by
  simp only [cellsSym, List.mem_cons, List.mem_singleton, List.not_mem_nil, or_false] at hc
  rcases hc with rfl | rfl <;> rfl

/-- With pairwise distinct items whose cells do not overlap, every cell of an item holds the
position of the item. -/
theorem BlockOK.ival_of_disjoint {α : Type} {h : Nat} {cells : α → List (List Int)}
    {row : α → List Int} {L : List α} {x : Sector} (hb : BlockOK h cells row L x)
    (hnd : L.Nodup)
    (hdis : ∀ a b ix, a ∈ L → b ∈ L → ix ∈ cells a → ix ∈ cells b → a = b)
    {m : Nat} {a : α} (ha : L[m]? = some a) {ix : List Int} (hix : ix ∈ cells a) :
    x.ibas.val ix = m := by
  refine hb.ival m a ha ix hix (fun m' b hmm hb' hc => ?_)
  have hab : a = b :=
    hdis a b ix (List.mem_iff_getElem?.2 ⟨m, ha⟩) (List.mem_iff_getElem?.2 ⟨m', hb'⟩) hix hc
  subst hab
  obtain ⟨h1, e1⟩ := List.getElem?_eq_some.1 ha
  obtain ⟨h2, e2⟩ := List.getElem?_eq_some.1 hb'
  have := (@List.Nodup.getElem_inj_iff _ _ hnd _ h1 _ h2).1 (e1.trans e2.symm)
  omega

theorem set_val_lt {t t' : Tab} {H : Nat} {v : Int} (hset : t.set [(H : Int)] v = some t')
    {P : Nat → Int} (hold : ∀ h, h < H → t.val [(h : Int)] = P h) (hv : v = P H) :
    ∀ h, h < H + 1 → t'.val [(h : Int)] = P h := by
  intro h hh
  rw [Tab.set_val hset]
  rcases Nat.lt_succ_iff_lt_or_eq.1 hh with h1 | h1
  · rw [Function.update_noteq, hold h h1]
    intro e
    simp only [List.cons.injEq, and_true] at e
    have : h = H := by exact_mod_cast e
    omega
  · subst h1
    rw [Function.update_same, hv]

theorem activeMappings_spec {s : Input} {gems : List (List (Int × Int))} {pt : PairTables}
    (hrun : activeMappings s gems = some pt) (G : Nat → List (Int × Int))
    (hG : ∀ h, h < s.nirrep_ → gems[h]? = some (G h)) : ActiveInv s G s.nirrep_ pt := by
  unfold activeMappings at hrun
  refine loopM_inv (ActiveInv s G) hrun ?_ ?_
  · exact ⟨SectorBlocks.zero _ _ _ _ _, SectorBlocks.zero _ _ _ _ _, SectorBlocks.zero _ _ _ _ _,
      fun h hh => absurd hh (Nat.not_lt_zero h), fun h hh => absurd hh (Nat.not_lt_zero h),
      fun h hh => absurd hh (Nat.not_lt_zero h), ⟨rfl, rfl⟩, ⟨rfl, rfl⟩, ⟨rfl, rfl⟩,
      ⟨rfl, rfl, rfl⟩⟩
  · intro H a b hH hI hstep
    rw [Nat.zero_add] at hstep
    obtain ⟨g, hg, sab, s00, saa, hgab, hg00, hgaa⟩ := mapBlock_spec hstep
    rw [hG H hH] at hg
    cases hg
    refine ⟨hI.ab.succ cellsAB_head sab, hI.s00.succ cellsSym_head s00,
      hI.aa.succ cellsSym_head saa, set_val_lt hgab hI.gab rfl, set_val_lt hg00 hI.g00 rfl,
      set_val_lt hgaa hI.gaa rfl, ?_, ?_, ?_, ?_⟩
    · exact ⟨by rw [sab.idims]; exact hI.dab.1, by rw [sab.bdims]; exact hI.dab.2⟩
    · exact ⟨by rw [s00.idims]; exact hI.d00.1, by rw [s00.bdims]; exact hI.d00.2⟩
    · exact ⟨by rw [saa.idims]; exact hI.daa.1, by rw [saa.bdims]; exact hI.daa.2⟩
    · exact ⟨by rw [Tab.set_dims hgab]; exact hI.dg.1,
        by rw [Tab.set_dims hg00]; exact hI.dg.2.1,
        by rw [Tab.set_dims hgaa]; exact hI.dg.2.2⟩

theorem BuildBasis_run {s : Input} {v : Solver} (hrun : BuildBasis (Solver.init s) = some v) :
    Run s v := by
  simp only [BuildBasis, bind, Option.bind_eq_some, pure, Option.some.injEq] at hrun
  obtain ⟨lb, hlb, eo, heo, off, hoff, ls, hls, pf, hpf, tr, htr, rfl⟩ := hrun
  simp only [buildPairs, bind, Option.bind_eq_some, pure, Option.some.injEq] at hpf
  obtain ⟨pt, hpt, ft, hft, rfl⟩ := hpf
  exact ⟨rfl, hlb, heo, hoff, hls, hpt, hft, htr⟩

theorem Run.gems {s : Input} {v : Solver} (hr : Run s v) :
    pushGems s v.labels.symmetry [] = some v.lists.gems := by
  have h := hr.ls
  simp only [buildLists, bind, Option.bind_eq_some, pure, Option.some.injEq] at h
  obtain ⟨g, hg, gf, _, gpc, _, e⟩ := h
  rw [← e]
  exact hg

theorem Run.gems_getElem? {s : Input} {v : Solver} (hr : Run s v) {h : Nat}
    (hh : h < s.nirrep_) : v.lists.gems[h]? = some (gemsSpec s v.labels.symmetry h) :=
  pushPairLists_getElem? hr.gems hh

theorem Run.pairLabel_isSome {s : Input} {v : Solver} (hr : Run s v) {h : Nat}
    (hh : h < s.nirrep_) {i j : Nat} (hi : i < s.nmo) (hj : j < s.nmo) :
    (pairLabel v.labels.symmetry i j).isSome = true :=
  (pushPairLists_eq_some hr.gems).1 h i j hh hi hj

theorem Run.active {s : Input} {v : Solver} (hr : Run s v) :
    ActiveInv s (gemsSpec s v.labels.symmetry) s.nirrep_ v.pairs :=
  activeMappings_spec hr.pt _ (fun _ hh => hr.gems_getElem? hh)

theorem mem_pairSpec {symm : Tab} {n : Nat} {inner : Nat → Nat} {mk : Nat → Nat → Int × Int}
    {h : Nat} {p : Int × Int} :
    p ∈ pairSpec symm n inner mk h ↔
      ∃ i j, i < n ∧ j < inner i ∧ pairLabel symm i j = some (h : Int) ∧ mk i j = p := by
  simp only [pairSpec, List.mem_flatMap, List.mem_range, List.mem_map, List.mem_filter,
    decide_eq_true_eq]
  constructor
  · rintro ⟨i, hi, j, ⟨hj, hl⟩, e⟩
    exact ⟨i, j, hi, hj, hl, e⟩
  · rintro ⟨i, j, hi, hj, hl, e⟩
    exact ⟨i, hi, j, ⟨hj, hl⟩, e⟩

theorem nodup_pairSpec {symm : Tab} {n : Nat} {inner : Nat → Nat} {mk : Nat → Nat → Int × Int}
    (h : Nat) (hmk : ∀ i j i' j', mk i j = mk i' j' → i = i' ∧ j = j') :
    (pairSpec symm n inner mk h).Nodup := by
  unfold pairSpec
  rw [List.nodup_flatMap]
  constructor
  · intro i _
    refine List.Nodup.map (fun j j' e => (hmk i j i j' e).2) ?_
    exact (List.nodup_range _).filter _
  · refine List.Pairwise.imp_of_mem ?_ (List.nodup_range n)
    intro i i' _ _ hne
    simp only [Function.onFun, List.disjoint_left, List.mem_map, List.mem_filter, List.mem_range,
      decide_eq_true_eq, not_exists, not_and, forall_exists_index, and_imp]
    intro p j _ _ e j' _ _ e'
    exact hne (hmk i j i' j' (e.trans e'.symm)).1

theorem mkJI_inj (i j i' j' : Nat) (e : mkJI i j = mkJI i' j') : i = i' ∧ j = j' := by
  simp only [mkJI, Prod.mk.injEq] at e
  omega

theorem mkIJ_inj (i j i' j' : Nat) (e : mkIJ i j = mkIJ i' j') : i = i' ∧ j = j' := by
  simp only [mkIJ, Prod.mk.injEq] at e
  omega

theorem nodup_gemsSpec (s : Input) (symmetry : Tab) (h : Nat) :
    (gemsSpec s symmetry h).Nodup := nodup_pairSpec h mkJI_inj

theorem mem_gemsSpec {s : Input} {symmetry : Tab} {h : Nat} {p : Int × Int} :
    p ∈ gemsSpec s symmetry h ↔
      ∃ i j, i < s.nmo ∧ j < s.nmo ∧ pairLabel symmetry i j = some (h : Int) ∧
        p = ((j : Int), (i : Int)) := by
  unfold gemsSpec
  rw [mem_pairSpec]
  constructor
  · rintro ⟨i, j, hi, hj, hl, e⟩
    exact ⟨i, j, hi, hj, hl, e.symm⟩
  · rintro ⟨i, j, hi, hj, hl, e⟩
    exact ⟨i, j, hi, hj, hl, e.symm⟩

theorem cellsAB_disjoint (h : Nat) (a b : Int × Int) (ix : List Int) (ha : ix ∈ cellsAB h a)
    (hb : ix ∈ cellsAB h b) : a = b := by
  simp only [cellsAB, List.mem_singleton] at ha hb
  rw [ha] at hb
  simp only [List.cons.injEq, and_true, true_and] at hb
  exact Prod.ext hb.1 hb.2

theorem cellsSym_disjoint (h : Nat) (a b : Int × Int) (ix : List Int) (ka : keep00 a = true)
    (kb : keep00 b = true) (ha : ix ∈ cellsSym h a) (hb : ix ∈ cellsSym h b) : a = b := by
  simp only [keep00, decide_eq_true_eq] at ka kb
  simp only [cellsSym, List.mem_cons, List.mem_singleton, List.not_mem_nil, or_false] at ha hb
  rcases ha with rfl | rfl <;> rcases hb with hb | hb <;>
    simp only [List.cons.injEq, and_true, true_and] at hb <;>
    refine Prod.ext ?_ ?_ <;> omega

theorem keepAA_keep00 (a : Int × Int) (h : keepAA a = true) : keep00 a = true := by
  simp only [keepAA, keep00, decide_eq_true_eq] at h ⊢
  omega

theorem BlockOK.get_of_disjoint {α : Type} {h : Nat} {cells : α → List (List Int)}
    {row : α → List Int} {L : List α} {x : Sector} (hb : BlockOK h cells row L x)
    (hnd : L.Nodup)
    (hdis : ∀ a b ix, a ∈ L → b ∈ L → ix ∈ cells a → ix ∈ cells b → a = b)
    {m : Nat} {a : α} (ha : L[m]? = some a) {ix : List Int} (hix : ix ∈ cells a) :
    x.ibas.get ix = some (m : Int) :=
  Tab.get_eq_some.2 ⟨hb.inb a (List.mem_iff_getElem?.2 ⟨m, ha⟩) ix hix,
    hb.ival_of_disjoint hnd hdis ha hix⟩

theorem BlockOK.row_pair {h : Nat} {cells : Int × Int → List (List Int)}
    {L : List (Int × Int)} {x : Sector} (hb : BlockOK h cells rowPair L x)
    {m : Nat} {a : Int × Int} (ha : L[m]? = some a) :
    x.bas.val [(h : Int), (m : Int), 0] = a.1 ∧ x.bas.val [(h : Int), (m : Int), 1] = a.2 := by
  have h0 := hb.bval m a ha 0 (by simp [rowPair])
  have h1 := hb.bval m a ha 1 (by simp [rowPair])
  simp only [Nat.cast_zero, Nat.cast_one, rowPair] at h0 h1
  exact ⟨h0, h1⟩

theorem getElem?_of_lt_length {α : Type} {L : List α} {n : Nat} {c : Int}
    (hc : c = (L.length : Int)) (hn : (n : Int) < c) : ∃ a, L[n]? = some a := by
  have : n < L.length := by omega
  exact ⟨L[n], List.getElem?_eq_getElem this⟩

set_option maxRecDepth 100000 in
theorem table_eq_xor_fin : ∀ a b : Fin 8,
    table.val [((a : Nat) : Int) * 8 + ((b : Nat) : Int)] = (((a : Nat) ^^^ (b : Nat) : Nat) : Int) := by
  decide

theorem table_dims : table.dims = [64] := by
  have h : ∀ (l : List (Int × Int × Int)) (t : Tab),
      (l.foldl (fun t w => (t.put [w.2.1 * 8 + w.1] w.2.2).put [w.1 * 8 + w.2.1] w.2.2) t).dims
        = t.dims := by
    intro l
    induction l with
    | nil => intro t; rfl
    | cons w l ih => intro t; rw [List.foldl_cons, ih]; rfl
  exact h _ _

theorem SymmetryPair_eq_xor {a b : Nat} (ha : a < 8) (hb : b < 8) :
    SymmetryPair (a : Int) (b : Int) = some ((a ^^^ b : Nat) : Int) := by
  unfold SymmetryPair
  rw [Tab.get_eq_some, table_dims, inBounds_one]
  refine ⟨by omega, ?_⟩
  exact table_eq_xor_fin ⟨a, ha⟩ ⟨b, hb⟩

theorem SymmetryPair_isSome {a b : Int} (h : (SymmetryPair a b).isSome = true) :
    0 ≤ a * 8 + b ∧ a * 8 + b < 64 := by
  unfold SymmetryPair at h
  obtain ⟨v, hv⟩ := Option.isSome_iff_exists.1 h
  rw [Tab.get_eq_some, table_dims, inBounds_one] at hv
  exact ⟨hv.1.1, by simpa using hv.1.2⟩

theorem pairLabel_parts {symm : Tab} {i j : Nat} (h : (pairLabel symm i j).isSome = true) :
    ∃ a b, symm.get [(i : Int)] = some a ∧ symm.get [(j : Int)] = some b ∧
      (SymmetryPair a b).isSome = true := by
  obtain ⟨p, hp⟩ := Option.isSome_iff_exists.1 h
  simp only [pairLabel, Option.bind_eq_some] at hp
  obtain ⟨a, ha, b, hb, hab⟩ := hp
  exact ⟨a, b, ha, hb, by rw [hab]; rfl⟩

/-- On a completed run every active orbital carries a label in `[0, 8)`. -/
theorem Run.label {s : Input} {v : Solver} (hr : Run s v) {h : Nat} (hh : h < s.nirrep_)
    {i : Nat} (hi : i < s.nmo) :
    ∃ a : Nat, a < 8 ∧ v.labels.symmetry.get [(i : Int)] = some (a : Int) := by
  obtain ⟨a, b, ha, hb, hab⟩ := pairLabel_parts (hr.pairLabel_isSome hh hi hi)
  rw [ha] at hb
  cases hb
  have := SymmetryPair_isSome hab
  refine ⟨a.toNat, by omega, ?_⟩
  rw [ha, Int.toNat_of_nonneg (by omega)]

theorem pairLabel_eq_xor {symm : Tab} {i j a b : Nat} (ha : a < 8) (hb : b < 8)
    (hi : symm.get [(i : Int)] = some (a : Int)) (hj : symm.get [(j : Int)] = some (b : Int)) :
    pairLabel symm i j = some ((a ^^^ b : Nat) : Int) := by
  simp only [pairLabel, hi, hj, Option.some_bind]
  exact SymmetryPair_eq_xor ha hb

theorem Run.pairLabel_comm {s : Input} {v : Solver} (hr : Run s v) {h : Nat}
    (hh : h < s.nirrep_) {i j : Nat} (hi : i < s.nmo) (hj : j < s.nmo) :
    pairLabel v.labels.symmetry i j = pairLabel v.labels.symmetry j i := by
  obtain ⟨a, ha, hia⟩ := hr.label hh hi
  obtain ⟨b, hb, hjb⟩ := hr.label hh hj
  rw [pairLabel_eq_xor ha hb hia hjb, pairLabel_eq_xor hb ha hjb hia, Nat.xor_comm]

theorem Run.mem_gems {s : Input} {v : Solver} (hr : Run s v) {h : Nat} (hh : h < s.nirrep_)
    {i j : Nat} (hi : i < s.nmo) (hj : j < s.nmo) :
    ((i : Int), (j : Int)) ∈ gemsSpec s v.labels.symmetry h ↔
      pairLabel v.labels.symmetry i j = some (h : Int) := by
  rw [mem_gemsSpec]
  constructor
  · rintro ⟨i', j', hi', hj', hl, e⟩
    simp only [Prod.mk.injEq] at e
    have e1 : i = j' := by omega
    have e2 : j = i' := by omega
    subst e1 e2
    rw [hr.pairLabel_comm hh hi hj]
    exact hl
  · intro hl
    exact ⟨j, i, hj, hi, by rw [hr.pairLabel_comm hh hj hi]; exact hl, rfl⟩

theorem mem_gemsSpec_bounds {s : Input} {symmetry : Tab} {h : Nat} {p : Int × Int}
    (hp : p ∈ gemsSpec s symmetry h) :
    ∃ i j : Nat, i < s.nmo ∧ j < s.nmo ∧ p = ((i : Int), (j : Int)) := by
  obtain ⟨i, j, hi, hj, _, e⟩ := mem_gemsSpec.1 hp
  exact ⟨j, i, hj, hi, e⟩

/-- Reading of a cell of a symmetric sector (00 or aa) on a finished block. -/
theorem BlockOK.sym_cell {h : Nat} {L : List (Int × Int)} {x : Sector}
    (hb : BlockOK h (cellsSym h) rowPair L x) (hnd : L.Nodup)
    (hk : ∀ a, a ∈ L → keep00 a = true) (i j : Nat) :
    (((max i j : Nat) : Int), ((min i j : Nat) : Int)) ∈ L →
      ∃ m : Nat, m < L.length ∧ x.ibas.val [(h : Int), (i : Int), (j : Int)] = m ∧
        x.bas.val [(h : Int), (m : Int), 0] = ((max i j : Nat) : Int) ∧
        x.bas.val [(h : Int), (m : Int), 1] = ((min i j : Nat) : Int) := by
  intro hmem
  obtain ⟨m, hm⟩ := List.mem_iff_getElem?.1 hmem
  obtain ⟨hlt, _⟩ := List.getElem?_eq_some.1 hm
  obtain ⟨e0, e1⟩ := hb.row_pair hm
  refine ⟨m, hlt, ?_, e0, e1⟩
  refine hb.ival_of_disjoint hnd
    (fun a b ix ha hb' => cellsSym_disjoint h a b ix (hk a ha) (hk b hb')) hm ?_
  simp only [cellsSym, List.mem_cons, List.mem_singleton, List.not_mem_nil, or_false,
    List.cons.injEq, and_true, true_and]
  rcases Nat.le_total i j with hij | hij
  · right
    rw [Nat.max_eq_right hij, Nat.min_eq_left hij]
    exact ⟨rfl, rfl⟩
  · left
    rw [Nat.max_eq_left hij, Nat.min_eq_right hij]
    exact ⟨rfl, rfl⟩

theorem BlockOK.sym_free {h : Nat} {L : List (Int × Int)} {x : Sector}
    (hb : BlockOK h (cellsSym h) rowPair L x) (i j : Nat)
    (h1 : ((i : Int), (j : Int)) ∉ L) (h2 : ((j : Int), (i : Int)) ∉ L) :
    x.ibas.val [(h : Int), (i : Int), (j : Int)] = -999 := by
  refine hb.ifree _ rfl (fun a ha hc => ?_)
  simp only [cellsSym, List.mem_cons, List.mem_singleton, List.not_mem_nil, or_false,
    List.cons.injEq, and_true, true_and] at hc
  rcases hc with ⟨e1, e2⟩ | ⟨e1, e2⟩
  · exact h1 (by rw [e1, e2]; exact ha)
  · exact h2 (by rw [e1, e2]; exact ha)

theorem BlockOK.ab_cell {h : Nat} {L : List (Int × Int)} {x : Sector}
    (hb : BlockOK h (cellsAB h) rowPair L x) (hnd : L.Nodup) (i j : Nat)
    (hmem : ((i : Int), (j : Int)) ∈ L) :
    ∃ m : Nat, m < L.length ∧ x.ibas.val [(h : Int), (i : Int), (j : Int)] = m ∧
      x.bas.val [(h : Int), (m : Int), 0] = (i : Int) ∧
      x.bas.val [(h : Int), (m : Int), 1] = (j : Int) := by
  obtain ⟨m, hm⟩ := List.mem_iff_getElem?.1 hmem
  obtain ⟨hlt, _⟩ := List.getElem?_eq_some.1 hm
  obtain ⟨e0, e1⟩ := hb.row_pair hm
  exact ⟨m, hlt, hb.ival_of_disjoint hnd (fun a b ix _ _ => cellsAB_disjoint h a b ix) hm
    (by simp [cellsAB]), e0, e1⟩

theorem BlockOK.ab_free {h : Nat} {L : List (Int × Int)} {x : Sector}
    (hb : BlockOK h (cellsAB h) rowPair L x) (i j : Nat) (h1 : ((i : Int), (j : Int)) ∉ L) :
    x.ibas.val [(h : Int), (i : Int), (j : Int)] = -999 := by
  refine hb.ifree _ rfl (fun a ha hc => ?_)
  simp only [cellsAB, List.mem_singleton, List.cons.injEq, and_true, true_and] at hc
  exact h1 (by rw [hc.1, hc.2]; exact ha)

theorem inBounds_cell {h i j a b c : Nat} (hh : h < a) (hi : i < b) (hj : j < c) :
    inBounds [(h : Int), (i : Int), (j : Int)] [a, b, c] = true := by
  rw [inBounds_three]
  omega

theorem offs_succ (c : Nat → Nat) (h : Nat) : offs c (h + 1) = offs c h + c h := by
  simp [offs, Finset.sum_range_succ]

theorem offs_mono (c : Nat → Nat) {g h : Nat} (hgh : g ≤ h) : offs c g ≤ offs c h := by
  induction h with
  | zero =>
    have : g = 0 := by omega
    rw [this]
  | succ h ih =>
    rcases Nat.lt_or_ge g (h + 1) with h1 | h1
    · have := ih (by omega)
      rw [offs_succ]; omega
    · have : g = h + 1 := by omega
      rw [this]

theorem offs_add_lt (c : Nat → Nat) {g h p : Nat} (hgh : g < h) (hp : p < c g) :
    offs c g + p < offs c h := by
  have := offs_mono c (Nat.succ_le_of_lt hgh)
  rw [offs_succ] at this
  omega

/-- One irrep of a loop nest `arr[count++] = h`, seen through the two projections of its
state. -/
theorem fill_irrep {σ : Type} {cnt : σ → Int} {arr : σ → Tab} {f : Nat → σ → Option σ}
    {hlab : Int}
    (hf : ∀ k a b, f k a = some b → cnt b = cnt a + 1 ∧ (arr a).set [cnt a] hlab = some (arr b))
    {lo n : Nat} {st st' : σ} (hrun : loopM lo n f st = some st') :
    cnt st' = cnt st + n ∧ (arr st').dims = (arr st).dims ∧
      (∀ q : Nat, q < n → (arr st').val [cnt st + q] = hlab) ∧
      (∀ q : Nat, q < n → inBounds [cnt st + q] (arr st).dims = true) ∧
      (∀ ix, (∀ q : Nat, q < n → ix ≠ [cnt st + q]) → (arr st').val ix = (arr st).val ix) := by
  refine loopM_inv
    (fun k x => cnt x = cnt st + k ∧ (arr x).dims = (arr st).dims ∧
      (∀ q : Nat, q < k → (arr x).val [cnt st + q] = hlab) ∧
      (∀ q : Nat, q < k → inBounds [cnt st + q] (arr st).dims = true) ∧
      (∀ ix, (∀ q : Nat, q < k → ix ≠ [cnt st + q]) → (arr x).val ix = (arr st).val ix))
    hrun ⟨by simp, rfl, fun q hq => absurd hq (Nat.not_lt_zero q),
      fun q hq => absurd hq (Nat.not_lt_zero q), fun _ _ => rfl⟩ ?_
  rintro k a b _ ⟨hc, hd, hv, hin, hfr⟩ hstep
  obtain ⟨hc', hset⟩ := hf _ a b hstep
  have hval := Tab.set_val hset
  refine ⟨by rw [hc', hc]; push_cast; ring, by rw [Tab.set_dims hset, hd], ?_, ?_, ?_⟩
  · intro q hq
    rw [hval]
    rcases Nat.lt_succ_iff_lt_or_eq.1 hq with h1 | h1
    · rw [Function.update_noteq, hv q h1]
      rw [hc]
      intro e
      simp only [List.cons.injEq, and_true] at e
      omega
    · rw [h1, hc, Function.update_same]
  · intro q hq
    rcases Nat.lt_succ_iff_lt_or_eq.1 hq with h1 | h1
    · exact hin q h1
    · rw [h1, ← hc, ← hd]
      exact Tab.set_inb hset
  · intro ix hix
    rw [hval, Function.update_noteq, hfr ix (fun q hq => hix q (Nat.lt_succ_of_lt hq))]
    rw [hc]
    exact hix k (Nat.lt_succ_self k)

theorem FillInv.start (c : Nat → Nat) (size : Nat) :
    FillInv c [size] 0 0 (Tab.alloc [size] 0) where
  count := by simp [offs]
  dims := rfl
  lab := fun g p hg => absurd hg (Nat.not_lt_zero g)
  rng := fun _ => Or.inl rfl
  fit := fun g p hg => absurd hg (Nat.not_lt_zero g)

theorem FillInv.extend {c : Nat → Nat} {dims : List Nat} {H : Nat} {count count' : Int}
    {arr arr' : Tab} (hI : FillInv c dims H count arr)
    (hc : count' = count + (c H : Nat)) (hd : arr'.dims = arr.dims)
    (hv : ∀ q : Nat, q < c H → arr'.val [count + q] = (H : Int))
    (hin : ∀ q : Nat, q < c H → inBounds [count + q] arr.dims = true)
    (hfr : ∀ ix, (∀ q : Nat, q < c H → ix ≠ [count + q]) → arr'.val ix = arr.val ix) :
    FillInv c dims (H + 1) count' arr' where
  count := by rw [hc, hI.count, offs_succ]; push_cast; ring
  dims := by rw [hd, hI.dims]
  lab := by
    intro g p hg hp
    rcases Nat.lt_succ_iff_lt_or_eq.1 hg with h1 | h1
    · rw [hfr, hI.lab g p h1 hp]
      intro q _ e
      simp only [List.cons.injEq, and_true] at e
      have := offs_add_lt c h1 hp
      rw [hI.count] at e
      omega
    · subst h1
      have := hv p hp
      rw [hI.count] at this
      rw [← this]
      push_cast
      rfl
  rng := by
    intro ix
    by_cases hix : ∀ q : Nat, q < c H → ix ≠ [count + q]
    · rw [hfr ix hix]
      rcases hI.rng ix with h0 | ⟨g, hg, e⟩
      · exact Or.inl h0
      · exact Or.inr ⟨g, Nat.lt_succ_of_lt hg, e⟩
    · push_neg at hix
      obtain ⟨q, hq, e⟩ := hix
      rw [e, hv q hq]
      exact Or.inr ⟨H, Nat.lt_succ_self H, rfl⟩
  fit := by
    intro g p hg hp
    rcases Nat.lt_succ_iff_lt_or_eq.1 hg with h1 | h1
    · exact hI.fit g p h1 hp
    · subst h1
      have := hin p hp
      rw [hI.count, hI.dims] at this
      rw [← this]
      push_cast
      rfl

theorem labelsOrb_step (h : Nat) (k : Nat) (a b : LabelFill) (hrun : labelsOrb h k a = some b) :
    b.count = a.count + 1 ∧ a.arr.set [a.count] (h : Int) = some b.arr := by
  simp only [labelsOrb, bind, Option.bind_eq_some, pure, Option.some.injEq] at hrun
  obtain ⟨t, ht, rfl⟩ := hrun
  exact ⟨rfl, ht⟩

theorem fillLabels_spec {nirrep : Nat} {cnt : Nat → Nat} {size : Nat} {t : Tab}
    (hrun : fillLabels nirrep cnt size = some t) :
    ∃ c, FillInv cnt [size] nirrep c t := by
  simp only [fillLabels, Option.map_eq_some'] at hrun
  obtain ⟨st, hst, rfl⟩ := hrun
  refine ⟨st.count, ?_⟩
  refine loopM_inv (fun H x => FillInv cnt [size] H x.count x.arr) hst (FillInv.start cnt size) ?_
  intro H a b _ hI hstep
  rw [Nat.zero_add] at hstep
  obtain ⟨hc, hd, hv, hin, hfr⟩ :=
    @fill_irrep _ LabelFill.count LabelFill.arr _ _ (labelsOrb_step H) _ _ _ _ hstep
  exact hI.extend hc hd hv hin hfr

theorem activeLabelsOrb_step (h : Nat) (k : Nat) (a b : ActiveLabels)
    (hrun : activeLabelsOrb h k a = some b) :
    b.count = a.count + 1 ∧ a.symmetry.set [a.count] (h : Int) = some b.symmetry := by
  simp only [activeLabelsOrb, bind, Option.bind_eq_some, pure, Option.some.injEq] at hrun
  obtain ⟨t, _, u, hu, rfl⟩ := hrun
  exact ⟨rfl, hu⟩

theorem activeLabels_spec {s : Input} {al : ActiveLabels} (hrun : activeLabels s = some al) :
    FillInv (activeTrips s) [s.ntot] s.nirrep_ al.count al.symmetry := by
  unfold activeLabels at hrun
  refine loopM_inv (fun H x => FillInv (activeTrips s) [s.ntot] H x.count x.symmetry) hrun
    (FillInv.start _ _) ?_
  intro H a b _ hI hstep
  rw [Nat.zero_add] at hstep
  simp only [activeLabelsIrrep, bind, Option.bind_eq_some, pure, Option.some.injEq] at hstep
  obtain ⟨st1, hst1, rfl⟩ := hstep
  obtain ⟨hc, hd, hv, hin, hfr⟩ :=
    @fill_irrep _ ActiveLabels.count ActiveLabels.symmetry _ _
      (activeLabelsOrb_step H) _ _ _ _ hst1
  exact hI.extend hc hd hv hin hfr

theorem sum_map_range (F : Nat → Nat) (n : Nat) :
    ((List.range n).map F).sum = Finset.sum (Finset.range n) F := by
  induction n with
  | zero => simp
  | succ n ih => simp [List.range_succ, Finset.sum_range_succ, ih]

theorem length_filter_range (p : Nat → Bool) (m : Nat) :
    ((List.range m).filter p).length = ((Finset.range m).filter fun j => p j = true).card := by
  induction m with
  | zero => simp
  | succ m ih =>
    rw [List.range_succ, List.filter_append, List.length_append, ih, Finset.range_succ,
      Finset.filter_insert]
    by_cases hp : p m = true
    · rw [if_pos hp, Finset.card_insert_of_not_mem (by simp)]
      simp [hp]
    · rw [if_neg hp]
      simp [hp]

theorem pairSpec_succ (symm : Tab) (n : Nat) (inner : Nat → Nat) (mk : Nat → Nat → Int × Int)
    (h : Nat) :
    pairSpec symm (n + 1) inner mk h = pairSpec symm n inner mk h ++
      ((List.range (inner n)).filter fun j => pairLabel symm n j = some (h : Int)).map (mk n) := by
  simp [pairSpec, List.range_succ]

/-- Length of the part of a pair list that a test `k` keeps, as a sum over the outer loop. -/
theorem length_filter_pairSpec (symm : Tab) (n : Nat) (inner : Nat → Nat)
    (mk : Nat → Nat → Int × Int) (h : Nat) (k : Int × Int → Bool) :
    ((pairSpec symm n inner mk h).filter k).length =
      Finset.sum (Finset.range n) fun i =>
        ((Finset.range (inner i)).filter fun j =>
          pairLabel symm i j = some (h : Int) ∧ k (mk i j) = true).card := by
  induction n with
  | zero => simp [pairSpec]
  | succ n ih =>
    rw [pairSpec_succ, List.filter_append, List.length_append, ih, Finset.sum_range_succ,
      List.filter_map, List.length_map, List.filter_filter, length_filter_range]
    congr 2
    ext j
    simp [and_comm]

theorem length_pairSpec (symm : Tab) (n : Nat) (inner : Nat → Nat)
    (mk : Nat → Nat → Int × Int) (h : Nat) :
    (pairSpec symm n inner mk h).length =
      Finset.sum (Finset.range n) fun i =>
        ((Finset.range (inner i)).filter fun j => pairLabel symm i j = some (h : Int)).card := by
  have := length_filter_pairSpec symm n inner mk h (fun _ => true)
  simpa using this

theorem Run.activeLabels {s : Input} {v : Solver} (hr : Run s v) :
    ∃ al, activeLabels s = some al ∧ al.symmetry = v.labels.symmetry := by
  have h := hr.lb
  simp only [buildLabels, bind, Option.bind_eq_some, pure, Option.some.injEq] at h
  obtain ⟨al, hal, sf, _, spc, _, e⟩ := h
  exact ⟨al, hal, by rw [← e]⟩

theorem Run.symmetry_inv {s : Input} {v : Solver} (hr : Run s v) :
    ∃ c, FillInv (activeTrips s) [s.ntot] s.nirrep_ c v.labels.symmetry := by
  obtain ⟨al, hal, e⟩ := hr.activeLabels
  exact ⟨al.count, e ▸ activeLabels_spec hal⟩

/-- On a completed run the label of an active orbital is read inside the array and lies
below `nirrep` and below 8. -/
theorem Run.get_lab {s : Input} {v : Solver} (hr : Run s v) {h : Nat} (hh : h < s.nirrep_)
    {i : Nat} (hi : i < s.nmo) :
    v.labels.symmetry.get [(i : Int)] = some (labOf v.labels.symmetry i : Int) ∧
      labOf v.labels.symmetry i < 8 ∧ labOf v.labels.symmetry i < s.nirrep_ := by
  obtain ⟨a, ha, hget⟩ := hr.label hh hi
  have hval := (Tab.get_eq_some.1 hget).2
  have hl : labOf v.labels.symmetry i = a := by
    unfold labOf
    rw [hval]
    exact Int.toNat_natCast a
  rw [hl]
  refine ⟨hget, ha, ?_⟩
  obtain ⟨c, hc⟩ := hr.symmetry_inv
  rcases hc.rng [(i : Int)] with h0 | ⟨g, hg, e⟩
  · rw [hval] at h0
    have : a = 0 := by exact_mod_cast h0
    omega
  · rw [hval] at e
    have : a = g := by exact_mod_cast e
    omega

theorem Run.pairLabel_eq {s : Input} {v : Solver} (hr : Run s v) {h : Nat}
    (hh : h < s.nirrep_) {i j : Nat} (hi : i < s.nmo) (hj : j < s.nmo) :
    pairLabel v.labels.symmetry i j =
      some ((labOf v.labels.symmetry i ^^^ labOf v.labels.symmetry j : Nat) : Int) := by
  obtain ⟨gi, hi8, _⟩ := hr.get_lab hh hi
  obtain ⟨gj, hj8, _⟩ := hr.get_lab hh hj
  exact pairLabel_eq_xor hi8 hj8 gi gj

theorem xor_eq_iff (a b h : Nat) : a ^^^ b = h ↔ b = a ^^^ h := by
  constructor
  · intro e
    rw [← e, ← Nat.xor_assoc, Nat.xor_self, Nat.zero_xor]
  · intro e
    rw [e, ← Nat.xor_assoc, Nat.xor_self, Nat.zero_xor]

/-- Every index below the total lies in exactly one irrep block. -/
theorem offs_decompose (c : Nat → Nat) {H i : Nat} (hi : i < offs c H) :
    ∃ g p, g < H ∧ p < c g ∧ i = offs c g + p := by
  induction H with
  | zero => simp [offs] at hi
  | succ H ih =>
    rcases Nat.lt_or_ge i (offs c H) with h1 | h1
    · obtain ⟨g, p, hg, hp, e⟩ := ih h1
      exact ⟨g, p, Nat.lt_succ_of_lt hg, hp, e⟩
    · rw [offs_succ] at hi
      exact ⟨H, i - offs c H, Nat.lt_succ_self H, by omega, by omega⟩

theorem offs_congr {c d : Nat → Nat} {H : Nat} (hcd : ∀ g, g < H → c g = d g) :
    offs c H = offs d H :=
  Finset.sum_congr rfl (fun g hg => hcd g (Finset.mem_range.1 hg))

theorem Consistent.activeTrips {s : Input} (hc : Consistent s) {h : Nat} (hh : h < s.nirrep_) :
    activeTrips s h = s.amopi_ h := by
  unfold V2RDM.activeTrips
  have := hc.split h hh
  omega

/-- With consistent counts the orbitals labelled `g` are the `amopi_[g]` orbitals of the
block of `g`. -/
theorem Run.card_label {s : Input} {v : Solver} (hr : Run s v) (hc : Consistent s)
    {g : Nat} (hg : g < s.nirrep_) :
    ((Finset.range s.nmo).filter fun i => labOf v.labels.symmetry i = g).card = s.amopi_ g := by
  obtain ⟨c, hI⟩ := hr.symmetry_inv
  have hoff : ∀ k, k ≤ s.nirrep_ → offs (activeTrips s) k = offs s.amopi_ k :=
    fun k hk => offs_congr (fun g' hg' => hc.activeTrips (by omega))
  have hlab : ∀ g' p, g' < s.nirrep_ → p < s.amopi_ g' →
      labOf v.labels.symmetry (offs s.amopi_ g' + p) = g' := by
    intro g' p hg' hp
    have := hI.lab g' p hg' (by rw [hc.activeTrips hg']; exact hp)
    rw [hoff g' (Nat.le_of_lt hg')] at this
    unfold labOf
    rw [this]
    exact Int.toNat_natCast g'
  have hset : ((Finset.range s.nmo).filter fun i => labOf v.labels.symmetry i = g) =
      Finset.Ico (offs s.amopi_ g) (offs s.amopi_ g + s.amopi_ g) := by
    ext i
    simp only [Finset.mem_filter, Finset.mem_range, Finset.mem_Ico]
    constructor
    · rintro ⟨hi, hl⟩
      rw [hc.nmo] at hi
      obtain ⟨g', p, hg', hp, e⟩ := offs_decompose s.amopi_ hi
      rw [e, hlab g' p hg' hp] at hl
      subst hl
      omega
    · rintro ⟨h1, h2⟩
      have e : i = offs s.amopi_ g + (i - offs s.amopi_ g) := by omega
      have hp : i - offs s.amopi_ g < s.amopi_ g := by omega
      refine ⟨?_, ?_⟩
      · rw [hc.nmo, e]
        exact offs_add_lt s.amopi_ hg hp
      · rw [e]
        exact hlab g _ hg hp
  rw [hset, Nat.card_Ico]
  omega

theorem Run.length_gems {s : Input} {v : Solver} (hr : Run s v) {h : Nat} (hh : h < s.nirrep_) :
    (gemsSpec s v.labels.symmetry h).length =
      Finset.sum (Finset.range s.nmo) fun i =>
        ((Finset.range s.nmo).filter fun j =>
          labOf v.labels.symmetry j = labOf v.labels.symmetry i ^^^ h).card := by
  unfold gemsSpec
  rw [length_pairSpec]
  refine Finset.sum_congr rfl (fun i hi => ?_)
  congr 1
  refine Finset.filter_congr (fun j hj => ?_)
  rw [hr.pairLabel_eq hh (Finset.mem_range.1 hi) (Finset.mem_range.1 hj)]
  simp only [Option.some.injEq, Nat.cast_inj]
  exact xor_eq_iff _ _ _

theorem card_filter_product (n : Nat) (p : Nat → Nat → Prop) [∀ i j, Decidable (p i j)] :
    ((Finset.range n ×ˢ Finset.range n).filter fun q : Nat × Nat => p q.1 q.2).card =
      Finset.sum (Finset.range n) fun i => ((Finset.range n).filter fun j => p i j).card := by
  rw [Finset.card_filter, Finset.sum_product]
  refine Finset.sum_congr rfl (fun i _ => ?_)
  rw [Finset.card_filter]

theorem PowTwo.xor_lt {n a b : Nat} (hn : PowTwo n) (ha : a < n) (hb : b < n) :
    a ^^^ b < n := by
  rcases hn with rfl | rfl | rfl | rfl
  · exact Nat.xor_lt_two_pow (n := 0) ha hb
  · exact Nat.xor_lt_two_pow (n := 1) ha hb
  · exact Nat.xor_lt_two_pow (n := 2) ha hb
  · exact Nat.xor_lt_two_pow (n := 3) ha hb

theorem PowTwo.pos {n : Nat} (hn : PowTwo n) : 0 < n := by
  rcases hn with rfl | rfl | rfl | rfl <;> omega

theorem PowTwo.le_eight {n : Nat} (hn : PowTwo n) : n ≤ 8 := by
  rcases hn with rfl | rfl | rfl | rfl <;> omega

/-- Summed over the blocks, the part of `gems` that a test `k` keeps has as many entries as
there are pairs of active orbitals passing `k`, provided every product label is a block. -/
theorem Run.sum_length_filter {s : Input} {v : Solver} (hr : Run s v)
    (hclosed : ∀ i j, i < s.nmo → j < s.nmo →
      labOf v.labels.symmetry i ^^^ labOf v.labels.symmetry j < s.nirrep_)
    (k : Int × Int → Bool) :
    (Finset.sum (Finset.range s.nirrep_) fun h =>
        ((gemsSpec s v.labels.symmetry h).filter k).length) =
      Finset.sum (Finset.range s.nmo) fun i =>
        ((Finset.range s.nmo).filter fun j => k (mkJI i j) = true).card := by
  unfold gemsSpec
  simp only [length_filter_pairSpec]
  rw [Finset.sum_comm]
  refine Finset.sum_congr rfl (fun i hi => ?_)
  have hi' := Finset.mem_range.1 hi
  rw [Finset.card_eq_sum_card_fiberwise
    (f := fun j => labOf v.labels.symmetry i ^^^ labOf v.labels.symmetry j)
    (s := (Finset.range s.nmo).filter fun j => k (mkJI i j) = true)
    (t := Finset.range s.nirrep_)
    (fun j hj => Finset.mem_range.2
      (hclosed i j hi' (Finset.mem_range.1 (Finset.mem_filter.1 hj).1)))]
  refine Finset.sum_congr rfl (fun h hh => ?_)
  have hh' := Finset.mem_range.1 hh
  rw [Finset.filter_filter]
  congr 1
  refine Finset.filter_congr (fun j hj => ?_)
  rw [hr.pairLabel_eq hh' hi' (Finset.mem_range.1 hj)]
  simp only [Option.some.injEq, Nat.cast_inj]
  exact and_comm

theorem card_filter_le_range (n i : Nat) :
    ((Finset.range n).filter fun j => i ≤ j).card = n - i := by
  have : ((Finset.range n).filter fun j => i ≤ j) = Finset.Ico i n := by
    ext j
    simp only [Finset.mem_filter, Finset.mem_range, Finset.mem_Ico]
    omega
  rw [this, Nat.card_Ico]

theorem card_filter_lt_range (n i : Nat) :
    ((Finset.range n).filter fun j => i < j).card = n - 1 - i := by
  have : ((Finset.range n).filter fun j => i < j) = Finset.Ico (i + 1) n := by
    ext j
    simp only [Finset.mem_filter, Finset.mem_range, Finset.mem_Ico]
    omega
  rw [this, Nat.card_Ico]
  omega

theorem sum_succ_range (n : Nat) :
    Finset.sum (Finset.range n) (fun i => i + 1) = n * (n + 1) / 2 := by
  have h : ∀ m, 2 * Finset.sum (Finset.range m) (fun i => i + 1) = m * (m + 1) := by
    intro m
    induction m with
    | zero => simp
    | succ m ih => rw [Finset.sum_range_succ, Nat.mul_add, ih]; ring
  have := h n
  omega

theorem sum_upper_triangle (n : Nat) :
    (Finset.sum (Finset.range n) fun i => n - i) = n * (n + 1) / 2 := by
  rw [← sum_succ_range, ← Finset.sum_range_reflect (fun i => i + 1) n]
  refine Finset.sum_congr rfl (fun i hi => ?_)
  have := Finset.mem_range.1 hi
  omega

theorem sum_strict_triangle (n : Nat) :
    (Finset.sum (Finset.range n) fun i => n - 1 - i) = n * (n - 1) / 2 := by
  rw [← Finset.sum_range_id, ← Finset.sum_range_reflect (fun i => i) n]

theorem tripInner_eq_some {symm : Tab} {h i j k : Nat} {s1 : Int}
    {l l' : List (Int × Int × Int)} (hs1 : pairLabel symm i j = some s1)
    (hrun : tripInner symm h i j s1 k l = some l') :
    (tripLabel symm i j k).isSome = true ∧
      l' = l ++ (if tripLabel symm i j k = some (h : Int) then [mkTriple i j k] else []) := by
  simp only [tripInner, bind, Option.bind_eq_some, pure, Option.some.injEq] at hrun
  obtain ⟨sk, hsk, p, hp, rfl⟩ := hrun
  have hl : tripLabel symm i j k = some p := by
    simp [tripLabel, hs1, hsk, hp]
  rw [hl]
  refine ⟨rfl, ?_⟩
  by_cases hhp : (h : Int) = p
  · simp [hhp, mkTriple]
  · have : ¬ p = (h : Int) := fun e => hhp e.symm
    simp [hhp, this]

theorem tripMiddle_eq_some {symm : Tab} {n h i j : Nat} {l l' : List (Int × Int × Int)}
    (hrun : tripMiddle symm n h i j l = some l') :
    (pairLabel symm i j).isSome = true ∧
      (∀ k, k < n → (tripLabel symm i j k).isSome = true) ∧
      l' = l ++ ((List.range n).filter fun k => tripLabel symm i j k = some (h : Int)).map
        (mkTriple i j) := by
  simp only [tripMiddle, bind, Option.bind_eq_some] at hrun
  obtain ⟨si, hsi, sj, hsj, s1, hs1, hloop⟩ := hrun
  have hpl : pairLabel symm i j = some s1 := by simp [pairLabel, hsi, hsj, hs1]
  refine ⟨by rw [hpl]; rfl, ?_⟩
  refine loopM_inv
    (fun m x => (∀ k, k < m → (tripLabel symm i j k).isSome = true) ∧
      x = l ++ ((List.range m).filter fun k => tripLabel symm i j k = some (h : Int)).map
        (mkTriple i j))
    hloop ⟨fun k hk => absurd hk (Nat.not_lt_zero k), by simp⟩ ?_
  intro m a b _ hI hstep
  rw [Nat.zero_add] at hstep
  obtain ⟨hd, hb⟩ := tripInner_eq_some hpl hstep
  refine ⟨fun k hk => ?_, ?_⟩
  · rcases Nat.lt_succ_iff_lt_or_eq.1 hk with h1 | h1
    · exact hI.1 k h1
    · rw [h1]; exact hd
  · rw [hb, hI.2, List.range_succ, List.filter_append, List.map_append, List.append_assoc]
    congr 1
    by_cases hp : tripLabel symm i j m = some (h : Int)
    · simp [hp]
    · simp [hp]

theorem tripList_eq_some {symm : Tab} {n h : Nat} {l : List (Int × Int × Int)}
    (hrun : tripList symm n h = some l) :
    (∀ i j, i < n → j < n → (pairLabel symm i j).isSome = true) ∧
      (∀ i j k, i < n → j < n → k < n → (tripLabel symm i j k).isSome = true) ∧
      l = tripSpec symm n h := by
  unfold tripList at hrun
  refine loopM_inv
    (fun m x => (∀ i j, i < m → j < n → (pairLabel symm i j).isSome = true) ∧
      (∀ i j k, i < m → j < n → k < n → (tripLabel symm i j k).isSome = true) ∧
      x = (List.range m).flatMap fun i => (List.range n).flatMap fun j =>
        ((List.range n).filter fun k => tripLabel symm i j k = some (h : Int)).map
          (mkTriple i j))
    hrun ⟨fun i j hi => absurd hi (Nat.not_lt_zero i),
      fun i j k hi => absurd hi (Nat.not_lt_zero i), by simp⟩ ?_
  intro m a b _ hI hstep
  rw [Nat.zero_add] at hstep
  have hin := loopM_inv
    (fun q x => (∀ j, j < q → (pairLabel symm m j).isSome = true) ∧
      (∀ j k, j < q → k < n → (tripLabel symm m j k).isSome = true) ∧
      x = a ++ (List.range q).flatMap fun j =>
        ((List.range n).filter fun k => tripLabel symm m j k = some (h : Int)).map
          (mkTriple m j))
    hstep ⟨fun j hj => absurd hj (Nat.not_lt_zero j),
      fun j k hj => absurd hj (Nat.not_lt_zero j), by simp⟩
    (by
      intro q x y _ hIq hq
      rw [Nat.zero_add] at hq
      obtain ⟨h1, h2, h3⟩ := tripMiddle_eq_some hq
      refine ⟨fun j hj => ?_, fun j k hj hk => ?_, ?_⟩
      · rcases Nat.lt_succ_iff_lt_or_eq.1 hj with e | e
        · exact hIq.1 j e
        · rw [e]; exact h1
      · rcases Nat.lt_succ_iff_lt_or_eq.1 hj with e | e
        · exact hIq.2.1 j k e hk
        · rw [e]; exact h2 k hk
      · rw [h3, hIq.2.2, List.range_succ, List.flatMap_append, List.append_assoc]
        simp)
  refine ⟨fun i j hi hj => ?_, fun i j k hi hj hk => ?_, ?_⟩
  · rcases Nat.lt_succ_iff_lt_or_eq.1 hi with e | e
    · exact hI.1 i j e hj
    · rw [e]; exact hin.1 j hj
  · rcases Nat.lt_succ_iff_lt_or_eq.1 hi with e | e
    · exact hI.2.1 i j k e hj hk
    · rw [e]; exact hin.2.1 j k hj hk
  · rw [hin.2.2, hI.2.2, List.range_succ, List.flatMap_append]
    simp

theorem pushTriplets_eq_some {s : Input} {symm : Tab} {t0 t : List (List (Int × Int × Int))}
    (hrun : pushTriplets s symm t0 = some t) :
    (∀ h i j k, h < s.nirrep_ → i < s.nmo → j < s.nmo → k < s.nmo →
      (tripLabel symm i j k).isSome = true) ∧
      t = t0 ++ (List.range s.nirrep_).map (tripSpec symm s.nmo) := by
  unfold pushTriplets at hrun
  refine loopM_inv
    (fun m x => (∀ h i j k, h < m → i < s.nmo → j < s.nmo → k < s.nmo →
      (tripLabel symm i j k).isSome = true) ∧
      x = t0 ++ (List.range m).map (tripSpec symm s.nmo))
    hrun ⟨fun h i j k hh => absurd hh (Nat.not_lt_zero h), by simp⟩ ?_
  intro m a b _ hI hstep
  rw [Nat.zero_add, Option.map_eq_some'] at hstep
  obtain ⟨l, hl, rfl⟩ := hstep
  obtain ⟨_, hd, rfl⟩ := tripList_eq_some hl
  refine ⟨fun h i j k _ hi hj hk => hd i j k hi hj hk, ?_⟩
  rw [hI.2, List.range_succ, List.map_append, List.append_assoc]
  rfl

theorem mem_tripSpec {symm : Tab} {n h : Nat} {p : Int × Int × Int} :
    p ∈ tripSpec symm n h ↔
      ∃ i j k, i < n ∧ j < n ∧ k < n ∧ tripLabel symm i j k = some (h : Int) ∧
        mkTriple i j k = p := by
  simp only [tripSpec, List.mem_flatMap, List.mem_range, List.mem_map, List.mem_filter,
    decide_eq_true_eq]
  constructor
  · rintro ⟨i, hi, j, hj, k, ⟨hk, hl⟩, e⟩
    exact ⟨i, j, k, hi, hj, hk, hl, e⟩
  · rintro ⟨i, j, k, hi, hj, hk, hl, e⟩
    exact ⟨i, hi, j, hj, k, ⟨hk, hl⟩, e⟩

theorem mkTriple_inj {i j k i' j' k' : Nat} (e : mkTriple i j k = mkTriple i' j' k') :
    i = i' ∧ j = j' ∧ k = k' := by
  simp only [mkTriple, Prod.mk.injEq] at e
  omega

theorem nodup_tripSpec (symm : Tab) (n h : Nat) : (tripSpec symm n h).Nodup := by
  unfold tripSpec
  rw [List.nodup_flatMap]
  constructor
  · intro i _
    rw [List.nodup_flatMap]
    constructor
    · intro j _
      refine List.Nodup.map (fun k k' e => (mkTriple_inj e).2.2) ?_
      exact (List.nodup_range _).filter _
    · refine List.Pairwise.imp_of_mem ?_ (List.nodup_range n)
      intro j j' _ _ hne
      simp only [Function.onFun, List.disjoint_left, List.mem_map, List.mem_filter,
        List.mem_range, decide_eq_true_eq, not_exists, not_and, forall_exists_index, and_imp]
      intro p k _ _ e k' _ _ e'
      exact hne (mkTriple_inj (e.trans e'.symm)).2.1
  · refine List.Pairwise.imp_of_mem ?_ (List.nodup_range n)
    intro i i' _ _ hne
    simp only [Function.onFun, List.disjoint_left, List.mem_flatMap, List.mem_map,
      List.mem_filter, List.mem_range, decide_eq_true_eq, not_exists, not_and,
      forall_exists_index, and_imp]
    intro p j _ k _ _ e j' _ k' _ _ e'
    exact hne (mkTriple_inj (e.trans e'.symm)).1

theorem mapTripleAt_step {h : Nat} {g : List (Int × Int × Int)} {st0 st st' : TripTables}
    {k : Nat} (hI : TripInv h g st0 k st) (hrun : mapTripleAt g h k st = some st') :
    TripInv h g st0 (k + 1) st' := by
  simp only [mapTripleAt, bind, Option.bind_eq_some] at hrun
  obtain ⟨p, hp, hrun⟩ := hrun
  have htake : g.take (k + 1) = g.take k ++ [p] := by
    rw [List.take_succ, hp]; rfl
  simp only [mapTriple, bind, Option.bind_eq_some, pure] at hrun
  obtain ⟨aba, haba, hrun⟩ := hrun
  have haba' := hI.aba.snoc (a := p) (writeABA_spec haba)
  rw [← htake] at haba'
  by_cases h1 : p.1 ≥ p.2.1
  · rw [if_pos h1] at hrun
    cases hrun
    have k0 : keepAAB p = false := by simp [keepAAB]; omega
    have ka : keepAAA p = false := by simp [keepAAA]; omega
    refine ⟨haba', ?_, ?_, hI.taba, hI.taab, hI.taaa⟩
    · rw [htake, List.filter_append]; simpa [k0] using hI.aab
    · rw [htake, List.filter_append]; simpa [ka] using hI.aaa
  · rw [if_neg h1] at hrun
    simp only [Option.bind_eq_some] at hrun
    obtain ⟨aab, haab, hrun⟩ := hrun
    have k0 : keepAAB p = true := by simp [keepAAB]; omega
    have haab' := hI.aab.snoc (a := p) (writeAAB_spec haab)
    by_cases h2 : p.2.1 ≥ p.2.2
    · rw [if_pos h2] at hrun
      cases hrun
      have ka : keepAAA p = false := by simp [keepAAA]; omega
      refine ⟨haba', ?_, ?_, hI.taba, hI.taab, hI.taaa⟩
      · rw [htake, List.filter_append]; simpa [k0] using haab'
      · rw [htake, List.filter_append]; simpa [ka] using hI.aaa
    · rw [if_neg h2] at hrun
      simp only [Option.bind_eq_some] at hrun
      obtain ⟨aaa, haaa, hrun⟩ := hrun
      cases hrun
      have ka : keepAAA p = true := by simp [keepAAA]; omega
      have haaa' := hI.aaa.snoc (a := p) (writeAAA_spec haaa)
      refine ⟨haba', ?_, ?_, hI.taba, hI.taab, hI.taaa⟩
      · rw [htake, List.filter_append]; simpa [k0] using haab'
      · rw [htake, List.filter_append]; simpa [ka] using haaa'

theorem mapTripBlock_spec {trip : List (List (Int × Int × Int))} {h : Nat}
    {st st' : TripTables} (hrun : mapTripBlock trip h st = some st') :
    ∃ g, trip[h]? = some g ∧
      SecInv h (cellsABA h) rowTrip g st.aba.reset st'.aba ∧
      SecInv h (cellsAAB h) rowTrip (g.filter keepAAB) st.aab.reset st'.aab ∧
      SecInv h (cellsAAA h) rowTrip (g.filter keepAAA) st.aaa.reset st'.aaa ∧
      st.trip_aba.set [(h : Int)] (g.length : Int) = some st'.trip_aba ∧
      st.trip_aab.set [(h : Int)] ((g.filter keepAAB).length : Int) = some st'.trip_aab ∧
      st.trip_aaa.set [(h : Int)] ((g.filter keepAAA).length : Int) = some st'.trip_aaa := by
  simp only [mapTripBlock, bind, Option.bind_eq_some, pure, Option.some.injEq] at hrun
  obtain ⟨g, hg, st1, hloop, taaa, htaaa, taab, htaab, taba, htaba, rfl⟩ := hrun
  have hI : TripInv h g st g.length st1 := by
    refine loopM_inv (TripInv h g st) hloop ?_ ?_
    · refine ⟨?_, ?_, ?_, rfl, rfl, rfl⟩
      · simpa using SecInv.nil h (cellsABA h) rowTrip st.aba.reset rfl
      · simpa using SecInv.nil h (cellsAAB h) rowTrip st.aab.reset rfl
      · simpa using SecInv.nil h (cellsAAA h) rowTrip st.aaa.reset rfl
    · intro k a b _ hIk hstep
      rw [Nat.zero_add] at hstep
      exact mapTripleAt_step hIk hstep
  have haba := hI.aba
  have haab := hI.aab
  have haaa := hI.aaa
  rw [List.take_length] at haba haab haaa
  refine ⟨g, hg, haba, haab, haaa, ?_, ?_, ?_⟩
  · rw [← hI.taba, ← haba.count]; exact htaba
  · rw [← hI.taab, ← haab.count]; exact htaab
  · rw [← hI.taaa, ← haaa.count]; exact htaaa

theorem cellsABA_head (h : Nat) (a : Int × Int × Int) (c : List Int)
    (hc : c ∈ cellsABA h a) : c.head? = some (h : Int) := by
  simp only [cellsABA, List.mem_singleton] at hc
  subst hc; rfl

theorem cellsAAB_head (h : Nat) (a : Int × Int × Int) (c : List Int)
    (hc : c ∈ cellsAAB h a) : c.head? = some (h : Int) := by
  simp only [cellsAAB, List.mem_cons, List.mem_singleton, List.not_mem_nil, or_false] at hc
  rcases hc with rfl | rfl <;> rfl

theorem cellsAAA_head (h : Nat) (a : Int × Int × Int) (c : List Int)
    (hc : c ∈ cellsAAA h a) : c.head? = some (h : Int) := by
  simp only [cellsAAA, List.mem_cons, List.mem_singleton, List.not_mem_nil, or_false] at hc
  rcases hc with rfl | rfl | rfl | rfl | rfl | rfl <;> rfl

theorem tripletMappings_spec {s : Input} {trip : List (List (Int × Int × Int))}
    {tt : TripTables} (hrun : tripletMappings s trip = some tt)
    (G : Nat → List (Int × Int × Int)) (hG : ∀ h, h < s.nirrep_ → trip[h]? = some (G h)) :
    TripBlocksInv s G s.nirrep_ tt := by
  unfold tripletMappings at hrun
  refine loopM_inv (TripBlocksInv s G) hrun ?_ ?_
  · exact ⟨SectorBlocks.zero _ _ _ _ _, SectorBlocks.zero _ _ _ _ _, SectorBlocks.zero _ _ _ _ _,
      fun h hh => absurd hh (Nat.not_lt_zero h), fun h hh => absurd hh (Nat.not_lt_zero h),
      fun h hh => absurd hh (Nat.not_lt_zero h), rfl, rfl, rfl⟩
  · intro H a b hH hI hstep
    rw [Nat.zero_add] at hstep
    obtain ⟨g, hg, saba, saab, saaa, htaba, htaab, htaaa⟩ := mapTripBlock_spec hstep
    rw [hG H hH] at hg
    cases hg
    exact ⟨hI.aba.succ cellsABA_head saba, hI.aab.succ cellsAAB_head saab,
      hI.aaa.succ cellsAAA_head saaa, set_val_lt htaba hI.taba rfl,
      set_val_lt htaab hI.taab rfl, set_val_lt htaaa hI.taaa rfl,
      by rw [saba.idims]; exact hI.daba, by rw [saab.idims]; exact hI.daab,
      by rw [saaa.idims]; exact hI.daaa⟩

theorem Run.triplets {s : Input} {v : Solver} (hr : Run s v)
    (hflag : s.constrain_t1 = true ∨ s.constrain_t2 = true ∨ s.constrain_d3 = true) :
    pushTriplets s v.labels.symmetry [] = some v.triplets ∧
      tripletMappings s v.triplets = some v.trip := by
  have h := hr.tr
  have hf : (s.constrain_t1 || s.constrain_t2 || s.constrain_d3) = true := by
    rcases hflag with h1 | h1 | h1 <;> simp [h1]
  simp only [buildTriplets, hf, if_true, bind, Option.bind_eq_some, pure, Option.some.injEq,
    Prod.mk.injEq] at h
  obtain ⟨t, ht, tt, htt, e1, e2⟩ := h
  subst e1 e2
  exact ⟨ht, htt⟩

theorem Run.tripBlocks {s : Input} {v : Solver} (hr : Run s v)
    (hflag : s.constrain_t1 = true ∨ s.constrain_t2 = true ∨ s.constrain_d3 = true) :
    TripBlocksInv s (tripSpec v.labels.symmetry s.nmo) s.nirrep_ v.trip := by
  obtain ⟨hp, hm⟩ := hr.triplets hflag
  refine tripletMappings_spec hm _ (fun h hh => ?_)
  obtain ⟨_, e⟩ := pushTriplets_eq_some hp
  rw [e]
  simp [List.getElem?_map, List.getElem?_range hh]

theorem cellsABA_disjoint (h : Nat) (a b : Int × Int × Int) (ix : List Int)
    (ha : ix ∈ cellsABA h a) (hb : ix ∈ cellsABA h b) : a = b := by
  simp only [cellsABA, List.mem_singleton] at ha hb
  rw [ha] at hb
  simp only [List.cons.injEq, and_true, true_and] at hb
  exact Prod.ext hb.1 (Prod.ext hb.2.1 hb.2.2)

theorem cellsAAB_disjoint (h : Nat) (a b : Int × Int × Int) (ix : List Int)
    (ka : keepAAB a = true) (kb : keepAAB b = true) (ha : ix ∈ cellsAAB h a)
    (hb : ix ∈ cellsAAB h b) : a = b := by
  simp only [keepAAB, decide_eq_true_eq] at ka kb
  simp only [cellsAAB, List.mem_cons, List.mem_singleton, List.not_mem_nil, or_false] at ha hb
  rcases ha with rfl | rfl <;> rcases hb with hb | hb <;>
    simp only [List.cons.injEq, and_true, true_and] at hb <;>
    refine Prod.ext ?_ (Prod.ext ?_ ?_) <;> omega

theorem cellsAAA_disjoint (h : Nat) (a b : Int × Int × Int) (ix : List Int)
    (ka : keepAAA a = true) (kb : keepAAA b = true) (ha : ix ∈ cellsAAA h a)
    (hb : ix ∈ cellsAAA h b) : a = b := by
  simp only [keepAAA, decide_eq_true_eq] at ka kb
  simp only [cellsAAA, List.mem_cons, List.mem_singleton, List.not_mem_nil, or_false] at ha hb
  rcases ha with rfl | rfl | rfl | rfl | rfl | rfl <;>
    rcases hb with hb | hb | hb | hb | hb | hb <;>
    simp only [List.cons.injEq, and_true, true_and] at hb <;>
    refine Prod.ext ?_ (Prod.ext ?_ ?_) <;> omega

theorem BlockOK.row_trip {h : Nat} {cells : Int × Int × Int → List (List Int)}
    {L : List (Int × Int × Int)} {x : Sector} (hb : BlockOK h cells rowTrip L x)
    {m : Nat} {a : Int × Int × Int} (ha : L[m]? = some a) :
    x.bas.val [(h : Int), (m : Int), 0] = a.1 ∧ x.bas.val [(h : Int), (m : Int), 1] = a.2.1 ∧
      x.bas.val [(h : Int), (m : Int), 2] = a.2.2 := by
  have h0 := hb.bval m a ha 0 (by simp [rowTrip])
  have h1 := hb.bval m a ha 1 (by simp [rowTrip])
  have h2 := hb.bval m a ha 2 (by simp [rowTrip])
  simp only [Nat.cast_zero, Nat.cast_one, Nat.cast_ofNat, rowTrip] at h0 h1 h2
  exact ⟨h0, h1, h2⟩

theorem corePool_ok (s : Input) (hc : Consistent s) : PoolOK s (corePool s) where
  pre := fun h _ => by simp [corePool]
  post := fun h _ => by simp [corePool]
  le := fun h hh => by have := hc.split h hh; simp [corePool]; omega

theorem activePool_ok (s : Input) (hc : Consistent s) : PoolOK s (activePool s) where
  pre := fun h _ => by simp [activePool]
  post := fun h hh => by have := hc.split h hh; simp [activePool]; omega
  le := fun h hh => by have := hc.split h hh; simp [activePool]; omega

theorem virtualPool_ok (s : Input) (hc : Consistent s) : PoolOK s (virtualPool s) where
  pre := fun h _ => by simp [virtualPool]
  post := fun h hh => by have := hc.split h hh; simp [virtualPool]; omega
  le := fun h hh => by have := hc.split h hh; simp [virtualPool]; omega

theorem InPool.valid {s : Input} {P : Pool} {h j : Nat} (hP : PoolOK s P)
    (hin : InPool s P h j) : j < s.nmopi_ h := by
  have := hP.le h hin.hh
  have := hin.hi
  omega

theorem pz_lt_offs_succ {s : Input} {h j : Nat} (hj : j < s.nmopi_ h) :
    pz s h j < offs s.nmopi_ (h + 1) := by
  rw [offs_succ]; unfold pz; omega

theorem pz_lt_of_irrep_lt {s : Input} {h h' j j' : Nat} (hj : j < s.nmopi_ h) (hlt : h < h') :
    pz s h j < pz s h' j' := by
  have h1 := pz_lt_offs_succ hj
  have h2 := offs_mono s.nmopi_ (show h + 1 ≤ h' from hlt)
  unfold pz at *
  omega

theorem pz_inj {s : Input} {h h' j j' : Nat} (hj : j < s.nmopi_ h) (hj' : j' < s.nmopi_ h')
    (e : pz s h j = pz s h' j') : h = h' ∧ j = j' := by
  rcases Nat.lt_trichotomy h h' with hlt | heq | hgt
  · have := @pz_lt_of_irrep_lt _ _ _ _ j' hj hlt
    omega
  · subst heq
    unfold pz at e
    exact ⟨rfl, by omega⟩
  · have := @pz_lt_of_irrep_lt _ _ _ _ j hj' hgt
    omega

/-- A pool member below position `lo h + q` of irrep `h` is a member of an earlier irrep
or one of the first `q` scanned positions of irrep `h`. -/
theorem InPool.lt_cases {s : Input} {P : Pool} (hP : PoolOK s P) {h h' j' q : Nat}
    (hq : q ≤ P.cnt h) (hin : InPool s P h' j') (hlt : pz s h' j' < offs s.nmopi_ h + (P.lo h + q)) :
    pz s h' j' < offs s.nmopi_ h ∨ (h' = h ∧ j' < P.lo h + q) := by
  rcases Nat.lt_trichotomy h' h with h1 | h1 | h1
  · left
    have := pz_lt_offs_succ (hin.valid hP)
    have := offs_mono s.nmopi_ (show h' + 1 ≤ h from h1)
    omega
  · subst h1
    right
    unfold pz at hlt
    exact ⟨rfl, by omega⟩
  · exfalso
    have := offs_mono s.nmopi_ (show h + 1 ≤ h' from h1)
    rw [offs_succ] at this
    have := hP.le h (Nat.lt_trans h1 hin.hh)
    unfold pz at hlt
    omega

theorem Consistent.ntot {s : Input} (hc : Consistent s) : s.ntot = offs s.nmopi_ s.nirrep_ := by
  unfold Input.ntot
  rw [hc.nmo, hc.nfrzc, hc.nfrzv]
  unfold offs
  rw [← Finset.sum_add_distrib, ← Finset.sum_add_distrib]
  refine Finset.sum_congr rfl (fun h hh => ?_)
  have := hc.split h (Finset.mem_range.1 hh)
  omega

theorem pz_lt_ntot {s : Input} (hc : Consistent s) {h j : Nat} (hh : h < s.nirrep_)
    (hj : j < s.nmopi_ h) : pz s h j < s.ntot := by
  rw [hc.ntot]
  exact offs_add_lt s.nmopi_ hh hj

theorem lexLt_irrefl (e : ℚ) (m : Nat) : ¬ lexLt e m e m := by
  rintro (h | ⟨_, h⟩)
  · exact lt_irrefl _ h
  · exact lt_irrefl _ h

theorem lexLt_total {e1 e2 : ℚ} {m1 m2 : Nat} (hne : m1 ≠ m2) :
    lexLt e1 m1 e2 m2 ∨ lexLt e2 m2 e1 m1 := by
  rcases lt_trichotomy e1 e2 with h | h | h
  · exact Or.inl (Or.inl h)
  · rcases Nat.lt_or_gt_of_ne hne with h' | h'
    · exact Or.inl (Or.inr ⟨h, h'⟩)
    · exact Or.inr (Or.inr ⟨h.symm, h'⟩)
  · exact Or.inr (Or.inl h)

theorem lexLt_asymm {e1 e2 : ℚ} {m1 m2 : Nat} (h : lexLt e1 m1 e2 m2) :
    ¬ lexLt e2 m2 e1 m1 := by
  rintro (h' | ⟨h1, h2⟩)
  · rcases h with h | ⟨h, _⟩
    · exact lt_asymm h h'
    · rw [h] at h'; exact lt_irrefl _ h'
  · rcases h with h | ⟨_, h⟩
    · rw [h1] at h; exact lt_irrefl _ h
    · omega

theorem ScanInv.widen {s : Input} {P : Pool} {skip : Tab} {imin0 isym0 : Int} {M M' : Nat}
    {st : Scan} (hI : ScanInv s P skip imin0 isym0 M st) (hle : M ≤ M')
    (hgap : ∀ h j, InPool s P h j → pz s h j < M' → pz s h j < M) :
    ScanInv s P skip imin0 isym0 M' { st with me := (M' : Int) } where
  me := rfl
  best := by
    rcases hI.best with ⟨h1, h2, h3, h4⟩ | ⟨h, j, hin, hlt, h1, h2, h3, h4, h5, h6⟩
    · exact Or.inl ⟨h1, h2, h3, fun h j hin hlt => h4 h j hin (hgap h j hin hlt)⟩
    · exact Or.inr ⟨h, j, hin, Nat.lt_of_lt_of_le hlt hle, h1, h2, h3, h4, h5,
        fun h' j' hin' hlt' => h6 h' j' hin' (hgap h' j' hin' hlt')⟩

theorem scanOrb_step {s : Input} {P : Pool} {skip : Tab} {imin0 isym0 : Int} {h j : Nat}
    {st st' : Scan} (hP : PoolOK s P) (hin : InPool s P h j)
    (hI : ScanInv s P skip imin0 isym0 (pz s h j) st)
    (hrun : scanOrb s skip h j st = some st') :
    ScanInv s P skip imin0 isym0 (pz s h j + 1) st' := by
  have hself : ∀ h' j', InPool s P h' j' → pz s h' j' < pz s h j + 1 →
      ¬ pz s h' j' < pz s h j → h' = h ∧ j' = j := by
    intro h' j' hin' h1 h2
    exact pz_inj (hin'.valid hP) (hin.valid hP) (by omega)
  unfold scanOrb at hrun
  by_cases hlt : s.epsilon_a_ h j < st.min
  · rw [if_pos hlt] at hrun
    simp only [bind, Option.bind_eq_some] at hrun
    obtain ⟨sk, hsk, hrun⟩ := hrun
    rw [hI.me] at hsk
    have hskv := (Tab.get_eq_some.1 hsk).2
    by_cases hz : sk = 0
    · rw [if_pos hz] at hrun
      cases hrun
      refine ⟨by simp [hI.me], Or.inr ⟨h, j, hin, Nat.lt_succ_self _, hI.me, rfl, rfl, ?_,
        by rw [hskv, hz], ?_⟩⟩
      · show s.epsilon_a_ h j < min0
        rcases hI.best with ⟨h1, _⟩ | ⟨_, _, _, _, _, _, _, h4, _⟩
        · rw [← h1]; exact hlt
        · exact lt_trans hlt h4
      · intro h' j' hin' hlt' hsk'
        by_cases hold : pz s h' j' < pz s h j
        · rcases hI.best with ⟨h1, _, _, h4⟩ | ⟨hb, jb, _, _, _, _, h3, _, _, h6⟩
          · have := h4 h' j' hin' hold hsk'
            rw [h1] at hlt
            rintro (hl | ⟨hl, _⟩)
            · exact this (lt_trans hl hlt)
            · rw [hl] at this; exact this hlt
          · have := h6 h' j' hin' hold hsk'
            rw [h3] at hlt
            rintro (hl | ⟨hl, _⟩)
            · exact this (Or.inl (lt_trans hl hlt))
            · rw [hl] at this; exact this (Or.inl hlt)
        · obtain ⟨e1, e2⟩ := hself h' j' hin' hlt' hold
          subst e1 e2
          exact lexLt_irrefl _ _
    · rw [if_neg hz] at hrun
      cases hrun
      refine ⟨by simp [hI.me], ?_⟩
      have hnew : ∀ h' j', InPool s P h' j' → pz s h' j' < pz s h j + 1 →
          skip.val [(pz s h' j' : Int)] = 0 → pz s h' j' < pz s h j := by
        intro h' j' hin' h1 h2
        by_contra hc
        obtain ⟨e1, e2⟩ := hself h' j' hin' h1 hc
        subst e1 e2
        rw [hskv] at h2
        exact hz h2
      rcases hI.best with ⟨h1, h2, h3, h4⟩ | ⟨hb, jb, hinb, hltb, h1, h2, h3, h4, h5, h6⟩
      · exact Or.inl ⟨h1, h2, h3,
          fun h' j' hin' hl hs => h4 h' j' hin' (hnew h' j' hin' hl hs) hs⟩
      · exact Or.inr ⟨hb, jb, hinb, Nat.lt_succ_of_lt hltb, h1, h2, h3, h4, h5,
          fun h' j' hin' hl hs => h6 h' j' hin' (hnew h' j' hin' hl hs) hs⟩
  · rw [if_neg hlt] at hrun
    cases hrun
    refine ⟨by simp [hI.me], ?_⟩
    rcases hI.best with ⟨h1, h2, h3, h4⟩ | ⟨hb, jb, hinb, hltb, h1, h2, h3, h4, h5, h6⟩
    · refine Or.inl ⟨h1, h2, h3, fun h' j' hin' hl hs => ?_⟩
      by_cases hold : pz s h' j' < pz s h j
      · exact h4 h' j' hin' hold hs
      · obtain ⟨e1, e2⟩ := hself h' j' hin' hl hold
        subst e1 e2
        rw [h1] at hlt
        exact hlt
    · refine Or.inr ⟨hb, jb, hinb, Nat.lt_succ_of_lt hltb, h1, h2, h3, h4, h5,
        fun h' j' hin' hl hs => ?_⟩
      by_cases hold : pz s h' j' < pz s h j
      · exact h6 h' j' hin' hold hs
      · obtain ⟨e1, e2⟩ := hself h' j' hin' hl hold
        subst e1 e2
        rw [h3] at hlt
        rintro (hl' | ⟨_, hl'⟩)
        · exact hlt hl'
        · omega

theorem scanIrrep_step {s : Input} {P : Pool} {skip : Tab} {imin0 isym0 : Int} {h : Nat}
    {st st' : Scan} (hP : PoolOK s P) (hh : h < s.nirrep_)
    (hI : ScanInv s P skip imin0 isym0 (offs s.nmopi_ h) st)
    (hrun : scanIrrep s P skip h st = some st') :
    ScanInv s P skip imin0 isym0 (offs s.nmopi_ (h + 1)) st' := by
  simp only [scanIrrep, bind, Option.bind_eq_some, pure, Option.some.injEq] at hrun
  obtain ⟨st1, hloop, rfl⟩ := hrun
  have hle := hP.le h hh
  have h0 : ScanInv s P skip imin0 isym0 (offs s.nmopi_ h + (P.lo h + 0))
      { st with me := st.me + P.pre h } := by
    have := @ScanInv.widen _ _ _ _ _ _ (offs s.nmopi_ h + (P.lo h + 0)) _ hI (by omega)
      (fun h' j' hin' hlt => by
        rcases hin'.lt_cases hP (Nat.zero_le _) hlt with h1 | ⟨h1, h2⟩
        · exact h1
        · have := hin'.lo
          subst h1
          omega)
    have e : st.me + P.pre h = ((offs s.nmopi_ h + (P.lo h + 0) : Nat) : Int) := by
      rw [hI.me, hP.pre h hh]; push_cast; ring
    rw [e]
    exact this
  have h1 := loopM_inv
    (fun q x => q ≤ P.cnt h ∧ ScanInv s P skip imin0 isym0 (offs s.nmopi_ h + (P.lo h + q)) x)
    hloop ⟨Nat.zero_le _, h0⟩
    (by
      intro q a b hq hIq hstep
      refine ⟨hq, ?_⟩
      have hin : InPool s P h (P.lo h + q) := ⟨hh, by omega, by omega⟩
      have := scanOrb_step hP hin hIq.2 hstep
      have e : pz s h (P.lo h + q) + 1 = offs s.nmopi_ h + (P.lo h + (q + 1)) := by
        unfold pz; omega
      rw [e] at this
      exact this)
  have h2 := @ScanInv.widen _ _ _ _ _ _ (offs s.nmopi_ (h + 1)) _ h1.2 (by rw [offs_succ]; omega)
    (fun h' j' hin' hlt => by
      rcases Nat.lt_trichotomy h' h with c | c | c
      · have := pz_lt_offs_succ (hin'.valid hP)
        have := offs_mono s.nmopi_ (show h' + 1 ≤ h from c)
        omega
      · subst c
        have := hin'.hi
        unfold pz
        omega
      · exfalso
        have := offs_mono s.nmopi_ (show h + 1 ≤ h' from c)
        unfold pz at hlt
        omega)
  have e : st1.me + P.post h = ((offs s.nmopi_ (h + 1) : Nat) : Int) := by
    rw [h1.2.me, offs_succ]
    have := hP.post h hh
    push_cast at this ⊢
    omega
  rw [e]
  exact h2

/-- A completed scan has visited every position of its pool. -/
theorem scan_spec {s : Input} {P : Pool} {skip : Tab} {imin0 isym0 : Int} {sc : Scan}
    (hP : PoolOK s P)
    (hrun : loopM 0 s.nirrep_ (scanIrrep s P skip) ⟨0, min0, imin0, isym0⟩ = some sc) :
    ScanInv s P skip imin0 isym0 (offs s.nmopi_ s.nirrep_) sc := by
  refine loopM_inv (fun H x => ScanInv s P skip imin0 isym0 (offs s.nmopi_ H) x) hrun ?_ ?_
  · exact ⟨by simp [offs], Or.inl ⟨rfl, rfl, rfl, fun h j _ hlt => by simp [offs] at hlt⟩⟩
  · intro H a b hH hI hstep
    rw [Nat.zero_add] at hstep
    exact scanIrrep_step hP hH hI hstep

theorem update_single_ne {f : List Int → Int} {a b : Nat} (h : b ≠ a) (v : Int) :
    Function.update f [(a : Int)] v [(b : Int)] = f [(b : Int)] := by
  refine Function.update_noteq ?_ _ _
  intro e
  simp only [List.cons.injEq, and_true] at e
  exact h (by exact_mod_cast e)

theorem update_single_eq {f : List Int → Int} (a : Nat) (v : Int) :
    Function.update f [(a : Int)] v [(a : Int)] = v := Function.update_same _ _ _

theorem poolOfRank_eq_of_idx {s : Input} {r r' : Nat} (h : poolIdx s r = poolIdx s r') :
    poolOfRank s r = poolOfRank s r' := by
  unfold poolIdx at h
  unfold poolOfRank
  by_cases h1 : r < s.nfrzc <;> by_cases h2 : r' < s.nfrzc <;>
    by_cases h3 : r < s.nfrzc + s.nmo <;> by_cases h4 : r' < s.nfrzc + s.nmo <;>
    simp [h1, h2, h3, h4] at h ⊢

theorem rankStep_spec {s : Input} {P : Pool} {R : Nat} {st st' : EnergyOrder}
    (hE : EnergiesBelow s) (hP : PoolOK s P) (hPR : poolOfRank s R = P)
    (hex : ∃ h j, InPool s P h j ∧ st.skip.val [(pz s h j : Int)] = 0)
    (hI : RankInv s R st) (hrun : rankStep s P R st = some st') : RankInv s (R + 1) st' := by
  simp only [rankStep, bind, Option.bind_eq_some, pure, Option.some.injEq] at hrun
  obtain ⟨sc, hsc, skip', hskip, seo', _, p2e', hp2e, e2p', he2p, rfl⟩ := hrun
  have hS := scan_spec hP hsc
  obtain ⟨hb, jb, hinb, hltb, himin, _, _, _, hsk0, hmin⟩ :
      ∃ h j, InPool s P h j ∧ pz s h j < offs s.nmopi_ s.nirrep_ ∧
        sc.imin = (pz s h j : Int) ∧ sc.isym = (h : Int) ∧ sc.min = s.epsilon_a_ h j ∧
        sc.min < min0 ∧ st.skip.val [(pz s h j : Int)] = 0 ∧
        ∀ h' j', InPool s P h' j' → pz s h' j' < offs s.nmopi_ s.nirrep_ →
          st.skip.val [(pz s h' j' : Int)] = 0 →
          ¬ lexLt (s.epsilon_a_ h' j') (pz s h' j') (s.epsilon_a_ h j) (pz s h j) := by
    rcases hS.best with ⟨_, _, _, h4⟩ | hx
    · exfalso
      obtain ⟨h, j, hin, hs0⟩ := hex
      exact h4 h j hin (offs_add_lt s.nmopi_ hin.hh (hin.valid hP)) hs0
        (hE h j hin.hh (hin.valid hP))
    · exact hx
  rw [himin] at hskip hp2e he2p
  have vskip := Tab.set_val hskip
  have vp2e := Tab.set_val hp2e
  have ve2p := Tab.set_val he2p
  have hvb := hinb.valid hP
  have hne_of_skip : ∀ h j, st.skip.val [(pz s h j : Int)] ≠ 0 → pz s h j ≠ pz s hb jb := by
    intro h j hs e
    rw [e] at hs
    exact hs hsk0
  refine ⟨by rw [Tab.set_dims hskip]; exact hI.dskip, by rw [Tab.set_dims hp2e]; exact hI.dp2e,
    by rw [Tab.set_dims he2p]; exact hI.de2p, ?_, ?_, ?_, ?_⟩
  · intro r hr
    show ∃ h j, _ ∧ e2p'.val _ = _ ∧ p2e'.val _ = _ ∧ skip'.val _ ≠ 0
    rw [ve2p, vp2e, vskip]
    rcases Nat.lt_succ_iff_lt_or_eq.1 hr with h1 | h1
    · obtain ⟨h, j, hin, e1, e2, e3⟩ := hI.chosen r h1
      have hne := hne_of_skip h j e3
      refine ⟨h, j, hin, ?_, ?_, ?_⟩
      · rw [update_single_ne (by omega)]; exact e1
      · rw [update_single_ne hne]; exact e2
      · rw [update_single_ne hne]; exact e3
    · subst h1
      refine ⟨hb, jb, by rw [hPR]; exact hinb, update_single_eq _ _, update_single_eq _ _, ?_⟩
      rw [update_single_eq]
      decide
  · intro h j hh hj hs
    show ∃ r, _ ∧ e2p'.val _ = _
    rw [ve2p]
    change skip'.val _ ≠ 0 at hs
    rw [vskip] at hs
    by_cases e : pz s h j = pz s hb jb
    · exact ⟨R, Nat.lt_succ_self R, by rw [update_single_eq, e]⟩
    · rw [update_single_ne e] at hs
      obtain ⟨r, hr, er⟩ := hI.fresh h j hh hj hs
      exact ⟨r, Nat.lt_succ_of_lt hr, by rw [update_single_ne (by omega)]; exact er⟩
  · intro r r' h j h' j' hrr hr' hidx hh hj hh' hj' e1 e2
    change e2p'.val _ = _ at e1
    change e2p'.val _ = _ at e2
    rw [ve2p] at e1 e2
    rw [update_single_ne (by omega)] at e1
    rcases Nat.lt_succ_iff_lt_or_eq.1 hr' with h1 | h1
    · rw [update_single_ne (by omega)] at e2
      exact hI.sorted r r' h j h' j' hrr h1 hidx hh hj hh' hj' e1 e2
    · subst h1
      rw [update_single_eq] at e2
      have e2' : pz s hb jb = pz s h' j' := by exact_mod_cast e2
      obtain ⟨x1, x2⟩ := pz_inj hvb hj' e2'
      subst x1 x2
      refine hI.least r h j hb jb hrr hh hj e1 ?_ hsk0
      rw [poolOfRank_eq_of_idx hidx, hPR]
      exact hinb
  · intro r h j h' j' hr hh hj e1 hin' hs'
    change e2p'.val _ = _ at e1
    change skip'.val _ = 0 at hs'
    rw [ve2p] at e1
    rw [vskip] at hs'
    have hne' : pz s h' j' ≠ pz s hb jb := by
      intro e
      rw [e, update_single_eq] at hs'
      exact absurd hs' (by decide)
    rw [update_single_ne hne'] at hs'
    rcases Nat.lt_succ_iff_lt_or_eq.1 hr with h1 | h1
    · rw [update_single_ne (by omega)] at e1
      exact hI.least r h j h' j' h1 hh hj e1 hin' hs'
    · subst h1
      rw [update_single_eq] at e1
      have e1' : pz s hb jb = pz s h j := by exact_mod_cast e1
      obtain ⟨x1, x2⟩ := pz_inj hvb hj e1'
      subst x1 x2
      rw [hPR] at hin'
      have := hmin h' j' hin' (offs_add_lt s.nmopi_ hin'.hh (hin'.valid hP)) hs'
      rcases @lexLt_total (s.epsilon_a_ hb jb) (s.epsilon_a_ h' j') _ _
        (fun e => hne' e.symm) with c | c
      · exact c
      · exact absurd c this

/-- While fewer ranks than the pool has positions are assigned, a position of the pool is
still unskipped. -/
theorem exists_unskipped {s : Input} {P : Pool} {r0 k T : Nat} {st : EnergyOrder}
    (hP : PoolOK s P) (hT : offs P.cnt s.nirrep_ = T) (hk : k < T)
    (hdisj : ∀ r h j, r < r0 → InPool s (poolOfRank s r) h j → ¬ InPool s P h j)
    (hok : ∀ r, PoolOK s (poolOfRank s r))
    (hI : RankInv s (r0 + k) st) :
    ∃ h j, InPool s P h j ∧ st.skip.val [(pz s h j : Int)] = 0 := by
  by_contra hcon
  push_neg at hcon
  have key : ∀ i, ∃ r, i < T → (r0 ≤ r ∧ r < r0 + k ∧ ∃ g p, g < s.nirrep_ ∧ p < P.cnt g ∧
      i = offs P.cnt g + p ∧
      st.energy_to_pitzer_order.val [(r : Int)] = (pz s g (P.lo g + p) : Int)) := by
    intro i
    by_cases hi : i < T
    · rw [← hT] at hi
      obtain ⟨g, p, hg, hp, e⟩ := offs_decompose P.cnt hi
      have hin : InPool s P g (P.lo g + p) := ⟨hg, by omega, by omega⟩
      obtain ⟨r, hr, er⟩ := hI.fresh g (P.lo g + p) hg (hin.valid hP) (hcon g _ hin)
      refine ⟨r, fun _ => ⟨?_, hr, g, p, hg, hp, e, er⟩⟩
      by_contra hlt
      obtain ⟨h', j', hin', e', _, _⟩ := hI.chosen r hr
      rw [er] at e'
      have e'' : pz s g (P.lo g + p) = pz s h' j' := by exact_mod_cast e'
      obtain ⟨x1, x2⟩ := pz_inj (hin.valid hP) (hin'.valid (hok r)) e''
      subst x1 x2
      exact hdisj r g _ (by omega) hin' hin
    · exact ⟨0, fun h => absurd h hi⟩
  choose f hf using key
  have hcard : (Finset.range k).card < (Finset.range T).card := by
    simpa using hk
  obtain ⟨x, hx, y, hy, hxy, hfxy⟩ := Finset.exists_ne_map_eq_of_card_lt_of_maps_to hcard
    (f := fun i => f i - r0)
    (fun i hi => by
      have := hf i (Finset.mem_range.1 hi)
      exact Finset.mem_range.2 (show f i - r0 < k by omega))
  obtain ⟨hx1, hx2, g, p, hg, hp, ex, erx⟩ := hf x (Finset.mem_range.1 hx)
  obtain ⟨hy1, hy2, g', p', hg', hp', ey, ery⟩ := hf y (Finset.mem_range.1 hy)
  have hfe : f x = f y := by
    have : f x - r0 = f y - r0 := hfxy
    omega
  rw [hfe, ery] at erx
  have e'' : pz s g' (P.lo g' + p') = pz s g (P.lo g + p) := by exact_mod_cast erx
  have hin : InPool s P g (P.lo g + p) := ⟨hg, by omega, by omega⟩
  have hin' : InPool s P g' (P.lo g' + p') := ⟨hg', by omega, by omega⟩
  obtain ⟨x1, x2⟩ := pz_inj (hin'.valid hP) (hin.valid hP) e''
  subst x1
  have : p = p' := by omega
  subst this
  exact hxy (by omega)

theorem poolOfRank_ok (s : Input) (hc : Consistent s) (r : Nat) : PoolOK s (poolOfRank s r) := by
  unfold poolOfRank
  split
  · exact corePool_ok s hc
  · split
    · exact activePool_ok s hc
    · exact virtualPool_ok s hc

theorem rankLoop_spec {s : Input} {P : Pool} {r0 T : Nat} {st st' : EnergyOrder}
    (hc : Consistent s) (hE : EnergiesBelow s) (hP : PoolOK s P)
    (hT : offs P.cnt s.nirrep_ = T)
    (hpool : ∀ r, r0 ≤ r → r < r0 + T → poolOfRank s r = P)
    (hdisj : ∀ r h j, r < r0 → InPool s (poolOfRank s r) h j → ¬ InPool s P h j)
    (hI : RankInv s r0 st) (hrun : loopM r0 T (rankStep s P) st = some st') :
    RankInv s (r0 + T) st' := by
  refine loopM_inv (fun k x => RankInv s (r0 + k) x) hrun hI ?_
  intro k a b hk hIk hstep
  exact rankStep_spec hE hP (hpool (r0 + k) (by omega) (by omega))
    (exists_unskipped hP hT hk hdisj (poolOfRank_ok s hc) hIk) hIk hstep

/-- With consistent counts and every energy below `1.0e99`, a completed energy ordering has
assigned every rank below `nmo + nfrzc + nfrzv` to a fresh orbital of its pool, in the order
of the ranking. -/
theorem energyOrder_spec {s : Input} {eo : EnergyOrder} (hc : Consistent s)
    (hE : EnergiesBelow s) (hrun : energyOrder s = some eo) : RankInv s s.ntot eo := by
  simp only [energyOrder, bind, Option.bind_eq_some] at hrun
  obtain ⟨st1, h1, st2, h2, h3⟩ := hrun
  have I0 : RankInv s 0
      ⟨min0, -999, -999, Tab.alloc [s.ntot] 0, Tab.alloc [s.ntot] 0, Tab.alloc [s.ntot] 0,
        Tab.alloc [s.ntot] 0⟩ :=
    ⟨rfl, rfl, rfl, fun r hr => absurd hr (Nat.not_lt_zero r),
      fun h j _ _ hs => absurd rfl hs,
      fun r r' h j h' j' _ hr' => absurd hr' (Nat.not_lt_zero r'),
      fun r h j h' j' hr => absurd hr (Nat.not_lt_zero r)⟩
  have I1 : RankInv s (0 + s.nfrzc) st1 :=
    rankLoop_spec hc hE (corePool_ok s hc) (by rw [hc.nfrzc]; rfl)
      (fun r _ hr => by unfold poolOfRank; rw [if_pos (by omega)])
      (fun r h j hr => absurd hr (Nat.not_lt_zero r)) I0 h1
  rw [Nat.zero_add] at I1
  have I2 : RankInv s (s.nfrzc + s.nmo) st2 :=
    rankLoop_spec hc hE (activePool_ok s hc) (by rw [hc.nmo]; rfl)
      (fun r h1 h2 => by unfold poolOfRank; rw [if_neg (by omega), if_pos (by omega)])
      (fun r h j hr hin hin' => by
        unfold poolOfRank at hin
        rw [if_pos hr] at hin
        have := hin.hi
        have := hin'.lo
        simp only [corePool, activePool] at *
        omega) I1 h2
  have I3 : RankInv s (s.nmo + s.nfrzc + s.nfrzv) eo :=
    rankLoop_spec hc hE (virtualPool_ok s hc)
      (by
        rw [hc.nfrzv]
        refine offs_congr (fun g hg => ?_)
        have := hc.split g hg
        simp only [virtualPool]
        omega)
      (fun r h1 h2 => by unfold poolOfRank; rw [if_neg (by omega), if_neg (by omega)])
      (fun r h j hr hin hin' => by
        unfold poolOfRank at hin
        have := hin'.lo
        have := hc.split h hin.hh
        split at hin
        · have := hin.hi
          simp only [corePool, virtualPool] at *
          omega
        · rw [if_pos (by omega)] at hin
          have := hin.hi
          simp only [activePool, virtualPool] at *
          omega)
      (by rw [Nat.add_comm s.nmo s.nfrzc]; exact I2) h3
  exact I3

theorem Run.rankInv {s : Input} {v : Solver} (hr : Run s v) (hc : Consistent s)
    (hE : EnergiesBelow s) : RankInv s s.ntot v.order :=
  energyOrder_spec hc hE hr.eo

theorem offsets_spec {nirrep : Nat} {inc : Nat → Int} {t : Tab}
    (hrun : offsets nirrep inc = some t) :
    t.dims = [nirrep] ∧ ∀ h, h < nirrep → t.val [(h : Int)] = offsInt inc h := by
  simp only [offsets, Option.map_eq_some'] at hrun
  obtain ⟨st, hst, rfl⟩ := hrun
  have := loopM_inv
    (fun H (x : LabelFill) => x.count = offsInt inc H ∧ x.arr.dims = [nirrep] ∧
      ∀ h, h < H → x.arr.val [(h : Int)] = offsInt inc h)
    hst ⟨by simp [offsInt], rfl, fun h hh => absurd hh (Nat.not_lt_zero h)⟩
    (by
      rintro H a b _ ⟨hc, hd, hv⟩ hstep
      rw [Nat.zero_add] at hstep
      simp only [bind, Option.bind_eq_some, pure, Option.some.injEq] at hstep
      obtain ⟨arr, harr, rfl⟩ := hstep
      refine ⟨?_, by rw [Tab.set_dims harr]; exact hd, set_val_lt harr hv hc⟩
      show a.count + inc H = _
      rw [hc]
      simp [offsInt, Finset.sum_range_succ])
  exact ⟨this.2.1, this.2.2⟩

theorem offsInt_cast (c : Nat → Nat) (h : Nat) :
    offsInt (fun g => (c g : Int)) h = (offs c h : Int) := by
  simp [offsInt, offs]

theorem Run.pitzer_offset_full {s : Input} {v : Solver} (hr : Run s v) {h : Nat}
    (hh : h < s.nirrep_) :
    v.offs.pitzer_offset_full.get [(h : Int)] = some (offs s.nmopi_ h : Int) := by
  have hoff := hr.off
  simp only [buildOffsets, bind, Option.bind_eq_some, pure, Option.some.injEq] at hoff
  obtain ⟨po, _, pof, hpof, popc, _, e⟩ := hoff
  rw [← e]
  obtain ⟨hd, hv⟩ := offsets_spec hpof
  rw [Tab.get_eq_some, hd, inBounds_one, hv h hh, offsInt_cast]
  exact ⟨⟨by omega, by exact_mod_cast hh⟩, rfl⟩

theorem Run.symmetry_full_inv {s : Input} {v : Solver} (hr : Run s v) :
    ∃ c, FillInv s.nmopi_ [s.ntot] s.nirrep_ c v.labels.symmetry_full := by
  have h := hr.lb
  simp only [buildLabels, bind, Option.bind_eq_some, pure, Option.some.injEq] at h
  obtain ⟨al, _, sf, hsf, spc, _, e⟩ := h
  rw [← e]
  exact fillLabels_spec hsf

/-- The label of position `j` of irrep `h` in `symmetry_full` is `h`. -/
theorem Run.symmetry_full_get {s : Input} {v : Solver} (hr : Run s v) {h j : Nat}
    (hh : h < s.nirrep_) (hj : j < s.nmopi_ h) :
    v.labels.symmetry_full.get [(pz s h j : Int)] = some (h : Int) := by
  obtain ⟨c, hI⟩ := hr.symmetry_full_inv
  rw [Tab.get_eq_some, hI.dims]
  exact ⟨hI.fit h j hh hj, hI.lab h j hh hj⟩

/-- Every full Pitzer index is a position of one irrep. -/
theorem pz_decompose {s : Input} (hc : Consistent s) {m : Nat} (hm : m < s.ntot) :
    ∃ h j, h < s.nirrep_ ∧ j < s.nmopi_ h ∧ m = pz s h j := by
  rw [hc.ntot] at hm
  obtain ⟨g, p, hg, hp, e⟩ := offs_decompose s.nmopi_ hm
  exact ⟨g, p, hg, hp, e⟩

/-- Once every rank is assigned, every orbital has been chosen. -/
theorem RankInv.surj {s : Input} {st : EnergyOrder} (hc : Consistent s)
    (hI : RankInv s s.ntot st) {h j : Nat} (hh : h < s.nirrep_) (hj : j < s.nmopi_ h) :
    ∃ r, r < s.ntot ∧ st.energy_to_pitzer_order.val [(r : Int)] = (pz s h j : Int) := by
  have hinj : Set.InjOn (fun r : Nat => (st.energy_to_pitzer_order.val [(r : Int)]).toNat)
      (Finset.range s.ntot : Set Nat) := by
    intro r hr r' hr' e
    simp only [Finset.coe_range, Set.mem_Iio] at hr hr'
    obtain ⟨h1, j1, _, e1, p1, _⟩ := hI.chosen r hr
    obtain ⟨h2, j2, _, e2, p2, _⟩ := hI.chosen r' hr'
    simp only [e1, e2, Int.toNat_natCast] at e
    rw [e] at p1
    rw [p1] at p2
    exact_mod_cast p2
  have hsub : (Finset.range s.ntot).image
      (fun r : Nat => (st.energy_to_pitzer_order.val [(r : Int)]).toNat) ⊆
      Finset.range s.ntot := by
    intro m hm
    obtain ⟨r, hr, e⟩ := Finset.mem_image.1 hm
    obtain ⟨h1, j1, hin, e1, _, _⟩ := hI.chosen r (Finset.mem_range.1 hr)
    simp only [e1, Int.toNat_natCast] at e
    rw [← e]
    exact Finset.mem_range.2
      (pz_lt_ntot hc hin.hh (hin.valid (poolOfRank_ok s hc r)))
  have heq := Finset.eq_of_subset_of_card_le hsub
    (by rw [Finset.card_image_of_injOn hinj])
  have hmem : pz s h j ∈ (Finset.range s.ntot).image
      (fun r : Nat => (st.energy_to_pitzer_order.val [(r : Int)]).toNat) := by
    rw [heq]
    exact Finset.mem_range.2 (pz_lt_ntot hc hh hj)
  obtain ⟨r, hr, e⟩ := Finset.mem_image.1 hmem
  obtain ⟨h1, j1, _, e1, _, _⟩ := hI.chosen r (Finset.mem_range.1 hr)
  refine ⟨r, Finset.mem_range.1 hr, ?_⟩
  simp only [e1, Int.toNat_natCast] at e
  rw [e1, e]

/-- The rank of an orbital, with the pool that ranked it. -/
theorem RankInv.rank_of {s : Input} {st : EnergyOrder} (hc : Consistent s)
    (hI : RankInv s s.ntot st) {h j : Nat} (hh : h < s.nirrep_) (hj : j < s.nmopi_ h) :
    ∃ r, r < s.ntot ∧ st.energy_to_pitzer_order.val [(r : Int)] = (pz s h j : Int) ∧
      st.pitzer_to_energy_order.val [(pz s h j : Int)] = (r : Int) ∧
      InPool s (poolOfRank s r) h j := by
  obtain ⟨r, hr, e⟩ := hI.surj hc hh hj
  obtain ⟨h1, j1, hin, e1, p1, _⟩ := hI.chosen r hr
  rw [e] at e1
  have e' : pz s h j = pz s h1 j1 := by exact_mod_cast e1
  obtain ⟨x1, x2⟩ := pz_inj hj (hin.valid (poolOfRank_ok s hc r)) e'
  subst x1 x2
  exact ⟨r, hr, e, p1, hin⟩

theorem inBounds_single {r n : Nat} (h : r < n) : inBounds [(r : Int)] [n] = true := by
  rw [inBounds_one]; omega

theorem poolIdx_eq_of_range {s : Input} {r r' : Nat} (hrr : r < r')
    (hpool : r' < s.nfrzc ∨ (s.nfrzc ≤ r ∧ r' < s.nfrzc + s.nmo) ∨ s.nfrzc + s.nmo ≤ r) :
    poolIdx s r = poolIdx s r' := by
  unfold poolIdx
  rcases hpool with h | ⟨h1, h2⟩ | h
  · rw [if_pos (by omega), if_pos h]
  · rw [if_neg (by omega), if_pos (by omega), if_neg (by omega), if_pos h2]
  · rw [if_neg (by omega), if_neg (by omega), if_neg (by omega), if_neg (by omega)]

/-- Positions of the three pools do not overlap, so the pool fixes the rank range. -/
theorem poolIdx_of_mem {s : Input} {P : Pool} {r h j : Nat}
    (hP : P = corePool s ∨ P = activePool s ∨ P = virtualPool s)
    (hin : InPool s P h j) (hin' : InPool s (poolOfRank s r) h j) :
    (P = corePool s ∧ poolIdx s r = 0) ∨ (P = activePool s ∧ poolIdx s r = 1) ∨
      (P = virtualPool s ∧ poolIdx s r = 2) := by
  have a1 := hin.lo
  have a2 := hin.hi
  have b1 := hin'.lo
  have b2 := hin'.hi
  unfold poolOfRank at b1 b2
  unfold poolIdx
  by_cases c1 : r < s.nfrzc
  · rw [if_pos c1] at b1 b2 ⊢
    rcases hP with hP | hP | hP
    · exact Or.inl ⟨hP, rfl⟩
    · exfalso; subst hP; simp only [corePool, activePool] at *; omega
    · exfalso; subst hP; simp only [corePool, virtualPool] at *; omega
  · rw [if_neg c1] at b1 b2 ⊢
    by_cases c2 : r < s.nfrzc + s.nmo
    · rw [if_pos c2] at b1 b2 ⊢
      rcases hP with hP | hP | hP
      · exfalso; subst hP; simp only [corePool, activePool] at *; omega
      · exact Or.inr (Or.inl ⟨hP, rfl⟩)
      · exfalso; subst hP; simp only [activePool, virtualPool] at *; omega
    · rw [if_neg c2] at b1 b2 ⊢
      rcases hP with hP | hP | hP
      · exfalso; subst hP; simp only [corePool, virtualPool] at *; omega
      · exfalso; subst hP; simp only [activePool, virtualPool] at *; omega
      · exact Or.inr (Or.inr ⟨hP, rfl⟩)

theorem fullWrite_spec {hij ifull jfull : Int} {st st' : FullTables}
    (hrun : fullWrite hij ifull jfull st = some st') :
    ∃ g, st.gems_full.get [hij] = some g ∧
      st'.gems_full.dims = st.gems_full.dims ∧
      st'.gems_full.val = Function.update st.gems_full.val [hij] (g + 1) ∧
      st'.ibas_full_sym.dims = st.ibas_full_sym.dims ∧
      st'.ibas_full_sym.val = Function.update
        (Function.update st.ibas_full_sym.val [hij, ifull, jfull] g) [hij, jfull, ifull] g ∧
      st'.bas_full_sym.dims = st.bas_full_sym.dims ∧
      st'.bas_full_sym.val = Function.update
        (Function.update st.bas_full_sym.val [hij, g, 0] ifull) [hij, g, 1] jfull ∧
      st'.gems_plus_core = st.gems_plus_core ∧
      inBounds [hij, ifull, jfull] st.ibas_full_sym.dims = true ∧
      inBounds [hij, g, 0] st.bas_full_sym.dims = true := by
  simp only [fullWrite, bind, Option.bind_eq_some, pure, Option.some.injEq] at hrun
  obtain ⟨g, hg, ib1, h1, ib2, h2, b1, h3, b2, h4, gf, h5, rfl⟩ := hrun
  refine ⟨g, hg, Tab.set_dims h5, Tab.set_val h5, ?_, ?_, ?_, ?_, rfl, Tab.set_inb h1,
    Tab.set_inb h3⟩
  · show ib2.dims = _
    rw [Tab.set_dims h2, Tab.set_dims h1]
  · show ib2.val = _
    rw [Tab.set_val h2, Tab.set_val h1]
  · show b2.dims = _
    rw [Tab.set_dims h4, Tab.set_dims h3]
  · show b2.val = _
    rw [Tab.set_val h4, Tab.set_val h3]

theorem plusCoreIncr_spec {hij : Int} {st st' : FullTables}
    (hrun : plusCoreIncr hij st = some st') :
    st'.gems_full = st.gems_full ∧ st'.ibas_full_sym = st.ibas_full_sym ∧
      st'.bas_full_sym = st.bas_full_sym := by
  simp only [plusCoreIncr, bind, Option.bind_eq_some, pure, Option.some.injEq] at hrun
  obtain ⟨c, _, gp, _, rfl⟩ := hrun
  exact ⟨rfl, rfl, rfl⟩

theorem FullInv.congr {s : Input} {sf e2p : Tab} {ieo jeo : Nat} {st st' : FullTables}
    (hI : FullInv s sf e2p ieo jeo st) (h1 : st'.gems_full = st.gems_full)
    (h2 : st'.ibas_full_sym = st.ibas_full_sym) (h3 : st'.bas_full_sym = st.bas_full_sym) :
    FullInv s sf e2p ieo jeo st' := by
  refine ⟨by rw [h2]; exact hI.dib, by rw [h3]; exact hI.db, by rw [h1]; exact hI.dg, ?_, ?_⟩
  · rw [h1]; exact hI.nonneg
  · rw [h1, h2, h3]; exact hI.rows

theorem FullInv.next_row {s : Input} {sf e2p : Tab} {ieo : Nat} {st : FullTables}
    (hI : FullInv s sf e2p ieo (ieo + 1) st) : FullInv s sf e2p (ieo + 1) 0 st := by
  refine ⟨hI.dib, hI.db, hI.dg, hI.nonneg, fun h n hh hn => ?_⟩
  obtain ⟨a, b, hab, hba, r⟩ := hI.rows h n hh hn
  exact ⟨a, b, Or.inl (by omega), hba, r⟩

theorem fullInner_step {s : Input} {sf pof e2p : Tab} {ieo jeo : Nat} {ifull hi : Int}
    {st st' : FullTables}
    (hinj : ∀ a b : Nat, a < s.ntot → b < s.ntot →
      e2p.val [(a : Int)] = e2p.val [(b : Int)] → a = b)
    (hieo : ieo < s.ntot) (hjeo : jeo ≤ ieo) (hifull : ifull = e2p.val [(ieo : Int)])
    (hhi : sf.get [ifull] = some hi) (hI : FullInv s sf e2p ieo jeo st)
    (hrun : fullInner s sf pof e2p ieo ifull hi jeo st = some st') :
    FullInv s sf e2p ieo (jeo + 1) st' := by
  simp only [fullInner, bind, Option.bind_eq_some, pure] at hrun
  obtain ⟨jfull, hjf, hj, hhj, _, _, hij, hhij, st1, hw, hrest⟩ := hrun
  have hjfull : jfull = e2p.val [(jeo : Int)] := ((Tab.get_eq_some.1 hjf).2).symm
  suffices h1 : FullInv s sf e2p ieo (jeo + 1) st1 by
    split at hrest
    · obtain ⟨a, b, c⟩ := plusCoreIncr_spec hrest
      exact h1.congr a b c
    · cases hrest
      exact h1
  obtain ⟨g, hg, dg, vg, dib, vib, db, vb, _, _, _⟩ := fullWrite_spec hw
  obtain ⟨hgin, hgv⟩ := Tab.get_eq_some.1 hg
  rw [hI.dg, inBounds_one] at hgin
  obtain ⟨h0, rfl⟩ : ∃ h0 : Nat, hij = (h0 : Int) := ⟨hij.toNat, by omega⟩
  have hh0 : h0 < s.nirrep_ := by omega
  have hg0 : 0 ≤ g := by rw [← hgv]; exact hI.nonneg h0
  subst hifull hjfull
  refine ⟨by rw [dib]; exact hI.dib, by rw [db]; exact hI.db, by rw [dg]; exact hI.dg, ?_, ?_⟩
  · intro h
    rw [vg]
    by_cases e : h = h0
    · subst e
      rw [update_single_eq]
      omega
    · rw [update_single_ne e]
      exact hI.nonneg h
  · intro h n hh hn
    rw [vg] at hn
    rw [vib, vb]
    have old : (n : Int) < st.gems_full.val [(h : Int)] → (h = h0 → (n : Int) ≠ g) →
        ∃ a b, (a < ieo ∨ (a = ieo ∧ b < jeo + 1)) ∧ b ≤ a ∧
          Function.update (Function.update st.bas_full_sym.val [(h0 : Int), g, 0]
            (e2p.val [(ieo : Int)])) [(h0 : Int), g, 1] (e2p.val [(jeo : Int)])
            [(h : Int), (n : Int), 0] = e2p.val [(a : Int)] ∧
          Function.update (Function.update st.bas_full_sym.val [(h0 : Int), g, 0]
            (e2p.val [(ieo : Int)])) [(h0 : Int), g, 1] (e2p.val [(jeo : Int)])
            [(h : Int), (n : Int), 1] = e2p.val [(b : Int)] ∧
          Function.update (Function.update st.ibas_full_sym.val
            [(h0 : Int), e2p.val [(ieo : Int)], e2p.val [(jeo : Int)]] g)
            [(h0 : Int), e2p.val [(jeo : Int)], e2p.val [(ieo : Int)]] g
            [(h : Int), e2p.val [(a : Int)], e2p.val [(b : Int)]] = (n : Int) ∧
          Function.update (Function.update st.ibas_full_sym.val
            [(h0 : Int), e2p.val [(ieo : Int)], e2p.val [(jeo : Int)]] g)
            [(h0 : Int), e2p.val [(jeo : Int)], e2p.val [(ieo : Int)]] g
            [(h : Int), e2p.val [(b : Int)], e2p.val [(a : Int)]] = (n : Int) ∧
          ∃ hi hj, sf.get [e2p.val [(a : Int)]] = some hi ∧
            sf.get [e2p.val [(b : Int)]] = some hj ∧ SymmetryPair hi hj = some (h : Int) := by
      intro hn' hne
      obtain ⟨a, b, hab, hba, r0, r1, r2, r3, r4⟩ := hI.rows h n hh hn'
      have ha : a < s.ntot := by omega
      have hb : b < s.ntot := by omega
      have hcell : ∀ x y : Nat, (x = a ∧ y = b) ∨ (x = b ∧ y = a) →
          ∀ u w : Nat, (u = ieo ∧ w = jeo) ∨ (u = jeo ∧ w = ieo) →
          [(h : Int), e2p.val [(x : Int)], e2p.val [(y : Int)]] ≠
            [(h0 : Int), e2p.val [(u : Int)], e2p.val [(w : Int)]] := by
        intro x y hxy u w huw e
        simp only [List.cons.injEq, and_true] at e
        obtain ⟨_, e1, e2⟩ := e
        have hx : x < s.ntot := by omega
        have hy : y < s.ntot := by omega
        have hu : u < s.ntot := by omega
        have hw' : w < s.ntot := by omega
        have := hinj x u hx hu e1
        have := hinj y w hy hw' e2
        omega
      have hrow : ∀ c : Int, [(h : Int), (n : Int), c] ≠ [(h0 : Int), g, 0] ∧
          [(h : Int), (n : Int), c] ≠ [(h0 : Int), g, 1] := by
        intro c
        constructor <;>
        · intro e
          simp only [List.cons.injEq, and_true] at e
          exact hne (by exact_mod_cast e.1) e.2.1
      refine ⟨a, b, by omega, hba, ?_, ?_, ?_, ?_, r4⟩
      · rw [Function.update_noteq (hrow 0).2, Function.update_noteq (hrow 0).1]; exact r0
      · rw [Function.update_noteq (hrow 1).2, Function.update_noteq (hrow 1).1]; exact r1
      · rw [Function.update_noteq (hcell a b (Or.inl ⟨rfl, rfl⟩) jeo ieo (Or.inr ⟨rfl, rfl⟩)),
          Function.update_noteq (hcell a b (Or.inl ⟨rfl, rfl⟩) ieo jeo (Or.inl ⟨rfl, rfl⟩))]
        exact r2
      · rw [Function.update_noteq (hcell b a (Or.inr ⟨rfl, rfl⟩) jeo ieo (Or.inr ⟨rfl, rfl⟩)),
          Function.update_noteq (hcell b a (Or.inr ⟨rfl, rfl⟩) ieo jeo (Or.inl ⟨rfl, rfl⟩))]
        exact r3
    by_cases e : h = h0
    · subst e
      rw [update_single_eq] at hn
      by_cases hng : (n : Int) = g
      · refine ⟨ieo, jeo, Or.inr ⟨rfl, Nat.lt_succ_self _⟩, hjeo, ?_, ?_, ?_, ?_,
          hi, hj, hhi, hhj, hhij⟩
        · rw [hng, Function.update_noteq (by simp), Function.update_same]
        · rw [hng, Function.update_same]
        · rw [← hng]
          by_cases e' : [(h : Int), e2p.val [(ieo : Int)], e2p.val [(jeo : Int)]] =
              [(h : Int), e2p.val [(jeo : Int)], e2p.val [(ieo : Int)]]
          · rw [e', Function.update_same]
          · rw [Function.update_noteq e', Function.update_same]
        · rw [← hng, Function.update_same]
      · exact old (by omega) (fun _ => hng)
    · rw [update_single_ne e] at hn
      exact old hn (fun e' => absurd e' e)

theorem fullOuter_step {s : Input} {sf pof e2p : Tab} {ieo : Nat} {st st' : FullTables}
    (hinj : ∀ a b : Nat, a < s.ntot → b < s.ntot →
      e2p.val [(a : Int)] = e2p.val [(b : Int)] → a = b)
    (hieo : ieo < s.ntot) (hI : FullInv s sf e2p ieo 0 st)
    (hrun : fullOuter s sf pof e2p ieo st = some st') : FullInv s sf e2p (ieo + 1) 0 st' := by
  simp only [fullOuter, bind, Option.bind_eq_some] at hrun
  obtain ⟨ifull, hif, hi, hhi, _, _, hloop⟩ := hrun
  have hifull : ifull = e2p.val [(ieo : Int)] := ((Tab.get_eq_some.1 hif).2).symm
  refine FullInv.next_row ?_
  refine loopM_inv (fun k x => FullInv s sf e2p ieo k x) hloop hI ?_
  intro k a b hk hIk hstep
  rw [Nat.zero_add] at hstep
  exact fullInner_step hinj hieo (by omega) hifull hhi hIk hstep

/-- A completed full-space traversal over an injective `energy_to_pitzer_order`. -/
theorem fullTraversal_spec {s : Input} {sf pof e2p : Tab} {ft : FullTables}
    (hinj : ∀ a b : Nat, a < s.ntot → b < s.ntot →
      e2p.val [(a : Int)] = e2p.val [(b : Int)] → a = b)
    (hrun : fullTraversal s sf pof e2p = some ft) : FullInv s sf e2p s.ntot 0 ft := by
  unfold fullTraversal at hrun
  refine loopM_inv (fun k x => FullInv s sf e2p k 0 x) hrun ?_ ?_
  · exact ⟨rfl, rfl, rfl, fun h => le_refl _, fun h n _ hn => by
      exfalso
      have : (n : Int) < 0 := hn
      omega⟩
  · intro k a b hk hIk hstep
    rw [Nat.zero_add] at hstep
    exact fullOuter_step hinj hk hIk hstep

/-- A run that is defined returns the value read off with `getD`. -/
theorem run_getD {s : Input} (h : (BuildBasis (Solver.init s)).isSome = true) :
    BuildBasis (Solver.init s) = some ((BuildBasis (Solver.init s)).getD (Solver.init s)) := by
  cases hb : BuildBasis (Solver.init s) with
  | none => rw [hb] at h; cases h
  | some v => rfl

set_option maxRecDepth 100000 in
/-- The run on `exS` completes. -/
theorem exS_run : BuildBasis (Solver.init exS) = some exS_out := run_getD (by decide)

set_option maxRecDepth 100000 in
/-- The run on `exA` completes. -/
theorem exA_run : BuildBasis (Solver.init exA) = some exA_out := run_getD (by decide)

set_option maxRecDepth 100000 in
/-- The run on `exB` completes. -/
theorem exB_run : BuildBasis (Solver.init exB) = some exB_out := run_getD (by decide)

set_option maxRecDepth 100000 in
/-- The run on `ex5` completes. -/
theorem ex5_run : BuildBasis (Solver.init ex5) = some ex5_out := run_getD (by decide)

set_option maxRecDepth 100000 in
/-- The run on `ex9` completes. -/
theorem ex9_run : BuildBasis (Solver.init ex9) = some ex9_out := run_getD (by decide)

/-- The counts of `exS` are consistent. -/
theorem exS_consistent : Consistent exS :=
  ⟨by decide, by decide, by decide, by decide⟩

/-- The counts of `exA` are consistent. -/
theorem exA_consistent : Consistent exA :=
  ⟨by decide, by decide, by decide, by decide⟩

/-- The counts of `exB` are consistent. -/
theorem exB_consistent : Consistent exB :=
  ⟨by decide, by decide, by decide, by decide⟩

/-- The counts of `ex5` are consistent. -/
theorem ex5_consistent : Consistent ex5 :=
  ⟨by decide, by decide, by decide, by decide⟩

/-- The counts of `ex9` are consistent. -/
theorem ex9_consistent : Consistent ex9 :=
  ⟨by decide, by decide, by decide, by decide⟩

/-- The energies of `exS` are below `1.0e99`. -/
theorem exS_below : EnergiesBelow exS := by
  intro h j _ _
  show (if j = 0 then (1 : ℚ) else 0) < min0
  split <;> decide

/-- The energies of `exB` are below `1.0e99`. -/
theorem exB_below : EnergiesBelow exB := by
  intro h j _ _
  show (if h = 0 then (if j = 0 then (0 : ℚ) else if j = 1 then 5 else 9)
    else (if j = 0 then 5 else 3)) < min0
  split_ifs <;> decide

set_option maxRecDepth 100000 in
/-- On `exS` the rank-to-Pitzer map is the transposition of `0` and `1`. -/
theorem exS_perm : IsPerm exS_out.energy_to_pitzer_order exS.ntot := by
  have e0 : exS_out.energy_to_pitzer_order.val [0] = 1 := by decide
  have e1 : exS_out.energy_to_pitzer_order.val [1] = 0 := by decide
  have hN : exS.ntot = 2 := by decide
  rw [hN]
  constructor
  · intro r hr
    have : r = 0 ∨ r = 1 := by omega
    rcases this with rfl | rfl
    · exact ⟨1, by omega, e0⟩
    · exact ⟨0, by omega, e1⟩
  · intro a b ha hb e
    have ha' : a = 0 ∨ a = 1 := by omega
    have hb' : b = 0 ∨ b = 1 := by omega
    rcases ha' with rfl | rfl <;> rcases hb' with rfl | rfl <;>
      first
        | rfl
        | (exfalso
           simp only [Nat.cast_zero, Nat.cast_one] at e
           rw [e0, e1] at e
           omega)

/-- Total correctness of a loop: when every iteration is defined on the states of the
invariant and keeps the invariant, the loop is defined and ends in the invariant. -/
theorem loopM_defined {σ : Type} (I : Nat → σ → Prop) {lo n : Nat} {f : Nat → σ → Option σ}
    {s : σ} (h0 : I 0 s)
    (hdef : ∀ k a, k < n → I k a → ∃ b, f (lo + k) a = some b)
    (hstep : ∀ k a b, k < n → I k a → f (lo + k) a = some b → I (k + 1) b) :
    ∃ s', loopM lo n f s = some s' ∧ I n s' := by
  refine loopM_total I h0 (fun k a hk hI => ?_)
  obtain ⟨b, hb⟩ := hdef k a hk hI
  exact ⟨b, hb, hstep k a b hk hI hb⟩

theorem offs_add (a b : Nat → Nat) (n : Nat) :
    offs (fun h => a h + b h) n = offs a n + offs b n := by
  unfold offs
  exact Finset.sum_add_distrib

theorem labelsOrb_defined (h k : Nat) (a : LabelFill)
    (hin : inBounds [a.count] a.arr.dims = true) : ∃ b, labelsOrb h k a = some b := by
  refine ⟨⟨a.count + 1, ⟨a.arr.dims, Function.update a.arr.val [a.count] h⟩⟩, ?_⟩
  simp only [labelsOrb, Tab.set_of_inb _ hin, bind, Option.bind, pure]

theorem labelsLoop_defined (h lo n : Nat) {size c : Nat} (st : LabelFill)
    (hc : st.count = (c : Int)) (hd : st.arr.dims = [size]) (hfit : c + n ≤ size) :
    ∃ st', loopM lo n (labelsOrb h) st = some st' := by
  have key : ∃ st', loopM lo n (labelsOrb h) st = some st' ∧
      (st'.count = ((c + n : Nat) : Int) ∧ st'.arr.dims = [size]) :=
    loopM_defined
      (fun k (a : LabelFill) => a.count = ((c + k : Nat) : Int) ∧ a.arr.dims = [size])
      (show st.count = ((c + 0 : Nat) : Int) ∧ st.arr.dims = [size] from
        ⟨by simpa using hc, hd⟩)
      (fun k a hk hI => labelsOrb_defined h (lo + k) a (by
        have hI' : a.count = ((c + k : Nat) : Int) ∧ a.arr.dims = [size] := hI
        rw [hI'.2, hI'.1, inBounds_one]
        constructor <;> omega))
      (fun k a b hk hI hstep => by
        have hI' : a.count = ((c + k : Nat) : Int) ∧ a.arr.dims = [size] := hI
        obtain ⟨e1, e2⟩ := labelsOrb_step h (lo + k) a b hstep
        exact ⟨by rw [e1, hI'.1]; push_cast; ring, by rw [Tab.set_dims e2]; exact hI'.2⟩)
  obtain ⟨st', h1, _⟩ := key
  exact ⟨st', h1⟩

/-- A label array is filled without leaving its allocation when the counts of the irreps
add up to at most its size. -/
theorem fillLabels_defined (nirrep : Nat) (cnt : Nat → Nat) (size : Nat)
    (hfit : offs cnt nirrep ≤ size) : ∃ t, fillLabels nirrep cnt size = some t := by
  have key : ∃ st', loopM 0 nirrep (fun h st => loopM 0 (cnt h) (labelsOrb h) st)
      (⟨0, Tab.alloc [size] 0⟩ : LabelFill) = some st' ∧
      (st'.count = ((offs cnt nirrep : Nat) : Int) ∧ st'.arr.dims = [size]) :=
    loopM_defined
      (fun H (x : LabelFill) => x.count = ((offs cnt H : Nat) : Int) ∧ x.arr.dims = [size])
      ⟨by simp [offs], rfl⟩
      (fun H a hH hI => by
        have hI' : a.count = ((offs cnt H : Nat) : Int) ∧ a.arr.dims = [size] := hI
        rw [Nat.zero_add]
        refine labelsLoop_defined H 0 (cnt H) a hI'.1 hI'.2 ?_
        have := offs_mono cnt (show H + 1 ≤ nirrep from hH)
        rw [offs_succ] at this
        omega)
      (fun H a b hH hI hstep => by
        have hI' : a.count = ((offs cnt H : Nat) : Int) ∧ a.arr.dims = [size] := hI
        rw [Nat.zero_add] at hstep
        obtain ⟨hc, hd, _, _, _⟩ :=
          @fill_irrep _ LabelFill.count LabelFill.arr _ _ (labelsOrb_step H) _ _ _ _ hstep
        exact ⟨by rw [hc, hI'.1, offs_succ]; push_cast; ring, by rw [hd]; exact hI'.2⟩)
  obtain ⟨st', h1, _⟩ := key
  exact ⟨st'.arr, by simp only [fillLabels, h1, Option.map_some']⟩

theorem activeLabelsOrb_dims (h : Nat) (k : Nat) (a b : ActiveLabels)
    (hrun : activeLabelsOrb h k a = some b) :
    b.full_basis.dims = a.full_basis.dims ∧ b.symmetry.dims = a.symmetry.dims := by
  simp only [activeLabelsOrb, bind, Option.bind_eq_some, pure, Option.some.injEq] at hrun
  obtain ⟨t, ht, u, hu, rfl⟩ := hrun
  exact ⟨Tab.set_dims ht, Tab.set_dims hu⟩

theorem activeLabelsOrb_defined (h k : Nat) (a : ActiveLabels)
    (h1 : inBounds [a.count] a.full_basis.dims = true)
    (h2 : inBounds [a.count] a.symmetry.dims = true) :
    ∃ b, activeLabelsOrb h k a = some b := by
  refine ⟨⟨a.count + 1, a.count_full + 1,
    ⟨a.full_basis.dims, Function.update a.full_basis.val [a.count] a.count_full⟩,
    ⟨a.symmetry.dims, Function.update a.symmetry.val [a.count] h⟩⟩, ?_⟩
  simp only [activeLabelsOrb, Tab.set_of_inb _ h1, Tab.set_of_inb _ h2, bind, Option.bind, pure]

theorem activeLoop_defined (h lo n : Nat) {size c : Nat} (st : ActiveLabels)
    (hc : st.count = (c : Int)) (hd : st.symmetry.dims = [size])
    (hd' : st.full_basis.dims = [size]) (hfit : c + n ≤ size) :
    ∃ st', loopM lo n (activeLabelsOrb h) st = some st' ∧
      (st'.count = ((c + n : Nat) : Int) ∧ st'.symmetry.dims = [size] ∧
      st'.full_basis.dims = [size]) := by
  refine loopM_defined
    (fun k (a : ActiveLabels) => a.count = ((c + k : Nat) : Int) ∧ a.symmetry.dims = [size] ∧
      a.full_basis.dims = [size])
    (show st.count = ((c + 0 : Nat) : Int) ∧ _ from ⟨by simpa using hc, hd, hd'⟩)
    (fun k a hk hI => by
      have hI' : a.count = ((c + k : Nat) : Int) ∧ a.symmetry.dims = [size] ∧
        a.full_basis.dims = [size] := hI
      exact activeLabelsOrb_defined h (lo + k) a
        (by rw [hI'.2.2, hI'.1, inBounds_one]; constructor <;> omega)
        (by rw [hI'.2.1, hI'.1, inBounds_one]; constructor <;> omega))
    (fun k a b hk hI hstep => by
      have hI' : a.count = ((c + k : Nat) : Int) ∧ a.symmetry.dims = [size] ∧
        a.full_basis.dims = [size] := hI
      obtain ⟨e1, _⟩ := activeLabelsOrb_step h (lo + k) a b hstep
      obtain ⟨d1, d2⟩ := activeLabelsOrb_dims h (lo + k) a b hstep
      exact ⟨by rw [e1, hI'.1]; push_cast; ring, by rw [d2]; exact hI'.2.1,
        by rw [d1]; exact hI'.2.2⟩)

/-- The loop "symmetry of ACTIVE orbitals" stays inside its two arrays when the active counts
add up to at most `nmo + nfrzc + nfrzv`. -/
theorem activeLabels_defined (s : Input) (hfit : offs (activeTrips s) s.nirrep_ ≤ s.ntot) :
    ∃ al, activeLabels s = some al := by
  have key : ∃ st', loopM 0 s.nirrep_ (activeLabelsIrrep s)
      (⟨0, 0, Tab.malloc [s.ntot] s.heap, Tab.alloc [s.ntot] 0⟩ : ActiveLabels) = some st' ∧
      (st'.count = ((offs (activeTrips s) s.nirrep_ : Nat) : Int) ∧
        st'.symmetry.dims = [s.ntot] ∧ st'.full_basis.dims = [s.ntot]) :=
    loopM_defined
      (fun H (x : ActiveLabels) => x.count = ((offs (activeTrips s) H : Nat) : Int) ∧
        x.symmetry.dims = [s.ntot] ∧ x.full_basis.dims = [s.ntot])
      ⟨by simp [offs], rfl, rfl⟩
      (fun H a hH hI => by
        have hI' : a.count = ((offs (activeTrips s) H : Nat) : Int) ∧
          a.symmetry.dims = [s.ntot] ∧ a.full_basis.dims = [s.ntot] := hI
        rw [Nat.zero_add]
        have hle := offs_mono (activeTrips s) (show H + 1 ≤ s.nirrep_ from hH)
        rw [offs_succ] at hle
        have et : activeTrips s H = s.nmopi_ H - s.frzvpi_ H - s.frzcpi_ H := rfl
        obtain ⟨st1, hst1, _⟩ := activeLoop_defined H (s.frzcpi_ H)
          (s.nmopi_ H - s.frzvpi_ H - s.frzcpi_ H)
          { a with count_full := a.count_full + s.frzcpi_ H }
          hI'.1 hI'.2.1 hI'.2.2 (by omega)
        exact ⟨_, by simp only [activeLabelsIrrep, hst1, bind, Option.bind, pure]; rfl⟩)
      (fun H a b hH hI hstep => by
        have hI' : a.count = ((offs (activeTrips s) H : Nat) : Int) ∧
          a.symmetry.dims = [s.ntot] ∧ a.full_basis.dims = [s.ntot] := hI
        rw [Nat.zero_add] at hstep
        simp only [activeLabelsIrrep, bind, Option.bind_eq_some, pure, Option.some.injEq]
          at hstep
        obtain ⟨st1, hst1, rfl⟩ := hstep
        have hle := offs_mono (activeTrips s) (show H + 1 ≤ s.nirrep_ from hH)
        rw [offs_succ] at hle
        have et : activeTrips s H = s.nmopi_ H - s.frzvpi_ H - s.frzcpi_ H := rfl
        obtain ⟨st2, hst2, e1, e2, e3⟩ := activeLoop_defined H (s.frzcpi_ H)
          (s.nmopi_ H - s.frzvpi_ H - s.frzcpi_ H)
          { a with count_full := a.count_full + s.frzcpi_ H }
          hI'.1 hI'.2.1 hI'.2.2 (by omega)
        rw [hst1] at hst2
        cases hst2
        refine ⟨?_, e2, e3⟩
        show st1.count = _
        rw [e1, offs_succ]
        rfl)
  obtain ⟨st', h1, _⟩ := key
  exact ⟨st', h1⟩

/-- With consistent counts the four label arrays are filled inside their allocations. -/
theorem buildLabels_defined {s : Input} (hc : Consistent s) : ∃ lb, buildLabels s = some lb := by
  obtain ⟨al, h1⟩ := activeLabels_defined s (by
    have e : offs (activeTrips s) s.nirrep_ = offs s.amopi_ s.nirrep_ :=
      offs_congr (fun g hg => hc.activeTrips hg)
    rw [e, ← hc.nmo]
    unfold Input.ntot
    omega)
  obtain ⟨sf, h2⟩ := fillLabels_defined s.nirrep_ s.nmopi_ s.ntot (by rw [hc.ntot])
  obtain ⟨spc, h3⟩ := fillLabels_defined s.nirrep_ (fun h => s.amopi_ h + s.frzcpi_ h)
    (s.nmo + s.nfrzc) (by rw [offs_add, ← hc.nmo, ← hc.nfrzc])
  exact ⟨⟨al.symmetry, al.full_basis, sf, spc⟩, by
    simp only [buildLabels, symmetryFull, symmetryPlusCore, h1, h2, h3, bind, Option.bind, pure]⟩

theorem offsets_defined (nirrep : Nat) (inc : Nat → Int) : ∃ t, offsets nirrep inc = some t := by
  have key : ∃ st', loopM 0 nirrep
      (fun h (st : LabelFill) => (st.arr.set [(h : Int)] st.count).bind fun a =>
        some (⟨st.count + inc h, a⟩ : LabelFill))
      (⟨0, Tab.alloc [nirrep] 0⟩ : LabelFill) = some st' ∧ st'.arr.dims = [nirrep] :=
    loopM_defined (fun _ (x : LabelFill) => x.arr.dims = [nirrep]) rfl
      (fun H a hH hI => by
        have hI' : a.arr.dims = [nirrep] := hI
        have hin : inBounds [((0 + H : Nat) : Int)] a.arr.dims = true := by
          rw [hI', Nat.zero_add]; exact inBounds_single hH
        exact ⟨_, by rw [Tab.set_of_inb _ hin]; rfl⟩)
      (fun H a b hH hI hstep => by
        have hI' : a.arr.dims = [nirrep] := hI
        simp only [Option.bind_eq_some, Option.some.injEq] at hstep
        obtain ⟨t, ht, rfl⟩ := hstep
        show t.dims = _
        rw [Tab.set_dims ht]; exact hI')
  obtain ⟨st', h1, _⟩ := key
  exact ⟨st'.arr, by
    have e : offsets nirrep inc = (loopM 0 nirrep
      (fun h (st : LabelFill) => (st.arr.set [(h : Int)] st.count).bind fun a =>
        some (⟨st.count + inc h, a⟩ : LabelFill))
      (⟨0, Tab.alloc [nirrep] 0⟩ : LabelFill)).map (fun st => st.arr) := rfl
    rw [e, h1]; rfl⟩

/-- The three offset tables are written inside their allocations. -/
theorem buildOffsets_defined (s : Input) : ∃ off, buildOffsets s = some off := by
  obtain ⟨a, h1⟩ := offsets_defined s.nirrep_
    (fun h => (s.nmopi_ h : Int) - s.frzcpi_ h - s.frzvpi_ h)
  obtain ⟨b, h2⟩ := offsets_defined s.nirrep_ (fun h => (s.nmopi_ h : Int))
  obtain ⟨c, h3⟩ := offsets_defined s.nirrep_ (fun h => (s.nmopi_ h : Int) - s.frzvpi_ h)
  exact ⟨⟨a, b, c⟩, by
    simp only [buildOffsets, pitzerOffset, pitzerOffsetFull, pitzerOffsetPlusCore, h1, h2, h3,
      bind, Option.bind, pure]⟩

theorem scanOrb_defined (s : Input) (skip : Tab) (h j : Nat) (st : Scan)
    (hin : inBounds [st.me] skip.dims = true) :
    ∃ st', scanOrb s skip h j st = some st' ∧ st'.me = st.me + 1 := by
  unfold scanOrb
  split
  · rw [Tab.get_of_inb hin]
    by_cases h0 : skip.val [st.me] = 0
    · exact ⟨_, by simp only [bind, Option.bind, pure, h0, if_true]; rfl, rfl⟩
    · exact ⟨_, by simp only [bind, Option.bind, pure, h0, if_false]; rfl, rfl⟩
  · exact ⟨_, rfl, rfl⟩

theorem scanIrrep_defined (s : Input) (P : Pool) (skip : Tab) (h : Nat) (st : Scan)
    {size : Nat} (hd : skip.dims = [size])
    (hme : st.me + P.pre h = ((offs s.nmopi_ h + P.lo h : Nat) : Int))
    (hfit : offs s.nmopi_ h + P.lo h + P.cnt h ≤ size) :
    ∃ st', scanIrrep s P skip h st = some st' := by
  have key : ∃ st', loopM (P.lo h) (P.cnt h) (scanOrb s skip h)
      { st with me := st.me + P.pre h } = some st' ∧
      st'.me = ((offs s.nmopi_ h + P.lo h + P.cnt h : Nat) : Int) :=
    loopM_defined (fun q (x : Scan) => x.me = ((offs s.nmopi_ h + P.lo h + q : Nat) : Int))
      (show st.me + P.pre h = ((offs s.nmopi_ h + P.lo h + 0 : Nat) : Int) from hme)
      (fun q a hq hI => by
        have hI' : a.me = ((offs s.nmopi_ h + P.lo h + q : Nat) : Int) := hI
        obtain ⟨b, hb, _⟩ := scanOrb_defined s skip h (P.lo h + q) a (by
          rw [hd, hI', inBounds_one]
          constructor <;> omega)
        exact ⟨b, hb⟩)
      (fun q a b hq hI hstep => by
        have hI' : a.me = ((offs s.nmopi_ h + P.lo h + q : Nat) : Int) := hI
        obtain ⟨b', hb', e⟩ := scanOrb_defined s skip h (P.lo h + q) a (by
          rw [hd, hI', inBounds_one]
          constructor <;> omega)
        rw [hstep] at hb'
        cases hb'
        show b.me = _
        rw [e, hI']
        push_cast
        ring)
  obtain ⟨st1, h1, _⟩ := key
  exact ⟨_, by simp only [scanIrrep, h1, bind, Option.bind, pure]; rfl⟩

/-- A scan reads `skip` only at full Pitzer indices. -/
theorem scan_defined {s : Input} {P : Pool} (skip : Tab) (imin0 isym0 : Int)
    (hc : Consistent s) (hP : PoolOK s P) (hd : skip.dims = [s.ntot]) :
    ∃ sc, loopM 0 s.nirrep_ (scanIrrep s P skip) ⟨0, min0, imin0, isym0⟩ = some sc := by
  have key : ∃ sc, loopM 0 s.nirrep_ (scanIrrep s P skip) ⟨0, min0, imin0, isym0⟩ = some sc ∧
      ScanInv s P skip imin0 isym0 (offs s.nmopi_ s.nirrep_) sc :=
    loopM_defined (fun H x => ScanInv s P skip imin0 isym0 (offs s.nmopi_ H) x)
      ⟨by simp [offs], Or.inl ⟨rfl, rfl, rfl, fun h j _ hlt => by simp [offs] at hlt⟩⟩
      (fun H a hH hI => by
        have hI' : ScanInv s P skip imin0 isym0 (offs s.nmopi_ H) a := hI
        rw [Nat.zero_add]
        refine scanIrrep_defined s P skip H a hd ?_ ?_
        · rw [hI'.me, hP.pre H hH]; push_cast; ring
        · have h1 := hP.le H hH
          have h2 := offs_mono s.nmopi_ (show H + 1 ≤ s.nirrep_ from hH)
          rw [offs_succ, ← hc.ntot] at h2
          omega)
      (fun H a b hH hI hstep => by
        rw [Nat.zero_add] at hstep
        exact scanIrrep_step hP hH hI hstep)
  obtain ⟨sc, h1, _⟩ := key
  exact ⟨sc, h1⟩

/-- When an unskipped position of the pool is left and every energy is below `1.0e99`, a
completed scan has taken a position of the pool. -/
theorem scan_taken {s : Input} {P : Pool} {skip : Tab} {imin0 isym0 : Int} {sc : Scan}
    (hE : EnergiesBelow s) (hP : PoolOK s P)
    (hex : ∃ h j, InPool s P h j ∧ skip.val [(pz s h j : Int)] = 0)
    (hS : ScanInv s P skip imin0 isym0 (offs s.nmopi_ s.nirrep_) sc) :
    ∃ h j, InPool s P h j ∧ sc.imin = (pz s h j : Int) := by
  rcases hS.best with ⟨_, _, _, h4⟩ | ⟨h, j, hin, _, himin, _⟩
  · exfalso
    obtain ⟨h, j, hin, hs0⟩ := hex
    exact h4 h j hin (offs_add_lt s.nmopi_ hin.hh (hin.valid hP)) hs0
      (hE h j hin.hh (hin.valid hP))
  · exact ⟨h, j, hin, himin⟩

theorem rankStep_seo {s : Input} {P : Pool} {R : Nat} {st st' : EnergyOrder}
    (hrun : rankStep s P R st = some st') :
    st'.symmetry_energy_order.dims = st.symmetry_energy_order.dims := by
  simp only [rankStep, bind, Option.bind_eq_some, pure, Option.some.injEq] at hrun
  obtain ⟨sc, _, skip', _, seo', hseo, p2e', _, e2p', _, rfl⟩ := hrun
  exact Tab.set_dims hseo

theorem rankStep_defined {s : Input} {P : Pool} {R : Nat} {st : EnergyOrder}
    (hc : Consistent s) (hE : EnergiesBelow s) (hP : PoolOK s P) (hR : R < s.ntot)
    (hex : ∃ h j, InPool s P h j ∧ st.skip.val [(pz s h j : Int)] = 0)
    (hI : RankInv s R st) (hseo : st.symmetry_energy_order.dims = [s.ntot]) :
    ∃ st', rankStep s P R st = some st' := by
  obtain ⟨sc, hsc⟩ := scan_defined st.skip st.imin st.isym hc hP hI.dskip
  obtain ⟨hb, jb, hinb, himin⟩ := scan_taken hE hP hex (scan_spec hP hsc)
  have hlt := pz_lt_ntot hc hinb.hh (hinb.valid hP)
  have i1 : inBounds [sc.imin] st.skip.dims = true := by
    rw [himin, hI.dskip]; exact inBounds_single hlt
  have i2 : inBounds [(R : Int)] st.symmetry_energy_order.dims = true := by
    rw [hseo]; exact inBounds_single hR
  have i3 : inBounds [sc.imin] st.pitzer_to_energy_order.dims = true := by
    rw [himin, hI.dp2e]; exact inBounds_single hlt
  have i4 : inBounds [(R : Int)] st.energy_to_pitzer_order.dims = true := by
    rw [hI.de2p]; exact inBounds_single hR
  exact ⟨_, by
    simp only [rankStep, hsc, Tab.set_of_inb _ i1, Tab.set_of_inb _ i2, Tab.set_of_inb _ i3,
      Tab.set_of_inb _ i4, bind, Option.bind, pure]; rfl⟩

theorem rankLoop_defined {s : Input} {P : Pool} {r0 T : Nat} {st : EnergyOrder}
    (hc : Consistent s) (hE : EnergiesBelow s) (hP : PoolOK s P)
    (hT : offs P.cnt s.nirrep_ = T) (hfit : r0 + T ≤ s.ntot)
    (hpool : ∀ r, r0 ≤ r → r < r0 + T → poolOfRank s r = P)
    (hdisj : ∀ r h j, r < r0 → InPool s (poolOfRank s r) h j → ¬ InPool s P h j)
    (hI : RankInv s r0 st) (hseo : st.symmetry_energy_order.dims = [s.ntot]) :
    ∃ st', loopM r0 T (rankStep s P) st = some st' ∧
      (RankInv s (r0 + T) st' ∧ st'.symmetry_energy_order.dims = [s.ntot]) :=
  loopM_defined
    (fun k x => RankInv s (r0 + k) x ∧ x.symmetry_energy_order.dims = [s.ntot])
    ⟨hI, hseo⟩
    (fun k a hk hIk => by
      have hIk' : RankInv s (r0 + k) a ∧ a.symmetry_energy_order.dims = [s.ntot] := hIk
      exact rankStep_defined hc hE hP (by omega)
        (exists_unskipped hP hT hk hdisj (poolOfRank_ok s hc) hIk'.1) hIk'.1 hIk'.2)
    (fun k a b hk hIk hstep => by
      have hIk' : RankInv s (r0 + k) a ∧ a.symmetry_energy_order.dims = [s.ntot] := hIk
      exact ⟨rankStep_spec hE hP (hpool (r0 + k) (by omega) (by omega))
        (exists_unskipped hP hT hk hdisj (poolOfRank_ok s hc) hIk'.1) hIk'.1 hstep,
        by rw [rankStep_seo hstep]; exact hIk'.2⟩)

/-- With consistent counts and every energy below `1.0e99`, the three ranking loops stay
inside their arrays. -/
theorem energyOrder_defined {s : Input} (hc : Consistent s) (hE : EnergiesBelow s) :
    ∃ eo, energyOrder s = some eo := by
  have I0 : RankInv s 0
      ⟨min0, -999, -999, Tab.alloc [s.ntot] 0, Tab.alloc [s.ntot] 0, Tab.alloc [s.ntot] 0,
        Tab.alloc [s.ntot] 0⟩ :=
    ⟨rfl, rfl, rfl, fun r hr => absurd hr (Nat.not_lt_zero r),
      fun h j _ _ hs => absurd rfl hs,
      fun r r' h j h' j' _ hr' => absurd hr' (Nat.not_lt_zero r'),
      fun r h j h' j' hr => absurd hr (Nat.not_lt_zero r)⟩
  obtain ⟨st1, h1, I1, d1⟩ :=
    @rankLoop_defined s (corePool s) 0 s.nfrzc _ hc hE (corePool_ok s hc)
      (by rw [hc.nfrzc]; rfl)
      (by unfold Input.ntot; omega)
      (fun r _ hr => by unfold poolOfRank; rw [if_pos (by omega)])
      (fun r h j hr => absurd hr (Nat.not_lt_zero r)) I0 rfl
  rw [Nat.zero_add] at I1
  obtain ⟨st2, h2, I2, d2⟩ :=
    @rankLoop_defined s (activePool s) s.nfrzc s.nmo st1 hc hE (activePool_ok s hc)
      (by rw [hc.nmo]; rfl)
      (by unfold Input.ntot; omega)
      (fun r h1 h2 => by unfold poolOfRank; rw [if_neg (by omega), if_pos (by omega)])
      (fun r h j hr hin hin' => by
        unfold poolOfRank at hin
        rw [if_pos hr] at hin
        have := hin.hi
        have := hin'.lo
        simp only [corePool, activePool] at *
        omega) I1 d1
  obtain ⟨st3, h3, _, _⟩ :=
    @rankLoop_defined s (virtualPool s) (s.nmo + s.nfrzc) s.nfrzv st2 hc hE
      (virtualPool_ok s hc)
      (by
        rw [hc.nfrzv]
        refine offs_congr (fun g hg => ?_)
        have := hc.split g hg
        simp only [virtualPool]
        omega)
      (by unfold Input.ntot; omega)
      (fun r h1 h2 => by unfold poolOfRank; rw [if_neg (by omega), if_neg (by omega)])
      (fun r h j hr hin hin' => by
        unfold poolOfRank at hin
        have := hin'.lo
        have := hc.split h hin.hh
        split at hin
        · have := hin.hi
          simp only [corePool, virtualPool] at *
          omega
        · rw [if_pos (by omega)] at hin
          have := hin.hi
          simp only [activePool, virtualPool] at *
          omega)
      (by rw [Nat.add_comm s.nmo s.nfrzc]; exact I2) d2
  exact ⟨st3, by simp only [energyOrder, h1, h2, h3, bind, Option.bind]⟩

/-- Every cell of a filled label array is readable and holds an irrep label. -/
theorem FillInv.get_label {c : Nat → Nat} {size H : Nat} {cnt : Int} {arr : Tab}
    (hI : FillInv c [size] H cnt arr) (hH : 0 < H) {i : Nat} (hi : i < size) :
    ∃ a : Nat, a < H ∧ arr.get [(i : Int)] = some (a : Int) := by
  have hin : inBounds [(i : Int)] arr.dims = true := by
    rw [hI.dims]; exact inBounds_single hi
  rcases hI.rng [(i : Int)] with h0 | ⟨g, hg, e⟩
  · exact ⟨0, hH, by rw [Tab.get_of_inb hin, h0]; rfl⟩
  · exact ⟨g, hg, by rw [Tab.get_of_inb hin, e]⟩

theorem pairListInner_defined {symm : Tab} (mk : Nat → Nat → Int × Int) (h i j : Nat)
    (l : List (Int × Int)) {a b : Nat} (ha : a < 8) (hb : b < 8)
    (hi : symm.get [(i : Int)] = some (a : Int)) (hj : symm.get [(j : Int)] = some (b : Int)) :
    ∃ l', pairListInner symm mk h i j l = some l' :=
  ⟨_, by
    simp only [pairListInner, hi, hj, SymmetryPair_eq_xor ha hb, bind, Option.bind, pure]; rfl⟩

theorem pairList_defined {symm : Tab} {N : Nat}
    (hlab : ∀ i, i < N → ∃ a : Nat, a < 8 ∧ symm.get [(i : Int)] = some (a : Int))
    (n : Nat) (inner : Nat → Nat) (mk : Nat → Nat → Int × Int) (h : Nat) (hn : n ≤ N)
    (hinner : ∀ i, i < n → inner i ≤ N) : ∃ l, pairList symm n inner mk h = some l := by
  have key : ∃ l, loopM 0 n (fun i l => loopM 0 (inner i) (pairListInner symm mk h i) l) [] =
      some l ∧ True :=
    loopM_defined (fun _ _ => True) trivial
      (fun i l hi _ => by
        rw [Nat.zero_add]
        have inner_key : ∃ l', loopM 0 (inner i) (pairListInner symm mk h i) l = some l' ∧
            True :=
          loopM_defined (fun _ _ => True) trivial
            (fun j l' hj _ => by
              rw [Nat.zero_add]
              obtain ⟨a, ha, hga⟩ := hlab i (by omega)
              obtain ⟨b, hb, hgb⟩ := hlab j (by have := hinner i hi; omega)
              exact pairListInner_defined mk h i j l' ha hb hga hgb)
            (fun _ _ _ _ _ _ => trivial)
        obtain ⟨l', h1, _⟩ := inner_key
        exact ⟨l', h1⟩)
      (fun _ _ _ _ _ _ => trivial)
  obtain ⟨l, h1, _⟩ := key
  exact ⟨l, h1⟩

theorem pushPairLists_defined {symm : Tab} {N : Nat}
    (hlab : ∀ i, i < N → ∃ a : Nat, a < 8 ∧ symm.get [(i : Int)] = some (a : Int))
    (nirrep n : Nat) (inner : Nat → Nat) (mk : Nat → Nat → Int × Int)
    (gems : List (List (Int × Int))) (hn : n ≤ N) (hinner : ∀ i, i < n → inner i ≤ N) :
    ∃ g, pushPairLists symm nirrep n inner mk gems = some g := by
  have key : ∃ g, loopM 0 nirrep
      (fun h g => (pairList symm n inner mk h).map (fun l => g ++ [l])) gems = some g ∧ True :=
    loopM_defined (fun _ _ => True) trivial
      (fun h g _ _ => by
        obtain ⟨l, hl⟩ := pairList_defined hlab n inner mk (0 + h) hn hinner
        exact ⟨g ++ [l], by rw [hl]; rfl⟩)
      (fun _ _ _ _ _ _ => trivial)
  obtain ⟨g, h1, _⟩ := key
  exact ⟨g, h1⟩

theorem labels_lt_eight {c : Nat → Nat} {size H : Nat} {cnt : Int} {arr : Tab}
    (hI : FillInv c [size] H cnt arr) (hH : 0 < H) (h8 : H ≤ 8) :
    ∀ i, i < size → ∃ a : Nat, a < 8 ∧ arr.get [(i : Int)] = some (a : Int) := by
  intro i hi
  obtain ⟨a, ha, hg⟩ := hI.get_label hH hi
  exact ⟨a, by omega, hg⟩

/-- What `buildLabels` leaves in its three label arrays. -/
theorem buildLabels_spec {s : Input} {lb : Labels} (hlb : buildLabels s = some lb) :
    (∃ c, FillInv (activeTrips s) [s.ntot] s.nirrep_ c lb.symmetry) ∧
      (∃ c, FillInv s.nmopi_ [s.ntot] s.nirrep_ c lb.symmetry_full) ∧
      (∃ c, FillInv (fun h => s.amopi_ h + s.frzcpi_ h) [s.nmo + s.nfrzc] s.nirrep_ c
        lb.symmetry_plus_core) := by
  simp only [buildLabels, bind, Option.bind_eq_some, pure, Option.some.injEq] at hlb
  obtain ⟨al, h1, sf, h2, spc, h3, rfl⟩ := hlb
  exact ⟨⟨_, activeLabels_spec h1⟩, fillLabels_spec h2, fillLabels_spec h3⟩

/-- With at most 8 irreps the three pair lists are built from readable labels with a defined
product. -/
theorem buildLists_defined {s : Input} {lb : Labels} (hlb : buildLabels s = some lb)
    (hpos : 0 < s.nirrep_) (h8 : s.nirrep_ ≤ 8) (old : PairLists) :
    ∃ ls, buildLists s lb old = some ls := by
  obtain ⟨⟨c1, f1⟩, ⟨c2, f2⟩, ⟨c3, f3⟩⟩ := buildLabels_spec hlb
  obtain ⟨g, hg⟩ := pushPairLists_defined (labels_lt_eight f1 hpos h8) s.nirrep_ s.nmo
    (fun _ => s.nmo) (fun i j => ((j : Int), (i : Int))) old.gems
    (by unfold Input.ntot; omega)
    (fun _ _ => show s.nmo ≤ s.ntot by unfold Input.ntot; omega)
  obtain ⟨gf, hgf⟩ := pushPairLists_defined (labels_lt_eight f2 hpos h8) s.nirrep_ s.ntot
    (fun i => i + 1) (fun i j => ((i : Int), (j : Int))) old.gems_fullspace
    (Nat.le_refl _) (fun i hi => hi)
  obtain ⟨gpc, hgpc⟩ := pushPairLists_defined (labels_lt_eight f3 hpos h8) s.nirrep_
    (s.nmo + s.nfrzc) (fun i => i + 1) (fun i j => ((i : Int), (j : Int)))
    old.gems_plus_corespace (Nat.le_refl _) (fun i hi => hi)
  exact ⟨⟨g, gf, gpc⟩, by
    simp only [buildLists, pushGems, pushGemsFullspace, pushGemsPlusCorespace, hg, hgf, hgpc,
      bind, Option.bind, pure]⟩

theorem xor_lt_eight {a b : Nat} (ha : a < 8) (hb : b < 8) : a ^^^ b < 8 :=
  PowTwo.xor_lt (Or.inr (Or.inr (Or.inr rfl))) ha hb

theorem tripMiddle_defined {symm : Tab} {N : Nat}
    (hlab : ∀ i, i < N → ∃ a : Nat, a < 8 ∧ symm.get [(i : Int)] = some (a : Int))
    (nmo h i j : Nat) (l : List (Int × Int × Int)) (hn : nmo ≤ N) (hi : i < nmo)
    (hj : j < nmo) : ∃ l', tripMiddle symm nmo h i j l = some l' := by
  obtain ⟨a, ha, hga⟩ := hlab i (by omega)
  obtain ⟨b, hb, hgb⟩ := hlab j (by omega)
  have key : ∃ l', loopM 0 nmo (tripInner symm h i j ((a ^^^ b : Nat) : Int)) l = some l' ∧
      True :=
    loopM_defined (fun _ _ => True) trivial
      (fun k l' hk _ => by
        obtain ⟨c, hc, hgc⟩ := hlab (0 + k) (by omega)
        exact ⟨_, by
          simp only [tripInner, hgc, SymmetryPair_eq_xor (xor_lt_eight ha hb) hc, bind,
            Option.bind, pure]; rfl⟩)
      (fun _ _ _ _ _ _ => trivial)
  obtain ⟨l', h1, _⟩ := key
  exact ⟨l', by
    simp only [tripMiddle, hga, hgb, SymmetryPair_eq_xor ha hb, bind, Option.bind]
    exact h1⟩

theorem tripList_defined {symm : Tab} {N : Nat}
    (hlab : ∀ i, i < N → ∃ a : Nat, a < 8 ∧ symm.get [(i : Int)] = some (a : Int))
    (nmo h : Nat) (hn : nmo ≤ N) : ∃ l, tripList symm nmo h = some l := by
  have key : ∃ l, loopM 0 nmo (fun i l => loopM 0 nmo (tripMiddle symm nmo h i) l) [] =
      some l ∧ True :=
    loopM_defined (fun _ _ => True) trivial
      (fun i l hi _ => by
        have inner_key : ∃ l', loopM 0 nmo (tripMiddle symm nmo h (0 + i)) l = some l' ∧
            True :=
          loopM_defined (fun _ _ => True) trivial
            (fun j l' hj _ =>
              tripMiddle_defined hlab nmo h (0 + i) (0 + j) l' hn (by omega) (by omega))
            (fun _ _ _ _ _ _ => trivial)
        obtain ⟨l', h1, _⟩ := inner_key
        exact ⟨l', h1⟩)
      (fun _ _ _ _ _ _ => trivial)
  obtain ⟨l, h1, _⟩ := key
  exact ⟨l, h1⟩

theorem pushTriplets_defined {s : Input} {symm : Tab} {N : Nat}
    (hlab : ∀ i, i < N → ∃ a : Nat, a < 8 ∧ symm.get [(i : Int)] = some (a : Int))
    (hn : s.nmo ≤ N) (t0 : List (List (Int × Int × Int))) :
    ∃ t, pushTriplets s symm t0 = some t := by
  have key : ∃ t, loopM 0 s.nirrep_
      (fun h t => (tripList symm s.nmo h).map (fun l => t ++ [l])) t0 = some t ∧ True :=
    loopM_defined (fun _ _ => True) trivial
      (fun h t _ _ => by
        obtain ⟨l, hl⟩ := tripList_defined hlab s.nmo (0 + h) hn
        exact ⟨t ++ [l], by rw [hl]; rfl⟩)
      (fun _ _ _ _ _ _ => trivial)
  obtain ⟨t, h1, _⟩ := key
  exact ⟨t, h1⟩

theorem writeAB_defined {h n A B C M : Nat} {i j : Int} {x : Sector}
    (di : x.ibas.dims = [A, B, C]) (db : x.bas.dims = [A, M, 2]) (hh : h < A)
    (hi : 0 ≤ i ∧ i < B) (hj : 0 ≤ j ∧ j < C) (hn : n < M) :
    ∃ x', writeAB h n i j x = some x' := by
  have i1 : inBounds [(h : Int), i, j] x.ibas.dims = true := by
    rw [di, inBounds_three]; omega
  have i2 : inBounds [(h : Int), (n : Int), 0] x.bas.dims = true := by
    rw [db, inBounds_three]; omega
  have i3 : inBounds [(h : Int), (n : Int), 1] x.bas.dims = true := by
    rw [db, inBounds_three]; omega
  exact ⟨_, by simp only [writeAB, Tab.set, i1, i2, i3, if_true, bind, Option.bind, pure]; rfl⟩

theorem writeSym_defined {h A B M : Nat} {i j : Int} {x : Sector}
    (di : x.ibas.dims = [A, B, B]) (db : x.bas.dims = [A, M, 2]) (hh : h < A)
    (hi : 0 ≤ i ∧ i < B) (hj : 0 ≤ j ∧ j < B) (hn : 0 ≤ x.count ∧ x.count < M) :
    ∃ x', writeSym h i j x = some x' := by
  have i1 : inBounds [(h : Int), i, j] x.ibas.dims = true := by
    rw [di, inBounds_three]; omega
  have i1' : inBounds [(h : Int), j, i] x.ibas.dims = true := by
    rw [di, inBounds_three]; omega
  have i2 : inBounds [(h : Int), x.count, 0] x.bas.dims = true := by
    rw [db, inBounds_three]; omega
  have i3 : inBounds [(h : Int), x.count, 1] x.bas.dims = true := by
    rw [db, inBounds_three]; omega
  exact ⟨_, by
    simp only [writeSym, Tab.set, i1, i1', i2, i3, if_true, bind, Option.bind, pure]; rfl⟩

theorem mapPair_defined {h n A B M : Nat} {i j : Int} {st : PairTables}
    (dab : st.ab.ibas.dims = [A, B, B] ∧ st.ab.bas.dims = [A, M, 2])
    (d00 : st.s00.ibas.dims = [A, B, B] ∧ st.s00.bas.dims = [A, M, 2])
    (daa : st.aa.ibas.dims = [A, B, B] ∧ st.aa.bas.dims = [A, M, 2])
    (hh : h < A) (hi : 0 ≤ i ∧ i < B) (hj : 0 ≤ j ∧ j < B) (hn : n < M)
    (c00 : 0 ≤ st.s00.count ∧ st.s00.count < M) (caa : 0 ≤ st.aa.count ∧ st.aa.count < M) :
    ∃ st', mapPair h n i j st = some st' := by
  obtain ⟨ab, hab⟩ := writeAB_defined dab.1 dab.2 hh hi hj hn
  obtain ⟨s00, hs00⟩ := writeSym_defined d00.1 d00.2 hh hi hj c00
  obtain ⟨aa, haa⟩ := writeSym_defined daa.1 daa.2 hh hi hj caa
  by_cases h1 : i < j
  · exact ⟨_, by simp only [mapPair, hab, bind, Option.bind, pure, h1, if_true]; rfl⟩
  · by_cases h2 : i ≤ j
    · exact ⟨_, by
        simp only [mapPair, hab, hs00, bind, Option.bind, pure, h1, h2, if_true, if_false]; rfl⟩
    · exact ⟨_, by
        simp only [mapPair, hab, hs00, haa, bind, Option.bind, pure, h1, h2, if_false]; rfl⟩

theorem length_filter_take_le {α : Type} (g : List α) (p : α → Bool) (k : Nat) :
    ((g.take k).filter p).length ≤ k :=
  Nat.le_trans (List.length_filter_le _ _) (by rw [List.length_take]; exact Nat.min_le_left _ _)

theorem mapPairAt_defined {h A B M k : Nat} {g : List (Int × Int)} {st0 st : PairTables}
    (dab : st0.ab.ibas.dims = [A, B, B] ∧ st0.ab.bas.dims = [A, M, 2])
    (d00 : st0.s00.ibas.dims = [A, B, B] ∧ st0.s00.bas.dims = [A, M, 2])
    (daa : st0.aa.ibas.dims = [A, B, B] ∧ st0.aa.bas.dims = [A, M, 2])
    (hh : h < A)
    (hmem : ∀ p, p ∈ g → ∃ i j : Nat, i < B ∧ j < B ∧ p = ((i : Int), (j : Int)))
    (hlen : g.length ≤ M) (hk : k < g.length) (hI : PairInv h g st0 k st) :
    ∃ st', mapPairAt g h k st = some st' := by
  obtain ⟨i, j, hi, hj, hp⟩ := hmem g[k] (List.getElem_mem _)
  have hget : g[k]? = some ((i : Int), (j : Int)) := by
    rw [List.getElem?_eq_getElem hk, hp]
  have l00 := length_filter_take_le g keep00 k
  have laa := length_filter_take_le g keepAA k
  obtain ⟨st', hst'⟩ := @mapPair_defined h k A B M (i : Int) (j : Int) st
    ⟨by rw [hI.ab.idims]; exact dab.1, by rw [hI.ab.bdims]; exact dab.2⟩
    ⟨by rw [hI.s00.idims]; exact d00.1, by rw [hI.s00.bdims]; exact d00.2⟩
    ⟨by rw [hI.aa.idims]; exact daa.1, by rw [hI.aa.bdims]; exact daa.2⟩
    hh (by omega) (by omega) (by omega)
    (by rw [hI.s00.count]; omega) (by rw [hI.aa.count]; omega)
  exact ⟨st', by simp only [mapPairAt, hget, bind, Option.bind]; exact hst'⟩

theorem mapBlock_defined {h A B M : Nat} {gems : List (List (Int × Int))}
    {g : List (Int × Int)} {st : PairTables} (hg : gems[h]? = some g)
    (dab : st.ab.ibas.dims = [A, B, B] ∧ st.ab.bas.dims = [A, M, 2])
    (d00 : st.s00.ibas.dims = [A, B, B] ∧ st.s00.bas.dims = [A, M, 2])
    (daa : st.aa.ibas.dims = [A, B, B] ∧ st.aa.bas.dims = [A, M, 2])
    (dg : st.gems_ab.dims = [A] ∧ st.gems_00.dims = [A] ∧ st.gems_aa.dims = [A])
    (hh : h < A)
    (hmem : ∀ p, p ∈ g → ∃ i j : Nat, i < B ∧ j < B ∧ p = ((i : Int), (j : Int)))
    (hlen : g.length ≤ M) : ∃ st', mapBlock gems h st = some st' := by
  have key : ∃ st1, loopM 0 g.length (mapPairAt g h)
      { st with ab := st.ab.reset, aa := st.aa.reset, s00 := st.s00.reset } = some st1 ∧
      PairInv h g st g.length st1 :=
    loopM_defined (PairInv h g st)
      (by
        refine ⟨?_, ?_, ?_, rfl, rfl, rfl⟩
        · simpa using SecInv.nil h (cellsAB h) rowPair st.ab.reset rfl
        · simpa using SecInv.nil h (cellsSym h) rowPair st.s00.reset rfl
        · simpa using SecInv.nil h (cellsSym h) rowPair st.aa.reset rfl)
      (fun k a hk hIk => by
        rw [Nat.zero_add]
        exact mapPairAt_defined dab d00 daa hh hmem hlen hk hIk)
      (fun k a b _ hIk hstep => by
        rw [Nat.zero_add] at hstep
        exact mapPairAt_step hIk hstep)
  obtain ⟨st1, h1, hI⟩ := key
  have i1 : inBounds [(h : Int)] st1.gems_ab.dims = true := by
    rw [hI.gab, dg.1]; exact inBounds_single hh
  have i2 : inBounds [(h : Int)] st1.gems_aa.dims = true := by
    rw [hI.gaa, dg.2.2]; exact inBounds_single hh
  have i3 : inBounds [(h : Int)] st1.gems_00.dims = true := by
    rw [hI.g00, dg.2.1]; exact inBounds_single hh
  exact ⟨_, by
    simp only [mapBlock, hg, h1, Tab.set_of_inb _ i1, Tab.set_of_inb _ i2, Tab.set_of_inb _ i3,
      bind, Option.bind, pure]; rfl⟩

theorem length_pairSpec_le (symm : Tab) (n : Nat) (inner : Nat → Nat)
    (mk : Nat → Nat → Int × Int) (h : Nat) :
    (pairSpec symm n inner mk h).length ≤ Finset.sum (Finset.range n) inner := by
  rw [length_pairSpec]
  refine Finset.sum_le_sum (fun i _ => ?_)
  exact Nat.le_trans (Finset.card_filter_le _ _) (by rw [Finset.card_range])

theorem length_gemsSpec_le (s : Input) (symmetry : Tab) (h : Nat) :
    (gemsSpec s symmetry h).length ≤ s.nmo * s.nmo := by
  have := length_pairSpec_le symmetry s.nmo (fun _ => s.nmo) mkJI h
  simpa [gemsSpec] using this

/-- The active-space mappings write inside their tables: the lists hold pairs of active
orbitals, at most `nmo * nmo` of them in a block. -/
theorem activeMappings_defined {s : Input} {symmetry : Tab} {gems : List (List (Int × Int))}
    (hG : ∀ h, h < s.nirrep_ → gems[h]? = some (gemsSpec s symmetry h)) :
    ∃ pt, activeMappings s gems = some pt := by
  have key : ∃ pt, loopM 0 s.nirrep_ (mapBlock gems)
      { ab := Sector.alloc [s.nirrep_, s.nmo * s.nmo, 2] [s.nirrep_, s.nmo, s.nmo]
        aa := Sector.alloc [s.nirrep_, s.nmo * s.nmo, 2] [s.nirrep_, s.nmo, s.nmo]
        s00 := Sector.alloc [s.nirrep_, s.nmo * s.nmo, 2] [s.nirrep_, s.nmo, s.nmo]
        gems_ab := Tab.alloc [s.nirrep_] 0
        gems_aa := Tab.alloc [s.nirrep_] 0
        gems_00 := Tab.alloc [s.nirrep_] 0 } = some pt ∧
      ActiveInv s (gemsSpec s symmetry) s.nirrep_ pt :=
    loopM_defined (ActiveInv s (gemsSpec s symmetry))
      ⟨SectorBlocks.zero _ _ _ _ _, SectorBlocks.zero _ _ _ _ _, SectorBlocks.zero _ _ _ _ _,
        fun h hh => absurd hh (Nat.not_lt_zero h), fun h hh => absurd hh (Nat.not_lt_zero h),
        fun h hh => absurd hh (Nat.not_lt_zero h), ⟨rfl, rfl⟩, ⟨rfl, rfl⟩, ⟨rfl, rfl⟩,
        ⟨rfl, rfl, rfl⟩⟩
      (fun H a hH hI => by
        rw [Nat.zero_add]
        exact mapBlock_defined (hG H hH) hI.dab hI.d00 hI.daa hI.dg hH
          (fun p hp => mem_gemsSpec_bounds hp) (length_gemsSpec_le s symmetry H))
      (fun H a b hH hI hstep => by
        rw [Nat.zero_add] at hstep
        obtain ⟨g, hg, sab, s00, saa, hgab, hg00, hgaa⟩ := mapBlock_spec hstep
        rw [hG H hH] at hg
        cases hg
        refine ⟨hI.ab.succ cellsAB_head sab, hI.s00.succ cellsSym_head s00,
          hI.aa.succ cellsSym_head saa, set_val_lt hgab hI.gab rfl, set_val_lt hg00 hI.g00 rfl,
          set_val_lt hgaa hI.gaa rfl, ?_, ?_, ?_, ?_⟩
        · exact ⟨by rw [sab.idims]; exact hI.dab.1, by rw [sab.bdims]; exact hI.dab.2⟩
        · exact ⟨by rw [s00.idims]; exact hI.d00.1, by rw [s00.bdims]; exact hI.d00.2⟩
        · exact ⟨by rw [saa.idims]; exact hI.daa.1, by rw [saa.bdims]; exact hI.daa.2⟩
        · exact ⟨by rw [Tab.set_dims hgab]; exact hI.dg.1,
            by rw [Tab.set_dims hg00]; exact hI.dg.2.1,
            by rw [Tab.set_dims hgaa]; exact hI.dg.2.2⟩)
  obtain ⟨pt, h1, _⟩ := key
  exact ⟨pt, h1⟩

theorem FullFit.mono {s : Input} {T T' : Nat} {st : FullTables} (hI : FullFit s T st)
    (hle : T ≤ T') : FullFit s T' st :=
  ⟨hI.dib, hI.db, hI.dg, hI.dp, fun h => ⟨(hI.cnt h).1, by have := (hI.cnt h).2; omega⟩⟩

theorem fullWrite_defined {s : Input} {T h : Nat} {ifull jfull : Int} {st : FullTables}
    (hI : FullFit s T st) (hT : T < s.ntot * s.ntot) (hh : h < s.nirrep_)
    (hi : 0 ≤ ifull ∧ ifull < s.ntot) (hj : 0 ≤ jfull ∧ jfull < s.ntot) :
    ∃ st', fullWrite (h : Int) ifull jfull st = some st' ∧ FullFit s (T + 1) st' := by
  have hc := hI.cnt h
  have i0 : inBounds [(h : Int)] st.gems_full.dims = true := by
    rw [hI.dg]; exact inBounds_single hh
  have i1 : inBounds [(h : Int), ifull, jfull] st.ibas_full_sym.dims = true := by
    rw [hI.dib, inBounds_three]; omega
  have i1' : inBounds [(h : Int), jfull, ifull] st.ibas_full_sym.dims = true := by
    rw [hI.dib, inBounds_three]; omega
  have i2 : inBounds [(h : Int), st.gems_full.val [(h : Int)], 0] st.bas_full_sym.dims = true := by
    rw [hI.db, inBounds_three]
    have : ((s.ntot * s.ntot : Nat) : Int) = (s.ntot : Int) * (s.ntot : Int) := by push_cast; ring
    have hT' : (T : Int) < ((s.ntot * s.ntot : Nat) : Int) := by exact_mod_cast hT
    omega
  have i3 : inBounds [(h : Int), st.gems_full.val [(h : Int)], 1] st.bas_full_sym.dims = true := by
    rw [hI.db, inBounds_three]
    have hT' : (T : Int) < ((s.ntot * s.ntot : Nat) : Int) := by exact_mod_cast hT
    omega
  have hdef : ∃ st', fullWrite (h : Int) ifull jfull st = some st' :=
    ⟨_, by
      simp only [fullWrite, Tab.get, Tab.set, i0, i1, i1', i2, i3, if_true, bind, Option.bind,
        pure]; rfl⟩
  obtain ⟨st', hst'⟩ := hdef
  obtain ⟨g, hg, d1, v1, d2, _, d3, _, e4, _, _⟩ := fullWrite_spec hst'
  have hgv : g = st.gems_full.val [(h : Int)] := ((Tab.get_eq_some.1 hg).2).symm
  refine ⟨st', hst', ⟨by rw [d2]; exact hI.dib, by rw [d3]; exact hI.db, by rw [d1]; exact hI.dg,
    by rw [e4]; exact hI.dp, fun h' => ?_⟩⟩
  rw [v1]
  by_cases e : h' = h
  · subst e
    rw [Function.update_same, hgv]
    have := hI.cnt h'
    push_cast
    omega
  · rw [update_single_ne e]
    have := hI.cnt h'
    push_cast
    omega

theorem plusCoreIncr_defined {s : Input} {T h : Nat} {st : FullTables}
    (hI : FullFit s T st) (hh : h < s.nirrep_) :
    ∃ st', plusCoreIncr (h : Int) st = some st' ∧ FullFit s T st' := by
  have i0 : inBounds [(h : Int)] st.gems_plus_core.dims = true := by
    rw [hI.dp]; exact inBounds_single hh
  have hdef : ∃ st', plusCoreIncr (h : Int) st = some st' :=
    ⟨_, by simp only [plusCoreIncr, Tab.get, Tab.set, i0, if_true, bind, Option.bind, pure]; rfl⟩
  obtain ⟨st', hst'⟩ := hdef
  obtain ⟨e1, e2, e3⟩ := plusCoreIncr_spec hst'
  refine ⟨st', hst', ⟨by rw [e2]; exact hI.dib, by rw [e3]; exact hI.db, by rw [e1]; exact hI.dg,
    ?_, by rw [e1]; exact hI.cnt⟩⟩
  simp only [plusCoreIncr, bind, Option.bind_eq_some, pure, Option.some.injEq] at hst'
  obtain ⟨c, _, gp, hgp, rfl⟩ := hst'
  show gp.dims = _
  rw [Tab.set_dims hgp]; exact hI.dp

theorem fullInner_defined {s : Input} {sf pof e2p : Tab} {T ieo jeo a : Nat} {ifull : Int}
    {st : FullTables} (hp : PowTwo s.nirrep_)
    (he2p : ∀ r, r < s.ntot → ∃ m : Nat, m < s.ntot ∧ e2p.get [(r : Int)] = some (m : Int))
    (hsf : ∀ m, m < s.ntot → ∃ g : Nat, g < s.nirrep_ ∧ sf.get [(m : Int)] = some (g : Int))
    (hpof : pof.dims = [s.nirrep_]) (hjeo : jeo < s.ntot) (ha : a < s.nirrep_)
    (hi : 0 ≤ ifull ∧ ifull < s.ntot) (hI : FullFit s T st) (hT : T < s.ntot * s.ntot) :
    ∃ st', fullInner s sf pof e2p ieo ifull (a : Int) jeo st = some st' ∧
      FullFit s (T + 1) st' := by
  obtain ⟨m, hm, hgm⟩ := he2p jeo hjeo
  obtain ⟨b, hb, hgb⟩ := hsf m hm
  have hgp : pof.get [(b : Int)] = some (pof.val [(b : Int)]) :=
    Tab.get_of_inb (by rw [hpof]; exact inBounds_single hb)
  have h8 := hp.le_eight
  have hx : SymmetryPair (a : Int) (b : Int) = some ((a ^^^ b : Nat) : Int) :=
    SymmetryPair_eq_xor (by omega) (by omega)
  obtain ⟨st1, hst1, hI1⟩ := fullWrite_defined hI hT (hp.xor_lt ha hb) hi
    (show 0 ≤ (m : Int) ∧ (m : Int) < s.ntot by omega)
  by_cases hc : ieo < s.nmo + s.nfrzc ∧ jeo < s.nmo + s.nfrzc
  · obtain ⟨st2, hst2, hI2⟩ := plusCoreIncr_defined hI1 (hp.xor_lt ha hb)
    exact ⟨st2, by
      simp only [fullInner, hgm, hgb, hgp, hx, hst1, bind, Option.bind, if_pos hc]
      exact hst2, hI2⟩
  · exact ⟨st1, by
      simp only [fullInner, hgm, hgb, hgp, hx, hst1, bind, Option.bind, if_neg hc, pure], hI1⟩

theorem fullOuter_defined {s : Input} {sf pof e2p : Tab} {ieo : Nat} {st : FullTables}
    (hp : PowTwo s.nirrep_)
    (he2p : ∀ r, r < s.ntot → ∃ m : Nat, m < s.ntot ∧ e2p.get [(r : Int)] = some (m : Int))
    (hsf : ∀ m, m < s.ntot → ∃ g : Nat, g < s.nirrep_ ∧ sf.get [(m : Int)] = some (g : Int))
    (hpof : pof.dims = [s.nirrep_]) (hieo : ieo < s.ntot)
    (hI : FullFit s (ieo * s.ntot) st) :
    ∃ st', fullOuter s sf pof e2p ieo st = some st' ∧ FullFit s ((ieo + 1) * s.ntot) st' := by
  obtain ⟨m, hm, hgm⟩ := he2p ieo hieo
  obtain ⟨a, ha, hga⟩ := hsf m hm
  have hgp : pof.get [(a : Int)] = some (pof.val [(a : Int)]) :=
    Tab.get_of_inb (by rw [hpof]; exact inBounds_single ha)
  have hmul : ieo * s.ntot + s.ntot ≤ s.ntot * s.ntot := by
    have := Nat.mul_le_mul_right s.ntot (show ieo + 1 ≤ s.ntot from hieo)
    rw [Nat.add_mul, Nat.one_mul] at this
    exact this
  have key : ∃ st', loopM 0 (ieo + 1) (fullInner s sf pof e2p ieo (m : Int) (a : Int)) st =
      some st' ∧ FullFit s (ieo * s.ntot + (ieo + 1)) st' :=
    loopM_total (fun jeo x => FullFit s (ieo * s.ntot + jeo) x) hI
      (fun jeo x hjeo hIx => by
        rw [Nat.zero_add]
        exact fullInner_defined hp he2p hsf hpof (by omega) ha
          (show 0 ≤ (m : Int) ∧ (m : Int) < s.ntot by omega) hIx
          (show ieo * s.ntot + jeo < s.ntot * s.ntot by omega))
  obtain ⟨st', h1, hI'⟩ := key
  refine ⟨st', ?_, hI'.mono (by rw [Nat.add_mul, Nat.one_mul]; omega)⟩
  simp only [fullOuter, hgm, hga, hgp, bind, Option.bind]
  exact h1

/-- The full-space traversal stays inside its tables when `nirrep` is 1, 2, 4 or 8, every rank
holds a full Pitzer index and every full Pitzer index has an irrep label. -/
theorem fullTraversal_defined {s : Input} {sf pof e2p : Tab} (hp : PowTwo s.nirrep_)
    (he2p : ∀ r, r < s.ntot → ∃ m : Nat, m < s.ntot ∧ e2p.get [(r : Int)] = some (m : Int))
    (hsf : ∀ m, m < s.ntot → ∃ g : Nat, g < s.nirrep_ ∧ sf.get [(m : Int)] = some (g : Int))
    (hpof : pof.dims = [s.nirrep_]) : ∃ ft, fullTraversal s sf pof e2p = some ft := by
  have key : ∃ ft, loopM 0 s.ntot (fullOuter s sf pof e2p)
      { bas_full_sym := Tab.alloc [s.nirrep_, s.ntot * s.ntot, 2] (-999)
        ibas_full_sym := Tab.alloc [s.nirrep_, s.ntot, s.ntot] (-999)
        gems_full := Tab.alloc [s.nirrep_] 0
        gems_plus_core := Tab.alloc [s.nirrep_] 0 } = some ft ∧
      FullFit s (s.ntot * s.ntot) ft :=
    loopM_total (fun ieo x => FullFit s (ieo * s.ntot) x)
      ⟨rfl, rfl, rfl, rfl, fun h => ⟨Int.le_refl _, by
        show (0 : Int) ≤ ((0 * s.ntot : Nat) : Int)
        omega⟩⟩
      (fun ieo x hieo hIx => by
        rw [Nat.zero_add]
        exact fullOuter_defined hp he2p hsf hpof hieo hIx)
  obtain ⟨ft, h1, _⟩ := key
  exact ⟨ft, h1⟩

theorem writeABA_defined {h A B M : Nat} {i j k : Int} {x : Sector}
    (di : x.ibas.dims = [A, B, B, B]) (db : x.bas.dims = [A, M, 3]) (hh : h < A)
    (hi : 0 ≤ i ∧ i < B) (hj : 0 ≤ j ∧ j < B) (hk : 0 ≤ k ∧ k < B)
    (hn : 0 ≤ x.count ∧ x.count < M) : ∃ x', writeABA h i j k x = some x' := by
  have i1 : inBounds [(h : Int), i, j, k] x.ibas.dims = true := by
    rw [di, inBounds_four]; omega
  have b0 : inBounds [(h : Int), x.count, 0] x.bas.dims = true := by
    rw [db, inBounds_three]; omega
  have b1 : inBounds [(h : Int), x.count, 1] x.bas.dims = true := by
    rw [db, inBounds_three]; omega
  have b2 : inBounds [(h : Int), x.count, 2] x.bas.dims = true := by
    rw [db, inBounds_three]; omega
  exact ⟨_, by
    simp only [writeABA, Tab.set, i1, b0, b1, b2, if_true, bind, Option.bind, pure]; rfl⟩

theorem writeAAB_defined {h A B M : Nat} {i j k : Int} {x : Sector}
    (di : x.ibas.dims = [A, B, B, B]) (db : x.bas.dims = [A, M, 3]) (hh : h < A)
    (hi : 0 ≤ i ∧ i < B) (hj : 0 ≤ j ∧ j < B) (hk : 0 ≤ k ∧ k < B)
    (hn : 0 ≤ x.count ∧ x.count < M) : ∃ x', writeAAB h i j k x = some x' := by
  have i1 : inBounds [(h : Int), i, j, k] x.ibas.dims = true := by
    rw [di, inBounds_four]; omega
  have i2 : inBounds [(h : Int), j, i, k] x.ibas.dims = true := by
    rw [di, inBounds_four]; omega
  have b0 : inBounds [(h : Int), x.count, 0] x.bas.dims = true := by
    rw [db, inBounds_three]; omega
  have b1 : inBounds [(h : Int), x.count, 1] x.bas.dims = true := by
    rw [db, inBounds_three]; omega
  have b2 : inBounds [(h : Int), x.count, 2] x.bas.dims = true := by
    rw [db, inBounds_three]; omega
  exact ⟨_, by
    simp only [writeAAB, Tab.set, i1, i2, b0, b1, b2, if_true, bind, Option.bind, pure]; rfl⟩

theorem writeAAA_defined {h A B M : Nat} {i j k : Int} {x : Sector}
    (di : x.ibas.dims = [A, B, B, B]) (db : x.bas.dims = [A, M, 3]) (hh : h < A)
    (hi : 0 ≤ i ∧ i < B) (hj : 0 ≤ j ∧ j < B) (hk : 0 ≤ k ∧ k < B)
    (hn : 0 ≤ x.count ∧ x.count < M) : ∃ x', writeAAA h i j k x = some x' := by
  have i1 : inBounds [(h : Int), i, j, k] x.ibas.dims = true := by
    rw [di, inBounds_four]; omega
  have i2 : inBounds [(h : Int), i, k, j] x.ibas.dims = true := by
    rw [di, inBounds_four]; omega
  have i3 : inBounds [(h : Int), j, i, k] x.ibas.dims = true := by
    rw [di, inBounds_four]; omega
  have i4 : inBounds [(h : Int), j, k, i] x.ibas.dims = true := by
    rw [di, inBounds_four]; omega
  have i5 : inBounds [(h : Int), k, i, j] x.ibas.dims = true := by
    rw [di, inBounds_four]; omega
  have i6 : inBounds [(h : Int), k, j, i] x.ibas.dims = true := by
    rw [di, inBounds_four]; omega
  have b0 : inBounds [(h : Int), x.count, 0] x.bas.dims = true := by
    rw [db, inBounds_three]; omega
  have b1 : inBounds [(h : Int), x.count, 1] x.bas.dims = true := by
    rw [db, inBounds_three]; omega
  have b2 : inBounds [(h : Int), x.count, 2] x.bas.dims = true := by
    rw [db, inBounds_three]; omega
  exact ⟨_, by
    simp only [writeAAA, Tab.set, i1, i2, i3, i4, i5, i6, b0, b1, b2, if_true, bind,
      Option.bind, pure]; rfl⟩

theorem mapTriple_defined {h A B M : Nat} {i j k : Int} {st : TripTables}
    (daba : st.aba.ibas.dims = [A, B, B, B] ∧ st.aba.bas.dims = [A, M, 3])
    (daab : st.aab.ibas.dims = [A, B, B, B] ∧ st.aab.bas.dims = [A, M, 3])
    (daaa : st.aaa.ibas.dims = [A, B, B, B] ∧ st.aaa.bas.dims = [A, M, 3])
    (hh : h < A) (hi : 0 ≤ i ∧ i < B) (hj : 0 ≤ j ∧ j < B) (hk : 0 ≤ k ∧ k < B)
    (caba : 0 ≤ st.aba.count ∧ st.aba.count < M) (caab : 0 ≤ st.aab.count ∧ st.aab.count < M)
    (caaa : 0 ≤ st.aaa.count ∧ st.aaa.count < M) :
    ∃ st', mapTriple h i j k st = some st' := by
  obtain ⟨aba, haba⟩ := writeABA_defined daba.1 daba.2 hh hi hj hk caba
  obtain ⟨aab, haab⟩ := writeAAB_defined daab.1 daab.2 hh hi hj hk caab
  obtain ⟨aaa, haaa⟩ := writeAAA_defined daaa.1 daaa.2 hh hi hj hk caaa
  by_cases h1 : i ≥ j
  · exact ⟨_, by simp only [mapTriple, haba, bind, Option.bind, pure, h1, if_true]; rfl⟩
  · by_cases h2 : j ≥ k
    · exact ⟨_, by
        simp only [mapTriple, haba, haab, bind, Option.bind, pure, h1, h2, if_true, if_false]
        rfl⟩
    · exact ⟨_, by
        simp only [mapTriple, haba, haab, haaa, bind, Option.bind, pure, h1, h2, if_false]
        rfl⟩

theorem mapTripleAt_defined {h A B M k : Nat} {g : List (Int × Int × Int)}
    {st0 st : TripTables}
    (daba : st0.aba.ibas.dims = [A, B, B, B] ∧ st0.aba.bas.dims = [A, M, 3])
    (daab : st0.aab.ibas.dims = [A, B, B, B] ∧ st0.aab.bas.dims = [A, M, 3])
    (daaa : st0.aaa.ibas.dims = [A, B, B, B] ∧ st0.aaa.bas.dims = [A, M, 3])
    (hh : h < A)
    (hmem : ∀ p, p ∈ g → ∃ i j l : Nat, i < B ∧ j < B ∧ l < B ∧ p = mkTriple i j l)
    (hlen : g.length ≤ M) (hk : k < g.length) (hI : TripInv h g st0 k st) :
    ∃ st', mapTripleAt g h k st = some st' := by
  obtain ⟨i, j, l, hi, hj, hl, hp⟩ := hmem g[k] (List.getElem_mem _)
  have hget : g[k]? = some (mkTriple i j l) := by
    rw [List.getElem?_eq_getElem hk, hp]
  have lab : (g.take k).length ≤ k := by rw [List.length_take]; exact Nat.min_le_left _ _
  have l00 := length_filter_take_le g keepAAB k
  have laa := length_filter_take_le g keepAAA k
  obtain ⟨st', hst'⟩ := @mapTriple_defined h A B M (i : Int) (j : Int) (l : Int) st
    ⟨by rw [hI.aba.idims]; exact daba.1, by rw [hI.aba.bdims]; exact daba.2⟩
    ⟨by rw [hI.aab.idims]; exact daab.1, by rw [hI.aab.bdims]; exact daab.2⟩
    ⟨by rw [hI.aaa.idims]; exact daaa.1, by rw [hI.aaa.bdims]; exact daaa.2⟩
    hh (by omega) (by omega) (by omega)
    (by rw [hI.aba.count]; omega) (by rw [hI.aab.count]; omega) (by rw [hI.aaa.count]; omega)
  exact ⟨st', by simp only [mapTripleAt, hget, bind, Option.bind]; exact hst'⟩

theorem mapTripBlock_defined {s : Input} {h : Nat} {trip : List (List (Int × Int × Int))}
    {g : List (Int × Int × Int)} {st : TripTables} (hg : trip[h]? = some g)
    (hF : TripFit s st) (hh : h < s.nirrep_)
    (hmem : ∀ p, p ∈ g → ∃ i j l : Nat, i < s.nmo ∧ j < s.nmo ∧ l < s.nmo ∧ p = mkTriple i j l)
    (hlen : g.length ≤ s.nmo * s.nmo * s.nmo) :
    ∃ st', mapTripBlock trip h st = some st' ∧ TripFit s st' := by
  have key : ∃ st1, loopM 0 g.length (mapTripleAt g h)
      { st with aaa := st.aaa.reset, aab := st.aab.reset, aba := st.aba.reset } = some st1 ∧
      TripInv h g st g.length st1 :=
    loopM_defined (TripInv h g st)
      (by
        refine ⟨?_, ?_, ?_, rfl, rfl, rfl⟩
        · simpa using SecInv.nil h (cellsABA h) rowTrip st.aba.reset rfl
        · simpa using SecInv.nil h (cellsAAB h) rowTrip st.aab.reset rfl
        · simpa using SecInv.nil h (cellsAAA h) rowTrip st.aaa.reset rfl)
      (fun k a hk hIk => by
        rw [Nat.zero_add]
        exact mapTripleAt_defined ⟨hF.iaba, hF.baba⟩ ⟨hF.iaab, hF.baab⟩ ⟨hF.iaaa, hF.baaa⟩ hh
          hmem hlen hk hIk)
      (fun k a b _ hIk hstep => by
        rw [Nat.zero_add] at hstep
        exact mapTripleAt_step hIk hstep)
  obtain ⟨st1, h1, hI⟩ := key
  have i1 : inBounds [(h : Int)] st1.trip_aaa.dims = true := by
    rw [hI.taaa, hF.taaa]; exact inBounds_single hh
  have i2 : inBounds [(h : Int)] st1.trip_aab.dims = true := by
    rw [hI.taab, hF.taab]; exact inBounds_single hh
  have i3 : inBounds [(h : Int)] st1.trip_aba.dims = true := by
    rw [hI.taba, hF.taba]; exact inBounds_single hh
  have hdef : ∃ st', mapTripBlock trip h st = some st' :=
    ⟨_, by
      simp only [mapTripBlock, hg, h1, Tab.set_of_inb _ i1, Tab.set_of_inb _ i2,
        Tab.set_of_inb _ i3, bind, Option.bind, pure]; rfl⟩
  obtain ⟨st', hst'⟩ := hdef
  obtain ⟨g', _, saba, saab, saaa, htaba, htaab, htaaa⟩ := mapTripBlock_spec hst'
  exact ⟨st', hst', ⟨by rw [saba.idims]; exact hF.iaba, by rw [saab.idims]; exact hF.iaab,
    by rw [saaa.idims]; exact hF.iaaa, by rw [saba.bdims]; exact hF.baba,
    by rw [saab.bdims]; exact hF.baab, by rw [saaa.bdims]; exact hF.baaa,
    by rw [Tab.set_dims htaba]; exact hF.taba, by rw [Tab.set_dims htaab]; exact hF.taab,
    by rw [Tab.set_dims htaaa]; exact hF.taaa⟩⟩

theorem length_flatMap_le {α β : Type} (l : List α) (f : α → List β) (B : Nat)
    (h : ∀ a, a ∈ l → (f a).length ≤ B) : (l.flatMap f).length ≤ l.length * B := by
  induction l with
  | nil => simp
  | cons a t ih =>
    rw [List.flatMap_cons, List.length_append, List.length_cons, Nat.add_mul, Nat.one_mul]
    have h1 := h a (List.mem_cons_self _ _)
    have h2 := ih (fun b hb => h b (List.mem_cons_of_mem _ hb))
    omega

theorem length_tripSpec_le (symm : Tab) (n h : Nat) :
    (tripSpec symm n h).length ≤ n * n * n := by
  unfold tripSpec
  have inner : ∀ i j, (((List.range n).filter fun k =>
      tripLabel symm i j k = some (h : Int)).map (mkTriple i j)).length ≤ n := by
    intro i j
    rw [List.length_map]
    exact Nat.le_trans (List.length_filter_le _ _) (by rw [List.length_range])
  have mid : ∀ i, ((List.range n).flatMap fun j =>
      ((List.range n).filter fun k => tripLabel symm i j k = some (h : Int)).map
        (mkTriple i j)).length ≤ n * n := by
    intro i
    have := length_flatMap_le (List.range n) (fun j =>
      ((List.range n).filter fun k => tripLabel symm i j k = some (h : Int)).map
        (mkTriple i j)) n (fun j _ => inner i j)
    rwa [List.length_range] at this
  have := length_flatMap_le (List.range n) (fun i => (List.range n).flatMap fun j =>
      ((List.range n).filter fun k => tripLabel symm i j k = some (h : Int)).map
        (mkTriple i j)) (n * n) (fun i _ => mid i)
  rw [List.length_range] at this
  rw [Nat.mul_assoc]
  exact this

/-- The triplet mappings write inside their tables: the lists hold triples of active
orbitals, at most `nmo * nmo * nmo` of them in a block. -/
theorem tripletMappings_defined {s : Input} {symmetry : Tab}
    {trip : List (List (Int × Int × Int))}
    (hG : ∀ h, h < s.nirrep_ → trip[h]? = some (tripSpec symmetry s.nmo h)) :
    ∃ tt, tripletMappings s trip = some tt := by
  have key : ∃ tt, loopM 0 s.nirrep_ (mapTripBlock trip)
      { aaa := Sector.alloc [s.nirrep_, s.nmo * s.nmo * s.nmo, 3]
          [s.nirrep_, s.nmo, s.nmo, s.nmo]
        aab := Sector.alloc [s.nirrep_, s.nmo * s.nmo * s.nmo, 3]
          [s.nirrep_, s.nmo, s.nmo, s.nmo]
        aba := Sector.alloc [s.nirrep_, s.nmo * s.nmo * s.nmo, 3]
          [s.nirrep_, s.nmo, s.nmo, s.nmo]
        trip_aaa := Tab.alloc [s.nirrep_] 0
        trip_aab := Tab.alloc [s.nirrep_] 0
        trip_aba := Tab.alloc [s.nirrep_] 0 } = some tt ∧ TripFit s tt :=
    loopM_total (fun _ x => TripFit s x)
      ⟨rfl, rfl, rfl, rfl, rfl, rfl, rfl, rfl, rfl⟩
      (fun H a hH hI => by
        rw [Nat.zero_add]
        exact mapTripBlock_defined (hG H hH) hI hH
          (fun p hp => by
            obtain ⟨i, j, k, hi, hj, hk, _, e⟩ := mem_tripSpec.1 hp
            exact ⟨i, j, k, hi, hj, hk, e.symm⟩)
          (length_tripSpec_le symmetry s.nmo H))
  obtain ⟨tt, h1, _⟩ := key
  exact ⟨tt, h1⟩

/-- On well-formed members `BuildBasis` runs to its end without an access outside an
allocation: the run is defined. -/
theorem BuildBasis_defined (s : Input) (hw : WellFormed s) :
    ∃ v, BuildBasis (Solver.init s) = some v := by
  obtain ⟨hp, hc, hE⟩ := hw
  obtain ⟨lb, hlb⟩ := buildLabels_defined hc
  obtain ⟨eo, heo⟩ := energyOrder_defined hc hE
  obtain ⟨off, hoff⟩ := buildOffsets_defined s
  obtain ⟨ls, hls⟩ := buildLists_defined hlb hp.pos hp.le_eight ⟨[], [], []⟩
  obtain ⟨⟨c1, f1⟩, ⟨c2, f2⟩, _⟩ := buildLabels_spec hlb
  -- the active-space mappings
  have hgems : pushGems s lb.symmetry [] = some ls.gems := by
    have h := hls
    simp only [buildLists, bind, Option.bind_eq_some, pure, Option.some.injEq] at h
    obtain ⟨g, hg, gf, _, gpc, _, e⟩ := h
    rw [← e]
    exact hg
  obtain ⟨pt, hpt⟩ := @activeMappings_defined s lb.symmetry ls.gems
    (fun h hh => pushPairLists_getElem? hgems hh)
  -- the full-space traversal
  have hR := energyOrder_spec hc hE heo
  have hpof : off.pitzer_offset_full.dims = [s.nirrep_] := by
    have h := hoff
    simp only [buildOffsets, bind, Option.bind_eq_some, pure, Option.some.injEq] at h
    obtain ⟨po, _, pof, hpof, popc, _, e⟩ := h
    rw [← e]
    exact (offsets_spec hpof).1
  obtain ⟨ft, hft⟩ := @fullTraversal_defined s lb.symmetry_full off.pitzer_offset_full
    eo.energy_to_pitzer_order hp
    (fun r hr => by
      obtain ⟨h, j, hin, e, _⟩ := hR.chosen r hr
      have hlt := pz_lt_ntot hc hin.hh (hin.valid (poolOfRank_ok s hc r))
      refine ⟨pz s h j, hlt, ?_⟩
      rw [Tab.get_of_inb (by rw [hR.de2p]; exact inBounds_single hr), e])
    (fun m hm => f2.get_label hp.pos hm)
    hpof
  have hpf : buildPairs s lb eo off ls = some (pt, ft) := by
    simp only [buildPairs, hpt, hft, bind, Option.bind, pure]
  -- the triplets
  have htr : ∃ tr, buildTriplets s lb.symmetry [] (Solver.init s).trip = some tr := by
    unfold buildTriplets
    split
    · obtain ⟨t, ht⟩ := @pushTriplets_defined s lb.symmetry s.ntot
        (labels_lt_eight f1 hp.pos hp.le_eight) (by unfold Input.ntot; omega) []
      obtain ⟨tt, htt⟩ := @tripletMappings_defined s lb.symmetry t (fun h hh => by
        obtain ⟨_, e⟩ := pushTriplets_eq_some ht
        rw [e]
        simp [List.getElem?_map, List.getElem?_range hh])
      exact ⟨(t, tt), by simp only [ht, htt, bind, Option.bind, pure]⟩
    · exact ⟨_, rfl⟩
  obtain ⟨tr, htr⟩ := htr
  exact ⟨⟨s, ls, tr.1, lb, eo, off, pt, ft, tr.2⟩, by
    have e1 : (Solver.init s).inp = s := rfl
    have e2 : (Solver.init s).lists = ⟨[], [], []⟩ := rfl
    have e3 : (Solver.init s).triplets = [] := rfl
    simp only [BuildBasis, e1, e2, e3, hlb, heo, hoff, hls, hpf, htr, bind, Option.bind, pure]⟩

theorem activeLabelsOrb_basis (h : Nat) (k : Nat) (a b : ActiveLabels)
    (hrun : activeLabelsOrb h k a = some b) :
    b.count = a.count + 1 ∧ b.count_full = a.count_full + 1 ∧
      a.full_basis.set [a.count] a.count_full = some b.full_basis := by
  simp only [activeLabelsOrb, bind, Option.bind_eq_some, pure, Option.some.injEq] at hrun
  obtain ⟨t, ht, u, _, rfl⟩ := hrun
  exact ⟨rfl, rfl, ht⟩

theorem activeLoop_basis {h lo n : Nat} {st st' : ActiveLabels}
    (hrun : loopM lo n (activeLabelsOrb h) st = some st') :
    st'.count = st.count + n ∧ st'.count_full = st.count_full + n ∧
      st'.full_basis.dims = st.full_basis.dims ∧
      (∀ q : Nat, q < n → st'.full_basis.val [st.count + q] = st.count_full + q) ∧
      (∀ q : Nat, q < n → inBounds [st.count + q] st.full_basis.dims = true) ∧
      (∀ ix, (∀ q : Nat, q < n → ix ≠ [st.count + q]) →
        st'.full_basis.val ix = st.full_basis.val ix) := by
  refine loopM_inv
    (fun k x => x.count = st.count + k ∧ x.count_full = st.count_full + k ∧
      x.full_basis.dims = st.full_basis.dims ∧
      (∀ q : Nat, q < k → x.full_basis.val [st.count + q] = st.count_full + q) ∧
      (∀ q : Nat, q < k → inBounds [st.count + q] st.full_basis.dims = true) ∧
      (∀ ix, (∀ q : Nat, q < k → ix ≠ [st.count + q]) →
        x.full_basis.val ix = st.full_basis.val ix))
    hrun ⟨by simp, by simp, rfl, fun q hq => absurd hq (Nat.not_lt_zero q),
      fun q hq => absurd hq (Nat.not_lt_zero q), fun _ _ => rfl⟩ ?_
  rintro k a b _ ⟨hc, hcf, hd, hv, hin, hfr⟩ hstep
  obtain ⟨hc', hcf', hset⟩ := activeLabelsOrb_basis h _ a b hstep
  have hval := Tab.set_val hset
  refine ⟨by rw [hc', hc]; push_cast; ring, by rw [hcf', hcf]; push_cast; ring,
    by rw [Tab.set_dims hset, hd], ?_, ?_, ?_⟩
  · intro q hq
    rw [hval]
    rcases Nat.lt_succ_iff_lt_or_eq.1 hq with h1 | h1
    · rw [Function.update_noteq, hv q h1]
      rw [hc]
      intro e
      simp only [List.cons.injEq, and_true] at e
      omega
    · rw [h1, hc, Function.update_same, hcf]
  · intro q hq
    rcases Nat.lt_succ_iff_lt_or_eq.1 hq with h1 | h1
    · exact hin q h1
    · rw [h1, ← hc, ← hd]
      exact Tab.set_inb hset
  · intro ix hix
    rw [hval, Function.update_noteq, hfr ix (fun q hq => hix q (Nat.lt_succ_of_lt hq))]
    rw [hc]
    exact hix k (Nat.lt_succ_self k)

/-- After the loop "symmetry of ACTIVE orbitals", `full_basis` sends the `p`-th active orbital
of irrep `g` to the full Pitzer position behind the frozen core of `g`. -/
theorem activeLabels_basis {s : Input} {al : ActiveLabels} (hrun : activeLabels s = some al) :
    BasisInv s s.nirrep_ al := by
  unfold activeLabels at hrun
  refine loopM_inv (fun H x => BasisInv s H x) hrun
    ⟨by simp [offs], by simp [offs], rfl, fun g p hg => absurd hg (Nat.not_lt_zero g),
      fun g p hg => absurd hg (Nat.not_lt_zero g)⟩ ?_
  intro H a b _ hI hstep
  rw [Nat.zero_add] at hstep
  simp only [activeLabelsIrrep, bind, Option.bind_eq_some, pure, Option.some.injEq] at hstep
  obtain ⟨st1, hst1, rfl⟩ := hstep
  obtain ⟨hc, hcf, hd, hv, hin, hfr⟩ := activeLoop_basis hst1
  have et : s.nmopi_ H - s.frzvpi_ H - s.frzcpi_ H = activeTrips s H := rfl
  rw [et] at hc hcf hv hin hfr
  simp only at hc hcf hd hv hin hfr
  refine ⟨?_, ?_, by rw [← hI.dims]; exact hd, ?_, ?_⟩
  · show st1.count = _
    rw [hc, hI.count, offs_succ]; push_cast; ring
  · show st1.count_full + _ = _
    rw [hcf, hI.count_full, offs_succ]; unfold fullTrips; push_cast; ring
  · intro g p hg hp
    show st1.full_basis.val _ = _
    rcases Nat.lt_succ_iff_lt_or_eq.1 hg with h1 | h1
    · rw [hfr, hI.val g p h1 hp]
      intro q _ e
      simp only [List.cons.injEq, and_true] at e
      have := offs_add_lt (activeTrips s) h1 hp
      rw [hI.count] at e
      omega
    · subst h1
      have := hv p hp
      rw [hI.count, hI.count_full] at this
      have e1 : ((offs (activeTrips s) g + p : Nat) : Int) =
          ((offs (activeTrips s) g : Nat) : Int) + (p : Int) := by push_cast; rfl
      rw [e1, this]
      push_cast
      ring
  · intro g p hg hp
    rcases Nat.lt_succ_iff_lt_or_eq.1 hg with h1 | h1
    · exact hI.fit g p h1 hp
    · subst h1
      have := hin p hp
      rw [hI.count, hI.dims] at this
      rw [← this]
      push_cast
      rfl

theorem Consistent.fullTrips {s : Input} (hc : Consistent s) {h : Nat} (hh : h < s.nirrep_) :
    fullTrips s h = s.nmopi_ h := by
  unfold V2RDM.fullTrips
  rw [hc.activeTrips hh, hc.split h hh]

/-- The three label arrays a completed run leaves. -/
theorem Run.labels_inv {s : Input} {v : Solver} (hr : Run s v) :
    (∃ c, FillInv (activeTrips s) [s.ntot] s.nirrep_ c v.labels.symmetry) ∧
      (∃ c, FillInv s.nmopi_ [s.ntot] s.nirrep_ c v.labels.symmetry_full) ∧
      (∃ c, FillInv (fun h => s.amopi_ h + s.frzcpi_ h) [s.nmo + s.nfrzc] s.nirrep_ c
        v.labels.symmetry_plus_core) :=
  buildLabels_spec hr.lb

theorem Run.full_basis_inv {s : Input} {v : Solver} (hr : Run s v) :
    ∃ al, BasisInv s s.nirrep_ al ∧ al.full_basis = v.labels.full_basis := by
  have h := hr.lb
  simp only [buildLabels, bind, Option.bind_eq_some, pure, Option.some.injEq] at h
  obtain ⟨al, hal, sf, _, spc, _, e⟩ := h
  exact ⟨al, activeLabels_basis hal, by rw [← e]⟩

/-- The three offset tables a completed run leaves. -/
theorem Run.offsets {s : Input} {v : Solver} (hr : Run s v) {h : Nat} (hh : h < s.nirrep_) :
    v.offs.pitzer_offset.get [(h : Int)] =
        some (offsInt (fun g => (s.nmopi_ g : Int) - s.frzcpi_ g - s.frzvpi_ g) h) ∧
      v.offs.pitzer_offset_full.get [(h : Int)] = some (offsInt (fun g => (s.nmopi_ g : Int)) h) ∧
      v.offs.pitzer_offset_plus_core.get [(h : Int)] =
        some (offsInt (fun g => (s.nmopi_ g : Int) - s.frzvpi_ g) h) := by
  have hoff := hr.off
  simp only [buildOffsets, bind, Option.bind_eq_some, pure, Option.some.injEq] at hoff
  obtain ⟨po, hpo, pof, hpof, popc, hpopc, e⟩ := hoff
  rw [← e]
  obtain ⟨d1, v1⟩ := offsets_spec hpo
  obtain ⟨d2, v2⟩ := offsets_spec hpof
  obtain ⟨d3, v3⟩ := offsets_spec hpopc
  have hin : inBounds [(h : Int)] [s.nirrep_] = true := inBounds_single hh
  exact ⟨by rw [Tab.get_of_inb (by rw [d1]; exact hin), v1 h hh],
    by rw [Tab.get_of_inb (by rw [d2]; exact hin), v2 h hh],
    by rw [Tab.get_of_inb (by rw [d3]; exact hin), v3 h hh]⟩

theorem offsInt_congr {f g : Nat → Int} {H : Nat} (hfg : ∀ k, k < H → f k = g k) :
    offsInt f H = offsInt g H := by
  unfold offsInt
  exact Finset.sum_congr rfl (fun k hk => hfg k (Finset.mem_range.1 hk))

theorem FillInv.get {c : Nat → Nat} {dm : List Nat} {H : Nat} {cnt : Int} {arr : Tab}
    (hI : FillInv c dm H cnt arr) {g p : Nat} (hg : g < H) (hp : p < c g) :
    arr.get [((offs c g : Nat) : Int) + (p : Int)] = some (g : Int) := by
  have e : ((offs c g : Nat) : Int) + (p : Int) = ((offs c g + p : Nat) : Int) := by
    push_cast; rfl
  rw [e, Tab.get_eq_some, hI.dims]
  exact ⟨hI.fit g p hg hp, hI.lab g p hg hp⟩

/-- Two cells of a finished block that every item addresses together or not at all hold
the same value: the index of the item that addresses them, or the sentinel. -/
theorem BlockOK.val_congr {α : Type} {h : Nat} {cells : α → List (List Int)}
    {row : α → List Int} {L : List α} {x : Sector} (hb : BlockOK h cells row L x)
    (hnd : L.Nodup)
    (hdis : ∀ a b ix, a ∈ L → b ∈ L → ix ∈ cells a → ix ∈ cells b → a = b)
    {ix ix' : List Int} (hh : ix.head? = some (h : Int)) (hh' : ix'.head? = some (h : Int))
    (hsym : ∀ a, a ∈ L → (ix ∈ cells a ↔ ix' ∈ cells a)) :
    x.ibas.val ix = x.ibas.val ix' := by
  by_cases hex : ∃ a, a ∈ L ∧ ix ∈ cells a
  · obtain ⟨a, ha, hix⟩ := hex
    obtain ⟨m, hm⟩ := List.mem_iff_getElem?.1 ha
    rw [hb.ival_of_disjoint hnd hdis hm hix,
      hb.ival_of_disjoint hnd hdis hm ((hsym a ha).1 hix)]
  · rw [hb.ifree ix hh (fun a ha hix => hex ⟨a, ha, hix⟩),
      hb.ifree ix' hh' (fun a ha hix => hex ⟨a, ha, (hsym a ha).2 hix⟩)]

theorem cellsSym_swap (h : Nat) (a : Int × Int) (i j : Int) :
    [(h : Int), i, j] ∈ cellsSym h a ↔ [(h : Int), j, i] ∈ cellsSym h a := by
  simp only [cellsSym, List.mem_cons, List.cons.injEq, true_and, and_true, List.mem_singleton,
    List.not_mem_nil, or_false]
  constructor <;> rintro (⟨e1, e2⟩ | ⟨e1, e2⟩) <;> simp [e1, e2]

/-- The pairs `(i, j)` with `i, j < n` of a relation, counted row by row. -/
theorem sum_card_eq_sum_ite (n : Nat) (m : Nat → Nat) (p : Nat → Nat → Prop)
    [∀ i j, Decidable (p i j)] :
    (Finset.sum (Finset.range n) fun i => ((Finset.range (m i)).filter fun j => p i j).card) =
      Finset.sum (Finset.range n) fun i =>
        Finset.sum (Finset.range (m i)) fun j => if p i j then 1 else 0 :=
  Finset.sum_congr rfl (fun _ _ => Finset.card_filter _ _)

/-- Of a relation that is symmetric below `n`, as many pairs lie strictly above the diagonal as
strictly below it. -/
theorem sum_card_lt_eq_gt (n : Nat) (p : Nat → Nat → Prop) [∀ i j, Decidable (p i j)]
    (hsym : ∀ i j, i < n → j < n → (p i j ↔ p j i)) :
    (Finset.sum (Finset.range n) fun i =>
        ((Finset.range n).filter fun j => p i j ∧ j < i).card) =
      Finset.sum (Finset.range n) fun i =>
        ((Finset.range n).filter fun j => p i j ∧ i < j).card := by
  rw [sum_card_eq_sum_ite, sum_card_eq_sum_ite, Finset.sum_comm]
  refine Finset.sum_congr rfl (fun a ha => Finset.sum_congr rfl (fun b hb => ?_))
  have := hsym b a (Finset.mem_range.1 hb) (Finset.mem_range.1 ha)
  simp only [this]

/-- Row by row, the pairs of a relation are those above, on and below the diagonal. -/
theorem sum_card_split (n : Nat) (p : Nat → Nat → Prop) [∀ i j, Decidable (p i j)] :
    (Finset.sum (Finset.range n) fun i => ((Finset.range n).filter fun j => p i j).card) =
      (Finset.sum (Finset.range n) fun i =>
        ((Finset.range n).filter fun j => p i j ∧ i ≤ j).card) +
      Finset.sum (Finset.range n) fun i =>
        ((Finset.range n).filter fun j => p i j ∧ j < i).card := by
  rw [sum_card_eq_sum_ite, sum_card_eq_sum_ite, sum_card_eq_sum_ite, ← Finset.sum_add_distrib]
  refine Finset.sum_congr rfl (fun a _ => ?_)
  rw [← Finset.sum_add_distrib]
  refine Finset.sum_congr rfl (fun b _ => ?_)
  by_cases h1 : p a b
  · rcases Nat.lt_or_ge b a with c | c
    · simp [h1, c, Nat.not_le.2 c]
    · simp [h1, c, Nat.not_lt.2 c]
  · simp [h1]

/-- Row by row, the pairs on or above the diagonal are those above it and those on it. -/
theorem sum_card_le_split (n : Nat) (p : Nat → Nat → Prop) [∀ i j, Decidable (p i j)] :
    (Finset.sum (Finset.range n) fun i =>
        ((Finset.range n).filter fun j => p i j ∧ i ≤ j).card) =
      (Finset.sum (Finset.range n) fun i =>
        ((Finset.range n).filter fun j => p i j ∧ i < j).card) +
      ((Finset.range n).filter fun i => p i i).card := by
  rw [sum_card_eq_sum_ite, sum_card_eq_sum_ite, Finset.card_filter, ← Finset.sum_add_distrib]
  refine Finset.sum_congr rfl (fun a ha => ?_)
  have e : (if p a a then 1 else 0) =
      Finset.sum (Finset.range n) fun b => if p a b ∧ b = a then 1 else 0 := by
    rw [Finset.sum_eq_single a]
    · simp
    · intro b _ hb
      simp [hb]
    · intro h
      exact absurd ha h
  rw [e, ← Finset.sum_add_distrib]
  refine Finset.sum_congr rfl (fun b _ => ?_)
  by_cases h1 : p a b
  · rcases Nat.lt_trichotomy a b with c | c | c
    · simp [h1, c, Nat.le_of_lt c, Nat.ne_of_gt c]
    · subst c
      simp [h1]
    · simp [h1, Nat.not_le.2 c, Nat.not_lt.2 (Nat.le_of_lt c), Nat.ne_of_lt c]
  · simp [h1]

/-- The three block counts of a completed run as row-by-row counts of the pairs of block `h`:
all of them, those with `i ≤ j`, those with `i < j` (`i` the outer loop index of the pair
list, which the list stores as second member). -/
theorem Run.gems_counts {s : Input} {v : Solver} (hr : Run s v) {h : Nat} (hh : h < s.nirrep_) :
    v.pairs.gems_ab.val [(h : Int)] =
        ((Finset.sum (Finset.range s.nmo) fun i => ((Finset.range s.nmo).filter fun j =>
          pairLabel v.labels.symmetry i j = some (h : Int)).card : Nat) : Int) ∧
      v.pairs.gems_00.val [(h : Int)] =
        ((Finset.sum (Finset.range s.nmo) fun i => ((Finset.range s.nmo).filter fun j =>
          pairLabel v.labels.symmetry i j = some (h : Int) ∧ i ≤ j).card : Nat) : Int) ∧
      v.pairs.gems_aa.val [(h : Int)] =
        ((Finset.sum (Finset.range s.nmo) fun i => ((Finset.range s.nmo).filter fun j =>
          pairLabel v.labels.symmetry i j = some (h : Int) ∧ i < j).card : Nat) : Int) := by
  have hA := hr.active
  refine ⟨?_, ?_, ?_⟩
  · rw [hA.gab h hh]
    congr 1
    exact length_pairSpec _ _ _ _ _
  · rw [hA.g00 h hh]
    congr 1
    show ((pairSpec v.labels.symmetry s.nmo (fun _ => s.nmo) mkJI h).filter keep00).length = _
    rw [length_filter_pairSpec]
    refine Finset.sum_congr rfl (fun i _ => ?_)
    congr 1
    refine Finset.filter_congr (fun j _ => ?_)
    simp [keep00, mkJI]
  · rw [hA.gaa h hh]
    congr 1
    show ((pairSpec v.labels.symmetry s.nmo (fun _ => s.nmo) mkJI h).filter keepAA).length = _
    rw [length_filter_pairSpec]
    refine Finset.sum_congr rfl (fun i _ => ?_)
    congr 1
    refine Finset.filter_congr (fun j _ => ?_)
    simp [keepAA, mkJI]

/-- The product of a readable label with itself is the label 0. -/
theorem Run.pairLabel_diag {s : Input} {v : Solver} (hr : Run s v) {h : Nat}
    (hh : h < s.nirrep_) {i : Nat} (hi : i < s.nmo) :
    pairLabel v.labels.symmetry i i = some 0 := by
  rw [hr.pairLabel_eq hh hi hi, Nat.xor_self]
  rfl

theorem cellsAAB_swap (h : Nat) (a : Int × Int × Int) (i j k : Int) :
    [(h : Int), i, j, k] ∈ cellsAAB h a ↔ [(h : Int), j, i, k] ∈ cellsAAB h a := by
  simp only [cellsAAB, List.mem_cons, List.cons.injEq, true_and, and_true, List.mem_singleton,
    List.not_mem_nil, or_false]
  tauto

theorem cellsAAA_swap12 (h : Nat) (a : Int × Int × Int) (i j k : Int) :
    [(h : Int), i, j, k] ∈ cellsAAA h a ↔ [(h : Int), j, i, k] ∈ cellsAAA h a := by
  simp only [cellsAAA, List.mem_cons, List.cons.injEq, true_and, and_true, List.mem_singleton,
    List.not_mem_nil, or_false]
  tauto

theorem cellsAAA_swap23 (h : Nat) (a : Int × Int × Int) (i j k : Int) :
    [(h : Int), i, j, k] ∈ cellsAAA h a ↔ [(h : Int), i, k, j] ∈ cellsAAA h a := by
  simp only [cellsAAA, List.mem_cons, List.cons.injEq, true_and, and_true, List.mem_singleton,
    List.not_mem_nil, or_false]
  tauto

/-- The product label of three active orbitals of a completed run is the exclusive-or of
their labels. -/
theorem Run.tripLabel_eq {s : Input} {v : Solver} (hr : Run s v) {h : Nat}
    (hh : h < s.nirrep_) {i j k : Nat} (hi : i < s.nmo) (hj : j < s.nmo) (hk : k < s.nmo) :
    tripLabel v.labels.symmetry i j k =
      some ((labOf v.labels.symmetry i ^^^ labOf v.labels.symmetry j ^^^
        labOf v.labels.symmetry k : Nat) : Int) := by
  obtain ⟨gi, li, _⟩ := hr.get_lab hh hi
  obtain ⟨gj, lj, _⟩ := hr.get_lab hh hj
  obtain ⟨gk, lk, _⟩ := hr.get_lab hh hk
  unfold tripLabel
  rw [hr.pairLabel_eq hh hi hj, gk]
  exact SymmetryPair_eq_xor (xor_lt_eight li lj) lk

/-- The product label of three active orbitals does not depend on their order. -/
theorem Run.tripLabel_swap {s : Input} {v : Solver} (hr : Run s v) {h : Nat}
    (hh : h < s.nirrep_) {i j k : Nat} (hi : i < s.nmo) (hj : j < s.nmo) (hk : k < s.nmo) :
    tripLabel v.labels.symmetry j i k = tripLabel v.labels.symmetry i j k ∧
      tripLabel v.labels.symmetry i k j = tripLabel v.labels.symmetry i j k := by
  rw [hr.tripLabel_eq hh hi hj hk, hr.tripLabel_eq hh hj hi hk, hr.tripLabel_eq hh hi hk hj]
  constructor
  · rw [Nat.xor_comm (labOf v.labels.symmetry j)]
  · rw [Nat.xor_assoc, Nat.xor_comm (labOf v.labels.symmetry k), ← Nat.xor_assoc]

/-- A cell of the aaa table that a stored triple addresses holds the row of the triple. -/
theorem Run.aaa_hit {s : Input} {v : Solver} (hr : Run s v)
    (hflag : s.constrain_t1 = true ∨ s.constrain_t2 = true ∨ s.constrain_d3 = true)
    {h : Nat} (hh : h < s.nirrep_) {x y z : Nat} (hx : x < s.nmo) (hy : y < s.nmo)
    (hz : z < s.nmo) (hxy : x < y) (hyz : y < z)
    (hl : tripLabel v.labels.symmetry x y z = some (h : Int)) {ix : List Int}
    (hix : ix ∈ cellsAAA h (mkTriple x y z)) : v.trip.aaa.ibas.val ix ≠ -999 := by
  have hT := hr.tripBlocks hflag
  have hmem : mkTriple x y z ∈ (tripSpec v.labels.symmetry s.nmo h).filter keepAAA :=
    List.mem_filter.2 ⟨mem_tripSpec.2 ⟨x, y, z, hx, hy, hz, hl, rfl⟩, by
      simp only [keepAAA, mkTriple, decide_eq_true_eq]
      omega⟩
  obtain ⟨m, hm⟩ := List.mem_iff_getElem?.1 hmem
  rw [(hT.aaa.done h hh).ival_of_disjoint ((nodup_tripSpec _ _ _).filter _)
    (fun a b ix ha hb => cellsAAA_disjoint h a b ix (List.mem_filter.1 ha).2
      (List.mem_filter.1 hb).2) hm hix]
  omega

set_option maxRecDepth 100000 in
/-- The run on `exT` completes. -/
theorem exT_run : BuildBasis (Solver.init exT) = some exT_out := run_getD (by decide)

/-- The three pair lists a completed first run leaves: one list per irrep. -/
theorem Run.lists_eq {s : Input} {v : Solver} (hr : Run s v) :
    pushGems s v.labels.symmetry [] = some v.lists.gems ∧
      pushGemsFullspace s v.labels.symmetry_full [] = some v.lists.gems_fullspace ∧
      pushGemsPlusCorespace s v.labels.symmetry_plus_core [] =
        some v.lists.gems_plus_corespace := by
  have h := hr.ls
  simp only [buildLists, bind, Option.bind_eq_some, pure, Option.some.injEq] at h
  obtain ⟨g, hg, gf, hgf, gpc, hgpc, e⟩ := h
  rw [← e]
  exact ⟨hg, hgf, hgpc⟩

theorem storedBefore_irrefl (p : Int × Int) : ¬ storedBefore p p := by
  unfold storedBefore
  omega

theorem storedBefore_asymm {p q : Int × Int} (h : storedBefore p q) : ¬ storedBefore q p := by
  unfold storedBefore at *
  omega

/-- The pair list of a block, pushed as `make_pair(j,i)`, ascends in the order of the scan. -/
theorem pairwise_pairSpec (symm : Tab) (n : Nat) (inner : Nat → Nat) (h : Nat) :
    (pairSpec symm n inner mkJI h).Pairwise storedBefore := by
  unfold pairSpec
  rw [List.pairwise_flatMap]
  constructor
  · intro i _
    rw [List.pairwise_map]
    refine List.Pairwise.imp ?_ ((List.pairwise_lt_range (inner i)).filter _)
    intro a b hab
    exact Or.inr ⟨rfl, by simp only [mkJI]; exact_mod_cast hab⟩
  · refine List.Pairwise.imp ?_ (List.pairwise_lt_range n)
    intro a b hab x hx y hy
    obtain ⟨j, _, rfl⟩ := List.mem_map.1 hx
    obtain ⟨j', _, rfl⟩ := List.mem_map.1 hy
    exact Or.inl (by simp only [mkJI]; exact_mod_cast hab)

/-- In a list of pairs that ascends in the order of the scan, the entry at position `n` has
exactly `n` pairs of the list before it. -/
theorem rank_of_sorted {L : List (Int × Int)} (hp : L.Pairwise storedBefore) {N : Nat}
    (Q : Nat → Nat → Prop) [∀ i j, Decidable (Q i j)]
    (hmem : ∀ p, p ∈ L ↔ ∃ i j : Nat, i < N ∧ j < N ∧ Q i j ∧ p = ((i : Int), (j : Int)))
    {n : Nat} {p : Int × Int} (hn : L[n]? = some p) :
    ∃ i j : Nat, i < N ∧ j < N ∧ Q i j ∧ p = ((i : Int), (j : Int)) ∧
      ((Finset.range N ×ˢ Finset.range N).filter fun q : Nat × Nat =>
        Q q.1 q.2 ∧ scanBefore q i j).card = n := by
  obtain ⟨hlt, hget⟩ := List.getElem?_eq_some.1 hn
  obtain ⟨i, j, hi, hj, hQ, rfl⟩ := (hmem p).1 (List.mem_iff_getElem?.2 ⟨n, hn⟩)
  refine ⟨i, j, hi, hj, hQ, rfl, ?_⟩
  have hpw := List.pairwise_iff_getElem.1 hp
  have hnd : L.Nodup := by
    unfold List.Nodup
    refine hp.imp ?_
    intro a b hab e
    rw [← e] at hab
    exact storedBefore_irrefl a hab
  let c : Nat × Nat → Int × Int := fun q => ((q.1 : Int), (q.2 : Int))
  have hc : Function.Injective c := by
    intro a b e
    simp only [c, Prod.mk.injEq] at e
    exact Prod.ext (by exact_mod_cast e.1) (by exact_mod_cast e.2)
  have himg : ((Finset.range N ×ˢ Finset.range N).filter fun q : Nat × Nat =>
      Q q.1 q.2 ∧ scanBefore q i j).image c = (L.take n).toFinset := by
    ext x
    simp only [Finset.mem_image, Finset.mem_filter, Finset.mem_product, Finset.mem_range,
      List.mem_toFinset]
    constructor
    · rintro ⟨q, ⟨⟨h1, h2⟩, hq, hb⟩, rfl⟩
      have hin : c q ∈ L := (hmem (c q)).2 ⟨q.1, q.2, h1, h2, hq, rfl⟩
      obtain ⟨m, hm, em⟩ := List.mem_iff_getElem.1 hin
      have hsb : storedBefore (c q) ((i : Int), (j : Int)) := by
        unfold storedBefore
        simp only [c]
        unfold scanBefore at hb
        omega
      have hmn : m < n := by
        by_contra hge
        rcases Nat.lt_or_eq_of_le (Nat.not_lt.1 hge) with h3 | h3
        · have := hpw n m hlt hm h3
          rw [hget, em] at this
          exact storedBefore_asymm this hsb
        · subst h3
          rw [hget] at em
          rw [← em] at hsb
          exact storedBefore_irrefl _ hsb
      rw [List.mem_iff_getElem?]
      exact ⟨m, by rw [List.getElem?_take_of_lt hmn, List.getElem?_eq_getElem hm, em]⟩
    · intro hx
      obtain ⟨m, hm⟩ := List.mem_iff_getElem?.1 hx
      have hmn : m < n := by
        by_contra hge
        rw [List.getElem?_take_eq_none (Nat.not_lt.1 hge)] at hm
        cases hm
      rw [List.getElem?_take_of_lt hmn] at hm
      obtain ⟨hml, em⟩ := List.getElem?_eq_some.1 hm
      obtain ⟨i', j', hi', hj', hQ', rfl⟩ := (hmem x).1 (List.mem_iff_getElem?.2 ⟨m, hm⟩)
      have := hpw m n hml hlt hmn
      rw [hget, em] at this
      refine ⟨(i', j'), ⟨⟨hi', hj'⟩, hQ', ?_⟩, rfl⟩
      unfold storedBefore at this
      unfold scanBefore
      simp only at this ⊢
      omega
  rw [← Finset.card_image_of_injective _ hc, himg, List.toFinset_card_of_nodup
    (hnd.sublist (List.take_sublist n L)), List.length_take, Nat.min_eq_left (Nat.le_of_lt hlt)]

/-- Row `n` of a finished block whose list ascends in the order of the scan stores the pair
of block `h` that has exactly `n` kept pairs of the block before it. -/
theorem BlockOK.row_rank {h N : Nat} {cells : Int × Int → List (List Int)}
    {L : List (Int × Int)} {x : Sector} (hb : BlockOK h cells rowPair L x)
    (hp : L.Pairwise storedBefore) (symm : Tab) (keep : Nat → Nat → Bool)
    (hmem : ∀ p, p ∈ L ↔ ∃ i j : Nat, i < N ∧ j < N ∧
      (pairLabel symm i j = some (h : Int) ∧ keep i j = true) ∧ p = ((i : Int), (j : Int)))
    {n : Nat} {c : Int} (hc : c = (L.length : Int)) (hn : (n : Int) < c) :
    ∃ i j : Nat, i < N ∧ j < N ∧ x.bas.val [(h : Int), (n : Int), 0] = (i : Int) ∧
      x.bas.val [(h : Int), (n : Int), 1] = (j : Int) ∧
      pairLabel symm i j = some (h : Int) ∧ keep i j = true ∧
      pairRank symm N h keep i j = n := by
  obtain ⟨a, ha⟩ := getElem?_of_lt_length hc hn
  obtain ⟨e0, e1⟩ := hb.row_pair ha
  obtain ⟨i, j, hi, hj, ⟨hl, hk⟩, rfl, hcard⟩ := rank_of_sorted hp
    (fun i j => pairLabel symm i j = some (h : Int) ∧ keep i j = true) hmem ha
  refine ⟨i, j, hi, hj, e0, e1, hl, hk, ?_⟩
  rw [← hcard]
  unfold pairRank
  congr 1
  refine Finset.filter_congr (fun q _ => ?_)
  exact and_assoc.symm

/-- The stored pairs of block `h` of a completed run are the pairs of active orbitals whose
product label is `h`. -/
theorem Run.mem_gems_iff {s : Input} {v : Solver} (hr : Run s v) {h : Nat} (hh : h < s.nirrep_)
    (p : Int × Int) :
    p ∈ gemsSpec s v.labels.symmetry h ↔ ∃ i j : Nat, i < s.nmo ∧ j < s.nmo ∧
      pairLabel v.labels.symmetry i j = some (h : Int) ∧ p = ((i : Int), (j : Int)) := by
  constructor
  · intro hp
    obtain ⟨i, j, hi, hj, rfl⟩ := mem_gemsSpec_bounds hp
    exact ⟨i, j, hi, hj, (hr.mem_gems hh hi hj).1 hp, rfl⟩
  · rintro ⟨i, j, hi, hj, hl, rfl⟩
    exact (hr.mem_gems hh hi hj).2 hl

theorem fullSpec_zero (sf e2p : Tab) (N h : Nat) : fullSpec sf e2p N 0 0 h = [] := by
  simp [fullSpec, pairSpec]

theorem fullSpec_succ (sf e2p : Tab) (N ieo jeo h : Nat) :
    fullSpec sf e2p N ieo (jeo + 1) h = fullSpec sf e2p N ieo jeo h ++
      (if pairLabel (rankLabels sf e2p N) ieo jeo = some (h : Int) then [mkIJ ieo jeo]
        else []) := by
  unfold fullSpec
  rw [List.range_succ, List.filter_append, List.map_append, List.append_assoc]
  congr 2
  by_cases e : pairLabel (rankLabels sf e2p N) ieo jeo = some (h : Int)
  · simp [e]
  · simp [e]

theorem fullSpec_next_row (sf e2p : Tab) (N ieo h : Nat) :
    fullSpec sf e2p N (ieo + 1) 0 h = fullSpec sf e2p N ieo (ieo + 1) h := by
  unfold fullSpec
  rw [pairSpec_succ]
  simp

theorem pairLabel_rankLabels {sf e2p : Tab} {N a b : Nat} (ha : a < N) (hb : b < N)
    {hi hj : Int} (hhi : sf.get [e2p.val [(a : Int)]] = some hi)
    (hhj : sf.get [e2p.val [(b : Int)]] = some hj) :
    pairLabel (rankLabels sf e2p N) a b = SymmetryPair hi hj := by
  have ga : (rankLabels sf e2p N).get [(a : Int)] = some hi :=
    Tab.get_eq_some.2 ⟨inBounds_single ha, (Tab.get_eq_some.1 hhi).2⟩
  have gb : (rankLabels sf e2p N).get [(b : Int)] = some hj :=
    Tab.get_eq_some.2 ⟨inBounds_single hb, (Tab.get_eq_some.1 hhj).2⟩
  unfold pairLabel
  rw [ga, gb]
  rfl

theorem FullRows.advance {s : Input} {sf e2p : Tab} {ieo : Nat} {st : FullTables}
    (hI : FullRows s sf e2p ieo (ieo + 1) st) : FullRows s sf e2p (ieo + 1) 0 st := by
  refine ⟨hI.db, hI.dg, hI.dpc, ?_, ?_, ?_, ?_⟩
  · intro h; rw [fullSpec_next_row]; exact hI.cnt h
  · intro h; rw [fullSpec_next_row]; exact hI.pc h
  · intro h n; rw [fullSpec_next_row]; exact hI.inb h n
  · intro h n a; rw [fullSpec_next_row]; exact hI.rows h n a

theorem plusCoreIncr_val {hij : Int} {st st' : FullTables}
    (hrun : plusCoreIncr hij st = some st') :
    st'.gems_plus_core.dims = st.gems_plus_core.dims ∧
      st'.gems_plus_core.val =
        Function.update st.gems_plus_core.val [hij] (st.gems_plus_core.val [hij] + 1) := by
  simp only [plusCoreIncr, bind, Option.bind_eq_some, pure, Option.some.injEq] at hrun
  obtain ⟨c, hc, gp, hs, rfl⟩ := hrun
  have hv := (Tab.get_eq_some.1 hc).2
  subst hv
  exact ⟨Tab.set_dims hs, Tab.set_val hs⟩

theorem fullInner_rows {s : Input} {sf pof e2p : Tab} {ieo jeo : Nat} {ifull hi : Int}
    {st st' : FullTables}
    (hieo : ieo < s.ntot) (hjeo : jeo ≤ ieo) (hifull : ifull = e2p.val [(ieo : Int)])
    (hhi : sf.get [ifull] = some hi) (hI : FullRows s sf e2p ieo jeo st)
    (hrun : fullInner s sf pof e2p ieo ifull hi jeo st = some st') :
    FullRows s sf e2p ieo (jeo + 1) st' := by
  simp only [fullInner, bind, Option.bind_eq_some, pure] at hrun
  obtain ⟨jfull, hjf, hj, hhj, _, _, hij, hhij, st1, hw, hrest⟩ := hrun
  have hjfull : jfull = e2p.val [(jeo : Int)] := ((Tab.get_eq_some.1 hjf).2).symm
  obtain ⟨g, hg, dg, vg, _, _, db, vb, hpc, _, hbin⟩ := fullWrite_spec hw
  obtain ⟨hgin, hgv⟩ := Tab.get_eq_some.1 hg
  rw [hI.dg, inBounds_one] at hgin
  obtain ⟨h0, rfl⟩ : ∃ h0 : Nat, hij = (h0 : Int) := ⟨hij.toNat, by omega⟩
  have hh0 : h0 < s.nirrep_ := by omega
  subst hifull hjfull
  have hlab : pairLabel (rankLabels sf e2p s.ntot) ieo jeo = some (h0 : Int) := by
    rw [pairLabel_rankLabels hieo (by omega) hhi hhj]
    exact hhij
  have hgl : g = ((fullSpec sf e2p s.ntot ieo jeo h0).length : Int) := by
    rw [← hgv]; exact hI.cnt h0
  rw [hI.db, inBounds_three] at hbin
  have hother : ∀ h : Nat, h ≠ h0 →
      fullSpec sf e2p s.ntot ieo (jeo + 1) h = fullSpec sf e2p s.ntot ieo jeo h := by
    intro h hne
    rw [fullSpec_succ, if_neg, List.append_nil]
    rw [hlab]
    intro e
    exact hne (by exact_mod_cast (Option.some.inj e).symm)
  have hsame : fullSpec sf e2p s.ntot ieo (jeo + 1) h0 =
      fullSpec sf e2p s.ntot ieo jeo h0 ++ [mkIJ ieo jeo] := by
    rw [fullSpec_succ, if_pos hlab]
  -- the part before the restricted counter
  have h1 : st1.bas_full_sym.dims = [s.nirrep_, s.ntot * s.ntot, 2] ∧
      st1.gems_full.dims = [s.nirrep_] ∧
      (∀ h : Nat, st1.gems_full.val [(h : Int)] =
        ((fullSpec sf e2p s.ntot ieo (jeo + 1) h).length : Int)) ∧
      (∀ h n : Nat, n < (fullSpec sf e2p s.ntot ieo (jeo + 1) h).length →
        h < s.nirrep_ ∧ n < s.ntot * s.ntot) ∧
      (∀ (h n : Nat) (a : Int × Int),
        (fullSpec sf e2p s.ntot ieo (jeo + 1) h)[n]? = some a →
        st1.bas_full_sym.val [(h : Int), (n : Int), 0] = e2p.val [a.1] ∧
          st1.bas_full_sym.val [(h : Int), (n : Int), 1] = e2p.val [a.2]) := by
    refine ⟨by rw [db]; exact hI.db, by rw [dg]; exact hI.dg, ?_, ?_, ?_⟩
    · intro h
      rw [vg]
      by_cases e : h = h0
      · subst e
        rw [update_single_eq, hsame, List.length_append, hgl]
        simp
      · rw [update_single_ne e, hother h e]
        exact hI.cnt h
    · intro h n hn
      by_cases e : h = h0
      · subst e
        rw [hsame, List.length_append, List.length_singleton] at hn
        rcases Nat.lt_succ_iff_lt_or_eq.1 hn with h2 | h2
        · exact hI.inb h n h2
        · refine ⟨hh0, ?_⟩
          have := hbin.2.1.2
          rw [hgl, ← h2] at this
          exact_mod_cast this
      · rw [hother h e] at hn
        exact hI.inb h n hn
    · intro h n a ha
      rw [vb]
      by_cases e : h = h0
      · subst e
        rw [hsame] at ha
        by_cases hn : n < (fullSpec sf e2p s.ntot ieo jeo h).length
        · rw [List.getElem?_append_left hn] at ha
          have hne : (n : Int) ≠ g := by rw [hgl]; exact_mod_cast (Nat.ne_of_lt hn)
          rw [Function.update_noteq (by simp [hne]), Function.update_noteq (by simp [hne]),
            Function.update_noteq (by simp [hne]), Function.update_noteq (by simp [hne])]
          exact hI.rows h n a ha
        · have hlen := (List.getElem?_eq_some.1 ha).1
          rw [List.length_append, List.length_singleton] at hlen
          have hn' : n = (fullSpec sf e2p s.ntot ieo jeo h).length := by omega
          have hng : (n : Int) = g := by rw [hgl, hn']
          rw [hn', List.getElem?_append_right (le_refl _), Nat.sub_self] at ha
          simp only [List.getElem?_cons_zero, Option.some.injEq] at ha
          subst ha
          rw [hng]
          constructor
          · rw [Function.update_noteq (by simp), Function.update_same]
            rfl
          · rw [Function.update_same]
            rfl
      · rw [hother h e] at ha
        have hne : (h : Int) ≠ (h0 : Int) := by exact_mod_cast e
        rw [Function.update_noteq (by simp [hne]), Function.update_noteq (by simp [hne]),
          Function.update_noteq (by simp [hne]), Function.update_noteq (by simp [hne])]
        exact hI.rows h n a ha
  obtain ⟨d1, d2, c1, i1, r1⟩ := h1
  have hkeep : keepCore (s.nmo + s.nfrzc) (mkIJ ieo jeo) =
      decide (ieo < s.nmo + s.nfrzc ∧ jeo < s.nmo + s.nfrzc) := by
    unfold keepCore mkIJ
    simp only [Nat.cast_lt]
  split at hrest
  · rename_i hcond
    obtain ⟨e1, e2, e3⟩ := plusCoreIncr_spec hrest
    obtain ⟨dp, vp⟩ := plusCoreIncr_val hrest
    refine ⟨by rw [e3]; exact d1, by rw [e1]; exact d2, by rw [dp, hpc]; exact hI.dpc, ?_, ?_,
      i1, ?_⟩
    · rw [e1]; exact c1
    · intro h
      rw [vp, hpc]
      by_cases e : h = h0
      · subst e
        rw [update_single_eq, hsame, List.filter_append, List.length_append, hI.pc h]
        have : ([mkIJ ieo jeo].filter (keepCore (s.nmo + s.nfrzc))).length = 1 := by
          rw [List.filter_cons_of_pos (by rw [hkeep]; exact decide_eq_true hcond)]
          rfl
        rw [this]
        push_cast
        rfl
      · rw [update_single_ne e, hother h e]
        exact hI.pc h
    · rw [e3]; exact r1
  · rename_i hcond
    cases hrest
    refine ⟨d1, d2, by rw [hpc]; exact hI.dpc, c1, ?_, i1, r1⟩
    intro h
    rw [hpc]
    by_cases e : h = h0
    · subst e
      rw [hsame, List.filter_append, List.length_append, hI.pc h]
      have : ([mkIJ ieo jeo].filter (keepCore (s.nmo + s.nfrzc))).length = 0 := by
        rw [List.filter_cons_of_neg (by rw [hkeep]; simpa using hcond)]
        rfl
      rw [this]
      rfl
    · rw [hother h e]
      exact hI.pc h

theorem fullOuter_rows {s : Input} {sf pof e2p : Tab} {ieo : Nat} {st st' : FullTables}
    (hieo : ieo < s.ntot) (hI : FullRows s sf e2p ieo 0 st)
    (hrun : fullOuter s sf pof e2p ieo st = some st') : FullRows s sf e2p (ieo + 1) 0 st' := by
  simp only [fullOuter, bind, Option.bind_eq_some] at hrun
  obtain ⟨ifull, hif, hi, hhi, _, _, hloop⟩ := hrun
  have hifull : ifull = e2p.val [(ieo : Int)] := ((Tab.get_eq_some.1 hif).2).symm
  refine FullRows.advance ?_
  refine loopM_inv (fun k x => FullRows s sf e2p ieo k x) hloop hI ?_
  intro k a b hk hIk hstep
  rw [Nat.zero_add] at hstep
  exact fullInner_rows hieo (by omega) hifull hhi hIk hstep

theorem fullTraversal_rows {s : Input} {sf pof e2p : Tab} {ft : FullTables}
    (hrun : fullTraversal s sf pof e2p = some ft) : FullRows s sf e2p s.ntot 0 ft := by
  unfold fullTraversal at hrun
  refine loopM_inv (fun k x => FullRows s sf e2p k 0 x) hrun ?_ ?_
  · refine ⟨rfl, rfl, rfl, ?_, ?_, ?_, ?_⟩
    · intro h; rw [fullSpec_zero]; rfl
    · intro h; rw [fullSpec_zero]; rfl
    · intro h n hn; rw [fullSpec_zero] at hn; exact absurd hn (Nat.not_lt_zero _)
    · intro h n a ha; rw [fullSpec_zero] at ha; simp at ha
  · intro k a b hk hIk hstep
    rw [Nat.zero_add] at hstep
    exact fullOuter_rows hk hIk hstep

theorem rankStep_last {s : Input} {P : Pool} {N R : Nat} {st st' : EnergyOrder}
    (hI : RankLast N R st) (hrun : rankStep s P R st = some st') : RankLast N (R + 1) st' := by
  simp only [rankStep, bind, Option.bind_eq_some, pure, Option.some.injEq] at hrun
  obtain ⟨sc, _, skip, _, seo, _, p2e, hp2e, e2p, he2p, rfl⟩ := hrun
  refine ⟨by rw [← hI.dp2e]; exact Tab.set_dims hp2e, ?_⟩
  intro r hr
  show ∃ r', r ≤ r' ∧ r' < R + 1 ∧ e2p.val [(r' : Int)] = e2p.val [(r : Int)] ∧
    p2e.val [e2p.val [(r : Int)]] = (r' : Int)
  rw [Tab.set_val hp2e, Tab.set_val he2p]
  rcases Nat.lt_succ_iff_lt_or_eq.1 hr with h1 | h1
  · rw [update_single_ne (Nat.ne_of_lt h1)]
    by_cases e : st.energy_to_pitzer_order.val [(r : Int)] = sc.imin
    · refine ⟨R, by omega, by omega, ?_, ?_⟩
      · rw [update_single_eq, e]
      · rw [e, Function.update_same]
    · obtain ⟨r', h2, h3, h4, h5⟩ := hI.last r h1
      refine ⟨r', h2, by omega, ?_, ?_⟩
      · rw [update_single_ne (Nat.ne_of_lt h3)]
        exact h4
      · rw [Function.update_noteq (by simpa using e)]
        exact h5
  · subst h1
    refine ⟨r, le_refl _, by omega, rfl, ?_⟩
    rw [update_single_eq, Function.update_same]

theorem rankLoop_last {s : Input} {P : Pool} {N r0 T : Nat} {st st' : EnergyOrder}
    (hI : RankLast N r0 st) (hrun : loopM r0 T (rankStep s P) st = some st') :
    RankLast N (r0 + T) st' :=
  loopM_inv (fun k x => RankLast N (r0 + k) x) hrun hI
    (fun _ _ _ _ hIk hstep => rankStep_last hIk hstep)

theorem energyOrder_last {s : Input} {eo : EnergyOrder} (hrun : energyOrder s = some eo) :
    RankLast s.ntot s.ntot eo := by
  simp only [energyOrder, bind, Option.bind_eq_some] at hrun
  obtain ⟨st1, h1, st2, h2, h3⟩ := hrun
  have I0 : RankLast s.ntot 0
      ⟨min0, -999, -999, Tab.alloc [s.ntot] 0, Tab.alloc [s.ntot] 0, Tab.alloc [s.ntot] 0,
        Tab.alloc [s.ntot] 0⟩ :=
    ⟨rfl, fun r hr => absurd hr (Nat.not_lt_zero r)⟩
  have I1 := rankLoop_last I0 h1
  rw [Nat.zero_add] at I1
  have I2 := rankLoop_last I1 h2
  rw [Nat.add_comm s.nfrzc s.nmo] at I2
  exact rankLoop_last I2 h3

/-- When the rank-to-Pitzer map of a completed run is injective, the inverse map undoes it. -/
theorem Run.rank_of_orbital {s : Input} {v : Solver} (hr : Run s v)
    (hperm : IsPerm v.order.energy_to_pitzer_order s.ntot) {r : Nat} (hr' : r < s.ntot) :
    v.order.pitzer_to_energy_order.get [v.order.energy_to_pitzer_order.val [(r : Int)]] =
      some (r : Int) := by
  have hL := energyOrder_last hr.eo
  obtain ⟨p, hp, e⟩ := hperm.1 r hr'
  obtain ⟨r', _, h2, h3, h4⟩ := hL.last r hr'
  have := hperm.2 r' r h2 hr' h3
  subst this
  rw [Tab.get_eq_some, hL.dp2e]
  exact ⟨by rw [e]; exact inBounds_single hp, h4⟩

theorem pairwise_pairSpec_mkIJ (symm : Tab) (n : Nat) (inner : Nat → Nat) (h : Nat) :
    (pairSpec symm n inner mkIJ h).Pairwise rankBefore := by
  unfold pairSpec
  rw [List.pairwise_flatMap]
  constructor
  · intro i _
    rw [List.pairwise_map]
    refine List.Pairwise.imp ?_ ((List.pairwise_lt_range (inner i)).filter _)
    intro a b hab
    exact Or.inr ⟨rfl, by simp only [mkIJ]; exact_mod_cast hab⟩
  · refine List.Pairwise.imp ?_ (List.pairwise_lt_range n)
    intro a b hab x hx y hy
    obtain ⟨j, _, rfl⟩ := List.mem_map.1 hx
    obtain ⟨j', _, rfl⟩ := List.mem_map.1 hy
    exact Or.inl (by simp only [mkIJ]; exact_mod_cast hab)

theorem fullSpec_done (sf e2p : Tab) (N ieo h : Nat) :
    fullSpec sf e2p N ieo 0 h = pairSpec (rankLabels sf e2p N) ieo (fun i => i + 1) mkIJ h := by
  simp [fullSpec]

theorem Run.fullRows {s : Input} {v : Solver} (hr : Run s v) :
    FullRows s v.labels.symmetry_full v.order.energy_to_pitzer_order s.ntot 0 v.full :=
  fullTraversal_rows hr.ft

/-- A row of the full sector after a completed run: it stores the orbitals of two ranks
`j ≤ i`, and the inverse rank map returns these ranks when the rank map is a permutation. -/
theorem Run.full_row {s : Input} {v : Solver} (hr : Run s v)
    (hperm : IsPerm v.order.energy_to_pitzer_order s.ntot) {h n : Nat} {a : Int × Int}
    (ha : (fullSpec v.labels.symmetry_full v.order.energy_to_pitzer_order s.ntot s.ntot 0 h)[n]?
      = some a) :
    ∃ (p q : Int) (i j : Nat), j ≤ i ∧ a = ((i : Int), (j : Int)) ∧
      v.full.bas_full_sym.get [(h : Int), (n : Int), 0] = some p ∧
      v.full.bas_full_sym.get [(h : Int), (n : Int), 1] = some q ∧
      v.order.pitzer_to_energy_order.get [p] = some (i : Int) ∧
      v.order.pitzer_to_energy_order.get [q] = some (j : Int) := by
  have hF := hr.fullRows
  obtain ⟨hn, hae⟩ := List.getElem?_eq_some.1 ha
  obtain ⟨hh, hnn⟩ := hF.inb h n hn
  obtain ⟨r0, r1⟩ := hF.rows h n a ha
  have hmem : a ∈ fullSpec v.labels.symmetry_full v.order.energy_to_pitzer_order s.ntot
      s.ntot 0 h := by
    rw [← hae]
    exact List.getElem_mem _
  rw [fullSpec_done] at hmem
  obtain ⟨i, j, hi, hj, _, e⟩ := mem_pairSpec.1 hmem
  subst e
  simp only [mkIJ] at r0 r1
  refine ⟨_, _, i, j, by omega, rfl, ?_, ?_, hr.rank_of_orbital hperm hi,
    hr.rank_of_orbital hperm (by omega)⟩
  · rw [Tab.get_eq_some, hF.db, inBounds_three]
    exact ⟨⟨⟨by omega, by omega⟩, ⟨by omega, by exact_mod_cast hnn⟩, ⟨by omega, by omega⟩⟩, r0⟩
  · rw [Tab.get_eq_some, hF.db, inBounds_three]
    exact ⟨⟨⟨by omega, by omega⟩, ⟨by omega, by exact_mod_cast hnn⟩, ⟨by omega, by omega⟩⟩, r1⟩

/-- Of a relation that is symmetric on `S`, twice the pairs on or below the diagonal are all
the pairs and the diagonal ones. -/
theorem card_lower_double (S : Finset Nat) (r : Nat → Nat → Prop) [∀ i j, Decidable (r i j)]
    (hsym : ∀ i j, i ∈ S → j ∈ S → (r i j ↔ r j i)) :
    2 * ((S ×ˢ S).filter fun q : Nat × Nat => q.2 ≤ q.1 ∧ r q.1 q.2).card =
      ((S ×ˢ S).filter fun q : Nat × Nat => r q.1 q.2).card +
        (S.filter fun p => r p p).card := by
  rw [Finset.card_filter, Finset.card_filter, Finset.card_filter, Finset.sum_product,
    Finset.sum_product]
  have hLU : (Finset.sum S fun i => Finset.sum S fun j => if r i j ∧ j < i then 1 else 0) =
      Finset.sum S fun i => Finset.sum S fun j => if r i j ∧ i < j then 1 else 0 := by
    rw [Finset.sum_comm]
    refine Finset.sum_congr rfl (fun a ha => Finset.sum_congr rfl (fun b hb => ?_))
    have := hsym b a hb ha
    simp only [this]
  have hdiag : ∀ a, a ∈ S → (if r a a then 1 else 0) =
      Finset.sum S fun b => if r a b ∧ b = a then 1 else 0 := by
    intro a ha
    rw [Finset.sum_eq_single a]
    · simp
    · intro b _ hb
      simp [hb]
    · intro h
      exact absurd ha h
  have hlow : (Finset.sum S fun i => Finset.sum S fun j =>
        if j ≤ i ∧ r i j then 1 else 0) =
      (Finset.sum S fun i => Finset.sum S fun j => if r i j ∧ j < i then 1 else 0) +
        Finset.sum S fun i => if r i i then 1 else 0 := by
    rw [← Finset.sum_add_distrib]
    refine Finset.sum_congr rfl (fun a ha => ?_)
    rw [hdiag a ha, ← Finset.sum_add_distrib]
    refine Finset.sum_congr rfl (fun b _ => ?_)
    by_cases h1 : r a b
    · rcases Nat.lt_trichotomy b a with c | c | c
      · simp [h1, c, Nat.le_of_lt c, Nat.ne_of_lt c]
      · simp [h1, c]
      · simp [h1, Nat.not_le.2 c, Nat.not_lt.2 (Nat.le_of_lt c), Nat.ne_of_gt c]
    · simp [h1]
  have hall : (Finset.sum S fun i => Finset.sum S fun j => if r i j then 1 else 0) =
      (Finset.sum S fun i => Finset.sum S fun j => if r i j ∧ j < i then 1 else 0) +
        (Finset.sum S fun i => Finset.sum S fun j => if r i j ∧ i < j then 1 else 0) +
        Finset.sum S fun i => if r i i then 1 else 0 := by
    rw [← Finset.sum_add_distrib, ← Finset.sum_add_distrib]
    refine Finset.sum_congr rfl (fun a ha => ?_)
    rw [hdiag a ha, ← Finset.sum_add_distrib, ← Finset.sum_add_distrib]
    refine Finset.sum_congr rfl (fun b _ => ?_)
    by_cases h1 : r a b
    · rcases Nat.lt_trichotomy b a with c | c | c
      · simp [h1, c, Nat.not_lt.2 (Nat.le_of_lt c), Nat.ne_of_lt c]
      · simp [h1, c]
      · simp [h1, c, Nat.not_lt.2 (Nat.le_of_lt c), Nat.ne_of_gt c]
    · simp [h1]
  rw [hlow, hall, ← hLU]
  omega

/-- Counting the pairs on or below the diagonal of a symmetric relation along an injective
numbering `τ` of `K` orbitals gives the number of such pairs among the numbered orbitals. -/
theorem card_lower_reindex (K : Nat) (τ : Nat → Nat)
    (hinj : ∀ a b, a < K → b < K → τ a = τ b → a = b)
    (r : Nat → Nat → Prop) [∀ i j, Decidable (r i j)]
    (hsym : ∀ a b, a < K → b < K → (r (τ a) (τ b) ↔ r (τ b) (τ a))) :
    (Finset.sum (Finset.range K) fun a =>
        ((Finset.range (a + 1)).filter fun b => r (τ a) (τ b)).card) =
      ((((Finset.range K).image τ) ×ˢ ((Finset.range K).image τ)).filter
        fun q : Nat × Nat => q.2 ≤ q.1 ∧ r q.1 q.2).card := by
  have hinj' : ∀ x ∈ Finset.range K, ∀ y ∈ Finset.range K, τ x = τ y → x = y :=
    fun x hx y hy e => hinj x y (Finset.mem_range.1 hx) (Finset.mem_range.1 hy) e
  have h1 := card_lower_double (Finset.range K) (fun a b => r (τ a) (τ b))
    (fun i j hi hj => hsym i j (Finset.mem_range.1 hi) (Finset.mem_range.1 hj))
  have h2 := card_lower_double ((Finset.range K).image τ) r (by
    intro i j hi hj
    obtain ⟨a, ha, rfl⟩ := Finset.mem_image.1 hi
    obtain ⟨b, hb, rfl⟩ := Finset.mem_image.1 hj
    exact hsym a b (Finset.mem_range.1 ha) (Finset.mem_range.1 hb))
  have eAll : ((((Finset.range K).image τ) ×ˢ ((Finset.range K).image τ)).filter
        fun q : Nat × Nat => r q.1 q.2).card =
      ((Finset.range K ×ˢ Finset.range K).filter
        fun q : Nat × Nat => r (τ q.1) (τ q.2)).card := by
    rw [Finset.card_filter, Finset.card_filter, Finset.sum_product, Finset.sum_product,
      Finset.sum_image hinj']
    refine Finset.sum_congr rfl (fun a _ => ?_)
    rw [Finset.sum_image hinj']
  have eD : (((Finset.range K).image τ).filter fun p => r p p).card =
      ((Finset.range K).filter fun a => r (τ a) (τ a)).card := by
    rw [Finset.card_filter, Finset.card_filter, Finset.sum_image hinj']
  have eL : (Finset.sum (Finset.range K) fun a =>
        ((Finset.range (a + 1)).filter fun b => r (τ a) (τ b)).card) =
      ((Finset.range K ×ˢ Finset.range K).filter
        fun q : Nat × Nat => q.2 ≤ q.1 ∧ r (τ q.1) (τ q.2)).card := by
    rw [card_filter_product K (fun i j => j ≤ i ∧ r (τ i) (τ j))]
    refine Finset.sum_congr rfl (fun a ha => ?_)
    congr 1
    ext b
    have := Finset.mem_range.1 ha
    simp only [Finset.mem_filter, Finset.mem_range]
    constructor
    · rintro ⟨h3, h4⟩
      exact ⟨by omega, by omega, h4⟩
    · rintro ⟨_, h3, h4⟩
      exact ⟨by omega, h4⟩
  beta_reduce at h1
  rw [eAll, eD] at h2
  omega

theorem offs_add_inj (c : Nat → Nat) {g g' j j' : Nat} (hj : j < c g) (hj' : j' < c g')
    (e : offs c g + j = offs c g' + j') : g = g' ∧ j = j' := by
  rcases Nat.lt_trichotomy g g' with hlt | heq | hgt
  · have := offs_mono c (show g + 1 ≤ g' from hlt)
    rw [offs_succ] at this
    omega
  · subst heq
    exact ⟨rfl, by omega⟩
  · have := offs_mono c (show g' + 1 ≤ g from hgt)
    rw [offs_succ] at this
    omega

theorem coreOrActive_pz {s : Input} (hc : Consistent s) {g j : Nat} (hg : g < s.nirrep_)
    (hj : j < s.nmopi_ g) :
    coreOrActive s (pz s g j) = true ↔ j < s.frzcpi_ g + s.amopi_ g := by
  unfold coreOrActive
  rw [List.any_eq_true]
  constructor
  · rintro ⟨g', hg', hd⟩
    rw [List.mem_range] at hg'
    rw [decide_eq_true_eq] at hd
    have hs := hc.split g' hg'
    have e : pz s g j = pz s g' (pz s g j - offs s.nmopi_ g') := by
      unfold pz at *
      omega
    obtain ⟨e1, e2⟩ := pz_inj hj (by unfold pz at *; omega) e
    subst e1
    unfold pz at *
    omega
  · intro h
    refine ⟨g, List.mem_range.2 hg, ?_⟩
    rw [decide_eq_true_eq]
    unfold pz
    omega

/-- With consistent counts and every energy below `1.0e99`, the orbital of a rank is a
position of an irrep, a frozen-core or active one when the rank is below `nmo + nfrzc`, and
the inverse map returns the rank. -/
theorem Run.rank_orbital {s : Input} {v : Solver} (hr : Run s v) (hc : Consistent s)
    (hE : EnergiesBelow s) {a : Nat} (ha : a < s.ntot) :
    ∃ g j, g < s.nirrep_ ∧ j < s.nmopi_ g ∧
      v.order.energy_to_pitzer_order.val [(a : Int)] = (pz s g j : Int) ∧
      v.order.pitzer_to_energy_order.val [(pz s g j : Int)] = (a : Int) ∧
      (a < s.nmo + s.nfrzc → j < s.frzcpi_ g + s.amopi_ g) := by
  have hI := hr.rankInv hc hE
  obtain ⟨g, j, hin, e1, e2, _⟩ := hI.chosen a ha
  refine ⟨g, j, hin.hh, hin.valid (poolOfRank_ok s hc a), e1, e2, ?_⟩
  intro hlt
  have h1 := hin.hi
  unfold poolOfRank at h1
  by_cases c1 : a < s.nfrzc
  · rw [if_pos c1] at h1
    simp only [corePool] at h1
    omega
  · rw [if_neg c1, if_pos (by omega)] at h1
    simp only [activePool] at h1
    omega

theorem Run.rank_inj {s : Input} {v : Solver} (hr : Run s v) (hc : Consistent s)
    (hE : EnergiesBelow s) {a b : Nat} (ha : a < s.ntot) (hb : b < s.ntot)
    (e : (v.order.energy_to_pitzer_order.val [(a : Int)]).toNat =
      (v.order.energy_to_pitzer_order.val [(b : Int)]).toNat) : a = b := by
  obtain ⟨g, j, _, _, e1, p1, _⟩ := hr.rank_orbital hc hE ha
  obtain ⟨g', j', _, _, e2, p2, _⟩ := hr.rank_orbital hc hE hb
  rw [e1, e2, Int.toNat_natCast, Int.toNat_natCast] at e
  rw [e] at p1
  rw [p1] at p2
  exact_mod_cast p2

/-- The label of a full Pitzer index of a completed run lies below `nirrep`. -/
theorem Run.full_label {s : Input} {v : Solver} (hr : Run s v) (hc : Consistent s) {p : Nat}
    (hp : p < s.ntot) :
    ∃ g, g < s.nirrep_ ∧ v.labels.symmetry_full.get [(p : Int)] = some (g : Int) := by
  obtain ⟨g, j, hg, hj, rfl⟩ := pz_decompose hc hp
  exact ⟨g, hg, hr.symmetry_full_get hg hj⟩

theorem Run.pairLabel_full_comm {s : Input} {v : Solver} (hr : Run s v) (hc : Consistent s)
    (hn : s.nirrep_ ≤ 8) {p q : Nat} (hp : p < s.ntot) (hq : q < s.ntot) :
    pairLabel v.labels.symmetry_full p q = pairLabel v.labels.symmetry_full q p := by
  obtain ⟨a, ha, ga⟩ := hr.full_label hc hp
  obtain ⟨b, hb, gb⟩ := hr.full_label hc hq
  rw [pairLabel_eq_xor (by omega) (by omega) ga gb,
    pairLabel_eq_xor (by omega) (by omega) gb ga, Nat.xor_comm]

/-- The product label of two ranks is the product label of their orbitals. -/
theorem Run.pairLabel_rank {s : Input} {v : Solver} (hr : Run s v) (hc : Consistent s)
    (hE : EnergiesBelow s) {a b : Nat} (ha : a < s.ntot) (hb : b < s.ntot) :
    pairLabel (rankLabels v.labels.symmetry_full v.order.energy_to_pitzer_order s.ntot) a b =
      pairLabel v.labels.symmetry_full
        (v.order.energy_to_pitzer_order.val [(a : Int)]).toNat
        (v.order.energy_to_pitzer_order.val [(b : Int)]).toNat := by
  obtain ⟨g, j, hg, hj, e1, _, _⟩ := hr.rank_orbital hc hE ha
  obtain ⟨g', j', hg', hj', e2, _, _⟩ := hr.rank_orbital hc hE hb
  have ga := hr.symmetry_full_get hg hj
  have gb := hr.symmetry_full_get hg' hj'
  rw [@pairLabel_rankLabels _ _ _ _ _ ha hb (g : Int) (g' : Int) (by rw [e1]; exact ga)
    (by rw [e2]; exact gb)]
  rw [e1, e2, Int.toNat_natCast, Int.toNat_natCast]
  unfold pairLabel
  rw [ga, gb]
  rfl

/-- The orbitals of all ranks are all the full Pitzer indices. -/
theorem Run.image_rank {s : Input} {v : Solver} (hr : Run s v) (hc : Consistent s)
    (hE : EnergiesBelow s) :
    (Finset.range s.ntot).image
      (fun a : Nat => (v.order.energy_to_pitzer_order.val [(a : Int)]).toNat) =
      Finset.range s.ntot := by
  refine Finset.eq_of_subset_of_card_le ?_ ?_
  · intro p hp
    obtain ⟨a, ha, rfl⟩ := Finset.mem_image.1 hp
    obtain ⟨g, j, hg, hj, e1, _, _⟩ := hr.rank_orbital hc hE (Finset.mem_range.1 ha)
    rw [Finset.mem_range]
    show (v.order.energy_to_pitzer_order.val [(a : Int)]).toNat < s.ntot
    rw [e1, Int.toNat_natCast]
    exact pz_lt_ntot hc hg hj
  · rw [Finset.card_image_of_injOn]
    intro a ha b hb e
    exact hr.rank_inj hc hE (Finset.mem_range.1 ha) (Finset.mem_range.1 hb) e

/-- After a completed run with `nirrep ≤ 8`, consistent counts and every energy below
`1.0e99`, the counter `gems_full[h]` is the number of entries of the Pitzer-order list of
block `h` over all orbitals. -/
theorem Run.gems_full_count {s : Input} {v : Solver} (hr : Run s v) (hn : s.nirrep_ ≤ 8)
    (hc : Consistent s) (hE : EnergiesBelow s) (h : Nat) :
    v.full.gems_full.val [(h : Int)] =
      (((pairSpec v.labels.symmetry_full s.ntot (fun i => i + 1) mkIJ h).length : Nat) :
        Int) := by
  rw [hr.fullRows.cnt h, fullSpec_done, length_pairSpec, length_pairSpec]
  congr 1
  have e1 : (Finset.sum (Finset.range s.ntot) fun a => ((Finset.range (a + 1)).filter fun b =>
        pairLabel (rankLabels v.labels.symmetry_full v.order.energy_to_pitzer_order s.ntot)
          a b = some (h : Int)).card) =
      Finset.sum (Finset.range s.ntot) fun a => ((Finset.range (a + 1)).filter fun b =>
        pairLabel v.labels.symmetry_full
          ((fun a : Nat => (v.order.energy_to_pitzer_order.val [(a : Int)]).toNat) a)
          ((fun a : Nat => (v.order.energy_to_pitzer_order.val [(a : Int)]).toNat) b) =
            some (h : Int)).card := by
    refine Finset.sum_congr rfl (fun a ha => ?_)
    congr 1
    refine Finset.filter_congr (fun b hb => ?_)
    have ha' := Finset.mem_range.1 ha
    have hb' := Finset.mem_range.1 hb
    rw [hr.pairLabel_rank hc hE ha' (by omega)]
  have e2 := card_lower_reindex s.ntot
    (fun a : Nat => (v.order.energy_to_pitzer_order.val [(a : Int)]).toNat)
    (fun a b ha hb e => hr.rank_inj hc hE ha hb e)
    (fun p q => pairLabel v.labels.symmetry_full p q = some (h : Int))
    (fun a b ha hb => by
      have h1 : (v.order.energy_to_pitzer_order.val [(a : Int)]).toNat < s.ntot := by
        have := Finset.mem_image_of_mem
          (fun a : Nat => (v.order.energy_to_pitzer_order.val [(a : Int)]).toNat)
          (Finset.mem_range.2 ha)
        rw [hr.image_rank hc hE] at this
        exact Finset.mem_range.1 this
      have h2 : (v.order.energy_to_pitzer_order.val [(b : Int)]).toNat < s.ntot := by
        have := Finset.mem_image_of_mem
          (fun a : Nat => (v.order.energy_to_pitzer_order.val [(a : Int)]).toNat)
          (Finset.mem_range.2 hb)
        rw [hr.image_rank hc hE] at this
        exact Finset.mem_range.1 this
      show pairLabel _ _ _ = _ ↔ pairLabel _ _ _ = _
      rw [hr.pairLabel_full_comm hc hn h1 h2])
  have e3 := card_lower_reindex s.ntot (fun a : Nat => a) (fun a b _ _ e => e)
    (fun p q => pairLabel v.labels.symmetry_full p q = some (h : Int))
    (fun a b ha hb => by
      show pairLabel _ _ _ = _ ↔ pairLabel _ _ _ = _
      rw [hr.pairLabel_full_comm hc hn ha hb])
  rw [hr.image_rank hc hE] at e2
  rw [Finset.image_id'] at e3
  rw [e1, e2, ← e3]

theorem Consistent.plus_core {s : Input} (hc : Consistent s) :
    s.nmo + s.nfrzc = offs (fun g => s.amopi_ g + s.frzcpi_ g) s.nirrep_ := by
  rw [hc.nmo, hc.nfrzc, offs_add]

/-- The orbitals of the ranks below `nmo + nfrzc` are the orbitals that are not frozen
virtuals. -/
theorem Run.image_rank_core {s : Input} {v : Solver} (hr : Run s v) (hc : Consistent s)
    (hE : EnergiesBelow s) (σ : Nat → Nat)
    (hσi : ∀ a b, a < s.nmo + s.nfrzc → b < s.nmo + s.nfrzc → σ a = σ b → a = b)
    (hσ : (Finset.range (s.nmo + s.nfrzc)).image σ = coreActiveSet s) :
    (Finset.range (s.nmo + s.nfrzc)).image
      (fun a : Nat => (v.order.energy_to_pitzer_order.val [(a : Int)]).toNat) =
      coreActiveSet s := by
  have hMN : s.nmo + s.nfrzc ≤ s.ntot := by unfold Input.ntot; omega
  refine Finset.eq_of_subset_of_card_le ?_ ?_
  · intro p hp
    obtain ⟨a, ha, rfl⟩ := Finset.mem_image.1 hp
    have ha' := Finset.mem_range.1 ha
    obtain ⟨g, j, hg, hj, e1, _, hca⟩ := hr.rank_orbital hc hE (show a < s.ntot by omega)
    unfold coreActiveSet
    rw [Finset.mem_filter, Finset.mem_range]
    show (v.order.energy_to_pitzer_order.val [(a : Int)]).toNat < s.ntot ∧
      coreOrActive s (v.order.energy_to_pitzer_order.val [(a : Int)]).toNat = true
    rw [e1, Int.toNat_natCast]
    exact ⟨pz_lt_ntot hc hg hj, (coreOrActive_pz hc hg hj).2 (hca ha')⟩
  · rw [← hσ, Finset.card_image_of_injOn, Finset.card_image_of_injOn]
    · intro a ha b hb e
      exact hr.rank_inj hc hE
        (show a < s.ntot by have := Finset.mem_range.1 ha; omega)
        (show b < s.ntot by have := Finset.mem_range.1 hb; omega) e
    · intro a ha b hb e
      exact hσi a b (Finset.mem_range.1 ha) (Finset.mem_range.1 hb) e

/-- With consistent counts there is a numbering of the orbitals that are not frozen virtuals
by the plus-core indices: index `offs c g + j` is position `j` of irrep `g`. -/
theorem exists_plus_core_numbering {s : Input} (hc : Consistent s) :
    ∃ σ : Nat → Nat,
      (∀ i, i < s.nmo + s.nfrzc → ∃ g j, g < s.nirrep_ ∧ j < s.amopi_ g + s.frzcpi_ g ∧
        i = offs (fun g => s.amopi_ g + s.frzcpi_ g) g + j ∧ σ i = pz s g j) ∧
      (∀ a b, a < s.nmo + s.nfrzc → b < s.nmo + s.nfrzc → σ a = σ b → a = b) ∧
      (Finset.range (s.nmo + s.nfrzc)).image σ = coreActiveSet s := by
  have hex : ∀ i, ∃ p, i < s.nmo + s.nfrzc → ∃ g j, g < s.nirrep_ ∧
      j < s.amopi_ g + s.frzcpi_ g ∧
      i = offs (fun g => s.amopi_ g + s.frzcpi_ g) g + j ∧ p = pz s g j := by
    intro i
    by_cases hi : i < s.nmo + s.nfrzc
    · rw [hc.plus_core] at hi
      obtain ⟨g, j, hg, hj, e⟩ := offs_decompose _ hi
      exact ⟨pz s g j, fun _ => ⟨g, j, hg, hj, e, rfl⟩⟩
    · exact ⟨0, fun h => absurd h hi⟩
  choose σ hσ using hex
  have hinj : ∀ a b, a < s.nmo + s.nfrzc → b < s.nmo + s.nfrzc → σ a = σ b → a = b := by
    intro a b ha hb e
    obtain ⟨g, j, hg, hj, ea, pa⟩ := hσ a ha
    obtain ⟨g', j', hg', hj', eb, pb⟩ := hσ b hb
    rw [pa, pb] at e
    have s1 := hc.split g hg
    have s2 := hc.split g' hg'
    obtain ⟨x1, x2⟩ := pz_inj (show j < s.nmopi_ g by omega)
      (show j' < s.nmopi_ g' by omega) e
    subst x1 x2
    rw [ea, eb]
  refine ⟨σ, hσ, hinj, ?_⟩
  ext p
  unfold coreActiveSet
  rw [Finset.mem_image, Finset.mem_filter, Finset.mem_range]
  constructor
  · rintro ⟨i, hi, rfl⟩
    obtain ⟨g, j, hg, hj, _, pa⟩ := hσ i (Finset.mem_range.1 hi)
    have s1 := hc.split g hg
    rw [pa]
    exact ⟨pz_lt_ntot hc hg (by omega), (coreOrActive_pz hc hg (by omega)).2 (by omega)⟩
  · rintro ⟨hp, hca⟩
    obtain ⟨g, j, hg, hj, rfl⟩ := pz_decompose hc hp
    have hj' := (coreOrActive_pz hc hg hj).1 hca
    have hlt : offs (fun g => s.amopi_ g + s.frzcpi_ g) g + j < s.nmo + s.nfrzc := by
      rw [hc.plus_core]
      exact offs_add_lt _ hg (by omega)
    refine ⟨offs (fun g => s.amopi_ g + s.frzcpi_ g) g + j, Finset.mem_range.2 hlt, ?_⟩
    obtain ⟨g', j', hg', hj'', e, pa⟩ := hσ _ hlt
    obtain ⟨x1, x2⟩ := offs_add_inj (fun g => s.amopi_ g + s.frzcpi_ g)
      (show j < s.amopi_ g + s.frzcpi_ g by omega) hj'' e
    subst x1 x2
    exact pa

/-- After a completed run with `nirrep ≤ 8`, consistent counts and every energy below
`1.0e99`, the counter `gems_plus_core[h]` and the length of the Pitzer-order list of block
`h` over the plus-core indices are both the number of pairs `q ≤ p` of orbitals that are not
frozen virtuals with product label `h`. -/
theorem Run.gems_plus_core_count {s : Input} {v : Solver} (hr : Run s v) (hn : s.nirrep_ ≤ 8)
    (hc : Consistent s) (hE : EnergiesBelow s) (h : Nat) :
    v.full.gems_plus_core.val [(h : Int)] =
        ((((coreActiveSet s ×ˢ coreActiveSet s).filter fun q : Nat × Nat =>
          q.2 ≤ q.1 ∧ pairLabel v.labels.symmetry_full q.1 q.2 = some (h : Int)).card : Nat) :
          Int) ∧
      (pairSpec v.labels.symmetry_plus_core (s.nmo + s.nfrzc) (fun i => i + 1) mkIJ h).length =
        ((coreActiveSet s ×ˢ coreActiveSet s).filter fun q : Nat × Nat =>
          q.2 ≤ q.1 ∧ pairLabel v.labels.symmetry_full q.1 q.2 = some (h : Int)).card := by
  have hMN : s.nmo + s.nfrzc ≤ s.ntot := by unfold Input.ntot; omega
  obtain ⟨σ, hσ, hσi, hσS⟩ := exists_plus_core_numbering hc
  have hπS := hr.image_rank_core hc hE σ hσi hσS
  have hsub : ∀ p, p ∈ coreActiveSet s → p < s.ntot := by
    intro p hp
    unfold coreActiveSet at hp
    exact Finset.mem_range.1 (Finset.mem_filter.1 hp).1
  constructor
  · rw [hr.fullRows.pc h, fullSpec_done, length_filter_pairSpec]
    congr 1
    have e0 : (Finset.sum (Finset.range s.ntot) fun a =>
          ((Finset.range (a + 1)).filter fun b =>
            pairLabel (rankLabels v.labels.symmetry_full v.order.energy_to_pitzer_order
              s.ntot) a b = some (h : Int) ∧
            keepCore (s.nmo + s.nfrzc) (mkIJ a b) = true).card) =
        Finset.sum (Finset.range (s.nmo + s.nfrzc)) fun a =>
          ((Finset.range (a + 1)).filter fun b =>
            pairLabel v.labels.symmetry_full
              ((fun a : Nat => (v.order.energy_to_pitzer_order.val [(a : Int)]).toNat) a)
              ((fun a : Nat => (v.order.energy_to_pitzer_order.val [(a : Int)]).toNat) b) =
                some (h : Int)).card := by
      rw [← Finset.sum_subset (Finset.range_subset.2 hMN)]
      · refine Finset.sum_congr rfl (fun a ha => ?_)
        congr 1
        refine Finset.filter_congr (fun b hb => ?_)
        have ha' := Finset.mem_range.1 ha
        have hb' := Finset.mem_range.1 hb
        rw [hr.pairLabel_rank hc hE (show a < s.ntot by omega) (show b < s.ntot by omega)]
        have : keepCore (s.nmo + s.nfrzc) (mkIJ a b) = true := by
          unfold keepCore mkIJ
          rw [decide_eq_true_eq]
          show (a : Int) < ((s.nmo + s.nfrzc : Nat) : Int) ∧
            (b : Int) < ((s.nmo + s.nfrzc : Nat) : Int)
          exact ⟨by exact_mod_cast ha', by exact_mod_cast (show b < s.nmo + s.nfrzc by omega)⟩
        simp only [this, and_true]
      · intro a _ ha
        rw [Finset.mem_range] at ha
        rw [Finset.card_eq_zero, Finset.filter_eq_empty_iff]
        rintro b _ ⟨_, hk⟩
        unfold keepCore mkIJ at hk
        rw [decide_eq_true_eq] at hk
        have hk1 : (a : Int) < ((s.nmo + s.nfrzc : Nat) : Int) := hk.1
        have : a < s.nmo + s.nfrzc := by exact_mod_cast hk1
        exact ha this
    have e2 := card_lower_reindex (s.nmo + s.nfrzc)
      (fun a : Nat => (v.order.energy_to_pitzer_order.val [(a : Int)]).toNat)
      (fun a b ha hb e => hr.rank_inj hc hE (by omega) (by omega) e)
      (fun p q => pairLabel v.labels.symmetry_full p q = some (h : Int))
      (fun a b ha hb => by
        have h1 : (v.order.energy_to_pitzer_order.val [(a : Int)]).toNat < s.ntot := by
          refine hsub _ ?_
          rw [← hπS]
          exact Finset.mem_image_of_mem _ (Finset.mem_range.2 ha)
        have h2 : (v.order.energy_to_pitzer_order.val [(b : Int)]).toNat < s.ntot := by
          refine hsub _ ?_
          rw [← hπS]
          exact Finset.mem_image_of_mem _ (Finset.mem_range.2 hb)
        show pairLabel _ _ _ = _ ↔ pairLabel _ _ _ = _
        rw [hr.pairLabel_full_comm hc hn h1 h2])
    rw [hπS] at e2
    rw [e0, e2]
  · rw [length_pairSpec]
    obtain ⟨_, _, c3, hspc⟩ := hr.labels_inv
    have e0 : (Finset.sum (Finset.range (s.nmo + s.nfrzc)) fun i =>
          ((Finset.range (i + 1)).filter fun j =>
            pairLabel v.labels.symmetry_plus_core i j = some (h : Int)).card) =
        Finset.sum (Finset.range (s.nmo + s.nfrzc)) fun i =>
          ((Finset.range (i + 1)).filter fun j =>
            pairLabel v.labels.symmetry_full (σ i) (σ j) = some (h : Int)).card := by
      refine Finset.sum_congr rfl (fun a ha => ?_)
      congr 1
      refine Finset.filter_congr (fun b hb => ?_)
      have ha' := Finset.mem_range.1 ha
      have hb' := Finset.mem_range.1 hb
      obtain ⟨g, j, hg, hj, ea, pa⟩ := hσ a ha'
      obtain ⟨g', j', hg', hj', eb, pb⟩ := hσ b (by omega)
      have s1 := hc.split g hg
      have s2 := hc.split g' hg'
      have ga := hr.symmetry_full_get hg (show j < s.nmopi_ g by omega)
      have gb := hr.symmetry_full_get hg' (show j' < s.nmopi_ g' by omega)
      have ga' : v.labels.symmetry_plus_core.get [(a : Int)] = some (g : Int) := by
        have := hspc.get hg hj
        rw [ea]
        push_cast
        exact this
      have gb' : v.labels.symmetry_plus_core.get [(b : Int)] = some (g' : Int) := by
        have := hspc.get hg' hj'
        rw [eb]
        push_cast
        exact this
      rw [pa, pb]
      unfold pairLabel
      rw [ga, gb, ga', gb']
    have e2 := card_lower_reindex (s.nmo + s.nfrzc) σ hσi
      (fun p q => pairLabel v.labels.symmetry_full p q = some (h : Int))
      (fun a b ha hb => by
        have h1 : σ a < s.ntot := by
          refine hsub _ ?_
          rw [← hσS]
          exact Finset.mem_image_of_mem _ (Finset.mem_range.2 ha)
        have h2 : σ b < s.ntot := by
          refine hsub _ ?_
          rw [← hσS]
          exact Finset.mem_image_of_mem _ (Finset.mem_range.2 hb)
        show pairLabel _ _ _ = _ ↔ pairLabel _ _ _ = _
        rw [hr.pairLabel_full_comm hc hn h1 h2])
    rw [hσS] at e2
    rw [e0, e2]

theorem BlockOK.rows_take {h : Nat} {cells : Int × Int → List (List Int)}
    {L : List (Int × Int)} {x : Sector} (hb : BlockOK h cells rowPair L x) :
    ∀ n, n ≤ L.length → readRows x.bas h n = some (L.take n) := by
  intro n
  induction n with
  | zero => intro _; rfl
  | succ n ih =>
    intro hn
    have hlt : n < L.length := hn
    have ha : L[n]? = some L[n] := List.getElem?_eq_getElem hlt
    obtain ⟨r0, r1⟩ := hb.row_pair ha
    have i0 := hb.rinb n _ ha 0 (by simp [rowPair])
    have i1 := hb.rinb n _ ha 1 (by simp [rowPair])
    simp only [Nat.cast_zero, Nat.cast_one] at i0 i1
    have g0 : x.bas.get [(h : Int), (n : Int), 0] = some L[n].1 := Tab.get_eq_some.2 ⟨i0, r0⟩
    have g1 : x.bas.get [(h : Int), (n : Int), 1] = some L[n].2 := Tab.get_eq_some.2 ⟨i1, r1⟩
    simp only [readRows, ih (Nat.le_of_lt hlt), g0, g1, bind, Option.bind, pure]
    rw [List.take_succ, ha]
    rfl

theorem BlockOK.rows_read {h : Nat} {cells : Int × Int → List (List Int)}
    {L : List (Int × Int)} {x : Sector} (hb : BlockOK h cells rowPair L x) :
    readRows x.bas h L.length = some L := by
  rw [hb.rows_take L.length (le_refl _), List.take_length]

/-- When a test that holds at a position of a list holds at every earlier position, the
positions where it holds are those below the number of entries that pass it. -/
theorem filter_prefix {α : Type} (p : α → Bool) :
    ∀ L : List α, (∀ (n m : Nat) (hn : n < L.length) (hm : m < L.length), n < m →
      p (L.get ⟨m, hm⟩) = true → p (L.get ⟨n, hn⟩) = true) →
    ∀ (n : Nat) (hn : n < L.length), (n < (L.filter p).length ↔ p (L.get ⟨n, hn⟩) = true) := by
  intro L
  induction L with
  | nil =>
    intro _ n hn
    exact absurd hn (Nat.not_lt_zero n)
  | cons x xs ih =>
    intro hdown n hn
    have hdown' : ∀ (n m : Nat) (hn : n < xs.length) (hm : m < xs.length), n < m →
        p (xs.get ⟨m, hm⟩) = true → p (xs.get ⟨n, hn⟩) = true := by
      intro a b ha hb hab hpb
      exact hdown (a + 1) (b + 1) (Nat.succ_lt_succ ha) (Nat.succ_lt_succ hb)
        (Nat.succ_lt_succ hab) hpb
    by_cases hx : p x = true
    · rw [List.filter_cons_of_pos hx]
      cases n with
      | zero =>
        simp only [List.length_cons, Nat.zero_lt_succ, true_iff]
        exact hx
      | succ k =>
        have hk : k < xs.length := Nat.lt_of_succ_lt_succ hn
        have := ih hdown' k hk
        simp only [List.length_cons, Nat.succ_lt_succ_iff]
        exact this
    · have hall : ∀ (k : Nat) (hk : k < xs.length), ¬ p (xs.get ⟨k, hk⟩) = true := by
        intro k hk hpk
        exact hx (hdown 0 (k + 1) (Nat.zero_lt_succ _) (Nat.succ_lt_succ hk)
          (Nat.zero_lt_succ _) hpk)
      have hnil : xs.filter p = [] := by
        rw [List.filter_eq_nil_iff]
        intro a ha
        obtain ⟨k, hk, rfl⟩ := List.getElem_of_mem ha
        exact hall k hk
      rw [List.filter_cons_of_neg hx, hnil]
      cases n with
      | zero =>
        simp only [List.length_nil, Nat.lt_irrefl, false_iff]
        exact hx
      | succ k =>
        have hk : k < xs.length := Nat.lt_of_succ_lt_succ hn
        simp only [List.length_nil, Nat.not_lt_zero, false_iff]
        exact hall k hk

/-- With consistent counts and every energy below `1.0e99`, the orbital of a rank is not a
frozen virtual exactly when the rank is below `nmo + nfrzc`. -/
theorem Run.rank_core_iff {s : Input} {v : Solver} (hr : Run s v) (hc : Consistent s)
    (hE : EnergiesBelow s) {a : Nat} (ha : a < s.ntot) :
    ∃ p : Nat, p < s.ntot ∧ v.order.energy_to_pitzer_order.val [(a : Int)] = (p : Int) ∧
      (coreOrActive s p = true ↔ a < s.nmo + s.nfrzc) := by
  have hI := hr.rankInv hc hE
  obtain ⟨g, j, hin, e1, _, _⟩ := hI.chosen a ha
  have hj := hin.valid (poolOfRank_ok s hc a)
  refine ⟨pz s g j, pz_lt_ntot hc hin.hh hj, e1, ?_⟩
  rw [coreOrActive_pz hc hin.hh hj]
  have h1 := hin.hi
  have h2 := hin.lo
  unfold poolOfRank at h1 h2
  by_cases c1 : a < s.nfrzc
  · rw [if_pos c1] at h1
    simp only [corePool] at h1
    constructor <;> intro <;> omega
  · by_cases c2 : a < s.nfrzc + s.nmo
    · rw [if_neg c1, if_pos c2] at h1
      simp only [activePool] at h1
      constructor <;> intro <;> omega
    · rw [if_neg c1, if_neg c2] at h2
      simp only [virtualPool] at h2
      constructor <;> intro <;> omega

theorem rankStep_in {s : Input} {P : Pool} {N R : Nat} {st st' : EnergyOrder}
    (hI : RankIn N R st) (hrun : rankStep s P R st = some st') : RankIn N (R + 1) st' := by
  simp only [rankStep, bind, Option.bind_eq_some, pure, Option.some.injEq] at hrun
  obtain ⟨sc, _, skip, hskip, seo, _, p2e, _, e2p, he2p, rfl⟩ := hrun
  have hin := Tab.set_inb hskip
  rw [hI.dskip, inBounds_one] at hin
  refine ⟨by rw [← hI.dskip]; exact Tab.set_dims hskip,
    by rw [← hI.de2p]; exact Tab.set_dims he2p, ?_⟩
  intro r hr
  show ∃ m : Nat, m < N ∧ e2p.val [(r : Int)] = (m : Int)
  rw [Tab.set_val he2p]
  rcases Nat.lt_succ_iff_lt_or_eq.1 hr with h1 | h1
  · rw [update_single_ne (Nat.ne_of_lt h1)]
    exact hI.rng r h1
  · subst h1
    rw [update_single_eq]
    exact ⟨sc.imin.toNat, by omega, by omega⟩

theorem rankLoop_in {s : Input} {P : Pool} {N r0 T : Nat} {st st' : EnergyOrder}
    (hI : RankIn N r0 st) (hrun : loopM r0 T (rankStep s P) st = some st') :
    RankIn N (r0 + T) st' :=
  loopM_inv (fun k x => RankIn N (r0 + k) x) hrun hI
    (fun _ _ _ _ hIk hstep => rankStep_in hIk hstep)

/-- A completed energy ordering holds a full Pitzer index at every rank. -/
theorem energyOrder_in {s : Input} {eo : EnergyOrder} (hrun : energyOrder s = some eo) :
    ∀ r, r < s.ntot → ∃ m : Nat, m < s.ntot ∧
      eo.energy_to_pitzer_order.get [(r : Int)] = some (m : Int) := by
  simp only [energyOrder, bind, Option.bind_eq_some] at hrun
  obtain ⟨st1, h1, st2, h2, h3⟩ := hrun
  have I0 : RankIn s.ntot 0
      ⟨min0, -999, -999, Tab.alloc [s.ntot] 0, Tab.alloc [s.ntot] 0, Tab.alloc [s.ntot] 0,
        Tab.alloc [s.ntot] 0⟩ :=
    ⟨rfl, rfl, fun r hr => absurd hr (Nat.not_lt_zero r)⟩
  have I1 := rankLoop_in I0 h1
  rw [Nat.zero_add] at I1
  have I2 := rankLoop_in I1 h2
  rw [Nat.add_comm s.nfrzc s.nmo] at I2
  have I3 : RankIn s.ntot s.ntot eo := rankLoop_in I2 h3
  intro r hr
  obtain ⟨m, hm, e⟩ := I3.rng r hr
  exact ⟨m, hm, Tab.get_eq_some.2 ⟨by rw [I3.de2p]; exact inBounds_single hr, e⟩⟩

theorem buildOffsets_dims {s : Input} {off : Offsets} (hoff : buildOffsets s = some off) :
    off.pitzer_offset_full.dims = [s.nirrep_] := by
  simp only [buildOffsets, bind, Option.bind_eq_some, pure, Option.some.injEq] at hoff
  obtain ⟨po, _, pof, hpof, popc, _, e⟩ := hoff
  rw [← e]
  exact (offsets_spec hpof).1

/-- The traversal reaches every position `(ieo, jeo)`, `jeo ≤ ieo < ntot`, with block counts
below `ieo * ntot + jeo`, when `nirrep` is 1, 2, 4 or 8, every rank holds a full Pitzer index
and every full Pitzer index has a label below `nirrep`. -/
theorem fullState_defined {s : Input} {sf pof e2p : Tab} (hp : PowTwo s.nirrep_)
    (he2p : ∀ r, r < s.ntot → ∃ m : Nat, m < s.ntot ∧ e2p.get [(r : Int)] = some (m : Int))
    (hsf : ∀ m, m < s.ntot → ∃ g : Nat, g < s.nirrep_ ∧ sf.get [(m : Int)] = some (g : Int))
    (hpof : pof.dims = [s.nirrep_]) {ieo jeo : Nat} (hjeo : jeo ≤ ieo) (hieo : ieo < s.ntot) :
    ∃ st, fullState s sf pof e2p ieo jeo = some st ∧ FullFit s (ieo * s.ntot + jeo) st := by
  have key : ∃ st0, loopM 0 ieo (fullOuter s sf pof e2p)
      { bas_full_sym := Tab.alloc [s.nirrep_, s.ntot * s.ntot, 2] (-999)
        ibas_full_sym := Tab.alloc [s.nirrep_, s.ntot, s.ntot] (-999)
        gems_full := Tab.alloc [s.nirrep_] 0
        gems_plus_core := Tab.alloc [s.nirrep_] 0 } = some st0 ∧
      FullFit s (ieo * s.ntot) st0 :=
    loopM_total (fun k x => FullFit s (k * s.ntot) x)
      ⟨rfl, rfl, rfl, rfl, fun h => ⟨Int.le_refl _, by
        show (0 : Int) ≤ ((0 * s.ntot : Nat) : Int)
        omega⟩⟩
      (fun k x hk hIx => by
        rw [Nat.zero_add]
        exact fullOuter_defined hp he2p hsf hpof (by omega) hIx)
  obtain ⟨st0, h0, I0⟩ := key
  obtain ⟨m, hm, hgm⟩ := he2p ieo hieo
  obtain ⟨a, ha, hga⟩ := hsf m hm
  have hgp : pof.get [(a : Int)] = some (pof.val [(a : Int)]) :=
    Tab.get_of_inb (by rw [hpof]; exact inBounds_single ha)
  have hmul : ieo * s.ntot + s.ntot ≤ s.ntot * s.ntot := by
    have := Nat.mul_le_mul_right s.ntot (show ieo + 1 ≤ s.ntot from hieo)
    rw [Nat.add_mul, Nat.one_mul] at this
    exact this
  have key2 : ∃ st, loopM 0 jeo (fullInner s sf pof e2p ieo (m : Int) (a : Int)) st0 =
      some st ∧ FullFit s (ieo * s.ntot + jeo) st :=
    loopM_total (fun k x => FullFit s (ieo * s.ntot + k) x) I0
      (fun k x hk hIx => by
        rw [Nat.zero_add]
        exact fullInner_defined hp he2p hsf hpof (by omega) ha
          (show 0 ≤ (m : Int) ∧ (m : Int) < s.ntot by omega) hIx
          (show ieo * s.ntot + k < s.ntot * s.ntot by omega))
  obtain ⟨st, h1, I1⟩ := key2
  refine ⟨st, ?_, I1⟩
  simp only [fullState, h0, hgm, hga, hgp, bind, Option.bind]
  exact h1

theorem rankState_total (s : Input) : rankState s s.ntot = energyOrder s := by
  unfold rankState energyOrder
  have e1 : min s.ntot s.nfrzc = s.nfrzc := by unfold Input.ntot; omega
  have e2 : min (s.ntot - s.nfrzc) s.nmo = s.nmo := by unfold Input.ntot; omega
  have e3 : min (s.ntot - (s.nmo + s.nfrzc)) s.nfrzv = s.nfrzv := by unfold Input.ntot; omega
  rw [e1, e2, e3]

theorem rankState_succ (s : Input) {R : Nat} (hR : R < s.ntot) :
    rankState s (R + 1) = (rankState s R).bind (rankStep s (poolOfRank s R) R) := by
  have hN : s.ntot = s.nmo + s.nfrzc + s.nfrzv := rfl
  unfold rankState poolOfRank
  by_cases c1 : R < s.nfrzc
  · have a1 : min (R + 1) s.nfrzc = R + 1 := by omega
    have a2 : min R s.nfrzc = R := by omega
    have a3 : min (R + 1 - s.nfrzc) s.nmo = 0 := by omega
    have a4 : min (R - s.nfrzc) s.nmo = 0 := by omega
    have a5 : min (R + 1 - (s.nmo + s.nfrzc)) s.nfrzv = 0 := by omega
    have a6 : min (R - (s.nmo + s.nfrzc)) s.nfrzv = 0 := by omega
    rw [a1, a2, a3, a4, a5, a6, if_pos c1]
    simp only [loopM_succ, loopM_zero, Nat.zero_add, bind, Option.bind_some, Option.bind_assoc]
  · by_cases c2 : R < s.nfrzc + s.nmo
    · have a1 : min (R + 1) s.nfrzc = s.nfrzc := by omega
      have a2 : min R s.nfrzc = s.nfrzc := by omega
      have a3 : min (R + 1 - s.nfrzc) s.nmo = (R - s.nfrzc) + 1 := by omega
      have a4 : min (R - s.nfrzc) s.nmo = R - s.nfrzc := by omega
      have a5 : min (R + 1 - (s.nmo + s.nfrzc)) s.nfrzv = 0 := by omega
      have a6 : min (R - (s.nmo + s.nfrzc)) s.nfrzv = 0 := by omega
      have a7 : s.nfrzc + (R - s.nfrzc) = R := by omega
      rw [a1, a2, a3, a4, a5, a6, if_neg c1, if_pos c2]
      simp only [loopM_succ, loopM_zero, a7, bind, Option.bind_some, Option.bind_assoc]
    · have a1 : min (R + 1) s.nfrzc = s.nfrzc := by omega
      have a2 : min R s.nfrzc = s.nfrzc := by omega
      have a3 : min (R + 1 - s.nfrzc) s.nmo = s.nmo := by omega
      have a4 : min (R - s.nfrzc) s.nmo = s.nmo := by omega
      have a5 : min (R + 1 - (s.nmo + s.nfrzc)) s.nfrzv = (R - (s.nmo + s.nfrzc)) + 1 := by
        omega
      have a6 : min (R - (s.nmo + s.nfrzc)) s.nfrzv = R - (s.nmo + s.nfrzc) := by omega
      have a7 : s.nmo + s.nfrzc + (R - (s.nmo + s.nfrzc)) = R := by omega
      rw [a1, a2, a3, a4, a5, a6, if_neg c1, if_neg c2]
      simp only [loopM_succ, a7, bind, Option.bind_assoc]

/-- While ranks are left to assign, the pool of the next rank has an unskipped position. -/
theorem unskipped_at_rank {s : Input} (hc : Consistent s) {R : Nat} (hR : R < s.ntot)
    {st : EnergyOrder} (hI : RankInv s R st) :
    ∃ h j, InPool s (poolOfRank s R) h j ∧ st.skip.val [(pz s h j : Int)] = 0 := by
  have hN : s.ntot = s.nmo + s.nfrzc + s.nfrzv := rfl
  by_cases c1 : R < s.nfrzc
  · have hP : poolOfRank s R = corePool s := by unfold poolOfRank; rw [if_pos c1]
    rw [hP]
    refine @exists_unskipped s (corePool s) 0 R s.nfrzc st (corePool_ok s hc)
      (by rw [hc.nfrzc]; rfl) c1 (fun r h j hr => absurd hr (Nat.not_lt_zero r))
      (poolOfRank_ok s hc) (by rw [Nat.zero_add]; exact hI)
  · by_cases c2 : R < s.nfrzc + s.nmo
    · have hP : poolOfRank s R = activePool s := by
        unfold poolOfRank; rw [if_neg c1, if_pos c2]
      rw [hP]
      refine @exists_unskipped s (activePool s) s.nfrzc (R - s.nfrzc) s.nmo st
        (activePool_ok s hc) (by rw [hc.nmo]; rfl) (by omega)
        (fun r h j hr hin hin' => by
          unfold poolOfRank at hin
          rw [if_pos hr] at hin
          have := hin.hi
          have := hin'.lo
          simp only [corePool, activePool] at *
          omega)
        (poolOfRank_ok s hc) (by
          have e : s.nfrzc + (R - s.nfrzc) = R := by omega
          rw [e]; exact hI)
    · have hP : poolOfRank s R = virtualPool s := by
        unfold poolOfRank; rw [if_neg c1, if_neg c2]
      rw [hP]
      refine @exists_unskipped s (virtualPool s) (s.nmo + s.nfrzc) (R - (s.nmo + s.nfrzc))
        s.nfrzv st (virtualPool_ok s hc)
        (by
          rw [hc.nfrzv]
          refine offs_congr (fun g hg => ?_)
          have := hc.split g hg
          simp only [virtualPool]
          omega)
        (by omega)
        (fun r h j hr hin hin' => by
          unfold poolOfRank at hin
          have := hin'.lo
          have := hc.split h hin.hh
          split at hin
          · have := hin.hi
            simp only [corePool, virtualPool] at *
            omega
          · rw [if_pos (by omega)] at hin
            have := hin.hi
            simp only [activePool, virtualPool] at *
            omega)
        (poolOfRank_ok s hc) (by
          have e : s.nmo + s.nfrzc + (R - (s.nmo + s.nfrzc)) = R := by omega
          rw [e]; exact hI)

/-- With consistent counts and every energy below `1.0e99`, the ranking loops reach every
iteration inside their arrays, with the ranks below it assigned. -/
theorem rankState_inv {s : Input} (hc : Consistent s) (hE : EnergiesBelow s) :
    ∀ R, R ≤ s.ntot → ∃ st, rankState s R = some st ∧ RankInv s R st ∧
      st.symmetry_energy_order.dims = [s.ntot] := by
  intro R
  induction R with
  | zero =>
    intro _
    refine ⟨⟨min0, -999, -999, Tab.alloc [s.ntot] 0, Tab.alloc [s.ntot] 0,
      Tab.alloc [s.ntot] 0, Tab.alloc [s.ntot] 0⟩, ?_,
      ⟨rfl, rfl, rfl, fun r hr => absurd hr (Nat.not_lt_zero r),
        fun h j _ _ hs => absurd rfl hs,
        fun r r' h j h' j' _ hr' => absurd hr' (Nat.not_lt_zero r'),
        fun r h j h' j' hr => absurd hr (Nat.not_lt_zero r)⟩, rfl⟩
    unfold rankState
    simp only [Nat.zero_min, Nat.zero_sub, loopM_zero, bind, Option.bind_some]
  | succ R ih =>
    intro hR
    obtain ⟨st, hst, hI, hd⟩ := ih (by omega)
    have hex := unskipped_at_rank hc (show R < s.ntot by omega) hI
    have hP := poolOfRank_ok s hc R
    obtain ⟨st', hst'⟩ := rankStep_defined hc hE hP (show R < s.ntot by omega) hex hI hd
    refine ⟨st', ?_, rankStep_spec hE hP rfl hex hI hst', ?_⟩
    · rw [rankState_succ s (show R < s.ntot by omega), hst]
      exact hst'
    · rw [rankStep_seo hst']; exact hd

/-- Claim C1. Round trip of the active-space pair sectors: after `BuildBasis`, for every block
`h < nirrep` and every `n` below the block count, the inverse table read at the pair stored
in row `n` of the forward table gives `n`; in the sectors 00 and aa the transposed cell
gives `n` as well. -/
theorem C1_active_round_trip (s : Input) (v : Solver)
    (hrun : BuildBasis (Solver.init s) = some v) (h n : Nat) (hh : h < s.nirrep_) :
    ((n : Int) < v.gems_ab.val [(h : Int)] →
      v.ibas_ab_sym.get [(h : Int), v.bas_ab_sym.val [(h : Int), (n : Int), 0],
        v.bas_ab_sym.val [(h : Int), (n : Int), 1]] = some (n : Int)) ∧
    ((n : Int) < v.gems_00.val [(h : Int)] →
      v.ibas_00_sym.get [(h : Int), v.bas_00_sym.val [(h : Int), (n : Int), 0],
        v.bas_00_sym.val [(h : Int), (n : Int), 1]] = some (n : Int) ∧
      v.ibas_00_sym.get [(h : Int), v.bas_00_sym.val [(h : Int), (n : Int), 1],
        v.bas_00_sym.val [(h : Int), (n : Int), 0]] = some (n : Int)) ∧
    ((n : Int) < v.gems_aa.val [(h : Int)] →
      v.ibas_aa_sym.get [(h : Int), v.bas_aa_sym.val [(h : Int), (n : Int), 0],
        v.bas_aa_sym.val [(h : Int), (n : Int), 1]] = some (n : Int) ∧
      v.ibas_aa_sym.get [(h : Int), v.bas_aa_sym.val [(h : Int), (n : Int), 1],
        v.bas_aa_sym.val [(h : Int), (n : Int), 0]] = some (n : Int)) := by
  have hr := BuildBasis_run hrun
  have hA := hr.active
  have hnd := nodup_gemsSpec s v.labels.symmetry h
  refine ⟨fun hn => ?_, fun hn => ?_, fun hn => ?_⟩
  · obtain ⟨a, ha⟩ := getElem?_of_lt_length (hA.gab h hh) hn
    have hb := hA.ab.done h hh
    obtain ⟨e0, e1⟩ := hb.row_pair ha
    show v.pairs.ab.ibas.get [_, v.pairs.ab.bas.val _, v.pairs.ab.bas.val _] = _
    rw [e0, e1]
    exact hb.get_of_disjoint hnd (fun a b ix _ _ => cellsAB_disjoint h a b ix) ha
      (by simp [cellsAB])
  · obtain ⟨a, ha⟩ := getElem?_of_lt_length (hA.g00 h hh) hn
    have hb := hA.s00.done h hh
    obtain ⟨e0, e1⟩ := hb.row_pair ha
    have hdis : ∀ a b ix, a ∈ (gemsSpec s v.labels.symmetry h).filter keep00 →
        b ∈ (gemsSpec s v.labels.symmetry h).filter keep00 →
        ix ∈ cellsSym h a → ix ∈ cellsSym h b → a = b :=
      fun a b ix ha hb => cellsSym_disjoint h a b ix (List.mem_filter.1 ha).2
        (List.mem_filter.1 hb).2
    show v.pairs.s00.ibas.get [_, v.pairs.s00.bas.val _, v.pairs.s00.bas.val _] = _ ∧
      v.pairs.s00.ibas.get [_, v.pairs.s00.bas.val _, v.pairs.s00.bas.val _] = _
    rw [e0, e1]
    exact ⟨hb.get_of_disjoint (hnd.filter _) hdis ha (by simp [cellsSym]),
      hb.get_of_disjoint (hnd.filter _) hdis ha (by simp [cellsSym])⟩
  · obtain ⟨a, ha⟩ := getElem?_of_lt_length (hA.gaa h hh) hn
    have hb := hA.aa.done h hh
    obtain ⟨e0, e1⟩ := hb.row_pair ha
    have hdis : ∀ a b ix, a ∈ (gemsSpec s v.labels.symmetry h).filter keepAA →
        b ∈ (gemsSpec s v.labels.symmetry h).filter keepAA →
        ix ∈ cellsSym h a → ix ∈ cellsSym h b → a = b :=
      fun a b ix ha hb => cellsSym_disjoint h a b ix
        (keepAA_keep00 a (List.mem_filter.1 ha).2) (keepAA_keep00 b (List.mem_filter.1 hb).2)
    show v.pairs.aa.ibas.get [_, v.pairs.aa.bas.val _, v.pairs.aa.bas.val _] = _ ∧
      v.pairs.aa.ibas.get [_, v.pairs.aa.bas.val _, v.pairs.aa.bas.val _] = _
    rw [e0, e1]
    exact ⟨hb.get_of_disjoint (hnd.filter _) hdis ha (by simp [cellsSym]),
      hb.get_of_disjoint (hnd.filter _) hdis ha (by simp [cellsSym])⟩

/-- Claim C2. The inverse tables of the active-space pair sectors after `BuildBasis`: for
`h < nirrep` and `i, j < nmo`, with `p = SymmetryPair(symmetry[i], symmetry[j])`, the cell
`[h][i][j]` of `ibas_ab_sym` and of `ibas_00_sym` is -999 exactly when `p ≠ h`, the cell of
`ibas_aa_sym` is -999 exactly when `p ≠ h` or `i = j`; a cell that is not -999 holds an
index `n` with `0 ≤ n < gems_X[h]` whose forward row is `(i, j)` in sector ab and
`(max i j, min i j)` in the sectors 00 and aa. -/
theorem C2_inverse_tables (s : Input) (v : Solver)
    (hrun : BuildBasis (Solver.init s) = some v) (h i j : Nat) (hh : h < s.nirrep_)
    (hi : i < s.nmo) (hj : j < s.nmo) :
    ∃ p nab n00 naa : Int,
      pairLabel v.symmetry i j = some p ∧
      v.ibas_ab_sym.get [(h : Int), (i : Int), (j : Int)] = some nab ∧
      v.ibas_00_sym.get [(h : Int), (i : Int), (j : Int)] = some n00 ∧
      v.ibas_aa_sym.get [(h : Int), (i : Int), (j : Int)] = some naa ∧
      (nab = -999 ↔ p ≠ (h : Int)) ∧
      (n00 = -999 ↔ p ≠ (h : Int)) ∧
      (naa = -999 ↔ (p ≠ (h : Int) ∨ i = j)) ∧
      (nab ≠ -999 → 0 ≤ nab ∧ nab < v.gems_ab.val [(h : Int)] ∧
        v.bas_ab_sym.val [(h : Int), nab, 0] = (i : Int) ∧
        v.bas_ab_sym.val [(h : Int), nab, 1] = (j : Int)) ∧
      (n00 ≠ -999 → 0 ≤ n00 ∧ n00 < v.gems_00.val [(h : Int)] ∧
        v.bas_00_sym.val [(h : Int), n00, 0] = ((max i j : Nat) : Int) ∧
        v.bas_00_sym.val [(h : Int), n00, 1] = ((min i j : Nat) : Int)) ∧
      (naa ≠ -999 → 0 ≤ naa ∧ naa < v.gems_aa.val [(h : Int)] ∧
        v.bas_aa_sym.val [(h : Int), naa, 0] = ((max i j : Nat) : Int) ∧
        v.bas_aa_sym.val [(h : Int), naa, 1] = ((min i j : Nat) : Int)) := by
  have hr := BuildBasis_run hrun
  have hA := hr.active
  have hnd := nodup_gemsSpec s v.labels.symmetry h
  obtain ⟨p, hp⟩ := Option.isSome_iff_exists.1 (hr.pairLabel_isSome hh hi hj)
  have hbab := hA.ab.done h hh
  have hb00 := hA.s00.done h hh
  have hbaa := hA.aa.done h hh
  have iab : inBounds [(h : Int), (i : Int), (j : Int)] v.pairs.ab.ibas.dims = true := by
    rw [hA.dab.1]; exact inBounds_cell hh hi hj
  have i00 : inBounds [(h : Int), (i : Int), (j : Int)] v.pairs.s00.ibas.dims = true := by
    rw [hA.d00.1]; exact inBounds_cell hh hi hj
  have iaa : inBounds [(h : Int), (i : Int), (j : Int)] v.pairs.aa.ibas.dims = true := by
    rw [hA.daa.1]; exact inBounds_cell hh hi hj
  refine ⟨p, v.pairs.ab.ibas.val [(h : Int), (i : Int), (j : Int)],
    v.pairs.s00.ibas.val [(h : Int), (i : Int), (j : Int)],
    v.pairs.aa.ibas.val [(h : Int), (i : Int), (j : Int)], hp, Tab.get_of_inb iab,
    Tab.get_of_inb i00, Tab.get_of_inb iaa, ?_⟩
  simp only [Solver.bas_ab_sym, Solver.bas_00_sym, Solver.bas_aa_sym, Solver.gems_ab,
    Solver.gems_00, Solver.gems_aa]
  rw [hA.gab h hh, hA.g00 h hh, hA.gaa h hh]
  have hmij := hr.mem_gems (h := h) hh hi hj
  have hmji := hr.mem_gems (h := h) hh hj hi
  have hcomm := hr.pairLabel_comm hh hi hj
  by_cases hph : p = (h : Int)
  · subst hph
    have mij : ((i : Int), (j : Int)) ∈ gemsSpec s v.labels.symmetry h := hmij.2 hp
    have mji : ((j : Int), (i : Int)) ∈ gemsSpec s v.labels.symmetry h :=
      hmji.2 (by rw [← hcomm]; exact hp)
    have mmax : (((max i j : Nat) : Int), ((min i j : Nat) : Int)) ∈
        gemsSpec s v.labels.symmetry h := by
      rcases Nat.le_total i j with hij | hij
      · rw [Nat.max_eq_right hij, Nat.min_eq_left hij]; exact mji
      · rw [Nat.max_eq_left hij, Nat.min_eq_right hij]; exact mij
    obtain ⟨m, hm, em, b0, b1⟩ := hbab.ab_cell hnd i j mij
    obtain ⟨m0, hm0, em0, c0, c1⟩ := hb00.sym_cell (hnd.filter _)
      (fun a ha => (List.mem_filter.1 ha).2) i j
      (List.mem_filter.2 ⟨mmax, by simp only [keep00, decide_eq_true_eq]; omega⟩)
    rw [em, em0]
    refine ⟨by constructor <;> intro <;> omega, by constructor <;> intro <;> omega, ?_,
      fun _ => ⟨by omega, by omega, b0, b1⟩, fun _ => ⟨by omega, by omega, c0, c1⟩, ?_⟩
    · by_cases hij : i = j
      · subst hij
        have : v.pairs.aa.ibas.val [(h : Int), (i : Int), (i : Int)] = -999 := by
          refine hbaa.sym_free i i ?_ ?_ <;>
          · intro hmem
            have := (List.mem_filter.1 hmem).2
            simp [keepAA] at this
        rw [this]
        simp
      · obtain ⟨ma, hma, ema, _, _⟩ := hbaa.sym_cell (hnd.filter _)
          (fun a ha => keepAA_keep00 a (List.mem_filter.1 ha).2) i j
          (List.mem_filter.2 ⟨mmax, by simp only [keepAA, decide_eq_true_eq]; omega⟩)
        rw [ema]
        constructor
        · intro; omega
        · rintro (hc | hc)
          · exact absurd rfl hc
          · exact absurd hc hij
    · intro hne
      by_cases hij : i = j
      · subst hij
        exfalso
        refine hne (hbaa.sym_free i i ?_ ?_) <;>
        · intro hmem
          have := (List.mem_filter.1 hmem).2
          simp [keepAA] at this
      · obtain ⟨ma, hma, ema, d0, d1⟩ := hbaa.sym_cell (hnd.filter _)
          (fun a ha => keepAA_keep00 a (List.mem_filter.1 ha).2) i j
          (List.mem_filter.2 ⟨mmax, by simp only [keepAA, decide_eq_true_eq]; omega⟩)
        rw [ema]
        exact ⟨by omega, by omega, d0, d1⟩
  · have nij : ((i : Int), (j : Int)) ∉ gemsSpec s v.labels.symmetry h := by
      intro hm
      have := hmij.1 hm
      rw [hp] at this
      exact hph (Option.some.inj this)
    have nji : ((j : Int), (i : Int)) ∉ gemsSpec s v.labels.symmetry h := by
      intro hm
      have := hmji.1 hm
      rw [← hcomm, hp] at this
      exact hph (Option.some.inj this)
    have e1 := hbab.ab_free i j nij
    have e2 := hb00.sym_free i j (fun hm => nij (List.mem_filter.1 hm).1)
      (fun hm => nji (List.mem_filter.1 hm).1)
    have e3 := hbaa.sym_free i j (fun hm => nij (List.mem_filter.1 hm).1)
      (fun hm => nji (List.mem_filter.1 hm).1)
    rw [e1, e2, e3]
    simp [hph]

/-- Claim C10. Per-block count of ordered pairs: for consistent counts and every `h < nirrep`,
`gems_ab[h]` is the number of ordered active pairs `(i, j)` whose product label is `h`, and
this number is the sum over the irreps `g < nirrep` of `amopi[g] * amopi[g XOR h]`, a label
`g XOR h` that is not below `nirrep` counting for 0. -/
theorem C10_block_pair_count (s : Input) (v : Solver)
    (hrun : BuildBasis (Solver.init s) = some v) (hc : Consistent s) (h : Nat)
    (hh : h < s.nirrep_) :
    v.gems_ab.val [(h : Int)] =
        (((Finset.range s.nmo ×ˢ Finset.range s.nmo).filter fun q : Nat × Nat =>
          pairLabel v.symmetry q.1 q.2 = some (h : Int)).card : Int) ∧
      v.gems_ab.val [(h : Int)] =
        ((Finset.sum (Finset.range s.nirrep_) fun g =>
          s.amopi_ g * (if g ^^^ h < s.nirrep_ then s.amopi_ (g ^^^ h) else 0) : Nat) : Int) := by
  have hr := BuildBasis_run hrun
  have hA := hr.active
  have hlen := hr.length_gems hh
  constructor
  · show v.pairs.gems_ab.val _ = _
    rw [hA.gab h hh,
      card_filter_product s.nmo (fun i j => pairLabel v.symmetry i j = some (h : Int))]
    congr 1
    unfold gemsSpec
    rw [length_pairSpec]
    rfl
  · show v.pairs.gems_ab.val _ = _
    rw [hA.gab h hh, hlen]
    congr 1
    have hmaps : ∀ i ∈ Finset.range s.nmo,
        labOf v.labels.symmetry i ∈ Finset.range s.nirrep_ := by
      intro i hi
      exact Finset.mem_range.2 (hr.get_lab hh (Finset.mem_range.1 hi)).2.2
    rw [← Finset.sum_fiberwise_of_maps_to hmaps]
    refine Finset.sum_congr rfl (fun g hg => ?_)
    have hg' := Finset.mem_range.1 hg
    rw [Finset.sum_const_nat (m := ((Finset.range s.nmo).filter fun j =>
      labOf v.labels.symmetry j = g ^^^ h).card), hr.card_label hc hg']
    · congr 1
      by_cases hx : g ^^^ h < s.nirrep_
      · rw [if_pos hx, hr.card_label hc hx]
      · rw [if_neg hx, Finset.card_eq_zero, Finset.filter_eq_empty_iff]
        intro j hj e
        have := (hr.get_lab hh (Finset.mem_range.1 hj)).2.2
        omega
    · intro i hi
      rw [(Finset.mem_filter.1 hi).2]

/-- Claim C9, amended. Block-count totals: when `nirrep` is 1, 2, 4 or 8 and the counts are
consistent, the block counts of the three active sectors add up, over the blocks, to
`nmo*nmo`, `nmo*(nmo+1)/2` and `nmo*(nmo-1)/2`. -/
theorem C9_block_count_totals (s : Input) (v : Solver)
    (hrun : BuildBasis (Solver.init s) = some v) (hp : PowTwo s.nirrep_)
    (_hc : Consistent s) :
    (Finset.sum (Finset.range s.nirrep_) fun h => v.gems_ab.val [(h : Int)]) =
        ((s.nmo * s.nmo : Nat) : Int) ∧
      (Finset.sum (Finset.range s.nirrep_) fun h => v.gems_00.val [(h : Int)]) =
        ((s.nmo * (s.nmo + 1) / 2 : Nat) : Int) ∧
      (Finset.sum (Finset.range s.nirrep_) fun h => v.gems_aa.val [(h : Int)]) =
        ((s.nmo * (s.nmo - 1) / 2 : Nat) : Int) := by
  have hr := BuildBasis_run hrun
  have hA := hr.active
  have hclosed : ∀ i j, i < s.nmo → j < s.nmo →
      labOf v.labels.symmetry i ^^^ labOf v.labels.symmetry j < s.nirrep_ :=
    fun i j hi hj => hp.xor_lt (hr.get_lab hp.pos hi).2.2 (hr.get_lab hp.pos hj).2.2
  simp only [Solver.gems_ab, Solver.gems_00, Solver.gems_aa]
  refine ⟨?_, ?_, ?_⟩
  · rw [Finset.sum_congr rfl (fun h hh => hA.gab h (Finset.mem_range.1 hh)), ← Nat.cast_sum]
    congr 1
    have := hr.sum_length_filter hclosed (fun _ => true)
    simp only [List.filter_true, Finset.filter_True, Finset.card_range, Finset.sum_const,
      smul_eq_mul] at this
    exact this
  · rw [Finset.sum_congr rfl (fun h hh => hA.g00 h (Finset.mem_range.1 hh)), ← Nat.cast_sum]
    congr 1
    rw [hr.sum_length_filter hclosed keep00, ← sum_upper_triangle]
    refine Finset.sum_congr rfl (fun i _ => ?_)
    rw [← card_filter_le_range]
    congr 1
    refine Finset.filter_congr (fun j _ => ?_)
    simp [keep00, mkJI]
  · rw [Finset.sum_congr rfl (fun h hh => hA.gaa h (Finset.mem_range.1 hh)), ← Nat.cast_sum]
    congr 1
    rw [hr.sum_length_filter hclosed keepAA, ← sum_strict_triangle]
    refine Finset.sum_congr rfl (fun i _ => ?_)
    rw [← card_filter_lt_range]
    congr 1
    refine Finset.filter_congr (fun j _ => ?_)
    simp [keepAA, mkJI]

/-- Claim C4. Round trip of the triplet sectors: when one of the three flags is set, after
`BuildBasis`, for every block `h < nirrep` and every `n` below the block count of a sector,
the inverse table read at the triple stored in row `n` of the forward table gives `n`;
and every ordered triple `(i, j, k)` of block `h` has an aba index of its own, namely the
row of `bas_aba_sym` that stores it. -/
theorem C4_triplet_round_trip (s : Input) (v : Solver)
    (hrun : BuildBasis (Solver.init s) = some v)
    (hflag : s.constrain_t1 = true ∨ s.constrain_t2 = true ∨ s.constrain_d3 = true)
    (h n : Nat) (hh : h < s.nirrep_) :
    ((n : Int) < v.trip_aba.val [(h : Int)] →
      v.ibas_aba_sym.get [(h : Int), v.bas_aba_sym.val [(h : Int), (n : Int), 0],
        v.bas_aba_sym.val [(h : Int), (n : Int), 1],
        v.bas_aba_sym.val [(h : Int), (n : Int), 2]] = some (n : Int)) ∧
    ((n : Int) < v.trip_aab.val [(h : Int)] →
      v.ibas_aab_sym.get [(h : Int), v.bas_aab_sym.val [(h : Int), (n : Int), 0],
        v.bas_aab_sym.val [(h : Int), (n : Int), 1],
        v.bas_aab_sym.val [(h : Int), (n : Int), 2]] = some (n : Int)) ∧
    ((n : Int) < v.trip_aaa.val [(h : Int)] →
      v.ibas_aaa_sym.get [(h : Int), v.bas_aaa_sym.val [(h : Int), (n : Int), 0],
        v.bas_aaa_sym.val [(h : Int), (n : Int), 1],
        v.bas_aaa_sym.val [(h : Int), (n : Int), 2]] = some (n : Int)) ∧
    (∀ i j k : Nat, i < s.nmo → j < s.nmo → k < s.nmo →
      tripLabel v.symmetry i j k = some (h : Int) →
      ∃ m : Nat, (m : Int) < v.trip_aba.val [(h : Int)] ∧
        v.ibas_aba_sym.get [(h : Int), (i : Int), (j : Int), (k : Int)] = some (m : Int) ∧
        v.bas_aba_sym.val [(h : Int), (m : Int), 0] = (i : Int) ∧
        v.bas_aba_sym.val [(h : Int), (m : Int), 1] = (j : Int) ∧
        v.bas_aba_sym.val [(h : Int), (m : Int), 2] = (k : Int)) := by
  have hr := BuildBasis_run hrun
  have hT := hr.tripBlocks hflag
  have hnd := nodup_tripSpec v.labels.symmetry s.nmo h
  simp only [Solver.trip_aba, Solver.trip_aab, Solver.trip_aaa, Solver.ibas_aba_sym,
    Solver.ibas_aab_sym, Solver.ibas_aaa_sym, Solver.bas_aba_sym, Solver.bas_aab_sym,
    Solver.bas_aaa_sym, Solver.symmetry]
  refine ⟨fun hn => ?_, fun hn => ?_, fun hn => ?_, fun i j k hi hj hk hl => ?_⟩
  · obtain ⟨a, ha⟩ := getElem?_of_lt_length (hT.taba h hh) hn
    have hb := hT.aba.done h hh
    obtain ⟨e0, e1, e2⟩ := hb.row_trip ha
    rw [e0, e1, e2]
    exact hb.get_of_disjoint hnd (fun a b ix _ _ => cellsABA_disjoint h a b ix) ha
      (by simp [cellsABA])
  · obtain ⟨a, ha⟩ := getElem?_of_lt_length (hT.taab h hh) hn
    have hb := hT.aab.done h hh
    obtain ⟨e0, e1, e2⟩ := hb.row_trip ha
    rw [e0, e1, e2]
    exact hb.get_of_disjoint (hnd.filter _)
      (fun a b ix ha hb => cellsAAB_disjoint h a b ix (List.mem_filter.1 ha).2
        (List.mem_filter.1 hb).2) ha (by simp [cellsAAB])
  · obtain ⟨a, ha⟩ := getElem?_of_lt_length (hT.taaa h hh) hn
    have hb := hT.aaa.done h hh
    obtain ⟨e0, e1, e2⟩ := hb.row_trip ha
    rw [e0, e1, e2]
    exact hb.get_of_disjoint (hnd.filter _)
      (fun a b ix ha hb => cellsAAA_disjoint h a b ix (List.mem_filter.1 ha).2
        (List.mem_filter.1 hb).2) ha (by simp [cellsAAA])
  · have hmem : mkTriple i j k ∈ tripSpec v.labels.symmetry s.nmo h :=
      mem_tripSpec.2 ⟨i, j, k, hi, hj, hk, hl, rfl⟩
    obtain ⟨m, hm⟩ := List.mem_iff_getElem?.1 hmem
    obtain ⟨hlt, _⟩ := List.getElem?_eq_some.1 hm
    have hb := hT.aba.done h hh
    obtain ⟨e0, e1, e2⟩ := hb.row_trip hm
    refine ⟨m, by rw [hT.taba h hh]; exact_mod_cast hlt, ?_, e0, e1, e2⟩
    exact hb.get_of_disjoint hnd (fun a b ix _ _ => cellsABA_disjoint h a b ix) hm
      (by simp [cellsABA, mkTriple])

/-- Claim C5, amended. With `nirrep ≤ 8`, consistent counts and every orbital energy below
`1.0e99`, after `BuildBasis` the maps `energy_to_pitzer_order` and `pitzer_to_energy_order`
are inverse permutations of `[0, nmo+nfrzc+nfrzv)`. -/
theorem C5_order_maps_inverse (s : Input) (v : Solver)
    (hrun : BuildBasis (Solver.init s) = some v) (_hn : s.nirrep_ ≤ 8) (hc : Consistent s)
    (hE : EnergiesBelow s) :
    (∀ r, r < s.ntot → ∃ p : Nat, p < s.ntot ∧
      v.energy_to_pitzer_order.get [(r : Int)] = some (p : Int) ∧
      v.pitzer_to_energy_order.get [(p : Int)] = some (r : Int)) ∧
    (∀ p, p < s.ntot → ∃ r : Nat, r < s.ntot ∧
      v.pitzer_to_energy_order.get [(p : Int)] = some (r : Int) ∧
      v.energy_to_pitzer_order.get [(r : Int)] = some (p : Int)) := by
  have hr := BuildBasis_run hrun
  have hI := hr.rankInv hc hE
  simp only [Solver.energy_to_pitzer_order, Solver.pitzer_to_energy_order]
  constructor
  · intro r hr'
    obtain ⟨h, j, hin, e1, e2, _⟩ := hI.chosen r hr'
    have hp := pz_lt_ntot hc hin.hh (hin.valid (poolOfRank_ok s hc r))
    exact ⟨pz s h j, hp,
      Tab.get_eq_some.2 ⟨by rw [hI.de2p]; exact inBounds_single hr', e1⟩,
      Tab.get_eq_some.2 ⟨by rw [hI.dp2e]; exact inBounds_single hp, e2⟩⟩
  · intro p hp
    obtain ⟨h, j, hh, hj, rfl⟩ := pz_decompose hc hp
    obtain ⟨r, hr', e1, e2, _⟩ := hI.rank_of hc hh hj
    exact ⟨r, hr',
      Tab.get_eq_some.2 ⟨by rw [hI.dp2e]; exact inBounds_single hp, e2⟩,
      Tab.get_eq_some.2 ⟨by rw [hI.de2p]; exact inBounds_single hr', e1⟩⟩

/-- Claim C6. Energy ranks ascend within each pool: with consistent counts and every orbital
energy below `1.0e99`, for two ranks `r < r'` of the same pool's rank range, the orbital
`energy_to_pitzer_order[r]` is position `j` of an irrep `h`, the orbital
`energy_to_pitzer_order[r']` is position `j'` of an irrep `h'`, and the energy of the first
is at most the energy of the second. -/
theorem C6_ranks_ascend (s : Input) (v : Solver)
    (hrun : BuildBasis (Solver.init s) = some v) (hc : Consistent s) (hE : EnergiesBelow s)
    (r r' : Nat) (hrr : r < r') (hr' : r' < s.ntot)
    (hpool : r' < s.nfrzc ∨ (s.nfrzc ≤ r ∧ r' < s.nfrzc + s.nmo) ∨ s.nfrzc + s.nmo ≤ r) :
    ∃ h j h' j', h < s.nirrep_ ∧ j < s.nmopi_ h ∧ h' < s.nirrep_ ∧ j' < s.nmopi_ h' ∧
      v.energy_to_pitzer_order.get [(r : Int)] = some (pz s h j : Int) ∧
      v.energy_to_pitzer_order.get [(r' : Int)] = some (pz s h' j' : Int) ∧
      s.epsilon_a_ h j ≤ s.epsilon_a_ h' j' := by
  have hr := BuildBasis_run hrun
  have hI := hr.rankInv hc hE
  simp only [Solver.energy_to_pitzer_order]
  obtain ⟨h, j, hin, e1, _, _⟩ := hI.chosen r (by omega)
  obtain ⟨h', j', hin', e1', _, _⟩ := hI.chosen r' hr'
  have hj := hin.valid (poolOfRank_ok s hc r)
  have hj' := hin'.valid (poolOfRank_ok s hc r')
  refine ⟨h, j, h', j', hin.hh, hj, hin'.hh, hj',
    Tab.get_eq_some.2 ⟨by rw [hI.de2p]; exact inBounds_single (by omega), e1⟩,
    Tab.get_eq_some.2 ⟨by rw [hI.de2p]; exact inBounds_single hr', e1'⟩, ?_⟩
  rcases hI.sorted r r' h j h' j' hrr hr' (poolIdx_eq_of_range hrr hpool) hin.hh hj hin'.hh hj'
    e1 e1' with hl | ⟨hl, _⟩
  · exact le_of_lt hl
  · exact le_of_eq hl

/-- Claim C7. Scan-order tie-break: with consistent counts and every orbital energy below
`1.0e99`, of two orbitals of one pool that have equal energy the one with the lower full
Pitzer index - the one the scan meets first - has the smaller energy rank. -/
theorem C7_tie_break (s : Input) (v : Solver)
    (hrun : BuildBasis (Solver.init s) = some v) (hc : Consistent s) (hE : EnergiesBelow s)
    (P : Pool) (hP : P = corePool s ∨ P = activePool s ∨ P = virtualPool s)
    (h j h' j' : Nat) (hin : InPool s P h j) (hin' : InPool s P h' j')
    (hlt : pz s h j < pz s h' j') (heq : s.epsilon_a_ h j = s.epsilon_a_ h' j') :
    ∃ r r' : Nat, v.pitzer_to_energy_order.get [(pz s h j : Int)] = some (r : Int) ∧
      v.pitzer_to_energy_order.get [(pz s h' j' : Int)] = some (r' : Int) ∧ r < r' := by
  have hr := BuildBasis_run hrun
  have hI := hr.rankInv hc hE
  simp only [Solver.pitzer_to_energy_order]
  have hPok : PoolOK s P := by
    rcases hP with rfl | rfl | rfl
    · exact corePool_ok s hc
    · exact activePool_ok s hc
    · exact virtualPool_ok s hc
  have hj := hin.valid hPok
  have hj' := hin'.valid hPok
  obtain ⟨r, hr1, e1, p1, q1⟩ := hI.rank_of hc hin.hh hj
  obtain ⟨r', hr1', e1', p1', q1'⟩ := hI.rank_of hc hin'.hh hj'
  have ib : inBounds [(pz s h j : Int)] v.order.pitzer_to_energy_order.dims = true := by
    rw [hI.dp2e]; exact inBounds_single (pz_lt_ntot hc hin.hh hj)
  have ib' : inBounds [(pz s h' j' : Int)] v.order.pitzer_to_energy_order.dims = true := by
    rw [hI.dp2e]; exact inBounds_single (pz_lt_ntot hc hin'.hh hj')
  refine ⟨r, r', Tab.get_eq_some.2 ⟨ib, p1⟩, Tab.get_eq_some.2 ⟨ib', p1'⟩, ?_⟩
  have hidx : poolIdx s r' = poolIdx s r := by
    have a1 := hin.lo
    have a2 := hin.hi
    have hs := hc.split h hin.hh
    rcases poolIdx_of_mem hP hin q1 with ⟨x, e⟩ | ⟨x, e⟩ | ⟨x, e⟩ <;>
      rcases poolIdx_of_mem hP hin' q1' with ⟨y, e'⟩ | ⟨y, e'⟩ | ⟨y, e'⟩ <;>
      first
        | (rw [e, e']; done)
        | (exfalso; rw [x] at a1 a2; rw [y] at x
           have z1 := congrArg (fun Q : Pool => Q.lo h) x
           have z2 := congrArg (fun Q : Pool => Q.cnt h) x
           simp only [corePool, activePool, virtualPool] at z1 z2 a1 a2
           omega)
  rcases Nat.lt_trichotomy r r' with c | c | c
  · exact c
  · exfalso
    subst c
    rw [e1] at e1'
    have : pz s h j = pz s h' j' := by exact_mod_cast e1'
    omega
  · exfalso
    rcases hI.sorted r' r h' j' h j c hr1 hidx hin'.hh hj' hin.hh hj e1' e1 with hl | ⟨_, hl⟩
    · rw [heq] at hl; exact lt_irrefl _ hl
    · omega

/-- Claim C8. Rank ranges are core, then active, then virtual: with consistent counts and every
orbital energy below `1.0e99`, the orbital `energy_to_pitzer_order[r]` is
`pitzer_offset_full[h] + j` for the irrep `h` that `symmetry_full` gives it, and it is a
frozen-core position exactly when `r < nfrzc`, an active position exactly when
`nfrzc ≤ r < nfrzc + nmo`, and a frozen-virtual position exactly when `nfrzc + nmo ≤ r`. -/
theorem C8_rank_ranges (s : Input) (v : Solver)
    (hrun : BuildBasis (Solver.init s) = some v) (hc : Consistent s) (hE : EnergiesBelow s)
    (r : Nat) (hr : r < s.ntot) :
    ∃ (h j : Nat) (off : Int), h < s.nirrep_ ∧ j < s.nmopi_ h ∧
      v.pitzer_offset_full.get [(h : Int)] = some off ∧
      v.energy_to_pitzer_order.get [(r : Int)] = some (off + j) ∧
      v.symmetry_full.get [off + j] = some (h : Int) ∧
      (j < s.frzcpi_ h ↔ r < s.nfrzc) ∧
      (s.frzcpi_ h ≤ j ∧ j < s.frzcpi_ h + s.amopi_ h ↔ s.nfrzc ≤ r ∧ r < s.nfrzc + s.nmo) ∧
      (s.frzcpi_ h + s.amopi_ h ≤ j ↔ s.nfrzc + s.nmo ≤ r) := by
  have hrn := BuildBasis_run hrun
  have hI := hrn.rankInv hc hE
  simp only [Solver.energy_to_pitzer_order, Solver.pitzer_offset_full, Solver.symmetry_full]
  obtain ⟨h, j, hin, e1, _, _⟩ := hI.chosen r hr
  have hj := hin.valid (poolOfRank_ok s hc r)
  have hcast : ((offs s.nmopi_ h : Nat) : Int) + (j : Int) = ((pz s h j : Nat) : Int) := by
    unfold pz; push_cast; rfl
  refine ⟨h, j, (offs s.nmopi_ h : Int), hin.hh, hj, hrn.pitzer_offset_full hin.hh, ?_, ?_, ?_⟩
  · rw [hcast]
    exact Tab.get_eq_some.2 ⟨by rw [hI.de2p]; exact inBounds_single hr, e1⟩
  · rw [hcast]
    exact hrn.symmetry_full_get hin.hh hj
  · have a1 := hin.lo
    have a2 := hin.hi
    have hs := hc.split h hin.hh
    unfold poolOfRank at a1 a2
    by_cases c1 : r < s.nfrzc
    · rw [if_pos c1] at a1 a2
      simp only [corePool] at a1 a2
      refine ⟨?_, ?_, ?_⟩ <;> constructor <;> intro <;> omega
    · rw [if_neg c1] at a1 a2
      by_cases c2 : r < s.nfrzc + s.nmo
      · rw [if_pos c2] at a1 a2
        simp only [activePool] at a1 a2
        refine ⟨?_, ?_, ?_⟩ <;> constructor <;> intro <;> omega
      · rw [if_neg c2] at a1 a2
        simp only [virtualPool] at a1 a2
        refine ⟨?_, ?_, ?_⟩ <;> constructor <;> intro <;> omega

/-- Claim C3. Round trip of the full-space sector: with `nirrep` one of 1, 2, 4, 8, consistent
counts and `energy_to_pitzer_order` a permutation of `[0, nmo+nfrzc+nfrzv)`, after
`BuildBasis`, for every block `h < nirrep` and every `n` below `gems_full[h]`, the inverse
table read at the pair stored in row `n`, in either order, gives `n`; the two stored members
are full Pitzer indices and the product label of their `symmetry_full` labels is `h`. -/
theorem C3_full_round_trip (s : Input) (v : Solver)
    (hrun : BuildBasis (Solver.init s) = some v) (_hp : PowTwo s.nirrep_)
    (_hc : Consistent s) (hperm : IsPerm v.energy_to_pitzer_order s.ntot)
    (h n : Nat) (hh : h < s.nirrep_) (hn : (n : Int) < v.gems_full.val [(h : Int)]) :
    v.ibas_full_sym.get [(h : Int), v.bas_full_sym.val [(h : Int), (n : Int), 0],
        v.bas_full_sym.val [(h : Int), (n : Int), 1]] = some (n : Int) ∧
      v.ibas_full_sym.get [(h : Int), v.bas_full_sym.val [(h : Int), (n : Int), 1],
        v.bas_full_sym.val [(h : Int), (n : Int), 0]] = some (n : Int) ∧
      (0 ≤ v.bas_full_sym.val [(h : Int), (n : Int), 0] ∧
        v.bas_full_sym.val [(h : Int), (n : Int), 0] < (s.ntot : Int) ∧
        0 ≤ v.bas_full_sym.val [(h : Int), (n : Int), 1] ∧
        v.bas_full_sym.val [(h : Int), (n : Int), 1] < (s.ntot : Int)) ∧
      ∃ hi hj, v.symmetry_full.get [v.bas_full_sym.val [(h : Int), (n : Int), 0]] = some hi ∧
        v.symmetry_full.get [v.bas_full_sym.val [(h : Int), (n : Int), 1]] = some hj ∧
        SymmetryPair hi hj = some (h : Int) := by
  have hr := BuildBasis_run hrun
  have hI := fullTraversal_spec hperm.2 hr.ft
  simp only [Solver.ibas_full_sym, Solver.bas_full_sym, Solver.gems_full,
    Solver.symmetry_full] at hn ⊢
  obtain ⟨a, b, _, _, r0, r1, r2, r3, hi, hj, g1, g2, g3⟩ := hI.rows h n hh hn
  obtain ⟨c, hF⟩ := hr.symmetry_full_inv
  have b1 := (Tab.get_eq_some.1 g1).1
  have b2 := (Tab.get_eq_some.1 g2).1
  rw [hF.dims, inBounds_one] at b1 b2
  rw [r0, r1]
  have hh' : (0 : Int) ≤ (h : Int) ∧ (h : Int) < (s.nirrep_ : Int) := by omega
  refine ⟨Tab.get_eq_some.2 ⟨?_, r2⟩, Tab.get_eq_some.2 ⟨?_, r3⟩, ⟨b1.1, b1.2, b2.1, b2.2⟩,
    hi, hj, g1, g2, g3⟩
  · rw [hI.dib, inBounds_three]
    exact ⟨hh', b1, b2⟩
  · rw [hI.dib, inBounds_three]
    exact ⟨hh', b2, b1⟩

set_option maxRecDepth 100000 in
/-- Witness of C1 on `exS`: row 3 of the ab sector of block 0 is sent back to 3. -/
theorem C1_witness :
    exS_out.ibas_ab_sym.get [0, exS_out.bas_ab_sym.val [0, 3, 0],
      exS_out.bas_ab_sym.val [0, 3, 1]] = some 3 :=
  (C1_active_round_trip exS exS_out exS_run 0 3 (by decide)).1 (by decide)

/-- Witness of C2 on `exS`: the cells of the pair `(0, 1)` in block 0. -/
theorem C2_witness :
    ∃ p nab n00 naa : Int,
      pairLabel exS_out.symmetry 0 1 = some p ∧
      exS_out.ibas_ab_sym.get [0, 0, 1] = some nab ∧
      exS_out.ibas_00_sym.get [0, 0, 1] = some n00 ∧
      exS_out.ibas_aa_sym.get [0, 0, 1] = some naa ∧
      (nab = -999 ↔ p ≠ 0) ∧ (n00 = -999 ↔ p ≠ 0) ∧
      (naa = -999 ↔ (p ≠ 0 ∨ 0 = 1)) ∧
      (nab ≠ -999 → 0 ≤ nab ∧ nab < exS_out.gems_ab.val [0] ∧
        exS_out.bas_ab_sym.val [0, nab, 0] = 0 ∧ exS_out.bas_ab_sym.val [0, nab, 1] = 1) ∧
      (n00 ≠ -999 → 0 ≤ n00 ∧ n00 < exS_out.gems_00.val [0] ∧
        exS_out.bas_00_sym.val [0, n00, 0] = 1 ∧ exS_out.bas_00_sym.val [0, n00, 1] = 0) ∧
      (naa ≠ -999 → 0 ≤ naa ∧ naa < exS_out.gems_aa.val [0] ∧
        exS_out.bas_aa_sym.val [0, naa, 0] = 1 ∧ exS_out.bas_aa_sym.val [0, naa, 1] = 0) :=
  C2_inverse_tables exS exS_out exS_run 0 0 1 (by decide) (by decide) (by decide)

set_option maxRecDepth 100000 in
/-- Witness of C3 on `exS`: row 2 of the full-space sector of block 0 is sent back to 2 in
both orders. -/
theorem C3_witness :
    exS_out.ibas_full_sym.get [0, exS_out.bas_full_sym.val [0, 2, 0],
        exS_out.bas_full_sym.val [0, 2, 1]] = some 2 ∧
      exS_out.ibas_full_sym.get [0, exS_out.bas_full_sym.val [0, 2, 1],
        exS_out.bas_full_sym.val [0, 2, 0]] = some 2 :=
  let h := C3_full_round_trip exS exS_out exS_run (Or.inl rfl) exS_consistent exS_perm 0 2
    (by decide) (by decide)
  ⟨h.1, h.2.1⟩

set_option maxRecDepth 100000 in
/-- Witness of C4 on `exS`: row 5 of the aba sector of block 0 is sent back to 5. -/
theorem C4_witness :
    exS_out.ibas_aba_sym.get [0, exS_out.bas_aba_sym.val [0, 5, 0],
      exS_out.bas_aba_sym.val [0, 5, 1], exS_out.bas_aba_sym.val [0, 5, 2]] = some 5 :=
  (C4_triplet_round_trip exS exS_out exS_run (Or.inl rfl) 0 5 (by decide)).1 (by decide)

/-- Witness of C5 (amended) on `exB`: rank 1 is sent to a Pitzer index that is sent back to
rank 1. -/
theorem C5_witness :
    ∃ p : Nat, p < exB.ntot ∧
      exB_out.energy_to_pitzer_order.get [((1 : Nat) : Int)] = some (p : Int) ∧
      exB_out.pitzer_to_energy_order.get [(p : Int)] = some ((1 : Nat) : Int) :=
  (C5_order_maps_inverse exB exB_out exB_run (by decide) exB_consistent exB_below).1 1
    (by decide)

set_option maxRecDepth 100000 in
/-- Counterexample to C5 as stated: on `ex5` (one irrep, two active orbitals, energies `0` and
`1.0e99`) the counts are consistent and the run completes, but
`pitzer_to_energy_order[energy_to_pitzer_order[0]]` is not `0`. -/
theorem C5_counterexample :
    ex5.nirrep_ ≤ 8 ∧ Consistent ex5 ∧ BuildBasis (Solver.init ex5) = some ex5_out ∧
      ex5_out.pitzer_to_energy_order.val [ex5_out.energy_to_pitzer_order.val [0]] ≠ 0 :=
  ⟨by decide, ex5_consistent, ex5_run, by decide⟩

/-- Witness of C6 on `exB`: the active ranks 1 and 2 hold orbitals of ascending energy. -/
theorem C6_witness :
    ∃ h j h' j', h < exB.nirrep_ ∧ j < exB.nmopi_ h ∧ h' < exB.nirrep_ ∧ j' < exB.nmopi_ h' ∧
      exB_out.energy_to_pitzer_order.get [1] = some (pz exB h j : Int) ∧
      exB_out.energy_to_pitzer_order.get [2] = some (pz exB h' j' : Int) ∧
      exB.epsilon_a_ h j ≤ exB.epsilon_a_ h' j' :=
  C6_ranks_ascend exB exB_out exB_run exB_consistent exB_below 1 2 (by decide) (by decide)
    (Or.inr (Or.inl ⟨by decide, by decide⟩))

/-- Witness of C7 on `exB`: the active orbitals `(0,1)` and `(1,0)` have the same energy and
the one of irrep 0 gets the smaller rank. -/
theorem C7_witness :
    ∃ r r' : Nat, exB_out.pitzer_to_energy_order.get [(pz exB 0 1 : Int)] = some (r : Int) ∧
      exB_out.pitzer_to_energy_order.get [(pz exB 1 0 : Int)] = some (r' : Int) ∧ r < r' :=
  C7_tie_break exB exB_out exB_run exB_consistent exB_below (activePool exB)
    (Or.inr (Or.inl rfl)) 0 1 1 0 ⟨by decide, by decide, by decide⟩
    ⟨by decide, by decide, by decide⟩ (by decide) (by decide)

/-- Witness of C8 on `exB`: rank 4 holds a frozen-virtual orbital. -/
theorem C8_witness :
    ∃ (h j : Nat) (off : Int), h < exB.nirrep_ ∧ j < exB.nmopi_ h ∧
      exB_out.pitzer_offset_full.get [(h : Int)] = some off ∧
      exB_out.energy_to_pitzer_order.get [4] = some (off + j) ∧
      exB_out.symmetry_full.get [off + j] = some (h : Int) ∧
      (j < exB.frzcpi_ h ↔ 4 < exB.nfrzc) ∧
      (exB.frzcpi_ h ≤ j ∧ j < exB.frzcpi_ h + exB.amopi_ h ↔
        exB.nfrzc ≤ 4 ∧ 4 < exB.nfrzc + exB.nmo) ∧
      (exB.frzcpi_ h + exB.amopi_ h ≤ j ↔ exB.nfrzc + exB.nmo ≤ 4) :=
  C8_rank_ranges exB exB_out exB_run exB_consistent exB_below 4 (by decide)

/-- Witness of C9 (amended) on `exS`: the three totals for one irrep. -/
theorem C9_witness :
    (Finset.sum (Finset.range exS.nirrep_) fun h => exS_out.gems_ab.val [(h : Int)]) =
        ((exS.nmo * exS.nmo : Nat) : Int) ∧
      (Finset.sum (Finset.range exS.nirrep_) fun h => exS_out.gems_00.val [(h : Int)]) =
        ((exS.nmo * (exS.nmo + 1) / 2 : Nat) : Int) ∧
      (Finset.sum (Finset.range exS.nirrep_) fun h => exS_out.gems_aa.val [(h : Int)]) =
        ((exS.nmo * (exS.nmo - 1) / 2 : Nat) : Int) :=
  C9_block_count_totals exS exS_out exS_run (Or.inl rfl) exS_consistent

set_option maxRecDepth 100000 in
/-- Counterexample to C9 as stated: on `ex9` (three irreps, one active orbital in each) the
counts are consistent, `nirrep ≤ 8` and the run completes, but the `gems_ab` counts sum to 7,
not to `nmo * nmo = 9`: the pairs of irreps 1 and 2 have product 3, which is no block. -/
theorem C9_counterexample :
    ex9.nirrep_ ≤ 8 ∧ Consistent ex9 ∧ BuildBasis (Solver.init ex9) = some ex9_out ∧
      (Finset.sum (Finset.range ex9.nirrep_) fun h => ex9_out.gems_ab.val [(h : Int)]) ≠
        ((ex9.nmo * ex9.nmo : Nat) : Int) := by
  refine ⟨by decide, ex9_consistent, ex9_run, ?_⟩
  have e0 : ex9_out.gems_ab.val [0] = 3 := by decide
  have e1 : ex9_out.gems_ab.val [1] = 2 := by decide
  have e2 : ex9_out.gems_ab.val [2] = 2 := by decide
  have hn : ex9.nirrep_ = 3 := rfl
  have hm : ex9.nmo = 3 := rfl
  rw [hn, hm]
  simp only [Finset.sum_range_succ, Finset.sum_range_zero, Nat.cast_zero, Nat.cast_one,
    Nat.cast_ofNat, zero_add, e0, e1, e2]
  decide

set_option maxRecDepth 100000 in
/-- Witness of C10 on `exA`: `gems_ab[0] = 10`, `gems_ab[1] = 6` and `gems_00[0] = 7`. -/
theorem C10_witness :
    exA_out.gems_ab.val [0] = 10 ∧ exA_out.gems_ab.val [1] = 6 ∧
      exA_out.gems_00.val [0] = 7 :=
  ⟨(C10_block_pair_count exA exA_out exA_run exA_consistent 0 (by decide)).2.trans (by decide),
    (C10_block_pair_count exA exA_out exA_run exA_consistent 1 (by decide)).2.trans (by decide),
    by decide⟩

/-- Claim C13. The product table of `BuildBasis` is the bitwise exclusive-or: for labels
`h1, h2 < 8` the cell `table[8*h1 + h2]` holds `h1 XOR h2`; hence the product is commutative,
has 0 as its unit and every label is its own inverse. -/
theorem C13_table_is_xor (h1 h2 : Nat) (hh1 : h1 < 8) (hh2 : h2 < 8) :
    table.get [8 * (h1 : Int) + (h2 : Int)] = some ((h1 ^^^ h2 : Nat) : Int) ∧
      table.get [8 * (h1 : Int) + (h2 : Int)] = table.get [8 * (h2 : Int) + (h1 : Int)] ∧
      table.get [8 * 0 + (h1 : Int)] = some (h1 : Int) ∧
      table.get [8 * (h1 : Int) + (h1 : Int)] = some 0 := by
  have key : ∀ a b : Nat, a < 8 → b < 8 →
      table.get [8 * (a : Int) + (b : Int)] = some ((a ^^^ b : Nat) : Int) := by
    intro a b ha hb
    have := SymmetryPair_eq_xor ha hb
    unfold SymmetryPair at this
    rw [Int.mul_comm] at this
    exact this
  refine ⟨key h1 h2 hh1 hh2, ?_, ?_, ?_⟩
  · rw [key h1 h2 hh1 hh2, key h2 h1 hh2 hh1, Nat.xor_comm]
  · have := key 0 h1 (by omega) hh1
    simpa using this
  · have := key h1 h1 hh1 hh1
    simpa using this

/-- Witness of C13 at the labels 5 and 3, whose product is 6. -/
theorem C13_witness :
    table.get [8 * 5 + 3] = some 6 ∧ table.get [8 * 5 + 3] = table.get [8 * 3 + 5] ∧
      table.get [8 * 0 + 5] = some 5 ∧ table.get [8 * 5 + 5] = some 0 :=
  C13_table_is_xor 5 3 (by decide) (by decide)

/-- Claim C17. With consistent counts, for every irrep `h < nirrep`: `pitzer_offset_full[h]` is
the sum of `nmopi[g]` over `g < h` and `symmetry_full` holds `h` at the `nmopi[h]` positions
from it on; `pitzer_offset_plus_core[h]` is the sum of `nmopi[g] - frzvpi[g]` over `g < h` and
`symmetry_plus_core` holds `h` at the `amopi[h] + frzcpi[h]` positions from it on; and
`pitzer_offset[h]` is the sum of `amopi[g]` over `g < h`. -/
theorem C17_label_blocks (s : Input) (v : Solver)
    (hrun : BuildBasis (Solver.init s) = some v) (hc : Consistent s) (h : Nat)
    (hh : h < s.nirrep_) :
    (∃ off : Int, v.pitzer_offset_full.get [(h : Int)] = some off ∧
      off = Finset.sum (Finset.range h) (fun g => (s.nmopi_ g : Int)) ∧
      ∀ p : Nat, p < s.nmopi_ h → v.symmetry_full.get [off + (p : Int)] = some (h : Int)) ∧
    (∃ off : Int, v.pitzer_offset_plus_core.get [(h : Int)] = some off ∧
      off = Finset.sum (Finset.range h) (fun g => (s.nmopi_ g : Int) - (s.frzvpi_ g : Int)) ∧
      ∀ p : Nat, p < s.amopi_ h + s.frzcpi_ h →
        v.symmetry_plus_core.get [off + (p : Int)] = some (h : Int)) ∧
    v.pitzer_offset.get [(h : Int)] =
      some (Finset.sum (Finset.range h) (fun g => (s.amopi_ g : Int))) := by
  have hr := BuildBasis_run hrun
  obtain ⟨o1, o2, o3⟩ := hr.offsets hh
  obtain ⟨_, ⟨c2, f2⟩, ⟨c3, f3⟩⟩ := hr.labels_inv
  refine ⟨⟨_, o2, rfl, fun p hp => ?_⟩, ⟨_, o3, rfl, fun p hp => ?_⟩, ?_⟩
  · rw [offsInt_cast]
    exact f2.get hh hp
  · have e : offsInt (fun g => (s.nmopi_ g : Int) - (s.frzvpi_ g : Int)) h =
        ((offs (fun g => s.amopi_ g + s.frzcpi_ g) h : Nat) : Int) := by
      rw [← offsInt_cast]
      refine offsInt_congr (fun k hk => ?_)
      have := hc.split k (by omega)
      push_cast
      omega
    rw [e]
    exact f3.get hh hp
  · show v.offs.pitzer_offset.get _ = _
    rw [o1]
    congr 1
    refine offsInt_congr (fun k hk => ?_)
    have := hc.split k (by omega)
    omega

/-- Witness of C17 on `exB`, irrep 1: the offsets are 3, 2 and 1. -/
theorem C17_witness :
    (∃ off : Int, exB_out.pitzer_offset_full.get [((1 : Nat) : Int)] = some off ∧
      off = Finset.sum (Finset.range 1) (fun g => (exB.nmopi_ g : Int)) ∧
      ∀ p : Nat, p < exB.nmopi_ 1 →
        exB_out.symmetry_full.get [off + (p : Int)] = some ((1 : Nat) : Int)) ∧
    (∃ off : Int, exB_out.pitzer_offset_plus_core.get [((1 : Nat) : Int)] = some off ∧
      off = Finset.sum (Finset.range 1)
        (fun g => (exB.nmopi_ g : Int) - (exB.frzvpi_ g : Int)) ∧
      ∀ p : Nat, p < exB.amopi_ 1 + exB.frzcpi_ 1 →
        exB_out.symmetry_plus_core.get [off + (p : Int)] = some ((1 : Nat) : Int)) ∧
    exB_out.pitzer_offset.get [((1 : Nat) : Int)] =
      some (Finset.sum (Finset.range 1) (fun g => (exB.amopi_ g : Int))) :=
  C17_label_blocks exB exB_out exB_run exB_consistent 1 (by decide)

/-- Claim C16. With consistent counts: for `h < nirrep` and `p < amopi[h]` the active-local
index `a = pitzer_offset[h] + p` has `symmetry[a] = h` and
`full_basis[a] = pitzer_offset_full[h] + frzcpi[h] + p`; `full_basis` is strictly increasing on
`[0, nmo)`; and `symmetry_full[full_basis[a]] = symmetry[a]` for every `a < nmo`. -/
theorem C16_active_to_pitzer (s : Input) (v : Solver)
    (hrun : BuildBasis (Solver.init s) = some v) (hc : Consistent s) :
    (∀ h p : Nat, h < s.nirrep_ → p < s.amopi_ h → ∃ off offf : Int,
      v.pitzer_offset.get [(h : Int)] = some off ∧
      v.pitzer_offset_full.get [(h : Int)] = some offf ∧
      v.symmetry.get [off + (p : Int)] = some (h : Int) ∧
      v.full_basis.get [off + (p : Int)] = some (offf + (s.frzcpi_ h : Int) + (p : Int))) ∧
    (∀ a b : Nat, a < b → b < s.nmo →
      v.full_basis.val [(a : Int)] < v.full_basis.val [(b : Int)]) ∧
    (∀ a : Nat, a < s.nmo → ∃ g fb : Int, v.symmetry.get [(a : Int)] = some g ∧
      v.full_basis.get [(a : Int)] = some fb ∧ v.symmetry_full.get [fb] = some g) := by
  have hr := BuildBasis_run hrun
  obtain ⟨⟨c1, f1⟩, ⟨c2, f2⟩, _⟩ := hr.labels_inv
  obtain ⟨al, hB, eal⟩ := hr.full_basis_inv
  have eT : ∀ H, H ≤ s.nirrep_ → offs (activeTrips s) H = offs s.amopi_ H := fun H hH =>
    offs_congr (fun g hg => hc.activeTrips (by omega))
  have eF : ∀ H, H ≤ s.nirrep_ → offs (fullTrips s) H = offs s.nmopi_ H := fun H hH =>
    offs_congr (fun g hg => hc.fullTrips (by omega))
  -- value and bounds of `full_basis` at the `p`-th active orbital of irrep `g`
  have hfb : ∀ g p : Nat, g < s.nirrep_ → p < s.amopi_ g →
      inBounds [((offs s.amopi_ g + p : Nat) : Int)] v.labels.full_basis.dims = true ∧
      v.labels.full_basis.val [((offs s.amopi_ g + p : Nat) : Int)] =
        ((offs s.nmopi_ g + s.frzcpi_ g + p : Nat) : Int) := by
    intro g p hg hp
    have hp' : p < activeTrips s g := by rw [hc.activeTrips hg]; exact hp
    have h1 := hB.fit g p hg hp'
    have h2 := hB.val g p hg hp'
    rw [eT g (by omega)] at h1 h2
    rw [eF g (by omega)] at h2
    rw [← eal, hB.dims]
    exact ⟨h1, h2⟩
  refine ⟨?_, ?_, ?_⟩
  · intro h p hh hp
    obtain ⟨o1, o2, _⟩ := hr.offsets hh
    have e1 : offsInt (fun g => (s.nmopi_ g : Int) - s.frzcpi_ g - s.frzvpi_ g) h =
        ((offs s.amopi_ h : Nat) : Int) := by
      rw [← offsInt_cast]
      refine offsInt_congr (fun k hk => ?_)
      have := hc.split k (by omega)
      omega
    rw [e1] at o1
    rw [offsInt_cast] at o2
    refine ⟨_, _, o1, o2, ?_, ?_⟩
    · have := @FillInv.get _ _ _ _ _ f1 h p hh (by rw [hc.activeTrips hh]; exact hp)
      rw [eT h (by omega)] at this
      exact this
    · obtain ⟨i1, i2⟩ := hfb h p hh hp
      have e : ((offs s.amopi_ h : Nat) : Int) + (p : Int) = ((offs s.amopi_ h + p : Nat) : Int) := by
        push_cast; rfl
      show v.labels.full_basis.get _ = _
      rw [e, Tab.get_of_inb i1, i2]
      push_cast
      rfl
  · intro a b hab hb
    have hb' : b < offs s.amopi_ s.nirrep_ := by rw [← hc.nmo]; exact hb
    obtain ⟨g, p, hg, hp, rfl⟩ := offs_decompose s.amopi_ (show a < offs s.amopi_ s.nirrep_ by omega)
    obtain ⟨g', p', hg', hp', rfl⟩ := offs_decompose s.amopi_ hb'
    show v.labels.full_basis.val _ < v.labels.full_basis.val _
    rw [(hfb g p hg hp).2, (hfb g' p' hg' hp').2]
    have s1 := hc.split g hg
    have s2 := hc.split g' hg'
    rcases Nat.lt_trichotomy g g' with c | c | c
    · have m1 := offs_mono s.nmopi_ (show g + 1 ≤ g' from c)
      rw [offs_succ] at m1
      have : offs s.nmopi_ g + s.frzcpi_ g + p < offs s.nmopi_ g' + s.frzcpi_ g' + p' := by omega
      exact_mod_cast this
    · subst c
      have : offs s.nmopi_ g + s.frzcpi_ g + p < offs s.nmopi_ g + s.frzcpi_ g + p' := by omega
      exact_mod_cast this
    · exfalso
      have m1 := offs_mono s.amopi_ (show g' + 1 ≤ g from c)
      rw [offs_succ] at m1
      omega
  · intro a ha
    obtain ⟨g, p, hg, hp, rfl⟩ :=
      offs_decompose s.amopi_ (show a < offs s.amopi_ s.nirrep_ by rw [← hc.nmo]; exact ha)
    obtain ⟨i1, i2⟩ := hfb g p hg hp
    refine ⟨(g : Int), _, ?_, Tab.get_of_inb i1, ?_⟩
    · have := @FillInv.get _ _ _ _ _ f1 g p hg (by rw [hc.activeTrips hg]; exact hp)
      rw [eT g (by omega)] at this
      have e : ((offs s.amopi_ g : Nat) : Int) + (p : Int) = ((offs s.amopi_ g + p : Nat) : Int) := by
        push_cast; rfl
      rw [e] at this
      exact this
    · show v.labels.symmetry_full.get [v.labels.full_basis.val _] = _
      rw [i2]
      have := hc.split g hg
      have := hr.symmetry_full_get hg (show s.frzcpi_ g + p < s.nmopi_ g by omega)
      unfold pz at this
      rw [← Nat.add_assoc] at this
      exact this

/-- Witness of C16 on `exB`: the second active orbital of irrep 1. -/
theorem C16_witness :
    ∃ off offf : Int, exB_out.pitzer_offset.get [((1 : Nat) : Int)] = some off ∧
      exB_out.pitzer_offset_full.get [((1 : Nat) : Int)] = some offf ∧
      exB_out.symmetry.get [off + ((1 : Nat) : Int)] = some ((1 : Nat) : Int) ∧
      exB_out.full_basis.get [off + ((1 : Nat) : Int)] =
        some (offf + (exB.frzcpi_ 1 : Int) + ((1 : Nat) : Int)) :=
  (C16_active_to_pitzer exB exB_out exB_run exB_consistent).1 1 1 (by decide) (by decide)

/-- Claim C14. The inverse tables of the sectors 00 and aa are stored symmetrically: after
`BuildBasis`, for `h < nirrep` and `i, j < nmo`, the cells `[h][i][j]` and `[h][j][i]` hold the
same value, the sentinel included. -/
theorem C14_symmetric_storage (s : Input) (v : Solver)
    (hrun : BuildBasis (Solver.init s) = some v) (h i j : Nat) (hh : h < s.nirrep_)
    (hi : i < s.nmo) (hj : j < s.nmo) :
    ∃ n00 naa : Int,
      v.ibas_00_sym.get [(h : Int), (i : Int), (j : Int)] = some n00 ∧
      v.ibas_00_sym.get [(h : Int), (j : Int), (i : Int)] = some n00 ∧
      v.ibas_aa_sym.get [(h : Int), (i : Int), (j : Int)] = some naa ∧
      v.ibas_aa_sym.get [(h : Int), (j : Int), (i : Int)] = some naa := by
  have hr := BuildBasis_run hrun
  have hA := hr.active
  have hnd := nodup_gemsSpec s v.labels.symmetry h
  have e00 : v.pairs.s00.ibas.val [(h : Int), (i : Int), (j : Int)] =
      v.pairs.s00.ibas.val [(h : Int), (j : Int), (i : Int)] :=
    (hA.s00.done h hh).val_congr (hnd.filter _)
      (fun a b ix ha hb => cellsSym_disjoint h a b ix (List.mem_filter.1 ha).2
        (List.mem_filter.1 hb).2) rfl rfl (fun a _ => cellsSym_swap h a i j)
  have eaa : v.pairs.aa.ibas.val [(h : Int), (i : Int), (j : Int)] =
      v.pairs.aa.ibas.val [(h : Int), (j : Int), (i : Int)] :=
    (hA.aa.done h hh).val_congr (hnd.filter _)
      (fun a b ix ha hb => cellsSym_disjoint h a b ix
        (keepAA_keep00 a (List.mem_filter.1 ha).2) (keepAA_keep00 b (List.mem_filter.1 hb).2))
      rfl rfl (fun a _ => cellsSym_swap h a i j)
  simp only [Solver.ibas_00_sym, Solver.ibas_aa_sym]
  refine ⟨_, _, Tab.get_of_inb (by rw [hA.d00.1]; exact inBounds_cell hh hi hj), ?_,
    Tab.get_of_inb (by rw [hA.daa.1]; exact inBounds_cell hh hi hj), ?_⟩
  · rw [Tab.get_of_inb (by rw [hA.d00.1]; exact inBounds_cell hh hj hi), e00]
  · rw [Tab.get_of_inb (by rw [hA.daa.1]; exact inBounds_cell hh hj hi), eaa]

/-- Witness of C14 on `exA`: the cells of the orbitals 2 and 0 in block 0. -/
theorem C14_witness :
    ∃ n00 naa : Int,
      exA_out.ibas_00_sym.get [((0 : Nat) : Int), ((2 : Nat) : Int), ((0 : Nat) : Int)] =
        some n00 ∧
      exA_out.ibas_00_sym.get [((0 : Nat) : Int), ((0 : Nat) : Int), ((2 : Nat) : Int)] =
        some n00 ∧
      exA_out.ibas_aa_sym.get [((0 : Nat) : Int), ((2 : Nat) : Int), ((0 : Nat) : Int)] =
        some naa ∧
      exA_out.ibas_aa_sym.get [((0 : Nat) : Int), ((0 : Nat) : Int), ((2 : Nat) : Int)] =
        some naa :=
  C14_symmetric_storage exA exA_out exA_run 0 2 0 (by decide) (by decide) (by decide)

/-- Claim C11. The three active pair counts of a block are nested,
`gems_aa[h] ≤ gems_00[h] ≤ gems_ab[h]`; the difference `gems_00[h] - gems_aa[h]` is the number
of diagonal pairs of block `h`, which is `nmo` for `h = 0` and 0 otherwise; and
`gems_ab[h] = gems_00[h] + gems_aa[h]`. -/
theorem C11_count_nesting (s : Input) (v : Solver)
    (hrun : BuildBasis (Solver.init s) = some v) (h : Nat) (hh : h < s.nirrep_) :
    v.gems_aa.val [(h : Int)] ≤ v.gems_00.val [(h : Int)] ∧
      v.gems_00.val [(h : Int)] ≤ v.gems_ab.val [(h : Int)] ∧
      v.gems_00.val [(h : Int)] - v.gems_aa.val [(h : Int)] =
        (((Finset.range s.nmo).filter fun i =>
          pairLabel v.symmetry i i = some (h : Int)).card : Int) ∧
      v.gems_00.val [(h : Int)] - v.gems_aa.val [(h : Int)] =
        (if h = 0 then (s.nmo : Int) else 0) ∧
      v.gems_ab.val [(h : Int)] = v.gems_00.val [(h : Int)] + v.gems_aa.val [(h : Int)] := by
  have hr := BuildBasis_run hrun
  obtain ⟨eab, e00, eaa⟩ := hr.gems_counts hh
  simp only [Solver.gems_ab, Solver.gems_00, Solver.gems_aa, Solver.symmetry]
  have hsplit := sum_card_split s.nmo (fun i j => pairLabel v.labels.symmetry i j = some (h : Int))
  have hsym := sum_card_lt_eq_gt s.nmo
    (fun i j => pairLabel v.labels.symmetry i j = some (h : Int))
    (fun i j hi hj => by
      show pairLabel v.labels.symmetry i j = _ ↔ pairLabel v.labels.symmetry j i = _
      rw [hr.pairLabel_comm hh hi hj])
  have hle := sum_card_le_split s.nmo
    (fun i j => pairLabel v.labels.symmetry i j = some (h : Int))
  have hdiag : ((Finset.range s.nmo).filter fun i =>
      pairLabel v.labels.symmetry i i = some (h : Int)).card = if h = 0 then s.nmo else 0 := by
    by_cases h0 : h = 0
    · rw [if_pos h0, Finset.filter_true_of_mem, Finset.card_range]
      intro i hi
      rw [hr.pairLabel_diag hh (Finset.mem_range.1 hi), h0]
      rfl
    · rw [if_neg h0, Finset.filter_false_of_mem, Finset.card_empty]
      intro i hi e
      rw [hr.pairLabel_diag hh (Finset.mem_range.1 hi)] at e
      have := Option.some.inj e
      exact h0 (by exact_mod_cast this.symm)
  rw [eab, e00, eaa]
  simp only at hsplit hsym hle
  rw [hsym] at hsplit
  refine ⟨?_, ?_, ?_, ?_, ?_⟩
  · exact_mod_cast (by omega : _ ≤ _)
  · exact_mod_cast (by omega : _ ≤ _)
  · rw [hle]; push_cast; ring
  · rw [hle, hdiag]
    split <;> push_cast <;> ring
  · rw [hsplit]; push_cast; ring

/-- Witness of C11 on `exA`, block 0. -/
theorem C11_witness :
    exA_out.gems_aa.val [((0 : Nat) : Int)] ≤ exA_out.gems_00.val [((0 : Nat) : Int)] ∧
      exA_out.gems_00.val [((0 : Nat) : Int)] ≤ exA_out.gems_ab.val [((0 : Nat) : Int)] ∧
      exA_out.gems_00.val [((0 : Nat) : Int)] - exA_out.gems_aa.val [((0 : Nat) : Int)] =
        (((Finset.range exA.nmo).filter fun i =>
          pairLabel exA_out.symmetry i i = some ((0 : Nat) : Int)).card : Int) ∧
      exA_out.gems_00.val [((0 : Nat) : Int)] - exA_out.gems_aa.val [((0 : Nat) : Int)] =
        (if 0 = 0 then (exA.nmo : Int) else 0) ∧
      exA_out.gems_ab.val [((0 : Nat) : Int)] =
        exA_out.gems_00.val [((0 : Nat) : Int)] + exA_out.gems_aa.val [((0 : Nat) : Int)] :=
  C11_count_nesting exA exA_out exA_run 0 (by decide)

/-- Claim C15. When a triplet flag is set, after `BuildBasis`, for `h < nirrep` and
`i, j, k < nmo`: the aab cells `[h][i][j][k]` and `[h][j][i][k]` hold the same value; the aaa
cells of the six orders of `(i, j, k)` hold the same value; and that value is not -999 exactly
when `i`, `j`, `k` are pairwise distinct and the product label of the three orbitals is `h`. -/
theorem C15_triplet_symmetry (s : Input) (v : Solver)
    (hrun : BuildBasis (Solver.init s) = some v)
    (hflag : s.constrain_t1 = true ∨ s.constrain_t2 = true ∨ s.constrain_d3 = true)
    (h i j k : Nat) (hh : h < s.nirrep_) (hi : i < s.nmo) (hj : j < s.nmo) (hk : k < s.nmo) :
    (∃ n : Int, v.ibas_aab_sym.get [(h : Int), (i : Int), (j : Int), (k : Int)] = some n ∧
      v.ibas_aab_sym.get [(h : Int), (j : Int), (i : Int), (k : Int)] = some n) ∧
    (∃ n : Int, v.ibas_aaa_sym.get [(h : Int), (i : Int), (j : Int), (k : Int)] = some n ∧
      v.ibas_aaa_sym.get [(h : Int), (i : Int), (k : Int), (j : Int)] = some n ∧
      v.ibas_aaa_sym.get [(h : Int), (j : Int), (i : Int), (k : Int)] = some n ∧
      v.ibas_aaa_sym.get [(h : Int), (j : Int), (k : Int), (i : Int)] = some n ∧
      v.ibas_aaa_sym.get [(h : Int), (k : Int), (i : Int), (j : Int)] = some n ∧
      v.ibas_aaa_sym.get [(h : Int), (k : Int), (j : Int), (i : Int)] = some n ∧
      (n ≠ -999 ↔ (i ≠ j ∧ i ≠ k ∧ j ≠ k ∧ tripLabel v.symmetry i j k = some (h : Int)))) := by
  have hr := BuildBasis_run hrun
  have hT := hr.tripBlocks hflag
  have hnd := nodup_tripSpec v.labels.symmetry s.nmo h
  have hbb := hT.aab.done h hh
  have hba := hT.aaa.done h hh
  have disB : ∀ a b ix, a ∈ (tripSpec v.labels.symmetry s.nmo h).filter keepAAB →
      b ∈ (tripSpec v.labels.symmetry s.nmo h).filter keepAAB →
      ix ∈ cellsAAB h a → ix ∈ cellsAAB h b → a = b :=
    fun a b ix ha hb => cellsAAB_disjoint h a b ix (List.mem_filter.1 ha).2
      (List.mem_filter.1 hb).2
  have disA : ∀ a b ix, a ∈ (tripSpec v.labels.symmetry s.nmo h).filter keepAAA →
      b ∈ (tripSpec v.labels.symmetry s.nmo h).filter keepAAA →
      ix ∈ cellsAAA h a → ix ∈ cellsAAA h b → a = b :=
    fun a b ix ha hb => cellsAAA_disjoint h a b ix (List.mem_filter.1 ha).2
      (List.mem_filter.1 hb).2
  have inb : ∀ {a b c : Nat}, a < s.nmo → b < s.nmo → c < s.nmo → ∀ (t : Tab),
      t.dims = [s.nirrep_, s.nmo, s.nmo, s.nmo] →
      t.get [(h : Int), (a : Int), (b : Int), (c : Int)] =
        some (t.val [(h : Int), (a : Int), (b : Int), (c : Int)]) := by
    intro a b c ha hb hc t ht
    refine Tab.get_of_inb ?_
    rw [ht, inBounds_four]
    omega
  -- equalities between the cells
  have s12 : ∀ a b c : Nat, v.trip.aaa.ibas.val [(h : Int), (a : Int), (b : Int), (c : Int)] =
      v.trip.aaa.ibas.val [(h : Int), (b : Int), (a : Int), (c : Int)] := fun a b c =>
    hba.val_congr (hnd.filter _) disA rfl rfl (fun t _ => cellsAAA_swap12 h t a b c)
  have s23 : ∀ a b c : Nat, v.trip.aaa.ibas.val [(h : Int), (a : Int), (b : Int), (c : Int)] =
      v.trip.aaa.ibas.val [(h : Int), (a : Int), (c : Int), (b : Int)] := fun a b c =>
    hba.val_congr (hnd.filter _) disA rfl rfl (fun t _ => cellsAAA_swap23 h t a b c)
  have eB : v.trip.aab.ibas.val [(h : Int), (i : Int), (j : Int), (k : Int)] =
      v.trip.aab.ibas.val [(h : Int), (j : Int), (i : Int), (k : Int)] :=
    hbb.val_congr (hnd.filter _) disB rfl rfl (fun t _ => cellsAAB_swap h t i j k)
  simp only [Solver.ibas_aab_sym, Solver.ibas_aaa_sym, Solver.symmetry]
  refine ⟨⟨_, inb hi hj hk _ hT.daab, by rw [inb hj hi hk _ hT.daab, eB]⟩,
    ⟨_, inb hi hj hk _ hT.daaa, by rw [inb hi hk hj _ hT.daaa, s23 i j k],
      by rw [inb hj hi hk _ hT.daaa, s12 i j k],
      by rw [inb hj hk hi _ hT.daaa, s12 i j k, s23 j i k],
      by rw [inb hk hi hj _ hT.daaa, s23 i j k, s12 i k j],
      by rw [inb hk hj hi _ hT.daaa, s12 i j k, s23 j i k, s12 j k i], ?_⟩⟩
  constructor
  · intro hne
    have hex : ∃ a, a ∈ (tripSpec v.labels.symmetry s.nmo h).filter keepAAA ∧
        [(h : Int), (i : Int), (j : Int), (k : Int)] ∈ cellsAAA h a := by
      by_contra hno
      exact hne (hba.ifree _ rfl (fun a ha hix => hno ⟨a, ha, hix⟩))
    obtain ⟨a, ha, hix⟩ := hex
    obtain ⟨hmem, hkeep⟩ := List.mem_filter.1 ha
    obtain ⟨x, y, z, hx, hy, hz, hl, rfl⟩ := mem_tripSpec.1 hmem
    simp only [keepAAA, mkTriple, decide_eq_true_eq] at hkeep
    obtain ⟨l12, l23⟩ := hr.tripLabel_swap hh hx hy hz
    simp only [cellsAAA, mkTriple, List.mem_cons, List.cons.injEq, true_and, and_true,
      List.mem_singleton, List.not_mem_nil, or_false] at hix
    have hxy : x < y := by omega
    have hyz : y < z := by omega
    rcases hix with ⟨e1, e2, e3⟩ | ⟨e1, e2, e3⟩ | ⟨e1, e2, e3⟩ | ⟨e1, e2, e3⟩ |
        ⟨e1, e2, e3⟩ | ⟨e1, e2, e3⟩ <;>
      (have e1' := Int.ofNat_inj.1 e1
       have e2' := Int.ofNat_inj.1 e2
       have e3' := Int.ofNat_inj.1 e3
       subst e1' e2' e3'
       refine ⟨by omega, by omega, by omega, ?_⟩)
    · exact hl
    · rw [(hr.tripLabel_swap hh hi hk hj).2]; exact hl
    · rw [(hr.tripLabel_swap hh hj hi hk).1]; exact hl
    · rw [(hr.tripLabel_swap hh hi hk hj).2, (hr.tripLabel_swap hh hk hi hj).1]; exact hl
    · rw [(hr.tripLabel_swap hh hj hi hk).1, (hr.tripLabel_swap hh hj hk hi).2]; exact hl
    · rw [(hr.tripLabel_swap hh hj hi hk).1, (hr.tripLabel_swap hh hj hk hi).2,
        (hr.tripLabel_swap hh hk hj hi).1]; exact hl
  · rintro ⟨hij, hik, hjk, hl⟩
    have c12 := fun {a b c : Nat} (ha : a < s.nmo) (hb : b < s.nmo) (hc : c < s.nmo) =>
      (hr.tripLabel_swap hh ha hb hc).1
    have c23 := fun {a b c : Nat} (ha : a < s.nmo) (hb : b < s.nmo) (hc : c < s.nmo) =>
      (hr.tripLabel_swap hh ha hb hc).2
    rcases Nat.lt_or_gt_of_ne hij with a | a <;> rcases Nat.lt_or_gt_of_ne hik with b | b <;>
      rcases Nat.lt_or_gt_of_ne hjk with c | c
    · exact hr.aaa_hit hflag hh hi hj hk a c hl (by simp [cellsAAA, mkTriple])
    · exact hr.aaa_hit hflag hh hi hk hj b c (by rw [c23 hi hj hk]; exact hl)
        (by simp [cellsAAA, mkTriple])
    · exact absurd (Nat.lt_trans a c) (Nat.lt_asymm b)
    · exact hr.aaa_hit hflag hh hk hi hj b a
        (by rw [c12 hi hk hj, c23 hi hj hk]; exact hl) (by simp [cellsAAA, mkTriple])
    · exact hr.aaa_hit hflag hh hj hi hk a b (by rw [c12 hi hj hk]; exact hl)
        (by simp [cellsAAA, mkTriple])
    · exact absurd (Nat.lt_trans c a) (Nat.lt_asymm b)
    · exact hr.aaa_hit hflag hh hj hk hi c b
        (by rw [c23 hj hi hk, c12 hi hj hk]; exact hl) (by simp [cellsAAA, mkTriple])
    · exact hr.aaa_hit hflag hh hk hj hi c a
        (by rw [c12 hj hk hi, c23 hj hi hk, c12 hi hj hk]; exact hl)
        (by simp [cellsAAA, mkTriple])

/-- Witness of C15 on `exT`: the cells of the orbitals 0, 1, 2 in block 0. -/
theorem C15_witness :
    (∃ n : Int, exT_out.ibas_aab_sym.get [((0 : Nat) : Int), ((0 : Nat) : Int),
        ((1 : Nat) : Int), ((2 : Nat) : Int)] = some n ∧
      exT_out.ibas_aab_sym.get [((0 : Nat) : Int), ((1 : Nat) : Int), ((0 : Nat) : Int),
        ((2 : Nat) : Int)] = some n) ∧
    (∃ n : Int, exT_out.ibas_aaa_sym.get [((0 : Nat) : Int), ((0 : Nat) : Int),
        ((1 : Nat) : Int), ((2 : Nat) : Int)] = some n ∧
      exT_out.ibas_aaa_sym.get [((0 : Nat) : Int), ((0 : Nat) : Int), ((2 : Nat) : Int),
        ((1 : Nat) : Int)] = some n ∧
      exT_out.ibas_aaa_sym.get [((0 : Nat) : Int), ((1 : Nat) : Int), ((0 : Nat) : Int),
        ((2 : Nat) : Int)] = some n ∧
      exT_out.ibas_aaa_sym.get [((0 : Nat) : Int), ((1 : Nat) : Int), ((2 : Nat) : Int),
        ((0 : Nat) : Int)] = some n ∧
      exT_out.ibas_aaa_sym.get [((0 : Nat) : Int), ((2 : Nat) : Int), ((0 : Nat) : Int),
        ((1 : Nat) : Int)] = some n ∧
      exT_out.ibas_aaa_sym.get [((0 : Nat) : Int), ((2 : Nat) : Int), ((1 : Nat) : Int),
        ((0 : Nat) : Int)] = some n ∧
      (n ≠ -999 ↔ (0 ≠ 1 ∧ 0 ≠ 2 ∧ 1 ≠ 2 ∧
        tripLabel exT_out.symmetry 0 1 2 = some ((0 : Nat) : Int)))) :=
  C15_triplet_symmetry exT exT_out exT_run (Or.inl rfl) 0 0 1 2 (by decide) (by decide)
    (by decide) (by decide)

/-- Claim C19, amended. The active-space pair numbering follows the scan of the pair list,
whose outer loop index is stored as the second member: for every block `h < nirrep` and each
sector ab, 00, aa, row `n` of the forward table stores a pair `(i, j)` of block `h` that
satisfies the predicate of the sector (all pairs; `j ≤ i`; `j < i`) and has exactly `n` such
pairs before it, a pair being before another when its second member is smaller, or equal with
a smaller first member; and for two pairs of block `h` the value of `ibas_ab_sym` at the first
is below the value at the second exactly when the first is before the second. -/
theorem C19_pair_numbering (s : Input) (v : Solver)
    (hrun : BuildBasis (Solver.init s) = some v) (h : Nat) (hh : h < s.nirrep_) :
    (∀ n : Nat, (n : Int) < v.gems_ab.val [(h : Int)] → ∃ i j : Nat, i < s.nmo ∧ j < s.nmo ∧
      v.bas_ab_sym.val [(h : Int), (n : Int), 0] = (i : Int) ∧
      v.bas_ab_sym.val [(h : Int), (n : Int), 1] = (j : Int) ∧
      pairLabel v.symmetry i j = some (h : Int) ∧
      pairRank v.symmetry s.nmo h (fun _ _ => true) i j = n) ∧
    (∀ n : Nat, (n : Int) < v.gems_00.val [(h : Int)] → ∃ i j : Nat, i < s.nmo ∧ j < s.nmo ∧
      v.bas_00_sym.val [(h : Int), (n : Int), 0] = (i : Int) ∧
      v.bas_00_sym.val [(h : Int), (n : Int), 1] = (j : Int) ∧
      pairLabel v.symmetry i j = some (h : Int) ∧ j ≤ i ∧
      pairRank v.symmetry s.nmo h (fun a b => decide (b ≤ a)) i j = n) ∧
    (∀ n : Nat, (n : Int) < v.gems_aa.val [(h : Int)] → ∃ i j : Nat, i < s.nmo ∧ j < s.nmo ∧
      v.bas_aa_sym.val [(h : Int), (n : Int), 0] = (i : Int) ∧
      v.bas_aa_sym.val [(h : Int), (n : Int), 1] = (j : Int) ∧
      pairLabel v.symmetry i j = some (h : Int) ∧ j < i ∧
      pairRank v.symmetry s.nmo h (fun a b => decide (b < a)) i j = n) ∧
    (∀ i j i' j' : Nat, i < s.nmo → j < s.nmo → i' < s.nmo → j' < s.nmo →
      pairLabel v.symmetry i j = some (h : Int) → pairLabel v.symmetry i' j' = some (h : Int) →
      (v.ibas_ab_sym.val [(h : Int), (i : Int), (j : Int)] <
          v.ibas_ab_sym.val [(h : Int), (i' : Int), (j' : Int)] ↔
        (j < j' ∨ (j = j' ∧ i < i')))) := by
  have hr := BuildBasis_run hrun
  have hA := hr.active
  have hpw : (gemsSpec s v.labels.symmetry h).Pairwise storedBefore :=
    pairwise_pairSpec _ _ _ _
  have hnd := nodup_gemsSpec s v.labels.symmetry h
  simp only [Solver.gems_ab, Solver.gems_00, Solver.gems_aa, Solver.bas_ab_sym,
    Solver.bas_00_sym, Solver.bas_aa_sym, Solver.ibas_ab_sym, Solver.symmetry]
  refine ⟨fun n hn => ?_, fun n hn => ?_, fun n hn => ?_, ?_⟩
  · obtain ⟨i, j, hi, hj, e0, e1, hl, _, hrk⟩ := (hA.ab.done h hh).row_rank (N := s.nmo) hpw
      v.labels.symmetry (fun _ _ => true)
      (fun p => by
        rw [hr.mem_gems_iff hh]
        simp only [and_true])
      (hA.gab h hh) hn
    exact ⟨i, j, hi, hj, e0, e1, hl, hrk⟩
  · obtain ⟨i, j, hi, hj, e0, e1, hl, hk, hrk⟩ := (hA.s00.done h hh).row_rank (N := s.nmo)
      (hpw.filter _)
      v.labels.symmetry (fun a b => decide (b ≤ a))
      (fun p => by
        rw [List.mem_filter, hr.mem_gems_iff hh]
        constructor
        · rintro ⟨⟨i, j, hi, hj, hl, rfl⟩, hk⟩
          exact ⟨i, j, hi, hj, ⟨hl, by simpa [keep00] using hk⟩, rfl⟩
        · rintro ⟨i, j, hi, hj, ⟨hl, hk⟩, rfl⟩
          exact ⟨⟨i, j, hi, hj, hl, rfl⟩, by simpa [keep00] using hk⟩)
      (hA.g00 h hh) hn
    exact ⟨i, j, hi, hj, e0, e1, hl, by simpa using hk, hrk⟩
  · obtain ⟨i, j, hi, hj, e0, e1, hl, hk, hrk⟩ := (hA.aa.done h hh).row_rank (N := s.nmo)
      (hpw.filter _)
      v.labels.symmetry (fun a b => decide (b < a))
      (fun p => by
        rw [List.mem_filter, hr.mem_gems_iff hh]
        constructor
        · rintro ⟨⟨i, j, hi, hj, hl, rfl⟩, hk⟩
          exact ⟨i, j, hi, hj, ⟨hl, by simpa [keepAA] using hk⟩, rfl⟩
        · rintro ⟨i, j, hi, hj, ⟨hl, hk⟩, rfl⟩
          exact ⟨⟨i, j, hi, hj, hl, rfl⟩, by simpa [keepAA] using hk⟩)
      (hA.gaa h hh) hn
    exact ⟨i, j, hi, hj, e0, e1, hl, by simpa using hk, hrk⟩
  · intro i j i' j' hi hj hi' hj' hl hl'
    have hb := hA.ab.done h hh
    have m1 : ((i : Int), (j : Int)) ∈ gemsSpec s v.labels.symmetry h :=
      (hr.mem_gems hh hi hj).2 hl
    have m2 : ((i' : Int), (j' : Int)) ∈ gemsSpec s v.labels.symmetry h :=
      (hr.mem_gems hh hi' hj').2 hl'
    obtain ⟨m, hm⟩ := List.mem_iff_getElem?.1 m1
    obtain ⟨m', hm'⟩ := List.mem_iff_getElem?.1 m2
    have dis : ∀ a b ix, a ∈ gemsSpec s v.labels.symmetry h →
        b ∈ gemsSpec s v.labels.symmetry h → ix ∈ cellsAB h a → ix ∈ cellsAB h b → a = b :=
      fun a b ix _ _ => cellsAB_disjoint h a b ix
    rw [hb.ival_of_disjoint hnd dis hm (by simp [cellsAB]),
      hb.ival_of_disjoint hnd dis hm' (by simp [cellsAB])]
    obtain ⟨l1, g1⟩ := List.getElem?_eq_some.1 hm
    obtain ⟨l2, g2⟩ := List.getElem?_eq_some.1 hm'
    have hpw' := List.pairwise_iff_getElem.1 hpw
    constructor
    · intro hlt
      have := hpw' m m' l1 l2 (by exact_mod_cast hlt)
      rw [g1, g2] at this
      unfold storedBefore at this
      simp only at this
      omega
    · intro hsb
      have hsb' : storedBefore ((i : Int), (j : Int)) ((i' : Int), (j' : Int)) := by
        unfold storedBefore
        simp only
        omega
      by_contra hge
      rcases Nat.lt_or_eq_of_le (show m' ≤ m by omega) with c | c
      · have := hpw' m' m l2 l1 c
        rw [g1, g2] at this
        exact storedBefore_asymm this hsb'
      · subst c
        rw [g1] at g2
        rw [g2] at hsb'
        exact storedBefore_irrefl _ hsb'

set_option maxRecDepth 100000 in
/-- Witness of C19 (amended) on `exS`: row 1 of the ab sector of block 0. -/
theorem C19_witness :
    ∃ i j : Nat, i < exS.nmo ∧ j < exS.nmo ∧
      exS_out.bas_ab_sym.val [((0 : Nat) : Int), ((1 : Nat) : Int), 0] = (i : Int) ∧
      exS_out.bas_ab_sym.val [((0 : Nat) : Int), ((1 : Nat) : Int), 1] = (j : Int) ∧
      pairLabel exS_out.symmetry i j = some ((0 : Nat) : Int) ∧
      pairRank exS_out.symmetry exS.nmo 0 (fun _ _ => true) i j = 1 :=
  (C19_pair_numbering exS exS_out exS_run 0 (by decide)).1 1 (by decide)

set_option maxRecDepth 100000 in
/-- Counterexample to C19 as stated: on `exS` (one irrep, two active orbitals) the run
completes and row 1 of `bas_ab_sym[0]` is the pair `(1, 0)`, not `(0, 1)`, the second pair
when the first member is the most significant; and `ibas_ab_sym[0][1][0] = 1` is below
`ibas_ab_sym[0][0][1] = 2` although `(1, 0)` does not precede `(0, 1)` in that order. -/
theorem C19_counterexample :
    BuildBasis (Solver.init exS) = some exS_out ∧
      exS_out.bas_ab_sym.val [0, 1, 0] = 1 ∧ exS_out.bas_ab_sym.val [0, 1, 1] = 0 ∧
      exS_out.ibas_ab_sym.get [0, 1, 0] = some 1 ∧ exS_out.ibas_ab_sym.get [0, 0, 1] = some 2 ∧
      ¬ (exS_out.ibas_ab_sym.val [0, 1, 0] < exS_out.ibas_ab_sym.val [0, 0, 1] ↔
        ((1 : Int) < 0 ∨ ((1 : Int) = 0 ∧ (0 : Int) < 1))) := by
  have e1 : exS_out.ibas_ab_sym.val [0, 1, 0] = 1 := by decide
  have e2 : exS_out.ibas_ab_sym.val [0, 0, 1] = 2 := by decide
  refine ⟨exS_run, by decide, by decide, by decide, by decide, ?_⟩
  rw [e1, e2]
  decide

/-- Claim C20. The full sector is numbered by ascending energy rank: with `nirrep` one of
1, 2, 4, 8, consistent counts and `energy_to_pitzer_order` a permutation, after `BuildBasis`,
for `h < nirrep` every row `n` below `gems_full[h]` stores two orbitals whose energy ranks
`a` (member 0) and `b` (member 1) satisfy `b ≤ a`, and for two rows `n < m` below
`gems_full[h]` the rank pair of row `n` strictly precedes the rank pair of row `m` in the
lexicographic order, the rank of member 0 being the most significant. -/
theorem C20_full_rank_order (s : Input) (v : Solver)
    (hrun : BuildBasis (Solver.init s) = some v) (_hp : PowTwo s.nirrep_)
    (_hc : Consistent s) (hperm : IsPerm v.energy_to_pitzer_order s.ntot) (h : Nat)
    (_hh : h < s.nirrep_) :
    ∃ g : Nat, v.gems_full.get [(h : Int)] = some (g : Int) ∧
      (∀ n : Nat, n < g → ∃ (p q : Int) (a b : Nat),
        v.bas_full_sym.get [(h : Int), (n : Int), 0] = some p ∧
        v.bas_full_sym.get [(h : Int), (n : Int), 1] = some q ∧
        v.pitzer_to_energy_order.get [p] = some (a : Int) ∧
        v.pitzer_to_energy_order.get [q] = some (b : Int) ∧ b ≤ a) ∧
      (∀ n m : Nat, n < m → m < g → ∃ (p q p' q' : Int) (a b a' b' : Nat),
        v.bas_full_sym.get [(h : Int), (n : Int), 0] = some p ∧
        v.bas_full_sym.get [(h : Int), (n : Int), 1] = some q ∧
        v.bas_full_sym.get [(h : Int), (m : Int), 0] = some p' ∧
        v.bas_full_sym.get [(h : Int), (m : Int), 1] = some q' ∧
        v.pitzer_to_energy_order.get [p] = some (a : Int) ∧
        v.pitzer_to_energy_order.get [q] = some (b : Int) ∧
        v.pitzer_to_energy_order.get [p'] = some (a' : Int) ∧
        v.pitzer_to_energy_order.get [q'] = some (b' : Int) ∧
        (a < a' ∨ (a = a' ∧ b < b'))) := by
  have hr := BuildBasis_run hrun
  have hF := hr.fullRows
  simp only [Solver.gems_full, Solver.bas_full_sym, Solver.pitzer_to_energy_order]
  simp only [Solver.energy_to_pitzer_order] at hperm
  refine ⟨(fullSpec v.labels.symmetry_full v.order.energy_to_pitzer_order s.ntot s.ntot 0
    h).length, ?_, ?_, ?_⟩
  · rw [Tab.get_eq_some, hF.dg]
    exact ⟨inBounds_single _hh, hF.cnt h⟩
  · intro n hn
    obtain ⟨p, q, i, j, hji, _, g0, g1, r0, r1⟩ :=
      hr.full_row hperm (List.getElem?_eq_getElem hn)
    exact ⟨p, q, i, j, g0, g1, r0, r1, hji⟩
  · intro n m hnm hm
    have hn : n < (fullSpec v.labels.symmetry_full v.order.energy_to_pitzer_order s.ntot
      s.ntot 0 h).length := by omega
    obtain ⟨p, q, i, j, _, e, g0, g1, r0, r1⟩ :=
      hr.full_row hperm (List.getElem?_eq_getElem hn)
    obtain ⟨p', q', i', j', _, e', g0', g1', r0', r1'⟩ :=
      hr.full_row hperm (List.getElem?_eq_getElem hm)
    refine ⟨p, q, p', q', i, j, i', j', g0, g1, g0', g1', r0, r1, r0', r1', ?_⟩
    have hpw := pairwise_pairSpec_mkIJ
      (rankLabels v.labels.symmetry_full v.order.energy_to_pitzer_order s.ntot) s.ntot
      (fun i => i + 1) h
    rw [← fullSpec_done] at hpw
    have := List.pairwise_iff_getElem.1 hpw n m hn hm hnm
    rw [e, e'] at this
    unfold rankBefore at this
    simp only at this
    omega

set_option maxRecDepth 100000 in
/-- Witness of C20 on `exS`, block 0. -/
theorem C20_witness :
    ∃ g : Nat, exS_out.gems_full.get [((0 : Nat) : Int)] = some (g : Int) ∧
      (∀ n : Nat, n < g → ∃ (p q : Int) (a b : Nat),
        exS_out.bas_full_sym.get [((0 : Nat) : Int), (n : Int), 0] = some p ∧
        exS_out.bas_full_sym.get [((0 : Nat) : Int), (n : Int), 1] = some q ∧
        exS_out.pitzer_to_energy_order.get [p] = some (a : Int) ∧
        exS_out.pitzer_to_energy_order.get [q] = some (b : Int) ∧ b ≤ a) ∧
      (∀ n m : Nat, n < m → m < g → ∃ (p q p' q' : Int) (a b a' b' : Nat),
        exS_out.bas_full_sym.get [((0 : Nat) : Int), (n : Int), 0] = some p ∧
        exS_out.bas_full_sym.get [((0 : Nat) : Int), (n : Int), 1] = some q ∧
        exS_out.bas_full_sym.get [((0 : Nat) : Int), (m : Int), 0] = some p' ∧
        exS_out.bas_full_sym.get [((0 : Nat) : Int), (m : Int), 1] = some q' ∧
        exS_out.pitzer_to_energy_order.get [p] = some (a : Int) ∧
        exS_out.pitzer_to_energy_order.get [q] = some (b : Int) ∧
        exS_out.pitzer_to_energy_order.get [p'] = some (a' : Int) ∧
        exS_out.pitzer_to_energy_order.get [q'] = some (b' : Int) ∧
        (a < a' ∨ (a = a' ∧ b < b'))) :=
  C20_full_rank_order exS exS_out exS_run (Or.inl rfl) exS_consistent exS_perm 0 (by decide)

/-- Claim C12. The counts of the energy-order traversal agree with the Pitzer-order pair
lists: with `nirrep` one of 1, 2, 4, 8, consistent counts and every energy below `1.0e99`,
after `BuildBasis`, for `h < nirrep`, `gems_plus_core[h]` is the number of unordered pairs
(diagonal included) of orbitals neither of which is a frozen virtual whose product label is
`h`, which is the length of `gems_plus_corespace[h]`; and `gems_full[h]` is the length of
`gems_fullspace[h]`. -/
theorem C12_counts_match_lists (s : Input) (v : Solver)
    (hrun : BuildBasis (Solver.init s) = some v) (hp : PowTwo s.nirrep_) (hc : Consistent s)
    (hE : EnergiesBelow s) (h : Nat) (hh : h < s.nirrep_) :
    ∃ Lpc Lf : List (Int × Int),
      v.lists.gems_plus_corespace[h]? = some Lpc ∧ v.lists.gems_fullspace[h]? = some Lf ∧
      v.gems_plus_core.get [(h : Int)] = some ((Lpc.length : Nat) : Int) ∧
      v.gems_full.get [(h : Int)] = some ((Lf.length : Nat) : Int) ∧
      Lpc.length = ((coreActiveSet s ×ˢ coreActiveSet s).filter fun q : Nat × Nat =>
        q.2 ≤ q.1 ∧ pairLabel v.symmetry_full q.1 q.2 = some (h : Int)).card := by
  have hr := BuildBasis_run hrun
  have hF := hr.fullRows
  obtain ⟨_, hgf, hgpc⟩ := hr.lists_eq
  obtain ⟨c1, c2⟩ := hr.gems_plus_core_count hp.le_eight hc hE h
  simp only [Solver.gems_plus_core, Solver.gems_full, Solver.symmetry_full]
  refine ⟨pairSpec v.labels.symmetry_plus_core (s.nmo + s.nfrzc) (fun i => i + 1) mkIJ h,
    pairSpec v.labels.symmetry_full s.ntot (fun i => i + 1) mkIJ h,
    pushPairLists_getElem? hgpc hh, pushPairLists_getElem? hgf hh, ?_, ?_, c2⟩
  · rw [Tab.get_eq_some, hF.dpc]
    exact ⟨inBounds_single hh, by rw [c1, c2]⟩
  · rw [Tab.get_eq_some, hF.dg]
    exact ⟨inBounds_single hh, hr.gems_full_count hp.le_eight hc hE h⟩

set_option maxRecDepth 100000 in
/-- Witness of C12 on `exB`, block 1. -/
theorem C12_witness :
    ∃ Lpc Lf : List (Int × Int),
      exB_out.lists.gems_plus_corespace[1]? = some Lpc ∧
      exB_out.lists.gems_fullspace[1]? = some Lf ∧
      exB_out.gems_plus_core.get [((1 : Nat) : Int)] = some ((Lpc.length : Nat) : Int) ∧
      exB_out.gems_full.get [((1 : Nat) : Int)] = some ((Lf.length : Nat) : Int) ∧
      Lpc.length = ((coreActiveSet exB ×ˢ coreActiveSet exB).filter fun q : Nat × Nat =>
        q.2 ≤ q.1 ∧ pairLabel exB_out.symmetry_full q.1 q.2 = some ((1 : Nat) : Int)).card :=
  C12_counts_match_lists exB exB_out exB_run (Or.inr (Or.inl rfl)) exB_consistent exB_below 1
    (by decide)

/-- Claim C21. The three active pair numberings are order-consistent: after `BuildBasis`, for
`h < nirrep`, the rows `bas_00_sym[h][0 .. gems_00[h])` are the rows
`bas_ab_sym[h][0 .. gems_ab[h])` without those whose first member is below the second, in
the same order, and the rows `bas_aa_sym[h][0 .. gems_aa[h])` are the rows
`bas_00_sym[h][0 .. gems_00[h])` without the diagonal ones, in the same order. -/
theorem C21_one_pass_numberings (s : Input) (v : Solver)
    (hrun : BuildBasis (Solver.init s) = some v) (h : Nat) (hh : h < s.nirrep_) :
    ∃ (nab n00 naa : Nat) (Lab L00 Laa : List (Int × Int)),
      v.gems_ab.get [(h : Int)] = some (nab : Int) ∧
      v.gems_00.get [(h : Int)] = some (n00 : Int) ∧
      v.gems_aa.get [(h : Int)] = some (naa : Int) ∧
      readRows v.bas_ab_sym h nab = some Lab ∧
      readRows v.bas_00_sym h n00 = some L00 ∧
      readRows v.bas_aa_sym h naa = some Laa ∧
      L00 = Lab.filter (fun p => decide (¬ p.1 < p.2)) ∧
      Laa = L00.filter (fun p => decide (p.1 ≠ p.2)) := by
  have hr := BuildBasis_run hrun
  have hA := hr.active
  simp only [Solver.gems_ab, Solver.gems_00, Solver.gems_aa, Solver.bas_ab_sym,
    Solver.bas_00_sym, Solver.bas_aa_sym]
  have hin : inBounds [(h : Int)] [s.nirrep_] = true := inBounds_single hh
  refine ⟨(gemsSpec s v.labels.symmetry h).length,
    ((gemsSpec s v.labels.symmetry h).filter keep00).length,
    ((gemsSpec s v.labels.symmetry h).filter keepAA).length,
    gemsSpec s v.labels.symmetry h, (gemsSpec s v.labels.symmetry h).filter keep00,
    (gemsSpec s v.labels.symmetry h).filter keepAA, ?_, ?_, ?_,
    (hA.ab.done h hh).rows_read, (hA.s00.done h hh).rows_read, (hA.aa.done h hh).rows_read,
    ?_, ?_⟩
  · exact Tab.get_eq_some.2 ⟨by rw [hA.dg.1]; exact hin, hA.gab h hh⟩
  · exact Tab.get_eq_some.2 ⟨by rw [hA.dg.2.1]; exact hin, hA.g00 h hh⟩
  · exact Tab.get_eq_some.2 ⟨by rw [hA.dg.2.2]; exact hin, hA.gaa h hh⟩
  · refine List.filter_congr (fun p _ => ?_)
    simp only [keep00, not_lt]
  · rw [List.filter_filter]
    refine List.filter_congr (fun p _ => ?_)
    simp only [keepAA, keep00]
    rw [Bool.eq_iff_iff]
    simp only [decide_eq_true_eq, Bool.and_eq_true, ne_eq]
    omega

/-- Witness of C21 on the fixture of the spec, block 1. -/
theorem C21_witness :
    ∃ (nab n00 naa : Nat) (Lab L00 Laa : List (Int × Int)),
      exA_out.gems_ab.get [((1 : Nat) : Int)] = some (nab : Int) ∧
      exA_out.gems_00.get [((1 : Nat) : Int)] = some (n00 : Int) ∧
      exA_out.gems_aa.get [((1 : Nat) : Int)] = some (naa : Int) ∧
      readRows exA_out.bas_ab_sym 1 nab = some Lab ∧
      readRows exA_out.bas_00_sym 1 n00 = some L00 ∧
      readRows exA_out.bas_aa_sym 1 naa = some Laa ∧
      L00 = Lab.filter (fun p => decide (¬ p.1 < p.2)) ∧
      Laa = L00.filter (fun p => decide (p.1 ≠ p.2)) :=
  C21_one_pass_numberings exA exA_out exA_run 1 (by decide)

/-- Claim C22. The plus-core pairs are a prefix of the full-sector numbering: with `nirrep`
one of 1, 2, 4, 8, consistent counts and every energy below `1.0e99`, after `BuildBasis`, for
`h < nirrep` and `n < gems_full[h]`, `n < gems_plus_core[h]` holds exactly when neither member
of `bas_full_sym[h][n]` is a frozen virtual. -/
theorem C22_plus_core_prefix (s : Input) (v : Solver)
    (hrun : BuildBasis (Solver.init s) = some v) (_hp : PowTwo s.nirrep_) (hc : Consistent s)
    (hE : EnergiesBelow s) (h : Nat) (hh : h < s.nirrep_) :
    ∃ g gpc : Nat, v.gems_full.get [(h : Int)] = some (g : Int) ∧
      v.gems_plus_core.get [(h : Int)] = some (gpc : Int) ∧
      ∀ n : Nat, n < g → ∃ p q : Nat, p < s.ntot ∧ q < s.ntot ∧
        v.bas_full_sym.get [(h : Int), (n : Int), 0] = some (p : Int) ∧
        v.bas_full_sym.get [(h : Int), (n : Int), 1] = some (q : Int) ∧
        (n < gpc ↔ (coreOrActive s p = true ∧ coreOrActive s q = true)) := by
  have hr := BuildBasis_run hrun
  have hF := hr.fullRows
  simp only [Solver.gems_full, Solver.gems_plus_core, Solver.bas_full_sym]
  have hin : inBounds [(h : Int)] [s.nirrep_] = true := inBounds_single hh
  have hL : fullSpec v.labels.symmetry_full v.order.energy_to_pitzer_order s.ntot s.ntot 0 h =
      pairSpec (rankLabels v.labels.symmetry_full v.order.energy_to_pitzer_order s.ntot)
        s.ntot (fun i => i + 1) mkIJ h := fullSpec_done _ _ _ _ _
  have hpw := pairwise_pairSpec_mkIJ
    (rankLabels v.labels.symmetry_full v.order.energy_to_pitzer_order s.ntot) s.ntot
    (fun i => i + 1) h
  rw [← hL] at hpw
  have hmem : ∀ a, a ∈ fullSpec v.labels.symmetry_full v.order.energy_to_pitzer_order s.ntot
      s.ntot 0 h → ∃ i j : Nat, i < s.ntot ∧ j ≤ i ∧ a = ((i : Int), (j : Int)) := by
    intro a ha
    rw [hL] at ha
    obtain ⟨i, j, hi, hj, _, e⟩ := mem_pairSpec.1 ha
    exact ⟨i, j, hi, by omega, e.symm⟩
  have hdown : ∀ (n m : Nat)
      (hn : n < (fullSpec v.labels.symmetry_full v.order.energy_to_pitzer_order s.ntot
        s.ntot 0 h).length)
      (hm : m < (fullSpec v.labels.symmetry_full v.order.energy_to_pitzer_order s.ntot
        s.ntot 0 h).length), n < m →
      keepCore (s.nmo + s.nfrzc)
        ((fullSpec v.labels.symmetry_full v.order.energy_to_pitzer_order s.ntot
          s.ntot 0 h).get ⟨m, hm⟩) = true →
      keepCore (s.nmo + s.nfrzc)
        ((fullSpec v.labels.symmetry_full v.order.energy_to_pitzer_order s.ntot
          s.ntot 0 h).get ⟨n, hn⟩) = true := by
    intro n m hn hm hnm hk
    have hb := List.pairwise_iff_getElem.1 hpw n m hn hm hnm
    obtain ⟨i, j, _, hji, e⟩ := hmem _ (List.get_mem _ n hn)
    obtain ⟨i', j', _, _, e'⟩ := hmem _ (List.get_mem _ m hm)
    simp only [List.get_eq_getElem] at e e' hk ⊢
    rw [e, e'] at hb
    rw [e'] at hk
    rw [e]
    unfold keepCore at hk ⊢
    unfold rankBefore at hb
    rw [decide_eq_true_eq] at hk ⊢
    simp only at hk hb ⊢
    omega
  refine ⟨(fullSpec v.labels.symmetry_full v.order.energy_to_pitzer_order s.ntot s.ntot 0
      h).length,
    ((fullSpec v.labels.symmetry_full v.order.energy_to_pitzer_order s.ntot s.ntot 0
      h).filter (keepCore (s.nmo + s.nfrzc))).length, ?_, ?_, ?_⟩
  · exact Tab.get_eq_some.2 ⟨by rw [hF.dg]; exact hin, hF.cnt h⟩
  · exact Tab.get_eq_some.2 ⟨by rw [hF.dpc]; exact hin, hF.pc h⟩
  · intro n hn
    have hpre := filter_prefix (keepCore (s.nmo + s.nfrzc)) _ hdown n hn
    obtain ⟨i, j, hi, hji, e⟩ := hmem _ (List.get_mem _ n hn)
    obtain ⟨r0, r1⟩ := hF.rows h n _ (List.getElem?_eq_getElem hn)
    obtain ⟨_, hnn⟩ := hF.inb h n hn
    simp only [List.get_eq_getElem] at e hpre
    rw [e] at r0 r1 hpre
    simp only at r0 r1
    obtain ⟨p, hp, ep, cp⟩ := hr.rank_core_iff hc hE hi
    obtain ⟨q, hq, eq, cq⟩ := hr.rank_core_iff hc hE (show j < s.ntot by omega)
    refine ⟨p, q, hp, hq, ?_, ?_, ?_⟩
    · rw [Tab.get_eq_some, hF.db, inBounds_three]
      exact ⟨⟨⟨by omega, by omega⟩, ⟨by omega, by exact_mod_cast hnn⟩, ⟨by omega, by omega⟩⟩,
        by rw [r0, ep]⟩
    · rw [Tab.get_eq_some, hF.db, inBounds_three]
      exact ⟨⟨⟨by omega, by omega⟩, ⟨by omega, by exact_mod_cast hnn⟩, ⟨by omega, by omega⟩⟩,
        by rw [r1, eq]⟩
    · rw [hpre, cp, cq]
      unfold keepCore
      rw [decide_eq_true_eq]
      simp only
      constructor
      · rintro ⟨a1, a2⟩
        exact ⟨by exact_mod_cast a1, by exact_mod_cast a2⟩
      · rintro ⟨a1, a2⟩
        exact ⟨by exact_mod_cast a1, by exact_mod_cast a2⟩

set_option maxRecDepth 100000 in
/-- Witness of C22 on `exB`, block 0. -/
theorem C22_witness :
    ∃ g gpc : Nat, exB_out.gems_full.get [((0 : Nat) : Int)] = some (g : Int) ∧
      exB_out.gems_plus_core.get [((0 : Nat) : Int)] = some (gpc : Int) ∧
      ∀ n : Nat, n < g → ∃ p q : Nat, p < exB.ntot ∧ q < exB.ntot ∧
        exB_out.bas_full_sym.get [((0 : Nat) : Int), (n : Int), 0] = some (p : Int) ∧
        exB_out.bas_full_sym.get [((0 : Nat) : Int), (n : Int), 1] = some (q : Int) ∧
        (n < gpc ↔ (coreOrActive exB p = true ∧ coreOrActive exB q = true)) :=
  C22_plus_core_prefix exB exB_out exB_run (Or.inr (Or.inl rfl)) exB_consistent exB_below 0
    (by decide)

/-- Claim C23. Block labels stay inside the allocated range when the irrep count is a power
of two. With `nirrep` one of 1, 2, 4, 8: the product `SymmetryPair(a, b)` of two labels below
`nirrep` and the product `SymmetryPair(SymmetryPair(a, b), c)` with a third are defined and
below `nirrep`; and when every orbital label of the label array is below `nirrep`, on the
rank map and offsets of a completed ranking the full-space traversal is defined, and at every
position `(ieo, jeo)`, `jeo ≤ ieo < ntot`, it reaches the write with a block `hij < nirrep`
and a row `gems_full[hij] < ntot * ntot`, and the write is defined. -/
theorem C23_labels_in_range (s : Input) (sf : Tab) (eo : EnergyOrder) (off : Offsets)
    (hp : PowTwo s.nirrep_)
    (hlab : ∀ m, m < s.ntot → ∃ g : Nat, g < s.nirrep_ ∧ sf.get [(m : Int)] = some (g : Int))
    (heo : energyOrder s = some eo) (hoff : buildOffsets s = some off) :
    (∀ a b c : Nat, a < s.nirrep_ → b < s.nirrep_ → c < s.nirrep_ →
      ∃ x y : Nat, x < s.nirrep_ ∧ y < s.nirrep_ ∧
        SymmetryPair (a : Int) (b : Int) = some (x : Int) ∧
        SymmetryPair (x : Int) (c : Int) = some (y : Int)) ∧
    (∃ ft, fullTraversal s sf off.pitzer_offset_full eo.energy_to_pitzer_order = some ft) ∧
    (∀ ieo jeo : Nat, jeo ≤ ieo → ieo < s.ntot →
      ∃ (st st' : FullTables) (ifull jfull hi hj : Int) (hij g : Nat),
        fullState s sf off.pitzer_offset_full eo.energy_to_pitzer_order ieo jeo = some st ∧
        eo.energy_to_pitzer_order.get [(ieo : Int)] = some ifull ∧
        sf.get [ifull] = some hi ∧
        eo.energy_to_pitzer_order.get [(jeo : Int)] = some jfull ∧
        sf.get [jfull] = some hj ∧
        SymmetryPair hi hj = some (hij : Int) ∧ hij < s.nirrep_ ∧
        st.gems_full.get [(hij : Int)] = some (g : Int) ∧ g < s.ntot * s.ntot ∧
        fullWrite (hij : Int) ifull jfull st = some st') := by
  have h8 := hp.le_eight
  have he2p := energyOrder_in heo
  have hpof := buildOffsets_dims hoff
  refine ⟨?_, fullTraversal_defined hp he2p hlab hpof, ?_⟩
  · intro a b c ha hb hc
    have hx := hp.xor_lt ha hb
    exact ⟨a ^^^ b, (a ^^^ b) ^^^ c, hx, hp.xor_lt hx hc,
      SymmetryPair_eq_xor (by omega) (by omega), SymmetryPair_eq_xor (by omega) (by omega)⟩
  · intro ieo jeo hjeo hieo
    obtain ⟨st, hst, hI⟩ := fullState_defined hp he2p hlab hpof hjeo hieo
    obtain ⟨m, hm, hgm⟩ := he2p ieo hieo
    obtain ⟨a, ha, hga⟩ := hlab m hm
    obtain ⟨m', hm', hgm'⟩ := he2p jeo (by omega)
    obtain ⟨b, hb, hgb⟩ := hlab m' hm'
    have hx := hp.xor_lt ha hb
    have hT : ieo * s.ntot + jeo < s.ntot * s.ntot := by
      have := Nat.mul_le_mul_right s.ntot (show ieo + 1 ≤ s.ntot from hieo)
      rw [Nat.add_mul, Nat.one_mul] at this
      omega
    obtain ⟨st', hw, _⟩ := fullWrite_defined hI hT hx
      (show 0 ≤ (m : Int) ∧ (m : Int) < s.ntot by omega)
      (show 0 ≤ (m' : Int) ∧ (m' : Int) < s.ntot by omega)
    have hc := hI.cnt (a ^^^ b)
    refine ⟨st, st', m, m', a, b, a ^^^ b, (st.gems_full.val [((a ^^^ b : Nat) : Int)]).toNat,
      hst, hgm, hga, hgm', hgb, SymmetryPair_eq_xor (by omega) (by omega), hx, ?_, ?_, hw⟩
    · rw [Tab.get_eq_some, hI.dg]
      exact ⟨inBounds_single hx, by omega⟩
    · have hT' : ((ieo * s.ntot + jeo : Nat) : Int) < ((s.ntot * s.ntot : Nat) : Int) := by
        exact_mod_cast hT
      omega

/-- Witness of C23 on `exB`: the write at the position `(2, 1)` of the traversal. -/
theorem C23_witness :
    ∃ (st st' : FullTables) (ifull jfull hi hj : Int) (hij g : Nat),
      fullState exB exB_out.labels.symmetry_full exB_out.offs.pitzer_offset_full
        exB_out.order.energy_to_pitzer_order 2 1 = some st ∧
      exB_out.order.energy_to_pitzer_order.get [((2 : Nat) : Int)] = some ifull ∧
      exB_out.labels.symmetry_full.get [ifull] = some hi ∧
      exB_out.order.energy_to_pitzer_order.get [((1 : Nat) : Int)] = some jfull ∧
      exB_out.labels.symmetry_full.get [jfull] = some hj ∧
      SymmetryPair hi hj = some (hij : Int) ∧ hij < exB.nirrep_ ∧
      st.gems_full.get [(hij : Int)] = some (g : Int) ∧ g < exB.ntot * exB.ntot ∧
      fullWrite (hij : Int) ifull jfull st = some st' :=
  (C23_labels_in_range exB exB_out.labels.symmetry_full exB_out.order exB_out.offs
    (Or.inr (Or.inl rfl)) (fun _ hm => (BuildBasis_run exB_run).full_label exB_consistent hm)
    (BuildBasis_run exB_run).eo (BuildBasis_run exB_run).off).2.2 2 1 (by decide) (by decide)

/-- Claim C24. Every selection step picks a fresh orbital of its own pool: with consistent
counts and every energy below `1.0e99`, the ranking loops reach each of their
`nmo + nfrzc + nfrzv` iterations; in iteration `R` the scan of the pool being ranked ends with
a minimum below `1.0e99`, so it has assigned `imin` and `isym`; `imin` is the full Pitzer
index, below `nmo + nfrzc + nfrzv`, of a position of that pool, `isym` is its irrep, and
`skip[imin]` is 0 before the iteration; the iteration is defined and leaves `skip[imin] = 1`,
`pitzer_to_energy_order[imin] = R` and `energy_to_pitzer_order[R] = imin`. -/
theorem C24_fresh_selection (s : Input) (hc : Consistent s) (hE : EnergiesBelow s) (R : Nat)
    (hR : R < s.ntot) :
    rankState s s.ntot = energyOrder s ∧
    ∃ (st st' : EnergyOrder) (sc : Scan) (g j : Nat),
      rankState s R = some st ∧
      loopM 0 s.nirrep_ (scanIrrep s (poolOfRank s R) st.skip) ⟨0, min0, st.imin, st.isym⟩ =
        some sc ∧
      sc.min = s.epsilon_a_ g j ∧ sc.min < min0 ∧
      sc.imin = (pz s g j : Int) ∧ sc.isym = (g : Int) ∧
      InPool s (poolOfRank s R) g j ∧ pz s g j < s.ntot ∧
      st.skip.get [sc.imin] = some 0 ∧
      rankStep s (poolOfRank s R) R st = some st' ∧
      rankState s (R + 1) = some st' ∧
      st'.skip.get [sc.imin] = some 1 ∧
      st'.pitzer_to_energy_order.get [sc.imin] = some (R : Int) ∧
      st'.energy_to_pitzer_order.get [(R : Int)] = some sc.imin := by
  refine ⟨rankState_total s, ?_⟩
  obtain ⟨st, hst, hI, hd⟩ := rankState_inv hc hE R (Nat.le_of_lt hR)
  have hex := unskipped_at_rank hc hR hI
  have hP := poolOfRank_ok s hc R
  obtain ⟨st', hst'⟩ := rankStep_defined hc hE hP hR hex hI hd
  have hstep := hst'
  simp only [rankStep, bind, Option.bind_eq_some, pure, Option.some.injEq] at hstep
  obtain ⟨sc, hsc, skip', hskip, seo', _, p2e', hp2e, e2p', he2p, rfl⟩ := hstep
  have hS := scan_spec hP hsc
  obtain ⟨g, j, hin, hlt, himin, hisym, hmin, hmin0, hsk0, _⟩ :
      ∃ h j, InPool s (poolOfRank s R) h j ∧ pz s h j < offs s.nmopi_ s.nirrep_ ∧
        sc.imin = (pz s h j : Int) ∧ sc.isym = (h : Int) ∧ sc.min = s.epsilon_a_ h j ∧
        sc.min < min0 ∧ st.skip.val [(pz s h j : Int)] = 0 ∧
        ∀ h' j', InPool s (poolOfRank s R) h' j' → pz s h' j' < offs s.nmopi_ s.nirrep_ →
          st.skip.val [(pz s h' j' : Int)] = 0 →
          ¬ lexLt (s.epsilon_a_ h' j') (pz s h' j') (s.epsilon_a_ h j) (pz s h j) := by
    rcases hS.best with ⟨_, _, _, h4⟩ | hx
    · exfalso
      obtain ⟨h, j, hin, hs0⟩ := hex
      exact h4 h j hin (offs_add_lt s.nmopi_ hin.hh (hin.valid hP)) hs0
        (hE h j hin.hh (hin.valid hP))
    · exact hx
  have hpz := pz_lt_ntot hc hin.hh (hin.valid hP)
  refine ⟨st, _, sc, g, j, hst, hsc, hmin, hmin0, himin, hisym, hin, hpz, ?_, hst', ?_, ?_, ?_,
    ?_⟩
  · rw [Tab.get_eq_some, hI.dskip, himin]
    exact ⟨inBounds_single hpz, hsk0⟩
  · rw [rankState_succ s hR, hst]
    exact hst'
  · show skip'.get [sc.imin] = some 1
    rw [Tab.get_eq_some, Tab.set_dims hskip, Tab.set_val hskip, Function.update_same]
    exact ⟨Tab.set_inb hskip, rfl⟩
  · show p2e'.get [sc.imin] = some (R : Int)
    rw [Tab.get_eq_some, Tab.set_dims hp2e, Tab.set_val hp2e, Function.update_same]
    exact ⟨Tab.set_inb hp2e, rfl⟩
  · show e2p'.get [(R : Int)] = some sc.imin
    rw [Tab.get_eq_some, Tab.set_dims he2p, Tab.set_val he2p, Function.update_same]
    exact ⟨Tab.set_inb he2p, rfl⟩

set_option maxRecDepth 100000 in
/-- Witness of C24 on `exB`: the iteration that assigns rank 2, of the active loop. -/
theorem C24_witness :
    rankState exB exB.ntot = energyOrder exB ∧
    ∃ (st st' : EnergyOrder) (sc : Scan) (g j : Nat),
      rankState exB 2 = some st ∧
      loopM 0 exB.nirrep_ (scanIrrep exB (poolOfRank exB 2) st.skip)
        ⟨0, min0, st.imin, st.isym⟩ = some sc ∧
      sc.min = exB.epsilon_a_ g j ∧ sc.min < min0 ∧
      sc.imin = (pz exB g j : Int) ∧ sc.isym = (g : Int) ∧
      InPool exB (poolOfRank exB 2) g j ∧ pz exB g j < exB.ntot ∧
      st.skip.get [sc.imin] = some 0 ∧
      rankStep exB (poolOfRank exB 2) 2 st = some st' ∧
      rankState exB (2 + 1) = some st' ∧
      st'.skip.get [sc.imin] = some 1 ∧
      st'.pitzer_to_energy_order.get [sc.imin] = some ((2 : Nat) : Int) ∧
      st'.energy_to_pitzer_order.get [((2 : Nat) : Int)] = some sc.imin :=
  C24_fresh_selection exB exB_consistent exB_below 2 (by decide)

end V2RDM
